import Mathlib

/-! The recursive-descent syntax checker `recdec.c`.

A shallow embedding of `src/recdec.c`.  The C globals `buffer`, `token`, `lookahead`,
`var_ref` and `assign_count` become the fields of `State`, together with the
lines that are still to be read from standard input.  Every C function becomes
a function on `State`; `exit(code)` becomes the result `Res.halt (Halt.exit code)`.

The functions are given twice.  First with lines of any length and counters in the
natural numbers: the grammar, the exit codes and the control flow are studied there.
Then, in the namespace `Bounded`, with the buffer of `SIZE` bytes and the 32-bit counters
of the C program; the theorems `main_comm` and `main_fit` relate the two.
-/

namespace Recdec

/-! ## Data model -/

/-- The globals of `recdec.c` plus the unread part of standard input.
`stdin` holds the lines still to be read, each one the text before its newline; every
line is taken to end with a newline.  The functions of the first part take lines of any
length; those of `Bounded` stop with `Halt.exhausted` on a line of `SIZE - 1` or more
characters, which `fgets` does not read in one call.
`buffer` holds the current line as `get_buffer` leaves it (newline replaced by the
terminating nul, which is not stored); reading `buffer[k]` at `k = buffer.length`
yields the nul character.  `token` is the C string `token` without its nul.
The two counters are natural numbers: in the first part they count without limit, in
`Bounded` they hold the 32-bit pattern of the C `int` (see `incr` and `as_int`). -/
structure State where
  stdin : List (List Char)
  buffer : List Char
  lookahead : Nat
  token : List Char
  var_ref : Nat
  assign_count : Nat
deriving DecidableEq, Repr

/-- Ways in which a run stops without returning to `main`. -/
inductive Halt where
  /-- The call `exit(code)`. -/
  | exit (code : Nat)
  /-- The buffer holds no newline and the scan `while (buffer[i] != '\n')` of `get_buffer`
  leaves the array: the first `fgets` found no line, or (in `Bounded`) it read the first
  `SIZE - 1` characters of a line that does not fit. -/
  | exhausted
  /-- Inside the blank-line loop of `get_buffer` the input ended: `fgets` leaves the
  buffer alone, `buffer[0]` stays a newline and the loop never ends. -/
  | spin
  /-- The recursion budget of the embedding ran out (never the case for `main`). -/
  | fuel
deriving DecidableEq, Repr

/-- Result of running a C function: it returns `a` in state `s`, or the run stops. -/
inductive Res (α : Type) where
  | ok (a : α) (s : State)
  | halt (h : Halt)
deriving DecidableEq, Repr

def PROGRAM_ERROR : Nat := 100

def BLOCK_ERROR : Nat := 101

def STMTLIST_ERROR : Nat := 102

def MORESTMTS_ERROR : Nat := 103

def STMT_ERROR : Nat := 104

def ASSIGN_ERROR : Nat := 105

def IFSTMT_ERROR : Nat := 106

def WHILESTMT_ERROR : Nat := 107

def TESTEXPR_ERROR : Nat := 108

def EXPR_ERROR : Nat := 109

def VARIABLE_ERROR : Nat := 110

def DIGIT_ERROR : Nat := 111

/-- The character `'\0'`. -/
def nul : Char := Char.ofNat 0

/-- State at program start: zeroed globals, all of standard input unread. -/
def init (input : List (List Char)) : State :=
  { stdin := input, buffer := [], lookahead := 0, token := [], var_ref := 0, assign_count := 0 }

/-! ## Lexer -/

/-- The loop `while (bcontinue)` of `get_buffer`: `line` is the line now in `buffer`
(without its newline), the second argument is the unread input.  An empty line
(`buffer[0] == '\n'`) is replaced by the next one; at end of input the loop spins. -/
def get_buffer_loop : List Char → List (List Char) → Option (List Char × List (List Char))
  | [], [] => none
  | [], l :: ls => get_buffer_loop l ls
  | c :: cs, rest => some (c :: cs, rest)

/-- The function `get_buffer`: reset the cursor, read a line, skip empty lines, cut the newline. -/
def get_buffer (s : State) : Res Unit :=
  match s.stdin with
  | [] => .halt .exhausted
  | l :: ls =>
    match get_buffer_loop l ls with
    | none => .halt .spin
    | some (line, rest) => .ok () { s with stdin := rest, buffer := line, lookahead := 0 }

/-- The loop of `remove_whitespace`, run on the characters from the cursor on:
returns the new cursor. -/
def skip_ws : List Char → Nat → Nat
  | [], k => k
  | c :: cs, k => if c = ' ' ∨ c = '\t' then skip_ws cs (k + 1) else k

/-- The function `remove_whitespace`. -/
def remove_whitespace (s : State) : State :=
  { s with lookahead := skip_ws (s.buffer.drop s.lookahead) s.lookahead }

/-- The copy loop of `get_token`, run on the characters from the cursor on:
returns the copied lexeme and the new cursor. -/
def copy_token : List Char → Nat → List Char × Nat
  | [], k => ([], k)
  | c :: cs, k =>
    if c ≠ ' ' ∧ c ≠ nul then ((c :: (copy_token cs (k + 1)).1), (copy_token cs (k + 1)).2)
    else ([], k)

/-- The tail of `get_token` after the optional refill: skip whitespace, copy the lexeme. -/
def get_token_copy (s : State) : State :=
  let s2 := remove_whitespace s
  let r := copy_token (s2.buffer.drop s2.lookahead) s2.lookahead
  { s2 with token := r.1, lookahead := r.2 }

/-- The function `get_token`. -/
def get_token (s : State) : Res Unit :=
  let s1 := remove_whitespace s
  if s1.buffer.getD s1.lookahead nul = nul then
    match get_buffer s1 with
    | .halt h => .halt h
    | .ok _ s2 => .ok () (get_token_copy s2)
  else .ok () (get_token_copy s1)

/-! ## Grammar procedures without recursion -/

/-- The function `variable` (the name is a keyword of Lean, hence the underscore). -/
def variable_ (s : State) : Res Bool :=
  if s.token = ['a'] ∨ s.token = ['b'] ∨ s.token = ['c'] then
    match get_token s with
    | .halt h => .halt h
    | .ok _ s1 => .ok true { s1 with var_ref := s1.var_ref + 1 }
  else .ok false s

/-- The function `digit`. -/
def digit (s : State) : Res Bool :=
  if s.token = ['0'] ∨ s.token = ['1'] ∨ s.token = ['2'] then
    match get_token s with
    | .halt h => .halt h
    | .ok _ s1 => .ok true s1
  else .ok false s

/-- The test `!variable() && !digit()` of `expr`: `true` when neither matches. -/
def no_operand (s : State) : Res Bool :=
  match variable_ s with
  | .halt h => .halt h
  | .ok true s1 => .ok false s1
  | .ok false s1 =>
    match digit s1 with
    | .halt h => .halt h
    | .ok true s2 => .ok false s2
    | .ok false s2 => .ok true s2

/-- The loop `for (i = 0; i < 2; i++)` of `expr`, with `k` iterations left. -/
def expr_loop : Nat → State → Res Unit
  | 0, s => .ok () s
  | k + 1, s =>
    match no_operand s with
    | .halt h => .halt h
    | .ok true _ => .halt (.exit EXPR_ERROR)
    | .ok false s1 => expr_loop k s1

/-- The function `expr`. -/
def expr (s : State) : Res Unit :=
  if s.token = ['+'] ∨ s.token = ['*'] then
    match get_token s with
    | .halt h => .halt h
    | .ok _ s1 => expr_loop 2 s1
  else
    match no_operand s with
    | .halt h => .halt h
    | .ok true _ => .halt (.exit EXPR_ERROR)
    | .ok false s1 => .ok () s1

/-- The function `testexpr`. -/
def testexpr (s : State) : Res Bool :=
  match variable_ s with
  | .halt h => .halt h
  | .ok false s1 => .ok false s1
  | .ok true s1 =>
    if s1.token = ['<', '='] then
      match get_token s1 with
      | .halt h => .halt h
      | .ok _ s2 =>
        match expr s2 with
        | .halt h => .halt h
        | .ok _ s3 => .ok true s3
    else .ok false s1

/-- The function `assign`. -/
def assign (s : State) : Res Bool :=
  match variable_ s with
  | .halt h => .halt h
  | .ok false s1 => .ok false s1
  | .ok true s1 =>
    if s1.token = ['='] then
      match get_token s1 with
      | .halt h => .halt h
      | .ok _ s2 =>
        match expr s2 with
        | .halt h => .halt h
        | .ok _ s3 => .ok true { s3 with assign_count := s3.assign_count + 1 }
    else .ok false s1

/-! ## The mutually recursive grammar procedures

The first argument is a recursion budget: every call passes one unit less to its
callees, and a call with budget `0` stops with `Halt.fuel`. -/

mutual

/-- The function `block`.  It returns `TRUE` or does not return. -/
def block : Nat → State → Res Bool
  | 0, _ => .halt .fuel
  | n + 1, s =>
    if s.token ≠ ['b', 'e', 'g', 'i', 'n'] then .halt (.exit BLOCK_ERROR)
    else
      match get_token s with
      | .halt h => .halt h
      | .ok _ s1 =>
        match stmtlist n s1 with
        | .halt h => .halt h
        | .ok _ s2 =>
          if s2.token ≠ ['e', 'n', 'd'] ∧ s2.token ≠ ['e', 'n', 'd', '.'] then
            .halt (.exit BLOCK_ERROR)
          else if s2.token = ['e', 'n', 'd'] then
            match get_token s2 with
            | .halt h => .halt h
            | .ok _ s3 => .ok true s3
          else .ok true s2

/-- The function `stmtlist`. -/
def stmtlist : Nat → State → Res Unit
  | 0, _ => .halt .fuel
  | n + 1, s =>
    match stmt n s with
    | .halt h => .halt h
    | .ok false _ => .halt (.exit STMTLIST_ERROR)
    | .ok true s1 =>
      match morestmts n s1 with
      | .halt h => .halt h
      | .ok false _ => .halt (.exit STMTLIST_ERROR)
      | .ok true s2 => .ok () s2

/-- The function `morestmts`. -/
def morestmts : Nat → State → Res Bool
  | 0, _ => .halt .fuel
  | n + 1, s =>
    if s.token = ['e', 'n', 'd'] ∨ s.token = ['e', 'n', 'd', '.'] then .ok true s
    else if s.token = [';'] then
      match get_token s with
      | .halt h => .halt h
      | .ok _ s1 =>
        match stmtlist n s1 with
        | .halt h => .halt h
        | .ok _ s2 => .ok true s2
    else .halt (.exit MORESTMTS_ERROR)

/-- The function `stmt`.  The `return FALSE` after the chain of alternatives is never
reached in the source, every branch returns or exits; the same holds in `morestmts`. -/
def stmt : Nat → State → Res Bool
  | 0, _ => .halt .fuel
  | n + 1, s =>
    match assign s with
    | .halt h => .halt h
    | .ok true s1 => .ok true s1
    | .ok false s1 =>
      match ifstmt n s1 with
      | .halt h => .halt h
      | .ok true s2 => .ok true s2
      | .ok false s2 =>
        match whilestmt n s2 with
        | .halt h => .halt h
        | .ok true s3 => .ok true s3
        | .ok false s3 =>
          match block n s3 with
          | .halt h => .halt h
          | .ok true s4 => .ok true s4
          | .ok false _ => .halt (.exit STMT_ERROR)

/-- The function `ifstmt`.  In the source each test `strcmp(token, "then") != 0` (and
likewise for `else`) that ends in `exit` is followed by the opposite test around
`get_token()`, which then always holds; the two are one `if` here. -/
def ifstmt : Nat → State → Res Bool
  | 0, _ => .halt .fuel
  | n + 1, s =>
    if s.token = ['i', 'f'] then
      match get_token s with
      | .halt h => .halt h
      | .ok _ s1 =>
        match testexpr s1 with
        | .halt h => .halt h
        | .ok false _ => .halt (.exit IFSTMT_ERROR)
        | .ok true s2 =>
          if s2.token ≠ ['t', 'h', 'e', 'n'] then .halt (.exit IFSTMT_ERROR)
          else
            match get_token s2 with
            | .halt h => .halt h
            | .ok _ s3 =>
              match stmt n s3 with
              | .halt h => .halt h
              | .ok _ s4 =>
                if s4.token ≠ ['e', 'l', 's', 'e'] then .halt (.exit IFSTMT_ERROR)
                else
                  match get_token s4 with
                  | .halt h => .halt h
                  | .ok _ s5 =>
                    match stmt n s5 with
                    | .halt h => .halt h
                    | .ok _ s6 => .ok true s6
    else .ok false s

/-- The function `whilestmt`.  As in `ifstmt`, the test of `do` that ends in `exit` and the
opposite test around `get_token()` are one `if` here. -/
def whilestmt : Nat → State → Res Bool
  | 0, _ => .halt .fuel
  | n + 1, s =>
    if s.token = ['w', 'h', 'i', 'l', 'e'] then
      match get_token s with
      | .halt h => .halt h
      | .ok _ s1 =>
        match testexpr s1 with
        | .halt h => .halt h
        | .ok false _ => .halt (.exit WHILESTMT_ERROR)
        | .ok true s2 =>
          if s2.token ≠ ['d', 'o'] then .halt (.exit WHILESTMT_ERROR)
          else
            match get_token s2 with
            | .halt h => .halt h
            | .ok _ s3 =>
              match stmt n s3 with
              | .halt h => .halt h
              | .ok _ s4 => .ok true s4
    else .ok false s

end

/-- The function `program`, with the recursion budget handed to `block`. -/
def program (n : Nat) (s : State) : Res Unit :=
  match get_token s with
  | .halt h => .halt h
  | .ok _ s1 =>
    if s1.token ≠ ['p', 'r', 'o', 'g', 'r', 'a', 'm'] then .halt (.exit PROGRAM_ERROR)
    else
      match get_token s1 with
      | .halt h => .halt h
      | .ok _ s2 =>
        match block n s2 with
        | .halt h => .halt h
        | .ok _ s3 =>
          if s3.token ≠ ['.'] ∧ s3.token ≠ ['e', 'n', 'd', '.'] then .halt (.exit PROGRAM_ERROR)
          else .ok () s3

/-- Characters not yet passed by the cursor: the rest of the current line plus,
for every unread line, its length and its newline. -/
def remaining (s : State) : Nat :=
  (s.buffer.length - s.lookahead) + (s.stdin.map (fun l => l.length + 1)).sum

/-- The function `main` up to its two `printf` calls, with a given recursion budget. -/
def main_fuel (n : Nat) (input : List (List Char)) : Res Unit :=
  match get_buffer (init input) with
  | .halt h => .halt h
  | .ok _ s => program n s

/-- The function `main` up to its two `printf` calls: the state it returns holds the
two counters that are printed.  The budget is three units per character of input,
which is never used up (`main_no_fuel`). -/
def main (input : List (List Char)) : Res Unit :=
  main_fuel (3 * remaining (init input)) input

/-! ## Input laid out as lexemes separated by single blanks or line ends -/

/-- A lexeme: a non-empty word without blank, tab or nul. -/
def Lexeme (t : List Char) : Prop := t ≠ [] ∧ ∀ c ∈ t, c ≠ ' ' ∧ c ≠ '\t' ∧ c ≠ nul

/-- The words of `ts`, each preceded by one blank. -/
def after_of : List (List Char) → List Char
  | [] => []
  | t :: ts => ' ' :: (t ++ after_of ts)

/-- The text of a line holding the words `ts` separated by single blanks. -/
def line_of : List (List Char) → List Char
  | [] => []
  | t :: ts => t ++ after_of ts

/-- The unread input of `s`, from the cursor on, consists of the lexemes `ts`
separated by single blanks or line ends (empty lines allowed). -/
def Stream (s : State) (ts : List (List Char)) : Prop :=
  ∃ (cur : List (List Char)) (lines : List (List (List Char))),
    (s.buffer.drop s.lookahead = after_of cur ∨
      (cur ≠ [] ∧ s.buffer.drop s.lookahead = line_of cur)) ∧
    s.stdin = lines.map line_of ∧ cur ++ lines.flatten = ts ∧ ∀ t ∈ ts, Lexeme t

/-- The current token is the head of `ts` and the unread input holds the rest. -/
def View (s : State) : List (List Char) → Prop
  | [] => False
  | t :: us => s.token = t ∧ Stream s us

/-! ## The grammar of the specification (section 4.2)

Token sequences derived from each non-terminal, with the flat two-operand form
of `<expr>`.  The number carried along is the number of `<variable> = <expr>`
statements of the derivation. -/

def is_variable (t : List Char) : Prop := t = ['a'] ∨ t = ['b'] ∨ t = ['c']

def is_digit (t : List Char) : Prop := t = ['0'] ∨ t = ['1'] ∨ t = ['2']

def is_operand (t : List Char) : Prop := is_variable t ∨ is_digit t

def is_operator (t : List Char) : Prop := t = ['+'] ∨ t = ['*']

instance (t : List Char) : Decidable (is_variable t) := by unfold is_variable; infer_instance

instance (t : List Char) : Decidable (is_digit t) := by unfold is_digit; infer_instance

instance (t : List Char) : Decidable (is_operand t) := by unfold is_operand; infer_instance

instance (t : List Char) : Decidable (is_operator t) := by unfold is_operator; infer_instance

/-- Number of tokens of `ts` that are `a`, `b` or `c`. -/
def count_vars (ts : List (List Char)) : Nat := ts.countP (fun t => decide (is_variable t))

/-- The non-terminals below `<program>`. -/
inductive Cat where
  | expr
  | testexpr
  | stmt
  | block
  | stmtlist
deriving DecidableEq, Repr

/-- Rule `Derives c ts k`: the tokens `ts` form a phrase of the non-terminal `c` that holds
`k` assignment statements. -/
inductive Derives : Cat → List (List Char) → Nat → Prop where
  | operand {x : List Char} : is_operand x → Derives .expr [x] 0
  | binary {o x y : List Char} : is_operator o → is_operand x → is_operand y →
      Derives .expr [o, x, y] 0
  | test {v : List Char} {e : List (List Char)} : is_variable v → Derives .expr e 0 →
      Derives .testexpr (v :: ['<', '='] :: e) 0
  | assign {v : List Char} {e : List (List Char)} : is_variable v → Derives .expr e 0 →
      Derives .stmt (v :: ['='] :: e) 1
  | ifstmt {t s1 s2 : List (List Char)} {k1 k2 : Nat} : Derives .testexpr t 0 →
      Derives .stmt s1 k1 → Derives .stmt s2 k2 →
      Derives .stmt (['i', 'f'] :: (t ++ ['t', 'h', 'e', 'n'] :: (s1 ++ ['e', 'l', 's', 'e'] :: s2)))
        (k1 + k2)
  | whilestmt {t s1 : List (List Char)} {k : Nat} : Derives .testexpr t 0 →
      Derives .stmt s1 k →
      Derives .stmt (['w', 'h', 'i', 'l', 'e'] :: (t ++ ['d', 'o'] :: s1)) k
  | of_block {b : List (List Char)} {k : Nat} : Derives .block b k → Derives .stmt b k
  | block {l : List (List Char)} {k : Nat} : Derives .stmtlist l k →
      Derives .block (['b', 'e', 'g', 'i', 'n'] :: (l ++ [['e', 'n', 'd']])) k
  | one {s1 : List (List Char)} {k : Nat} : Derives .stmt s1 k → Derives .stmtlist s1 k
  | more {s1 l : List (List Char)} {k1 k2 : Nat} : Derives .stmt s1 k1 →
      Derives .stmtlist l k2 → Derives .stmtlist (s1 ++ [';'] :: l) (k1 + k2)

/-- A sentence of `<program>` with `k` assignment statements: `program <block> .`, where the
closing `end` of the block and the `.` may be written as the single token `end.`. -/
def Sentence (ts : List (List Char)) (k : Nat) : Prop :=
  ∃ l, Derives .stmtlist l k ∧
    (ts = ['p', 'r', 'o', 'g', 'r', 'a', 'm'] :: ['b', 'e', 'g', 'i', 'n'] ::
        (l ++ [['e', 'n', 'd'], ['.']]) ∨
     ts = ['p', 'r', 'o', 'g', 'r', 'a', 'm'] :: ['b', 'e', 'g', 'i', 'n'] ::
        (l ++ [['e', 'n', 'd', '.']]))

/-- What a grammar procedure leaves behind: the token stream `next`, `dv` more variable
references and `da` more assignments than in `s`. -/
def Post (s s1 : State) (next : List (List Char)) (dv da : Nat) : Prop :=
  View s1 next ∧ s1.var_ref = s.var_ref + dv ∧ s1.assign_count = s.assign_count + da

/-- What completeness means for each non-terminal: on a token stream that starts with the
phrase `ts`, the procedure returns success with the stream advanced past `ts` and the
counters raised by the variables and assignments of `ts`. -/
def Accepts (c : Cat) (ts : List (List Char)) (k : Nat) : Prop :=
  match c with
  | .expr => True
  | .testexpr => True
  | .stmt => ∀ n s t2 us, 3 * ts.length + 1 ≤ n → View s (ts ++ t2 :: us) →
      ∃ s1, stmt n s = .ok true s1 ∧ Post s s1 (t2 :: us) (count_vars ts) k
  | .block => ∀ n s t2 us, 3 * ts.length ≤ n → View s (ts ++ t2 :: us) →
      ∃ s1, block n s = .ok true s1 ∧ Post s s1 (t2 :: us) (count_vars ts) k
  | .stmtlist => ∀ n s t2 us, 3 * ts.length + 2 ≤ n →
      (t2 = ['e', 'n', 'd'] ∨ t2 = ['e', 'n', 'd', '.']) → View s (ts ++ t2 :: us) →
      ∃ s1, stmtlist n s = .ok () s1 ∧ Post s s1 (t2 :: us) (count_vars ts) k

/-! ## The tokens a run reads -/

/-- The two states agree on the lexer: input, line, cursor and current token. -/
def same_lex (s t : State) : Prop :=
  s.stdin = t.stdin ∧ s.buffer = t.buffer ∧ s.lookahead = t.lookahead ∧ s.token = t.token

/-- Relation `Reads s ts s1`: from `s` the run reaches `s1` (up to the counters) by calls of
`get_token`, and `ts` are the tokens that were current at these calls: the tokens consumed.
The current token of `s1` is the first token not consumed. -/
inductive Reads : State → List (List Char) → State → Prop where
  | done {s s1 : State} : same_lex s s1 → Reads s [] s1
  | step {s s1 s2 : State} {ts : List (List Char)} :
      get_token s = .ok () s1 → Reads s1 ts s2 → Reads s (s.token :: ts) s2

/-! ## What the procedures accept

The grammar of section 4.2 with the two liberties the code takes.  The first flag says that
the phrase is open: the token `end.` came where closing `end`s of blocks were due, and
the phrase stops before it.  The second flag says that somewhere an `if`, `while` or
`begin` statement is preceded by a variable token, which `assign` consumed before it
returned failure. -/

/-- Rule `Loose c ts o st`: the tokens `ts` form a phrase of `c` up to the liberties above;
`o` says that the phrase is open, `st` that it holds a stray variable token. -/
inductive Loose : Cat → List (List Char) → Bool → Bool → Prop where
  | assign {v : List Char} {e : List (List Char)} : is_variable v → Derives .expr e 0 →
      Loose .stmt (v :: ['='] :: e) false false
  | ifstmt {t s1 s2 : List (List Char)} {o st1 st2 : Bool} : Derives .testexpr t 0 →
      Loose .stmt s1 false st1 → Loose .stmt s2 o st2 →
      Loose .stmt (['i', 'f'] :: (t ++ ['t', 'h', 'e', 'n'] :: (s1 ++ ['e', 'l', 's', 'e'] :: s2)))
        o (st1 || st2)
  | whilestmt {t s1 : List (List Char)} {o st : Bool} : Derives .testexpr t 0 →
      Loose .stmt s1 o st →
      Loose .stmt (['w', 'h', 'i', 'l', 'e'] :: (t ++ ['d', 'o'] :: s1)) o st
  | of_block {b : List (List Char)} {o st : Bool} : Loose .block b o st → Loose .stmt b o st
  | stray {v : List Char} {ts : List (List Char)} {o st : Bool} : is_variable v →
      Loose .stmt ts o st →
      (ts.head? = some ['i', 'f'] ∨ ts.head? = some ['w', 'h', 'i', 'l', 'e'] ∨
        ts.head? = some ['b', 'e', 'g', 'i', 'n']) →
      Loose .stmt (v :: ts) o true
  | block {l : List (List Char)} {st : Bool} : Loose .stmtlist l false st →
      Loose .block (['b', 'e', 'g', 'i', 'n'] :: (l ++ [['e', 'n', 'd']])) false st
  | block_open {l : List (List Char)} {o st : Bool} : Loose .stmtlist l o st →
      Loose .block (['b', 'e', 'g', 'i', 'n'] :: l) true st
  | one {s1 : List (List Char)} {o st : Bool} : Loose .stmt s1 o st → Loose .stmtlist s1 o st
  | more {s1 l : List (List Char)} {o st1 st2 : Bool} : Loose .stmt s1 false st1 →
      Loose .stmtlist l o st2 → Loose .stmtlist (s1 ++ [';'] :: l) o (st1 || st2)

/-- A state in the middle of a single line `buf`: cursor `k`, current token `tok`. -/
def on_line (buf : String) (k : Nat) (tok : String) (v a : Nat) : State :=
  { stdin := [], buffer := buf.toList, lookahead := k, token := tok.toList, var_ref := v,
    assign_count := a }

/-- The run of `expr` that consumes one token: an operand. -/
def expr_one (s sf : State) : Prop :=
  is_operand s.token ∧ ∃ sN, get_token s = .ok () sN ∧
    sf = { sN with var_ref := s.var_ref + count_vars [s.token] }

/-- The run of `expr` that consumes three tokens: an operator and two operands. -/
def expr_three (s sf : State) : Prop :=
  is_operator s.token ∧ ∃ s1 s2 s3, get_token s = .ok () s1 ∧ is_operand s1.token ∧
    get_token s1 = .ok () s2 ∧ is_operand s2.token ∧ get_token s2 = .ok () s3 ∧
    sf = { s3 with var_ref := s.var_ref + count_vars [s1.token, s2.token] }

/-- The status codes the recursive procedures can stop the run with. -/
def grammar_code (c : Nat) : Prop := c = 101 ∨ c = 103 ∨ c = 106 ∨ c = 107 ∨ c = 109

/-! ## Example programs, reachable states, words of the input, runs side by side -/

/-- The statement `a = 0` inside `n` blocks: `n` times `begin`, `a = 0`, `n` times `end`. -/
def nested (n : Nat) : List (List Char) :=
  List.replicate n ['b', 'e', 'g', 'i', 'n'] ++
    (['a'] :: ['='] :: ['0'] :: List.replicate n ['e', 'n', 'd'])

/-- The tokens `program`, `n` times `begin`, `a = 0`, `n` times `end`, `.`. -/
def nested_program (n : Nat) : List (List Char) :=
  ['p', 'r', 'o', 'g', 'r', 'a', 'm'] :: (nested n ++ [['.']])

/-- The tokens `program`, `n` times `begin`, `a = 0` and a single `end.`. -/
def fused_program (n : Nat) : List (List Char) :=
  ['p', 'r', 'o', 'g', 'r', 'a', 'm'] :: (List.replicate n ['b', 'e', 'g', 'i', 'n'] ++
    [['a'], ['='], ['0'], ['e', 'n', 'd', '.']])

/-- The states a run on `input` passes through: the state after the first `get_buffer`, and
from there every state reached by one round of a loop that moves the cursor (the loop of
`remove_whitespace`, the copy loop of `get_token`), by `get_buffer`, `remove_whitespace` or
`get_token`, or by a grammar procedure that returns. -/
inductive Reach (input : List (List Char)) : State → Prop where
  | start {s : State} : get_buffer (init input) = .ok () s → Reach input s
  | ws_step {s : State} : Reach input s →
      (s.buffer.getD s.lookahead nul = ' ' ∨ s.buffer.getD s.lookahead nul = '\t') →
      Reach input { s with lookahead := s.lookahead + 1 }
  | copy_step {s : State} (t : List Char) : Reach input s →
      s.buffer.getD s.lookahead nul ≠ ' ' → s.buffer.getD s.lookahead nul ≠ nul →
      Reach input { s with lookahead := s.lookahead + 1, token := t }
  | ret_get_buffer {s s1 : State} : Reach input s → get_buffer s = .ok () s1 → Reach input s1
  | ret_remove_whitespace {s : State} : Reach input s → Reach input (remove_whitespace s)
  | ret_get_token {s s1 : State} : Reach input s → get_token s = .ok () s1 → Reach input s1
  | ret_variable {s s1 : State} {b : Bool} : Reach input s → variable_ s = .ok b s1 →
      Reach input s1
  | ret_digit {s s1 : State} {b : Bool} : Reach input s → digit s = .ok b s1 → Reach input s1
  | ret_expr {s s1 : State} : Reach input s → expr s = .ok () s1 → Reach input s1
  | ret_testexpr {s s1 : State} {b : Bool} : Reach input s → testexpr s = .ok b s1 →
      Reach input s1
  | ret_assign {s s1 : State} {b : Bool} : Reach input s → assign s = .ok b s1 → Reach input s1
  | ret_block {s s1 : State} {b : Bool} (n : Nat) : Reach input s → block n s = .ok b s1 →
      Reach input s1
  | ret_stmtlist {s s1 : State} (n : Nat) : Reach input s → stmtlist n s = .ok () s1 →
      Reach input s1
  | ret_morestmts {s s1 : State} {b : Bool} (n : Nat) : Reach input s →
      morestmts n s = .ok b s1 → Reach input s1
  | ret_stmt {s s1 : State} {b : Bool} (n : Nat) : Reach input s → stmt n s = .ok b s1 →
      Reach input s1
  | ret_ifstmt {s s1 : State} {b : Bool} (n : Nat) : Reach input s → ifstmt n s = .ok b s1 →
      Reach input s1
  | ret_whilestmt {s s1 : State} {b : Bool} (n : Nat) : Reach input s →
      whilestmt n s = .ok b s1 → Reach input s1
  | ret_program {s s1 : State} (n : Nat) : Reach input s → program n s = .ok () s1 →
      Reach input s1

/-- The words of a line as `get_token` cuts them, read with the word under construction in
the second argument: between words blanks and tabs are skipped; a word, once begun, runs up
to the next blank or the end of the line (a tab inside a word belongs to it). -/
def line_words_aux : List Char → List Char → List (List Char)
  | [], w => if w = [] then [] else [w]
  | c :: cs, w =>
    if w = [] then
      if c = ' ' ∨ c = '\t' then line_words_aux cs [] else line_words_aux cs [c]
    else
      if c = ' ' then w :: line_words_aux cs [] else line_words_aux cs (w ++ [c])

/-- The words of a line. -/
def line_words (l : List Char) : List (List Char) := line_words_aux l []

/-- The words of a sequence of lines, in order. -/
def input_words (lines : List (List Char)) : List (List Char) :=
  (lines.map line_words).flatten

/-- The words of the unread input: those of the current line from the cursor on, then
those of the lines not yet read. -/
def rest_words (s : State) : List (List Char) :=
  line_words (s.buffer.drop s.lookahead) ++ input_words s.stdin

/-- The tokens that `n` successive calls of `get_token` deliver, up to the first call that
does not return. -/
def read_tokens : Nat → State → List (List Char)
  | 0, _ => []
  | n + 1, s =>
    match get_token s with
    | .halt _ => []
    | .ok _ s1 => s1.token :: read_tokens n s1

/-- The input that is still unread holds no nul character and no line that consists of
blanks and tabs only (empty lines are allowed). -/
def Tidy (s : State) : Prop :=
  (∀ c ∈ s.buffer, c ≠ nul) ∧
  ∀ l ∈ s.stdin, (∀ c ∈ l, c ≠ nul) ∧ (l = [] ∨ line_words l ≠ [])

/-- A property `P` of states that `get_token` keeps and that does not depend on the two
counters. -/
structure LexKeep (P : State → Prop) : Prop where
  step : ∀ s s1, P s → get_token s = .ok () s1 → P s1
  lex : ∀ s s1, P s → same_lex s s1 → P s1

/-- A property `P` that is kept and under which `get_token` never stops the run in the way
`h0`, where `h0` is neither a call of `exit` nor the end of the recursion budget. -/
structure LexInv (P : State → Prop) (h0 : Halt) : Prop where
  keep : LexKeep P
  safe : ∀ s, P s → get_token s ≠ .halt h0
  not_exit : ∀ c, h0 ≠ .exit c
  not_fuel : h0 ≠ .fuel

/-- The unread lines do not end with an empty line. -/
def last_line_full (s : State) : Prop := s.stdin.getLast? ≠ some []

/-- Two runs side by side: `s` on an input whose lines after the line `l` are `post`, and
`t` on the input in which `l` is followed by the characters `e` and the lines after it
are `post2`.  Both runs hold the same token, counters and cursor; either both are at the
same line before `l` has been fetched, or `s` is on `l` with `post` unread and `t` is on
`l ++ e` with `post2` unread. -/
structure Rel (post post2 : List (List Char)) (e : List Char) (s t : State) : Prop where
  token : t.token = s.token
  var_ref : t.var_ref = s.var_ref
  assign_count : t.assign_count = s.assign_count
  lookahead : t.lookahead = s.lookahead
  bound : s.lookahead ≤ s.buffer.length
  lines : (∃ ls l, s.stdin = ls ++ l :: post ∧ t.stdin = ls ++ (l ++ e) :: post2 ∧
            t.buffer = s.buffer) ∨
          (s.stdin = post ∧ t.stdin = post2 ∧ t.buffer = s.buffer ++ e)

/-- The run has gone past the line `l`: it has fetched a line of `post`, or it has met the
end of `l` and holds the empty token there. -/
def Dead (post : List (List Char)) (s : State) : Prop :=
  s.stdin.length < post.length ∨
  (s.stdin = post ∧ s.token = [] ∧ s.buffer.length ≤ s.lookahead)

/-- The line in the buffer and the unread lines are the end of `input`. -/
def at_line (input : List (List Char)) (s : State) : Prop :=
  ∃ pre, input = pre ++ s.buffer :: s.stdin

/-! ## The parser on the machine: a buffer of `SIZE` bytes and counters of 32 bits

The definitions above take lines of any length and count in natural numbers.  The section
`Bounded` holds the same C functions with the two limits of the machine: the call
`fgets(buffer, SIZE, stdin)` reads at most `SIZE - 1` characters, and the counters
`var_ref` and `assign_count` are `int`.  The fields `var_ref` and `assign_count` of a state
hold the 32-bit pattern of the `int`; `as_int` gives its value. -/

/-- The constant `#define SIZE 2048`: the length of the arrays `buffer` and `token`. -/
def SIZE : Nat := 2048

/-- The line `l` (the text before the newline) fits the buffer: `fgets` reads it with its
newline in one call, that is `l.length + 1 ≤ SIZE - 1`. -/
def fits (l : List Char) : Prop := l.length + 2 ≤ SIZE

instance (l : List Char) : Decidable (fits l) := by unfold fits; infer_instance

/-- The statement `x++` on an `int` held as its 32-bit pattern: the pattern `2^31 - 1` of
`INT_MAX` is followed by the pattern `2^31` of `INT_MIN`, and `2^32 - 1` (the value -1)
by 0. -/
def incr (x : Nat) : Nat := (x + 1) % 4294967296

/-- The value of the `int` with the 32-bit pattern `x`, as `printf("%d")` shows it. -/
def as_int (x : Nat) : Int := if x < 2147483648 then (x : Int) else (x : Int) - 4294967296

/-- The state with the two counters cut to 32 bits. -/
def to32 (s : State) : State :=
  { s with var_ref := s.var_ref % 4294967296, assign_count := s.assign_count % 4294967296 }

/-- The result with the two counters cut to 32 bits. -/
def Res.to32 {α : Type} : Res α → Res α
  | .ok a s => .ok a (Recdec.to32 s)
  | .halt h => .halt h

namespace Bounded

/-- The function `get_buffer` with the buffer of `SIZE` bytes.  Empty lines are skipped as
before.  A line of `SIZE - 1` or more characters is read by `fgets` without its newline, the
scan `while (buffer[i] != '\n')` finds none in the array and leaves it: the outcome
`Halt.exhausted`, as when no line is left. -/
def get_buffer (s : State) : Res Unit :=
  match s.stdin with
  | [] => .halt .exhausted
  | l :: ls =>
    match get_buffer_loop l ls with
    | none => .halt .spin
    | some (line, rest) =>
      if SIZE ≤ line.length + 1 then .halt .exhausted
      else .ok () { s with stdin := rest, buffer := line, lookahead := 0 }

/-- The function `get_token`. -/
def get_token (s : State) : Res Unit :=
  let s1 := remove_whitespace s
  if s1.buffer.getD s1.lookahead nul = nul then
    match get_buffer s1 with
    | .halt h => .halt h
    | .ok _ s2 => .ok () (get_token_copy s2)
  else .ok () (get_token_copy s1)

/-- The function `variable`, with `var_ref++` on the `int`. -/
def variable_ (s : State) : Res Bool :=
  if s.token = ['a'] ∨ s.token = ['b'] ∨ s.token = ['c'] then
    match get_token s with
    | .halt h => .halt h
    | .ok _ s1 => .ok true { s1 with var_ref := incr s1.var_ref }
  else .ok false s

/-- The function `digit`. -/
def digit (s : State) : Res Bool :=
  if s.token = ['0'] ∨ s.token = ['1'] ∨ s.token = ['2'] then
    match get_token s with
    | .halt h => .halt h
    | .ok _ s1 => .ok true s1
  else .ok false s

/-- The test `!variable() && !digit()` of `expr`: `true` when neither matches. -/
def no_operand (s : State) : Res Bool :=
  match variable_ s with
  | .halt h => .halt h
  | .ok true s1 => .ok false s1
  | .ok false s1 =>
    match digit s1 with
    | .halt h => .halt h
    | .ok true s2 => .ok false s2
    | .ok false s2 => .ok true s2

/-- The loop `for (i = 0; i < 2; i++)` of `expr`, with `k` iterations left. -/
def expr_loop : Nat → State → Res Unit
  | 0, s => .ok () s
  | k + 1, s =>
    match no_operand s with
    | .halt h => .halt h
    | .ok true _ => .halt (.exit EXPR_ERROR)
    | .ok false s1 => expr_loop k s1

/-- The function `expr`. -/
def expr (s : State) : Res Unit :=
  if s.token = ['+'] ∨ s.token = ['*'] then
    match get_token s with
    | .halt h => .halt h
    | .ok _ s1 => expr_loop 2 s1
  else
    match no_operand s with
    | .halt h => .halt h
    | .ok true _ => .halt (.exit EXPR_ERROR)
    | .ok false s1 => .ok () s1

/-- The function `testexpr`. -/
def testexpr (s : State) : Res Bool :=
  match variable_ s with
  | .halt h => .halt h
  | .ok false s1 => .ok false s1
  | .ok true s1 =>
    if s1.token = ['<', '='] then
      match get_token s1 with
      | .halt h => .halt h
      | .ok _ s2 =>
        match expr s2 with
        | .halt h => .halt h
        | .ok _ s3 => .ok true s3
    else .ok false s1

/-- The function `assign`, with `assign_count++` on the `int`. -/
def assign (s : State) : Res Bool :=
  match variable_ s with
  | .halt h => .halt h
  | .ok false s1 => .ok false s1
  | .ok true s1 =>
    if s1.token = ['='] then
      match get_token s1 with
      | .halt h => .halt h
      | .ok _ s2 =>
        match expr s2 with
        | .halt h => .halt h
        | .ok _ s3 => .ok true { s3 with assign_count := incr s3.assign_count }
    else .ok false s1

mutual

/-- The function `block`. -/
def block : Nat → State → Res Bool
  | 0, _ => .halt .fuel
  | n + 1, s =>
    if s.token ≠ ['b', 'e', 'g', 'i', 'n'] then .halt (.exit BLOCK_ERROR)
    else
      match get_token s with
      | .halt h => .halt h
      | .ok _ s1 =>
        match stmtlist n s1 with
        | .halt h => .halt h
        | .ok _ s2 =>
          if s2.token ≠ ['e', 'n', 'd'] ∧ s2.token ≠ ['e', 'n', 'd', '.'] then
            .halt (.exit BLOCK_ERROR)
          else if s2.token = ['e', 'n', 'd'] then
            match get_token s2 with
            | .halt h => .halt h
            | .ok _ s3 => .ok true s3
          else .ok true s2

/-- The function `stmtlist`. -/
def stmtlist : Nat → State → Res Unit
  | 0, _ => .halt .fuel
  | n + 1, s =>
    match stmt n s with
    | .halt h => .halt h
    | .ok false _ => .halt (.exit STMTLIST_ERROR)
    | .ok true s1 =>
      match morestmts n s1 with
      | .halt h => .halt h
      | .ok false _ => .halt (.exit STMTLIST_ERROR)
      | .ok true s2 => .ok () s2

/-- The function `morestmts`. -/
def morestmts : Nat → State → Res Bool
  | 0, _ => .halt .fuel
  | n + 1, s =>
    if s.token = ['e', 'n', 'd'] ∨ s.token = ['e', 'n', 'd', '.'] then .ok true s
    else if s.token = [';'] then
      match get_token s with
      | .halt h => .halt h
      | .ok _ s1 =>
        match stmtlist n s1 with
        | .halt h => .halt h
        | .ok _ s2 => .ok true s2
    else .halt (.exit MORESTMTS_ERROR)

/-- The function `stmt`. -/
def stmt : Nat → State → Res Bool
  | 0, _ => .halt .fuel
  | n + 1, s =>
    match assign s with
    | .halt h => .halt h
    | .ok true s1 => .ok true s1
    | .ok false s1 =>
      match ifstmt n s1 with
      | .halt h => .halt h
      | .ok true s2 => .ok true s2
      | .ok false s2 =>
        match whilestmt n s2 with
        | .halt h => .halt h
        | .ok true s3 => .ok true s3
        | .ok false s3 =>
          match block n s3 with
          | .halt h => .halt h
          | .ok true s4 => .ok true s4
          | .ok false _ => .halt (.exit STMT_ERROR)

/-- The function `ifstmt`. -/
def ifstmt : Nat → State → Res Bool
  | 0, _ => .halt .fuel
  | n + 1, s =>
    if s.token = ['i', 'f'] then
      match get_token s with
      | .halt h => .halt h
      | .ok _ s1 =>
        match testexpr s1 with
        | .halt h => .halt h
        | .ok false _ => .halt (.exit IFSTMT_ERROR)
        | .ok true s2 =>
          if s2.token ≠ ['t', 'h', 'e', 'n'] then .halt (.exit IFSTMT_ERROR)
          else
            match get_token s2 with
            | .halt h => .halt h
            | .ok _ s3 =>
              match stmt n s3 with
              | .halt h => .halt h
              | .ok _ s4 =>
                if s4.token ≠ ['e', 'l', 's', 'e'] then .halt (.exit IFSTMT_ERROR)
                else
                  match get_token s4 with
                  | .halt h => .halt h
                  | .ok _ s5 =>
                    match stmt n s5 with
                    | .halt h => .halt h
                    | .ok _ s6 => .ok true s6
    else .ok false s

/-- The function `whilestmt`. -/
def whilestmt : Nat → State → Res Bool
  | 0, _ => .halt .fuel
  | n + 1, s =>
    if s.token = ['w', 'h', 'i', 'l', 'e'] then
      match get_token s with
      | .halt h => .halt h
      | .ok _ s1 =>
        match testexpr s1 with
        | .halt h => .halt h
        | .ok false _ => .halt (.exit WHILESTMT_ERROR)
        | .ok true s2 =>
          if s2.token ≠ ['d', 'o'] then .halt (.exit WHILESTMT_ERROR)
          else
            match get_token s2 with
            | .halt h => .halt h
            | .ok _ s3 =>
              match stmt n s3 with
              | .halt h => .halt h
              | .ok _ s4 => .ok true s4
    else .ok false s

end

/-- The function `program`, with the recursion budget handed to `block`. -/
def program (n : Nat) (s : State) : Res Unit :=
  match get_token s with
  | .halt h => .halt h
  | .ok _ s1 =>
    if s1.token ≠ ['p', 'r', 'o', 'g', 'r', 'a', 'm'] then .halt (.exit PROGRAM_ERROR)
    else
      match get_token s1 with
      | .halt h => .halt h
      | .ok _ s2 =>
        match block n s2 with
        | .halt h => .halt h
        | .ok _ s3 =>
          if s3.token ≠ ['.'] ∧ s3.token ≠ ['e', 'n', 'd', '.'] then .halt (.exit PROGRAM_ERROR)
          else .ok () s3

/-- The function `main` up to its two `printf` calls, with a given recursion budget. -/
def main_fuel (n : Nat) (input : List (List Char)) : Res Unit :=
  match get_buffer (init input) with
  | .halt h => .halt h
  | .ok _ s => program n s

/-- The function `main` up to its two `printf` calls, which show `as_int` of the two
counters of the state returned.  The budget is three units per character of input, which
is never used up (`main_budget`). -/
def main (input : List (List Char)) : Res Unit :=
  main_fuel (3 * remaining (init input)) input

end Bounded

/-- The lines of `s` before the unread lines `post` all fit the buffer. -/
def Upto (post : List (List Char)) (s : State) : Prop :=
  ∃ mid, s.stdin = mid ++ post ∧ ∀ l ∈ mid, fits l

/-- The run has fetched a line of `post`. -/
def Past (post : List (List Char)) (s : State) : Prop := s.stdin.length < post.length

/-- The bounded result `rb` is the unbounded result `r` from `s` with the counters cut to 32
bits, and then every line fetched on the way fits the buffer; or the bounded run has left
the buffer. -/
def Comm {α : Type} (rb r : Res α) (s : State) : Prop :=
  (rb = r.to32 ∧ ∀ a s1, r = .ok a s1 → Upto s1.stdin s) ∨ rb = .halt .exhausted

/-- The statement `x++` done `k` times. -/
def incr_by : Nat → Nat → Nat
  | 0, x => x
  | k + 1, x => incr_by k (incr x)

/-- Every line not yet read fits the buffer. -/
def Fits (s : State) : Prop := ∀ l ∈ s.stdin, fits l

namespace Bounded

/-- The run of `expr` that consumes one token: an operand. -/
def expr_one (s sf : State) : Prop :=
  is_operand s.token ∧ ∃ sN, get_token s = .ok () sN ∧
    sf = { sN with var_ref := incr_by (count_vars [s.token]) s.var_ref }

/-- The run of `expr` that consumes three tokens: an operator and two operands. -/
def expr_three (s sf : State) : Prop :=
  is_operator s.token ∧ ∃ s1 s2 s3, get_token s = .ok () s1 ∧ is_operand s1.token ∧
    get_token s1 = .ok () s2 ∧ is_operand s2.token ∧ get_token s2 = .ok () s3 ∧
    sf = { s3 with var_ref := incr_by (count_vars [s1.token, s2.token]) s.var_ref }

/-- The tokens that `n` successive calls of `get_token` deliver, up to the first call that
does not return. -/
def read_tokens : Nat → State → List (List Char)
  | 0, _ => []
  | n + 1, s =>
    match get_token s with
    | .halt _ => []
    | .ok _ s1 => s1.token :: read_tokens n s1

end Bounded

/-! ## Recursion budget: more is never different -/

theorem fuel_mono_step (n : Nat) :
    (∀ s, block n s ≠ .halt .fuel → block (n + 1) s = block n s) ∧
    (∀ s, stmtlist n s ≠ .halt .fuel → stmtlist (n + 1) s = stmtlist n s) ∧
    (∀ s, morestmts n s ≠ .halt .fuel → morestmts (n + 1) s = morestmts n s) ∧
    (∀ s, stmt n s ≠ .halt .fuel → stmt (n + 1) s = stmt n s) ∧
    (∀ s, ifstmt n s ≠ .halt .fuel → ifstmt (n + 1) s = ifstmt n s) ∧
    (∀ s, whilestmt n s ≠ .halt .fuel → whilestmt (n + 1) s = whilestmt n s) := by
  induction n with
  | zero => simp [block, stmtlist, morestmts, stmt, ifstmt, whilestmt]
  | succ n ih =>
    obtain ⟨hb, hsl, hm, hs, hi, hw⟩ := ih
    refine ⟨?_, ?_, ?_, ?_, ?_, ?_⟩
    · intro s h
      rw [block.eq_2 s n] at h
      rw [block.eq_2 s (n + 1), block.eq_2 s n]
      by_cases ht : s.token = ['b', 'e', 'g', 'i', 'n']
      · simp only [ht, ne_eq, not_true_eq_false, if_false] at h ⊢
        cases hg : get_token s with
        | halt h0 => rfl
        | ok u s1 =>
          simp only [hg] at h ⊢
          by_cases hf : stmtlist n s1 = .halt .fuel
          · simp [hf] at h
          · rw [hsl s1 hf]
      · simp [ht]
    · intro s h
      rw [stmtlist.eq_2 s n] at h
      rw [stmtlist.eq_2 s (n + 1), stmtlist.eq_2 s n]
      by_cases hf : stmt n s = .halt .fuel
      · simp [hf] at h
      · rw [hs s hf]
        cases hst : stmt n s with
        | halt h0 => rfl
        | ok b s1 =>
          cases b with
          | false => rfl
          | true =>
            simp only [hst] at h ⊢
            by_cases hf2 : morestmts n s1 = .halt .fuel
            · simp [hf2] at h
            · rw [hm s1 hf2]
    · intro s h
      rw [morestmts.eq_2 s n] at h
      rw [morestmts.eq_2 s (n + 1), morestmts.eq_2 s n]
      split
      · rfl
      · rename_i h1
        simp only [h1, if_false] at h
        split
        · rename_i h2
          simp only [h2, if_true] at h
          cases hg : get_token s with
          | halt h0 => rfl
          | ok u s1 =>
            simp only [hg] at h ⊢
            by_cases hf : stmtlist n s1 = .halt .fuel
            · simp [hf] at h
            · rw [hsl s1 hf]
        · rfl
    · intro s h
      rw [stmt.eq_2 s n] at h
      rw [stmt.eq_2 s (n + 1), stmt.eq_2 s n]
      cases ha : assign s with
      | halt h0 => rfl
      | ok b s1 =>
        cases b with
        | true => rfl
        | false =>
          simp only [ha] at h ⊢
          by_cases hf : ifstmt n s1 = .halt .fuel
          · simp [hf] at h
          · rw [hi s1 hf]
            cases hif : ifstmt n s1 with
            | halt h0 => rfl
            | ok b s2 =>
              cases b with
              | true => rfl
              | false =>
                simp only [hif] at h ⊢
                by_cases hf2 : whilestmt n s2 = .halt .fuel
                · simp [hf2] at h
                · rw [hw s2 hf2]
                  cases hwh : whilestmt n s2 with
                  | halt h0 => rfl
                  | ok b s3 =>
                    cases b with
                    | true => rfl
                    | false =>
                      simp only [hwh] at h ⊢
                      by_cases hf3 : block n s3 = .halt .fuel
                      · simp [hf3] at h
                      · rw [hb s3 hf3]
    · intro s h
      rw [ifstmt.eq_2 s n] at h
      rw [ifstmt.eq_2 s (n + 1), ifstmt.eq_2 s n]
      split
      · cases hg : get_token s with
        | halt h0 => rfl
        | ok u s1 =>
          rename_i h1
          simp only [h1, if_true, hg] at h ⊢
          cases hte : testexpr s1 with
          | halt h0 => rfl
          | ok b s2 =>
            cases b with
            | false => rfl
            | true =>
              simp only [hte] at h ⊢
              split
              · rfl
              · rename_i h2
                simp only [h2, if_false] at h
                cases hg2 : get_token s2 with
                | halt h0 => rfl
                | ok u2 s3 =>
                  simp only [hg2] at h ⊢
                  by_cases hf : stmt n s3 = .halt .fuel
                  · simp [hf] at h
                  · rw [hs s3 hf]
                    cases hst : stmt n s3 with
                    | halt h0 => rfl
                    | ok b4 s4 =>
                      simp only [hst] at h ⊢
                      split
                      · rfl
                      · rename_i h3
                        simp only [h3, if_false] at h
                        cases hg3 : get_token s4 with
                        | halt h0 => rfl
                        | ok u3 s5 =>
                          simp only [hg3] at h ⊢
                          by_cases hf5 : stmt n s5 = .halt .fuel
                          · simp [hf5] at h
                          · rw [hs s5 hf5]
      · rfl
    · intro s h
      rw [whilestmt.eq_2 s n] at h
      rw [whilestmt.eq_2 s (n + 1), whilestmt.eq_2 s n]
      split
      · cases hg : get_token s with
        | halt h0 => rfl
        | ok u s1 =>
          rename_i h1
          simp only [h1, if_true, hg] at h ⊢
          cases hte : testexpr s1 with
          | halt h0 => rfl
          | ok b s2 =>
            cases b with
            | false => rfl
            | true =>
              simp only [hte] at h ⊢
              split
              · rfl
              · rename_i h2
                simp only [h2, if_false] at h
                cases hg2 : get_token s2 with
                | halt h0 => rfl
                | ok u2 s3 =>
                  simp only [hg2] at h ⊢
                  by_cases hf : stmt n s3 = .halt .fuel
                  · simp [hf] at h
                  · rw [hs s3 hf]
      · rfl

/-! ## Lexer facts -/

theorem skip_ws_ge (l : List Char) (k : Nat) : k ≤ skip_ws l k := by
  induction l generalizing k with
  | nil => simp [skip_ws]
  | cons c cs ih =>
    simp only [skip_ws]
    split
    · exact Nat.le_trans (Nat.le_succ k) (ih (k + 1))
    · exact Nat.le_refl k

theorem skip_ws_le (l : List Char) (k : Nat) : skip_ws l k ≤ k + l.length := by
  induction l generalizing k with
  | nil => simp [skip_ws]
  | cons c cs ih =>
    simp only [skip_ws, List.length_cons]
    split
    · have := ih (k + 1); omega
    · omega

theorem copy_token_ge (l : List Char) (k : Nat) : k ≤ (copy_token l k).2 := by
  induction l generalizing k with
  | nil => simp [copy_token]
  | cons c cs ih =>
    simp only [copy_token]
    split
    · exact Nat.le_trans (Nat.le_succ k) (ih (k + 1))
    · exact Nat.le_refl k

theorem copy_token_snd (l : List Char) (k : Nat) :
    (copy_token l k).2 = k + (copy_token l k).1.length := by
  induction l generalizing k with
  | nil => simp [copy_token]
  | cons c cs ih =>
    simp only [copy_token]
    split
    · simp only [List.length_cons, ih (k + 1)]; omega
    · simp

theorem copy_token_fst_shift (l : List Char) (k j : Nat) :
    (copy_token l k).1 = (copy_token l j).1 := by
  induction l generalizing k j with
  | nil => simp [copy_token]
  | cons c cs ih =>
    simp only [copy_token]
    split
    · simp only [ih (k + 1) (j + 1)]
    · rfl

theorem copy_token_le (l : List Char) (k : Nat) : (copy_token l k).2 ≤ k + l.length := by
  induction l generalizing k with
  | nil => simp [copy_token]
  | cons c cs ih =>
    simp only [copy_token, List.length_cons]
    split
    · have := ih (k + 1); omega
    · omega

@[simp] theorem remove_whitespace_buffer (s : State) : (remove_whitespace s).buffer = s.buffer := rfl

@[simp] theorem remove_whitespace_stdin (s : State) : (remove_whitespace s).stdin = s.stdin := rfl

@[simp] theorem remove_whitespace_var_ref (s : State) : (remove_whitespace s).var_ref = s.var_ref := rfl

@[simp] theorem remove_whitespace_assign_count (s : State) :
    (remove_whitespace s).assign_count = s.assign_count := rfl

@[simp] theorem remove_whitespace_token (s : State) : (remove_whitespace s).token = s.token := rfl

theorem remove_whitespace_ge (s : State) : s.lookahead ≤ (remove_whitespace s).lookahead :=
  skip_ws_ge _ _

@[simp] theorem get_token_copy_buffer (s : State) : (get_token_copy s).buffer = s.buffer := rfl

@[simp] theorem get_token_copy_stdin (s : State) : (get_token_copy s).stdin = s.stdin := rfl

@[simp] theorem get_token_copy_var_ref (s : State) : (get_token_copy s).var_ref = s.var_ref := rfl

@[simp] theorem get_token_copy_assign_count (s : State) :
    (get_token_copy s).assign_count = s.assign_count := rfl

theorem get_token_copy_ge (s : State) : s.lookahead ≤ (get_token_copy s).lookahead :=
  Nat.le_trans (remove_whitespace_ge s) (copy_token_ge _ _)

theorem remaining_get_token_copy (s : State) : remaining (get_token_copy s) ≤ remaining s := by
  have := get_token_copy_ge s
  simp only [remaining, get_token_copy_buffer, get_token_copy_stdin]
  omega

theorem remaining_remove_whitespace (s : State) : remaining (remove_whitespace s) ≤ remaining s := by
  have := remove_whitespace_ge s
  simp only [remaining, remove_whitespace_buffer, remove_whitespace_stdin]
  omega

/-- The character under the cursor after `remove_whitespace` is no blank and no tab. -/
theorem skip_ws_stop (l : List Char) (k : Nat) :
    skip_ws ((l.drop (skip_ws l k - k))) (skip_ws l k) = skip_ws l k := by
  induction l generalizing k with
  | nil => simp [skip_ws]
  | cons c cs ih =>
    by_cases h : c = ' ' ∨ c = '\t'
    · have hk := skip_ws_ge cs (k + 1)
      have e : skip_ws (c :: cs) k = skip_ws cs (k + 1) := by simp [skip_ws, h]
      rw [e]
      have e2 : skip_ws cs (k + 1) - k = (skip_ws cs (k + 1) - (k + 1)) + 1 := by omega
      rw [e2, List.drop_succ_cons]
      exact ih (k + 1)
    · have e : skip_ws (c :: cs) k = k := by simp [skip_ws, h]
      rw [e]; simp [skip_ws, h]

theorem get_buffer_loop_sum (l : List Char) (ls : List (List Char)) (line : List Char)
    (rest : List (List Char)) (h : get_buffer_loop l ls = some (line, rest)) :
    line ≠ [] ∧ line.length + 1 + (rest.map (fun l => l.length + 1)).sum
      ≤ l.length + 1 + (ls.map (fun l => l.length + 1)).sum := by
  induction ls generalizing l with
  | nil =>
    cases l with
    | nil => simp [get_buffer_loop] at h
    | cons c cs =>
      simp only [get_buffer_loop, Option.some.injEq, Prod.mk.injEq] at h
      obtain ⟨rfl, rfl⟩ := h
      simp
  | cons l2 ls ih =>
    cases l with
    | nil =>
      simp only [get_buffer_loop] at h
      obtain ⟨h1, h2⟩ := ih l2 h
      refine ⟨h1, ?_⟩
      simp only [List.map_cons, List.sum_cons, List.length_nil]
      omega
    | cons c cs =>
      simp only [get_buffer_loop, Option.some.injEq, Prod.mk.injEq] at h
      obtain ⟨rfl, rfl⟩ := h
      simp

theorem get_buffer_ok (s s2 : State) (u : Unit) (h : get_buffer s = .ok u s2) :
    s2.lookahead = 0 ∧ s2.buffer ≠ [] ∧ s2.token = s.token ∧ s2.var_ref = s.var_ref ∧
    s2.assign_count = s.assign_count ∧
    s2.buffer.length + 1 + (s2.stdin.map (fun l => l.length + 1)).sum
      ≤ (s.stdin.map (fun l => l.length + 1)).sum := by
  unfold get_buffer at h
  cases hs : s.stdin with
  | nil => simp [hs] at h
  | cons l ls =>
    simp only [hs] at h
    cases hl : get_buffer_loop l ls with
    | none => simp [hl] at h
    | some p =>
      obtain ⟨line, rest⟩ := p
      simp only [hl, Res.ok.injEq, true_and] at h
      have := get_buffer_loop_sum l ls line rest hl
      subst h
      refine ⟨rfl, this.1, rfl, rfl, rfl, ?_⟩
      simp only [List.map_cons, List.sum_cons]
      omega

theorem getD_eq_headD_drop (l : List Char) (k : Nat) (d : Char) :
    l.getD k d = (l.drop k).headD d := by
  induction l generalizing k with
  | nil => simp
  | cons c cs ih =>
    cases k with
    | zero => simp
    | succ k => simp [ih k]

theorem remove_whitespace_idem (s : State) :
    remove_whitespace (remove_whitespace s) = remove_whitespace s := by
  have hstop := skip_ws_stop (s.buffer.drop s.lookahead) s.lookahead
  have hge := skip_ws_ge (s.buffer.drop s.lookahead) s.lookahead
  rw [List.drop_drop] at hstop
  have e : s.lookahead + (skip_ws (s.buffer.drop s.lookahead) s.lookahead - s.lookahead)
      = skip_ws (s.buffer.drop s.lookahead) s.lookahead := by omega
  rw [e] at hstop
  simp only [remove_whitespace, hstop]

/-- With the cursor on a character that is neither blank, tab nor nul, the copy loop of
`get_token` moves the cursor forward. -/
theorem get_token_copy_advance (t : State) (hw : remove_whitespace t = t)
    (h : t.buffer.getD t.lookahead nul ≠ nul) :
    t.lookahead < (get_token_copy t).lookahead := by
  have hk : skip_ws (t.buffer.drop t.lookahead) t.lookahead = t.lookahead := by
    have := congrArg State.lookahead hw
    simpa [remove_whitespace] using this
  rw [getD_eq_headD_drop] at h
  simp only [get_token_copy, hw]
  cases hd : t.buffer.drop t.lookahead with
  | nil => simp [hd] at h
  | cons c cs =>
    rw [hd] at h hk
    simp only [List.headD_cons] at h
    have hc : ¬ (c = ' ' ∨ c = '\t') := by
      intro hc
      have := skip_ws_ge cs (t.lookahead + 1)
      simp only [skip_ws, hc, if_true] at hk
      omega
    have hc2 : c ≠ ' ' ∧ c ≠ nul := ⟨fun e => hc (Or.inl e), h⟩
    have := copy_token_ge cs (t.lookahead + 1)
    simp only [copy_token, hc2, and_self, if_true, ne_eq, not_false_eq_true]
    omega

theorem get_token_frame (s s1 : State) (u : Unit) (h : get_token s = .ok u s1) :
    s1.var_ref = s.var_ref ∧ s1.assign_count = s.assign_count := by
  unfold get_token at h
  simp only at h
  split at h
  · cases hb : get_buffer (remove_whitespace s) with
    | halt h0 => simp [hb] at h
    | ok u2 s2 =>
      simp only [hb, Res.ok.injEq, true_and] at h
      have := get_buffer_ok _ _ _ hb
      subst h
      simp [this.2.2.2.1, this.2.2.2.2.1]
  · simp only [Res.ok.injEq, true_and] at h
    subst h
    simp

/-- Every call of `get_token` that returns has passed at least one character of input. -/
theorem get_token_remaining (s s1 : State) (u : Unit) (h : get_token s = .ok u s1) :
    remaining s1 < remaining s := by
  unfold get_token at h
  simp only at h
  split at h
  · cases hb : get_buffer (remove_whitespace s) with
    | halt h0 => simp [hb] at h
    | ok u2 s2 =>
      simp only [hb, Res.ok.injEq, true_and] at h
      have hg := get_buffer_ok _ _ _ hb
      have h1 := remaining_get_token_copy s2
      have h2 : remaining s2 < remaining (remove_whitespace s) := by
        simp only [remaining, remove_whitespace_buffer, remove_whitespace_stdin] at *
        omega
      have h3 := remaining_remove_whitespace s
      subst h
      omega
  · rename_i hne
    simp only [Res.ok.injEq, true_and] at h
    have hadv := get_token_copy_advance (remove_whitespace s) (remove_whitespace_idem s) hne
    have hlt : (remove_whitespace s).lookahead < (remove_whitespace s).buffer.length := by
      by_contra hge
      apply hne
      rw [List.getD_eq_default]
      omega
    have h3 := remaining_remove_whitespace s
    subst h
    simp only [remaining, get_token_copy_buffer, get_token_copy_stdin] at *
    omega

/-! ## The grammar procedures never move the cursor backwards -/

theorem variable_remaining (s s1 : State) (b : Bool) (h : variable_ s = .ok b s1) :
    remaining s1 ≤ remaining s := by
  unfold variable_ at h
  split at h
  · cases hg : get_token s with
    | halt h0 => simp [hg] at h
    | ok u s2 =>
      simp only [hg, Res.ok.injEq] at h
      have := get_token_remaining _ _ _ hg
      obtain ⟨-, rfl⟩ := h
      simp only [remaining] at *
      omega
  · simp only [Res.ok.injEq] at h
    obtain ⟨-, rfl⟩ := h
    exact Nat.le_refl _

theorem digit_remaining (s s1 : State) (b : Bool) (h : digit s = .ok b s1) :
    remaining s1 ≤ remaining s := by
  unfold digit at h
  split at h
  · cases hg : get_token s with
    | halt h0 => simp [hg] at h
    | ok u s2 =>
      simp only [hg, Res.ok.injEq] at h
      have := get_token_remaining _ _ _ hg
      obtain ⟨-, rfl⟩ := h
      omega
  · simp only [Res.ok.injEq] at h
    obtain ⟨-, rfl⟩ := h
    exact Nat.le_refl _

theorem no_operand_remaining (s s1 : State) (b : Bool) (h : no_operand s = .ok b s1) :
    remaining s1 ≤ remaining s := by
  unfold no_operand at h
  cases hv : variable_ s with
  | halt h0 => simp [hv] at h
  | ok bv sv =>
    have h1 := variable_remaining _ _ _ hv
    cases bv with
    | true =>
      simp only [hv, Res.ok.injEq] at h
      obtain ⟨-, rfl⟩ := h
      exact h1
    | false =>
      simp only [hv] at h
      cases hd : digit sv with
      | halt h0 => simp [hd] at h
      | ok bd sd =>
        have h2 := digit_remaining _ _ _ hd
        cases bd <;> simp only [hd, Res.ok.injEq] at h <;> obtain ⟨-, rfl⟩ := h <;> omega

theorem expr_loop_remaining (k : Nat) (s s1 : State) (u : Unit) (h : expr_loop k s = .ok u s1) :
    remaining s1 ≤ remaining s := by
  induction k generalizing s with
  | zero =>
    simp only [expr_loop, Res.ok.injEq] at h
    obtain ⟨-, rfl⟩ := h
    exact Nat.le_refl _
  | succ k ih =>
    simp only [expr_loop] at h
    cases hn : no_operand s with
    | halt h0 => simp [hn] at h
    | ok b s2 =>
      have h1 := no_operand_remaining _ _ _ hn
      cases b with
      | true => simp [hn] at h
      | false =>
        simp only [hn] at h
        have := ih _ h
        omega

theorem expr_remaining (s s1 : State) (u : Unit) (h : expr s = .ok u s1) :
    remaining s1 ≤ remaining s := by
  unfold expr at h
  split at h
  · cases hg : get_token s with
    | halt h0 => simp [hg] at h
    | ok u2 s2 =>
      simp only [hg] at h
      have h1 := get_token_remaining _ _ _ hg
      have h2 := expr_loop_remaining _ _ _ _ h
      omega
  · cases hn : no_operand s with
    | halt h0 => simp [hn] at h
    | ok b s2 =>
      have h1 := no_operand_remaining _ _ _ hn
      cases b with
      | true => simp [hn] at h
      | false =>
        simp only [hn, Res.ok.injEq] at h
        obtain ⟨-, rfl⟩ := h
        exact h1

theorem testexpr_remaining (s s1 : State) (b : Bool) (h : testexpr s = .ok b s1) :
    remaining s1 ≤ remaining s := by
  unfold testexpr at h
  cases hv : variable_ s with
  | halt h0 => simp [hv] at h
  | ok bv sv =>
    have h1 := variable_remaining _ _ _ hv
    cases bv with
    | false =>
      simp only [hv, Res.ok.injEq] at h
      obtain ⟨-, rfl⟩ := h
      exact h1
    | true =>
      simp only [hv] at h
      split at h
      · cases hg : get_token sv with
        | halt h0 => simp [hg] at h
        | ok u2 s2 =>
          simp only [hg] at h
          have h2 := get_token_remaining _ _ _ hg
          cases he : expr s2 with
          | halt h0 => simp [he] at h
          | ok u3 s3 =>
            have h3 := expr_remaining _ _ _ he
            simp only [he, Res.ok.injEq] at h
            obtain ⟨-, rfl⟩ := h
            omega
      · simp only [Res.ok.injEq] at h
        obtain ⟨-, rfl⟩ := h
        exact h1

theorem assign_remaining (s s1 : State) (b : Bool) (h : assign s = .ok b s1) :
    remaining s1 ≤ remaining s := by
  unfold assign at h
  cases hv : variable_ s with
  | halt h0 => simp [hv] at h
  | ok bv sv =>
    have h1 := variable_remaining _ _ _ hv
    cases bv with
    | false =>
      simp only [hv, Res.ok.injEq] at h
      obtain ⟨-, rfl⟩ := h
      exact h1
    | true =>
      simp only [hv] at h
      split at h
      · cases hg : get_token sv with
        | halt h0 => simp [hg] at h
        | ok u2 s2 =>
          simp only [hg] at h
          have h2 := get_token_remaining _ _ _ hg
          cases he : expr s2 with
          | halt h0 => simp [he] at h
          | ok u3 s3 =>
            have h3 := expr_remaining _ _ _ he
            simp only [he, Res.ok.injEq] at h
            obtain ⟨-, rfl⟩ := h
            simp only [remaining] at *
            omega
      · simp only [Res.ok.injEq] at h
        obtain ⟨-, rfl⟩ := h
        exact h1

theorem remaining_step (n : Nat) :
    (∀ s b s1, block n s = .ok b s1 → remaining s1 ≤ remaining s) ∧
    (∀ s u s1, stmtlist n s = .ok u s1 → remaining s1 ≤ remaining s) ∧
    (∀ s b s1, morestmts n s = .ok b s1 → remaining s1 ≤ remaining s) ∧
    (∀ s b s1, stmt n s = .ok b s1 → remaining s1 ≤ remaining s) ∧
    (∀ s b s1, ifstmt n s = .ok b s1 → remaining s1 ≤ remaining s) ∧
    (∀ s b s1, whilestmt n s = .ok b s1 → remaining s1 ≤ remaining s) := by
  induction n with
  | zero => simp [block, stmtlist, morestmts, stmt, ifstmt, whilestmt]
  | succ n ih =>
    obtain ⟨hb, hsl, hm, hs, hi, hw⟩ := ih
    refine ⟨?_, ?_, ?_, ?_, ?_, ?_⟩
    · intro s b r h
      rw [block.eq_2 s n] at h
      split at h
      · simp at h
      · cases hg : get_token s with
        | halt h0 => simp [hg] at h
        | ok u s1 =>
          have h1 := get_token_remaining _ _ _ hg
          simp only [hg] at h
          cases hl : stmtlist n s1 with
          | halt h0 => simp [hl] at h
          | ok u2 s2 =>
            have h2 := hsl _ _ _ hl
            simp only [hl] at h
            split at h
            · simp at h
            · split at h
              · cases hg2 : get_token s2 with
                | halt h0 => simp [hg2] at h
                | ok u3 s3 =>
                  have h3 := get_token_remaining _ _ _ hg2
                  simp only [hg2, Res.ok.injEq] at h
                  obtain ⟨-, rfl⟩ := h
                  omega
              · simp only [Res.ok.injEq] at h
                obtain ⟨-, rfl⟩ := h
                omega
    · intro s b r h
      rw [stmtlist.eq_2 s n] at h
      cases hst : stmt n s with
      | halt h0 => simp [hst] at h
      | ok b1 s1 =>
        have h1 := hs _ _ _ hst
        cases b1 with
        | false => simp [hst] at h
        | true =>
          simp only [hst] at h
          cases hmo : morestmts n s1 with
          | halt h0 => simp [hmo] at h
          | ok b2 s2 =>
            have h2 := hm _ _ _ hmo
            cases b2 with
            | false => simp [hmo] at h
            | true =>
              simp only [hmo, Res.ok.injEq] at h
              obtain ⟨-, rfl⟩ := h
              omega
    · intro s b r h
      rw [morestmts.eq_2 s n] at h
      split at h
      · simp only [Res.ok.injEq] at h
        obtain ⟨-, rfl⟩ := h
        exact Nat.le_refl _
      · split at h
        · cases hg : get_token s with
          | halt h0 => simp [hg] at h
          | ok u s1 =>
            have h1 := get_token_remaining _ _ _ hg
            simp only [hg] at h
            cases hl : stmtlist n s1 with
            | halt h0 => simp [hl] at h
            | ok u2 s2 =>
              have h2 := hsl _ _ _ hl
              simp only [hl, Res.ok.injEq] at h
              obtain ⟨-, rfl⟩ := h
              omega
        · simp at h
    · intro s b r h
      rw [stmt.eq_2 s n] at h
      cases ha : assign s with
      | halt h0 => simp [ha] at h
      | ok b1 s1 =>
        have h1 := assign_remaining _ _ _ ha
        cases b1 with
        | true =>
          simp only [ha, Res.ok.injEq] at h
          obtain ⟨-, rfl⟩ := h
          exact h1
        | false =>
          simp only [ha] at h
          cases hif : ifstmt n s1 with
          | halt h0 => simp [hif] at h
          | ok b2 s2 =>
            have h2 := hi _ _ _ hif
            cases b2 with
            | true =>
              simp only [hif, Res.ok.injEq] at h
              obtain ⟨-, rfl⟩ := h
              omega
            | false =>
              simp only [hif] at h
              cases hwh : whilestmt n s2 with
              | halt h0 => simp [hwh] at h
              | ok b3 s3 =>
                have h3 := hw _ _ _ hwh
                cases b3 with
                | true =>
                  simp only [hwh, Res.ok.injEq] at h
                  obtain ⟨-, rfl⟩ := h
                  omega
                | false =>
                  simp only [hwh] at h
                  cases hbl : block n s3 with
                  | halt h0 => simp [hbl] at h
                  | ok b4 s4 =>
                    have h4 := hb _ _ _ hbl
                    cases b4 with
                    | true =>
                      simp only [hbl, Res.ok.injEq] at h
                      obtain ⟨-, rfl⟩ := h
                      omega
                    | false => simp [hbl] at h
    · intro s b r h
      rw [ifstmt.eq_2 s n] at h
      split at h
      · cases hg : get_token s with
        | halt h0 => simp [hg] at h
        | ok u s1 =>
          have h1 := get_token_remaining _ _ _ hg
          simp only [hg] at h
          cases hte : testexpr s1 with
          | halt h0 => simp [hte] at h
          | ok bt s2 =>
            have h2 := testexpr_remaining _ _ _ hte
            cases bt with
            | false => simp [hte] at h
            | true =>
              simp only [hte] at h
              split at h
              · simp at h
              · cases hg2 : get_token s2 with
                | halt h0 => simp [hg2] at h
                | ok u2 s3 =>
                  have h3 := get_token_remaining _ _ _ hg2
                  simp only [hg2] at h
                  cases hst : stmt n s3 with
                  | halt h0 => simp [hst] at h
                  | ok b4 s4 =>
                    have h4 := hs _ _ _ hst
                    simp only [hst] at h
                    split at h
                    · simp at h
                    · cases hg3 : get_token s4 with
                      | halt h0 => simp [hg3] at h
                      | ok u3 s5 =>
                        have h5 := get_token_remaining _ _ _ hg3
                        simp only [hg3] at h
                        cases hst2 : stmt n s5 with
                        | halt h0 => simp [hst2] at h
                        | ok b6 s6 =>
                          have h6 := hs _ _ _ hst2
                          simp only [hst2, Res.ok.injEq] at h
                          obtain ⟨-, rfl⟩ := h
                          omega
      · simp only [Res.ok.injEq] at h
        obtain ⟨-, rfl⟩ := h
        exact Nat.le_refl _
    · intro s b r h
      rw [whilestmt.eq_2 s n] at h
      split at h
      · cases hg : get_token s with
        | halt h0 => simp [hg] at h
        | ok u s1 =>
          have h1 := get_token_remaining _ _ _ hg
          simp only [hg] at h
          cases hte : testexpr s1 with
          | halt h0 => simp [hte] at h
          | ok bt s2 =>
            have h2 := testexpr_remaining _ _ _ hte
            cases bt with
            | false => simp [hte] at h
            | true =>
              simp only [hte] at h
              split at h
              · simp at h
              · cases hg2 : get_token s2 with
                | halt h0 => simp [hg2] at h
                | ok u2 s3 =>
                  have h3 := get_token_remaining _ _ _ hg2
                  simp only [hg2] at h
                  cases hst : stmt n s3 with
                  | halt h0 => simp [hst] at h
                  | ok b4 s4 =>
                    have h4 := hs _ _ _ hst
                    simp only [hst, Res.ok.injEq] at h
                    obtain ⟨-, rfl⟩ := h
                    omega
      · simp only [Res.ok.injEq] at h
        obtain ⟨-, rfl⟩ := h
        exact Nat.le_refl _

/-! ## The recursion budget of `main` is never used up -/

theorem get_buffer_no_fuel (s : State) : get_buffer s ≠ .halt .fuel := by
  unfold get_buffer
  cases s.stdin with
  | nil => simp
  | cons l ls =>
    simp only
    cases get_buffer_loop l ls with
    | none => simp
    | some p => simp

theorem get_token_no_fuel (s : State) : get_token s ≠ .halt .fuel := by
  unfold get_token
  simp only
  split
  · have := get_buffer_no_fuel (remove_whitespace s)
    cases hb : get_buffer (remove_whitespace s) with
    | halt h0 =>
      intro h
      simp only [Res.halt.injEq] at h
      exact this (by rw [hb, h])
    | ok u s2 => simp
  · simp

theorem variable_no_fuel (s : State) : variable_ s ≠ .halt .fuel := by
  unfold variable_
  split
  · have := get_token_no_fuel s
    cases hg : get_token s with
    | halt h0 =>
      intro h
      simp only [Res.halt.injEq] at h
      exact this (by rw [hg, h])
    | ok u s2 => simp
  · simp

theorem digit_no_fuel (s : State) : digit s ≠ .halt .fuel := by
  unfold digit
  split
  · have := get_token_no_fuel s
    cases hg : get_token s with
    | halt h0 =>
      intro h
      simp only [Res.halt.injEq] at h
      exact this (by rw [hg, h])
    | ok u s2 => simp
  · simp

theorem no_operand_no_fuel (s : State) : no_operand s ≠ .halt .fuel := by
  unfold no_operand
  have hv := variable_no_fuel s
  cases hvs : variable_ s with
  | halt h0 =>
    intro h
    simp only [Res.halt.injEq] at h
    exact hv (by rw [hvs, h])
  | ok b s1 =>
    cases b with
    | true => simp
    | false =>
      simp only
      have hd := digit_no_fuel s1
      cases hds : digit s1 with
      | halt h0 =>
        intro h
        simp only [Res.halt.injEq] at h
        exact hd (by rw [hds, h])
      | ok b2 s2 => cases b2 <;> simp

theorem expr_loop_no_fuel (k : Nat) (s : State) : expr_loop k s ≠ .halt .fuel := by
  induction k generalizing s with
  | zero => simp [expr_loop]
  | succ k ih =>
    simp only [expr_loop]
    have hn := no_operand_no_fuel s
    cases hns : no_operand s with
    | halt h0 =>
      intro h
      simp only [Res.halt.injEq] at h
      exact hn (by rw [hns, h])
    | ok b s1 =>
      cases b with
      | true => simp
      | false => exact ih s1

theorem expr_no_fuel (s : State) : expr s ≠ .halt .fuel := by
  unfold expr
  split
  · have hg := get_token_no_fuel s
    cases hgs : get_token s with
    | halt h0 =>
      intro h
      simp only [Res.halt.injEq] at h
      exact hg (by rw [hgs, h])
    | ok u s1 => exact expr_loop_no_fuel 2 s1
  · have hn := no_operand_no_fuel s
    cases hns : no_operand s with
    | halt h0 =>
      intro h
      simp only [Res.halt.injEq] at h
      exact hn (by rw [hns, h])
    | ok b s1 => cases b <;> simp

theorem testexpr_no_fuel (s : State) : testexpr s ≠ .halt .fuel := by
  unfold testexpr
  have hv := variable_no_fuel s
  cases hvs : variable_ s with
  | halt h0 =>
    intro h
    simp only [Res.halt.injEq] at h
    exact hv (by rw [hvs, h])
  | ok b s1 =>
    cases b with
    | false => simp
    | true =>
      simp only
      split
      · have hg := get_token_no_fuel s1
        cases hgs : get_token s1 with
        | halt h0 =>
          intro h
          simp only [Res.halt.injEq] at h
          exact hg (by rw [hgs, h])
        | ok u s2 =>
          simp only
          have he := expr_no_fuel s2
          cases hes : expr s2 with
          | halt h0 =>
            intro h
            simp only [Res.halt.injEq] at h
            exact he (by rw [hes, h])
          | ok u2 s3 => simp
      · simp

theorem assign_no_fuel (s : State) : assign s ≠ .halt .fuel := by
  unfold assign
  have hv := variable_no_fuel s
  cases hvs : variable_ s with
  | halt h0 =>
    intro h
    simp only [Res.halt.injEq] at h
    exact hv (by rw [hvs, h])
  | ok b s1 =>
    cases b with
    | false => simp
    | true =>
      simp only
      split
      · have hg := get_token_no_fuel s1
        cases hgs : get_token s1 with
        | halt h0 =>
          intro h
          simp only [Res.halt.injEq] at h
          exact hg (by rw [hgs, h])
        | ok u s2 =>
          simp only
          have he := expr_no_fuel s2
          cases hes : expr s2 with
          | halt h0 =>
            intro h
            simp only [Res.halt.injEq] at h
            exact he (by rw [hes, h])
          | ok u2 s3 => simp
      · simp

/-- A budget of three units per remaining character (plus a small offset per procedure)
is never used up. -/
theorem fuel_enough_step (n : Nat) :
    (∀ s, 3 * remaining s + 1 ≤ n → block n s ≠ .halt .fuel) ∧
    (∀ s, 3 * remaining s + 3 ≤ n → stmtlist n s ≠ .halt .fuel) ∧
    (∀ s, 3 * remaining s + 1 ≤ n → morestmts n s ≠ .halt .fuel) ∧
    (∀ s, 3 * remaining s + 2 ≤ n → stmt n s ≠ .halt .fuel) ∧
    (∀ s, 3 * remaining s + 1 ≤ n → ifstmt n s ≠ .halt .fuel) ∧
    (∀ s, 3 * remaining s + 1 ≤ n → whilestmt n s ≠ .halt .fuel) := by
  induction n with
  | zero => simp
  | succ n ih =>
    obtain ⟨hb, hsl, hm, hs, hi, hw⟩ := ih
    obtain ⟨rb, rsl, rm, rs, ri, rw_⟩ := remaining_step n
    refine ⟨?_, ?_, ?_, ?_, ?_, ?_⟩
    · intro s hn
      rw [block.eq_2 s n]
      split
      · simp
      · have hg := get_token_no_fuel s
        cases hgs : get_token s with
        | halt h0 =>
          intro h
          simp only [Res.halt.injEq] at h
          exact hg (by rw [hgs, h])
        | ok u s1 =>
          have h1 := get_token_remaining _ _ _ hgs
          simp only
          have hl := hsl s1 (by omega)
          cases hls : stmtlist n s1 with
          | halt h0 =>
            intro h
            simp only [Res.halt.injEq] at h
            exact hl (by rw [hls, h])
          | ok u2 s2 =>
            simp only
            split
            · simp
            · split
              · have hg2 := get_token_no_fuel s2
                cases hgs2 : get_token s2 with
                | halt h0 =>
                  intro h
                  simp only [Res.halt.injEq] at h
                  exact hg2 (by rw [hgs2, h])
                | ok u3 s3 => simp
              · simp
    · intro s hn
      rw [stmtlist.eq_2 s n]
      have hst := hs s (by omega)
      cases hsts : stmt n s with
      | halt h0 =>
        intro h
        simp only [Res.halt.injEq] at h
        exact hst (by rw [hsts, h])
      | ok b s1 =>
        have h1 := rs _ _ _ hsts
        cases b with
        | false => simp
        | true =>
          simp only
          have hmo := hm s1 (by omega)
          cases hmos : morestmts n s1 with
          | halt h0 =>
            intro h
            simp only [Res.halt.injEq] at h
            exact hmo (by rw [hmos, h])
          | ok b2 s2 => cases b2 <;> simp
    · intro s hn
      rw [morestmts.eq_2 s n]
      split
      · simp
      · split
        · have hg := get_token_no_fuel s
          cases hgs : get_token s with
          | halt h0 =>
            intro h
            simp only [Res.halt.injEq] at h
            exact hg (by rw [hgs, h])
          | ok u s1 =>
            have h1 := get_token_remaining _ _ _ hgs
            simp only
            have hl := hsl s1 (by omega)
            cases hls : stmtlist n s1 with
            | halt h0 =>
              intro h
              simp only [Res.halt.injEq] at h
              exact hl (by rw [hls, h])
            | ok u2 s2 => simp
        · simp
    · intro s hn
      rw [stmt.eq_2 s n]
      have ha := assign_no_fuel s
      cases has : assign s with
      | halt h0 =>
        intro h
        simp only [Res.halt.injEq] at h
        exact ha (by rw [has, h])
      | ok b s1 =>
        have h1 := assign_remaining _ _ _ has
        cases b with
        | true => simp
        | false =>
          simp only
          have hif := hi s1 (by omega)
          cases hifs : ifstmt n s1 with
          | halt h0 =>
            intro h
            simp only [Res.halt.injEq] at h
            exact hif (by rw [hifs, h])
          | ok b2 s2 =>
            have h2 := ri _ _ _ hifs
            cases b2 with
            | true => simp
            | false =>
              simp only
              have hwh := hw s2 (by omega)
              cases hwhs : whilestmt n s2 with
              | halt h0 =>
                intro h
                simp only [Res.halt.injEq] at h
                exact hwh (by rw [hwhs, h])
              | ok b3 s3 =>
                have h3 := rw_ _ _ _ hwhs
                cases b3 with
                | true => simp
                | false =>
                  simp only
                  have hbl := hb s3 (by omega)
                  cases hbls : block n s3 with
                  | halt h0 =>
                    intro h
                    simp only [Res.halt.injEq] at h
                    exact hbl (by rw [hbls, h])
                  | ok b4 s4 => cases b4 <;> simp
    · intro s hn
      rw [ifstmt.eq_2 s n]
      split
      · have hg := get_token_no_fuel s
        cases hgs : get_token s with
        | halt h0 =>
          intro h
          simp only [Res.halt.injEq] at h
          exact hg (by rw [hgs, h])
        | ok u s1 =>
          have h1 := get_token_remaining _ _ _ hgs
          simp only
          have hte := testexpr_no_fuel s1
          cases htes : testexpr s1 with
          | halt h0 =>
            intro h
            simp only [Res.halt.injEq] at h
            exact hte (by rw [htes, h])
          | ok bt s2 =>
            have h2 := testexpr_remaining _ _ _ htes
            cases bt with
            | false => simp
            | true =>
              simp only
              split
              · simp
              · have hg2 := get_token_no_fuel s2
                cases hgs2 : get_token s2 with
                | halt h0 =>
                  intro h
                  simp only [Res.halt.injEq] at h
                  exact hg2 (by rw [hgs2, h])
                | ok u2 s3 =>
                  have h3 := get_token_remaining _ _ _ hgs2
                  simp only
                  have hst := hs s3 (by omega)
                  cases hsts : stmt n s3 with
                  | halt h0 =>
                    intro h
                    simp only [Res.halt.injEq] at h
                    exact hst (by rw [hsts, h])
                  | ok b4 s4 =>
                    have h4 := rs _ _ _ hsts
                    simp only
                    split
                    · simp
                    · have hg3 := get_token_no_fuel s4
                      cases hgs3 : get_token s4 with
                      | halt h0 =>
                        intro h
                        simp only [Res.halt.injEq] at h
                        exact hg3 (by rw [hgs3, h])
                      | ok u3 s5 =>
                        have h5 := get_token_remaining _ _ _ hgs3
                        simp only
                        have hst2 := hs s5 (by omega)
                        cases hsts2 : stmt n s5 with
                        | halt h0 =>
                          intro h
                          simp only [Res.halt.injEq] at h
                          exact hst2 (by rw [hsts2, h])
                        | ok b6 s6 => simp
      · simp
    · intro s hn
      rw [whilestmt.eq_2 s n]
      split
      · have hg := get_token_no_fuel s
        cases hgs : get_token s with
        | halt h0 =>
          intro h
          simp only [Res.halt.injEq] at h
          exact hg (by rw [hgs, h])
        | ok u s1 =>
          have h1 := get_token_remaining _ _ _ hgs
          simp only
          have hte := testexpr_no_fuel s1
          cases htes : testexpr s1 with
          | halt h0 =>
            intro h
            simp only [Res.halt.injEq] at h
            exact hte (by rw [htes, h])
          | ok bt s2 =>
            have h2 := testexpr_remaining _ _ _ htes
            cases bt with
            | false => simp
            | true =>
              simp only
              split
              · simp
              · have hg2 := get_token_no_fuel s2
                cases hgs2 : get_token s2 with
                | halt h0 =>
                  intro h
                  simp only [Res.halt.injEq] at h
                  exact hg2 (by rw [hgs2, h])
                | ok u2 s3 =>
                  have h3 := get_token_remaining _ _ _ hgs2
                  simp only
                  have hst := hs s3 (by omega)
                  cases hsts : stmt n s3 with
                  | halt h0 =>
                    intro h
                    simp only [Res.halt.injEq] at h
                    exact hst (by rw [hsts, h])
                  | ok b4 s4 => simp
      · simp

theorem block_fuel_mono (n m : Nat) (s : State) (hnm : n ≤ m) (h : block n s ≠ .halt .fuel) :
    block m s = block n s := by
  induction m with
  | zero =>
    have : n = 0 := by omega
    subst this; rfl
  | succ m ih =>
    by_cases hm : n = m + 1
    · subst hm; rfl
    · have e := ih (by omega)
      rw [← e] at h
      rw [(fuel_mono_step m).1 s h, e]

theorem program_fuel_mono (n m : Nat) (s : State) (hnm : n ≤ m) (h : program n s ≠ .halt .fuel) :
    program m s = program n s := by
  unfold program at h ⊢
  cases hg : get_token s with
  | halt h0 => rfl
  | ok u s1 =>
    simp only [hg] at h ⊢
    split
    · rfl
    · rename_i ht
      simp only [ht, if_false] at h
      cases hg2 : get_token s1 with
      | halt h0 => rfl
      | ok u2 s2 =>
        simp only [hg2] at h ⊢
        by_cases hf : block n s2 = .halt .fuel
        · simp [hf] at h
        · rw [block_fuel_mono n m s2 hnm hf]

theorem program_no_fuel (n : Nat) (s : State) (hn : 3 * remaining s ≤ n) :
    program n s ≠ .halt .fuel := by
  unfold program
  have hg := get_token_no_fuel s
  cases hgs : get_token s with
  | halt h0 =>
    intro h
    simp only [Res.halt.injEq] at h
    exact hg (by rw [hgs, h])
  | ok u s1 =>
    have h1 := get_token_remaining _ _ _ hgs
    simp only
    split
    · simp
    · have hg2 := get_token_no_fuel s1
      cases hgs2 : get_token s1 with
      | halt h0 =>
        intro h
        simp only [Res.halt.injEq] at h
        exact hg2 (by rw [hgs2, h])
      | ok u2 s2 =>
        have h2 := get_token_remaining _ _ _ hgs2
        simp only
        have hb := (fuel_enough_step n).1 s2 (by omega)
        cases hbs : block n s2 with
        | halt h0 =>
          intro h
          simp only [Res.halt.injEq] at h
          exact hb (by rw [hbs, h])
        | ok b s3 =>
          simp only
          split <;> simp

theorem get_buffer_remaining (s s1 : State) (u : Unit) (h : get_buffer s = .ok u s1) :
    remaining s1 < remaining s := by
  have := get_buffer_ok _ _ _ h
  simp only [remaining]
  omega

/-- The run never stops for lack of recursion budget. -/
theorem main_no_fuel (input : List (List Char)) : main input ≠ .halt .fuel := by
  unfold main main_fuel
  have hb := get_buffer_no_fuel (init input)
  cases hbs : get_buffer (init input) with
  | halt h0 =>
    intro h
    simp only [Res.halt.injEq] at h
    exact hb (by rw [hbs, h])
  | ok u s =>
    have := get_buffer_remaining _ _ _ hbs
    exact program_no_fuel _ _ (by omega)

/-- Whatever a run with some budget produces, short of running out, is what `main` produces. -/
theorem main_eq_of_fuel (n : Nat) (input : List (List Char)) (r : Res Unit)
    (h : main_fuel n input = r) (hr : r ≠ .halt .fuel) : main input = r := by
  have hm := main_no_fuel input
  unfold main at hm ⊢
  unfold main_fuel at h hm ⊢
  cases hbs : get_buffer (init input) with
  | halt h0 => simpa [hbs] using h
  | ok u s =>
    simp only [hbs] at h hm ⊢
    rcases Nat.le_total n (3 * remaining (init input)) with hle | hle
    · rw [program_fuel_mono n _ s hle (by rw [h]; exact hr), h]
    · rw [← program_fuel_mono _ n s hle hm, h]

theorem skip_ws_lexeme (t r : List Char) (k : Nat) (ht : Lexeme t) :
    skip_ws (t ++ r) k = k := by
  obtain ⟨hne, hc⟩ := ht
  cases t with
  | nil => exact absurd rfl hne
  | cons c cs =>
    have := hc c (List.mem_cons_self c cs)
    simp [skip_ws, this.1, this.2.1]

theorem copy_token_lexeme (t r : List Char) (k : Nat) (ht : ∀ c ∈ t, c ≠ ' ' ∧ c ≠ '\t' ∧ c ≠ nul)
    (hr : r = [] ∨ ∃ r2, r = ' ' :: r2) : copy_token (t ++ r) k = (t, k + t.length) := by
  induction t generalizing k with
  | nil =>
    rcases hr with rfl | ⟨r2, rfl⟩
    · simp [copy_token]
    · simp [copy_token]
  | cons c cs ih =>
    have hc := ht c (List.mem_cons_self c cs)
    have ih2 := ih (k + 1) (fun d hd => ht d (List.mem_cons_of_mem c hd))
    show copy_token (c :: (cs ++ r)) k = _
    have e : copy_token (c :: (cs ++ r)) k
        = (c :: (copy_token (cs ++ r) (k + 1)).1, (copy_token (cs ++ r) (k + 1)).2) := by
      simp [copy_token, hc.1, hc.2.2]
    rw [e, ih2]
    simp only [List.length_cons, Prod.mk.injEq, true_and]
    omega

theorem after_of_head (ts : List (List Char)) : after_of ts = [] ∨ ∃ r2, after_of ts = ' ' :: r2 := by
  cases ts with
  | nil => exact Or.inl rfl
  | cons t ts => exact Or.inr ⟨_, rfl⟩

theorem drop_add_of_drop_eq (l x y : List Char) (k : Nat) (h : l.drop k = x ++ y) :
    l.drop (k + x.length) = y := by
  rw [← List.drop_drop, h, List.drop_left]

theorem getD_of_drop_eq (l r : List Char) (c : Char) (k : Nat) (h : l.drop k = c :: r) :
    l.getD k nul = c := by
  rw [getD_eq_headD_drop, h]; rfl

/-- The core of `get_token` on a cursor that stands right before a lexeme. -/
theorem get_token_copy_lexeme (s : State) (t : List Char) (cur : List (List Char))
    (ht : Lexeme t) (hd : s.buffer.drop s.lookahead = t ++ after_of cur) :
    remove_whitespace s = s ∧ s.buffer.getD s.lookahead nul ≠ nul ∧
    (get_token_copy s).token = t ∧
    (get_token_copy s).buffer.drop (get_token_copy s).lookahead = after_of cur := by
  have hw : remove_whitespace s = s := by
    simp only [remove_whitespace, hd, skip_ws_lexeme t _ _ ht]
  refine ⟨hw, ?_, ?_, ?_⟩
  · obtain ⟨hne, hc⟩ := ht
    cases t with
    | nil => exact absurd rfl hne
    | cons c cs =>
      rw [getD_of_drop_eq _ _ c _ hd]
      exact (hc c (List.mem_cons_self c cs)).2.2
  · simp only [get_token_copy, hw, hd, copy_token_lexeme t _ _ ht.2 (after_of_head cur)]
  · simp only [get_token_copy, hw, hd, copy_token_lexeme t _ _ ht.2 (after_of_head cur)]
    exact drop_add_of_drop_eq _ _ _ _ hd

theorem line_of_lexeme_ne_nil (t : List Char) (cur : List (List Char)) (ht : Lexeme t) :
    ∃ c cs, line_of (t :: cur) = c :: cs := by
  obtain ⟨hne, -⟩ := ht
  cases t with
  | nil => exact absurd rfl hne
  | cons c cs => exact ⟨c, cs ++ after_of cur, rfl⟩

/-- On lines of lexemes `get_buffer` delivers the first line that holds a lexeme. -/
theorem get_buffer_loop_lines (lines : List (List (List Char))) (t : List Char)
    (us : List (List Char)) (ht : Lexeme t) (hj : lines.flatten = t :: us) :
    ∃ l ls, lines.map line_of = l :: ls ∧
      ∃ (cur : List (List Char)) (rest : List (List (List Char))),
        get_buffer_loop l ls = some (line_of (t :: cur), rest.map line_of) ∧
        cur ++ rest.flatten = us := by
  induction lines with
  | nil => simp at hj
  | cons l0 rest ih =>
    cases l0 with
    | nil =>
      simp only [List.flatten_cons, List.nil_append] at hj
      obtain ⟨l, ls, hm, cur, rest2, hg, hc⟩ := ih hj
      refine ⟨[], l :: ls, ?_, cur, rest2, ?_, hc⟩
      · simp [hm, line_of]
      · simpa [get_buffer_loop] using hg
    | cons t0 cur =>
      simp only [List.flatten_cons, List.cons_append, List.cons.injEq] at hj
      obtain ⟨rfl, hus⟩ := hj
      obtain ⟨c, cs, hc⟩ := line_of_lexeme_ne_nil t0 cur ht
      refine ⟨line_of (t0 :: cur), rest.map line_of, by simp, cur, rest, ?_, hus⟩
      rw [hc]
      simp [get_buffer_loop]

theorem get_buffer_stream (s : State) (lines : List (List (List Char))) (t : List Char)
    (us : List (List Char)) (hs : s.stdin = lines.map line_of) (hj : lines.flatten = t :: us)
    (hl : ∀ x ∈ t :: us, Lexeme x) :
    ∃ s2, get_buffer s = .ok () s2 ∧ s2.token = s.token ∧ s2.var_ref = s.var_ref ∧
      s2.assign_count = s.assign_count ∧ s2.lookahead = 0 ∧
      ∃ (cur : List (List Char)) (rest : List (List (List Char))),
        s2.buffer = line_of (t :: cur) ∧ s2.stdin = rest.map line_of ∧
        cur ++ rest.flatten = us := by
  obtain ⟨l, ls, hm, cur, rest, hg, hc⟩ :=
    get_buffer_loop_lines lines t us (hl t (List.mem_cons_self t us)) hj
  refine ⟨{ s with stdin := rest.map line_of, buffer := line_of (t :: cur), lookahead := 0 },
    ?_, rfl, rfl, rfl, rfl, cur, rest, rfl, rfl, hc⟩
  unfold get_buffer
  rw [hs, hm]
  simp only [hg]

/-- On input laid out as lexemes, `get_token` delivers the next lexeme. -/
theorem get_token_stream (s : State) (t : List Char) (us : List (List Char))
    (h : Stream s (t :: us)) :
    ∃ s1, get_token s = .ok () s1 ∧ s1.token = t ∧ Stream s1 us ∧
      s1.var_ref = s.var_ref ∧ s1.assign_count = s.assign_count := by
  obtain ⟨cur, lines, hform, hstdin, hjoin, hlex⟩ := h
  have ht : Lexeme t := hlex t (List.mem_cons_self t us)
  have hus : ∀ x ∈ us, Lexeme x := fun x hx => hlex x (List.mem_cons_of_mem t hx)
  cases cur with
  | nil =>
    have hd : s.buffer.drop s.lookahead = [] := by
      rcases hform with h1 | ⟨h1, -⟩
      · simpa [after_of] using h1
      · exact absurd rfl h1
    have hw : remove_whitespace s = s := by
      simp only [remove_whitespace, hd, skip_ws]
    have hn : s.buffer.getD s.lookahead nul = nul := by
      rw [getD_eq_headD_drop, hd]; rfl
    simp only [List.nil_append] at hjoin
    obtain ⟨s2, hg, -, hv, ha, hk, cur2, rest, hb, hst, hc⟩ :=
      get_buffer_stream s lines t us hstdin hjoin hlex
    have hd2 : s2.buffer.drop s2.lookahead = t ++ after_of cur2 := by
      rw [hk, hb]; rfl
    obtain ⟨-, -, htok, hdrop⟩ := get_token_copy_lexeme s2 t cur2 ht hd2
    refine ⟨get_token_copy s2, ?_, htok, ⟨cur2, rest, Or.inl hdrop, ?_, hc, hus⟩, ?_, ?_⟩
    · simp only [get_token, hw, hn, if_true, hg]
    · simpa using hst
    · simpa using hv
    · simpa using ha
  | cons t0 cur2 =>
    simp only [List.cons_append, List.cons.injEq] at hjoin
    obtain ⟨rfl, hc⟩ := hjoin
    have hd2 : (remove_whitespace s).buffer.drop (remove_whitespace s).lookahead
        = t0 ++ after_of cur2 := by
      rcases hform with h1 | ⟨-, h1⟩
      · have h1b : s.buffer.drop s.lookahead = [' '] ++ (t0 ++ after_of cur2) := h1
        have e : (remove_whitespace s).lookahead = s.lookahead + 1 := by
          simp only [remove_whitespace, h1]
          simp only [after_of, skip_ws, true_or, if_true]
          exact skip_ws_lexeme t0 _ _ ht
        rw [e]
        exact drop_add_of_drop_eq _ _ _ _ h1b
      · have h1b : s.buffer.drop s.lookahead = t0 ++ after_of cur2 := h1
        have e : remove_whitespace s = s := by
          simp only [remove_whitespace, h1b, skip_ws_lexeme t0 _ _ ht]
        rw [e]; exact h1b
    obtain ⟨-, hnn, htok, hdrop⟩ := get_token_copy_lexeme (remove_whitespace s) t0 cur2 ht hd2
    refine ⟨get_token_copy (remove_whitespace s), ?_, htok,
      ⟨cur2, lines, Or.inl hdrop, ?_, hc, hus⟩, ?_, ?_⟩
    · simp only [get_token, hnn, if_false]
    · simpa using hstdin
    · simp
    · simp

theorem get_token_view (s : State) (t t2 : List Char) (us : List (List Char))
    (h : View s (t :: t2 :: us)) :
    ∃ s1, get_token s = .ok () s1 ∧ View s1 (t2 :: us) ∧
      s1.var_ref = s.var_ref ∧ s1.assign_count = s.assign_count := by
  obtain ⟨s1, hg, ht, hs, hv, ha⟩ := get_token_stream s t2 us h.2
  exact ⟨s1, hg, ⟨ht, hs⟩, hv, ha⟩

theorem is_variable_lexeme (t : List Char) (h : is_variable t) : Lexeme t := by
  rcases h with rfl | rfl | rfl <;> simp [Lexeme, nul]

theorem is_digit_lexeme (t : List Char) (h : is_digit t) : Lexeme t := by
  rcases h with rfl | rfl | rfl <;> simp [Lexeme, nul]

theorem is_operand_lexeme (t : List Char) (h : is_operand t) : Lexeme t :=
  h.elim (is_variable_lexeme t) (is_digit_lexeme t)

theorem is_operator_lexeme (t : List Char) (h : is_operator t) : Lexeme t := by
  rcases h with rfl | rfl <;> simp [Lexeme, nul]

theorem not_variable_of_digit (t : List Char) (h : is_digit t) : ¬ is_variable t := by
  rcases h with rfl | rfl | rfl <;> simp [is_variable]

theorem derives_lexeme (c : Cat) (ts : List (List Char)) (k : Nat) (h : Derives c ts k) :
    ∀ t ∈ ts, Lexeme t := by
  induction h with
  | operand hx => simpa using is_operand_lexeme _ hx
  | binary ho hx hy =>
    simp only [List.mem_cons, List.mem_singleton, List.not_mem_nil, or_false, forall_eq_or_imp,
      forall_eq]
    exact ⟨is_operator_lexeme _ ho, is_operand_lexeme _ hx, is_operand_lexeme _ hy⟩
  | test hv _ ih =>
    intro t ht
    simp only [List.mem_cons] at ht
    rcases ht with rfl | rfl | ht
    · exact is_variable_lexeme _ hv
    · simp [Lexeme, nul]
    · exact ih t ht
  | assign hv _ ih =>
    intro t ht
    simp only [List.mem_cons] at ht
    rcases ht with rfl | rfl | ht
    · exact is_variable_lexeme _ hv
    · simp [Lexeme, nul]
    · exact ih t ht
  | ifstmt _ _ _ iht ih1 ih2 =>
    intro t ht
    simp only [List.mem_cons, List.mem_append] at ht
    rcases ht with rfl | ht | rfl | ht | rfl | ht
    · simp [Lexeme, nul]
    · exact iht t ht
    · simp [Lexeme, nul]
    · exact ih1 t ht
    · simp [Lexeme, nul]
    · exact ih2 t ht
  | whilestmt _ _ iht ih1 =>
    intro t ht
    simp only [List.mem_cons, List.mem_append] at ht
    rcases ht with rfl | ht | rfl | ht
    · simp [Lexeme, nul]
    · exact iht t ht
    · simp [Lexeme, nul]
    · exact ih1 t ht
  | of_block _ ih => exact ih
  | block _ ih =>
    intro t ht
    simp only [List.mem_cons, List.mem_append, List.mem_singleton, List.not_mem_nil,
      or_false] at ht
    rcases ht with rfl | ht | rfl
    · simp [Lexeme, nul]
    · exact ih t ht
    · simp [Lexeme, nul]
  | one _ ih => exact ih
  | more _ _ ih1 ih2 =>
    intro t ht
    simp only [List.mem_cons, List.mem_append] at ht
    rcases ht with ht | rfl | ht
    · exact ih1 t ht
    · simp [Lexeme, nul]
    · exact ih2 t ht

/-! ## Completeness: the procedures accept the phrases of the grammar -/

theorem variable_view (s : State) (t t2 : List Char) (us : List (List Char))
    (hv : is_variable t) (h : View s (t :: t2 :: us)) :
    ∃ s1, variable_ s = .ok true s1 ∧ Post s s1 (t2 :: us) 1 0 := by
  obtain ⟨s1, hg, hview, hvr, hac⟩ := get_token_view s t t2 us h
  have ht : s.token = t := h.1
  refine ⟨{ s1 with var_ref := s1.var_ref + 1 }, ?_, hview, ?_, ?_⟩
  · unfold variable_
    rw [ht, if_pos (show t = ['a'] ∨ t = ['b'] ∨ t = ['c'] from hv), hg]
  · simp [hvr]
  · simpa using hac

theorem variable_view_not (s : State) (h : ¬ is_variable s.token) : variable_ s = .ok false s := by
  unfold variable_
  rw [if_neg (show ¬ (s.token = ['a'] ∨ s.token = ['b'] ∨ s.token = ['c']) from h)]

theorem digit_view (s : State) (t t2 : List Char) (us : List (List Char))
    (hd : is_digit t) (h : View s (t :: t2 :: us)) :
    ∃ s1, digit s = .ok true s1 ∧ Post s s1 (t2 :: us) 0 0 := by
  obtain ⟨s1, hg, hview, hvr, hac⟩ := get_token_view s t t2 us h
  have ht : s.token = t := h.1
  refine ⟨s1, ?_, hview, hvr, hac⟩
  unfold digit
  rw [ht, if_pos (show t = ['0'] ∨ t = ['1'] ∨ t = ['2'] from hd), hg]

theorem operand_view (s : State) (t t2 : List Char) (us : List (List Char))
    (ho : is_operand t) (h : View s (t :: t2 :: us)) :
    ∃ s1, no_operand s = .ok false s1 ∧ Post s s1 (t2 :: us) (count_vars [t]) 0 := by
  rcases ho with hv | hd
  · obtain ⟨s1, h1, hp⟩ := variable_view s t t2 us hv h
    refine ⟨s1, ?_, ?_⟩
    · unfold no_operand; rw [h1]
    · simpa [count_vars, hv] using hp
  · have hnv := not_variable_of_digit t hd
    have ht : s.token = t := h.1
    obtain ⟨s1, h1, hp⟩ := digit_view s t t2 us hd h
    refine ⟨s1, ?_, ?_⟩
    · unfold no_operand
      rw [variable_view_not s (by rw [ht]; exact hnv)]
      simp only [h1]
    · simpa [count_vars, hnv] using hp

theorem Post.chain {s s1 s2 : State} {n1 n2 : List (List Char)} {dv1 da1 dv2 da2 : Nat}
    (h1 : Post s s1 n1 dv1 da1) (h2 : Post s1 s2 n2 dv2 da2) :
    Post s s2 n2 (dv1 + dv2) (da1 + da2) := by
  obtain ⟨-, hv1, ha1⟩ := h1
  obtain ⟨hw, hv2, ha2⟩ := h2
  exact ⟨hw, by omega, by omega⟩

theorem get_token_post (s : State) (t t2 : List Char) (us : List (List Char))
    (h : View s (t :: t2 :: us)) :
    ∃ s1, get_token s = .ok () s1 ∧ Post s s1 (t2 :: us) 0 0 := by
  obtain ⟨s1, hg, hview, hvr, hac⟩ := get_token_view s t t2 us h
  exact ⟨s1, hg, hview, hvr, hac⟩

theorem count_vars_cons (t : List Char) (ts : List (List Char)) :
    count_vars (t :: ts) = count_vars [t] + count_vars ts := by
  unfold count_vars
  by_cases h : is_variable t <;> simp [List.countP_cons, h, Nat.add_comm]

theorem count_vars_append (a b : List (List Char)) :
    count_vars (a ++ b) = count_vars a + count_vars b := by
  unfold count_vars
  exact List.countP_append _ _ _

theorem count_vars_not (t : List Char) (h : ¬ is_variable t) : count_vars [t] = 0 := by
  simp [count_vars, h]

theorem count_vars_var (t : List Char) (h : is_variable t) : count_vars [t] = 1 := by
  simp [count_vars, h]

theorem not_operator_of_operand (t : List Char) (h : is_operand t) : ¬ is_operator t := by
  rcases h with h | h <;> rcases h with rfl | rfl | rfl <;> simp [is_operator]

theorem not_variable_of_operator (t : List Char) (h : is_operator t) : ¬ is_variable t := by
  rcases h with rfl | rfl <;> simp [is_variable]

theorem expr_view (s : State) (e : List (List Char)) (t2 : List Char) (us : List (List Char))
    (he : Derives .expr e 0) (h : View s (e ++ t2 :: us)) :
    ∃ s1, expr s = .ok () s1 ∧ Post s s1 (t2 :: us) (count_vars e) 0 := by
  cases he with
  | operand hx =>
    rename_i x
    have ht : s.token = x := h.1
    obtain ⟨s1, h1, hp⟩ := operand_view s x t2 us hx h
    refine ⟨s1, ?_, hp⟩
    unfold expr
    rw [ht, if_neg (show ¬ (x = ['+'] ∨ x = ['*']) from not_operator_of_operand x hx), h1]
  | binary ho hx hy =>
    rename_i o x y
    have ht : s.token = o := h.1
    obtain ⟨s1, h1, hp1⟩ := get_token_post s o x (y :: t2 :: us) h
    obtain ⟨s2, h2, hp2⟩ := operand_view s1 x y (t2 :: us) hx hp1.1
    obtain ⟨s3, h3, hp3⟩ := operand_view s2 y t2 us hy hp2.1
    refine ⟨s3, ?_, ?_⟩
    · unfold expr
      rw [ht, if_pos (show o = ['+'] ∨ o = ['*'] from ho), h1]
      simp only [expr_loop, h2, h3]
    · have := (hp1.chain hp2).chain hp3
      rw [count_vars_cons o, count_vars_cons x, count_vars_not o (not_variable_of_operator o ho)]
      simpa using this

theorem testexpr_view (s : State) (t : List (List Char)) (t2 : List Char) (us : List (List Char))
    (ht : Derives .testexpr t 0) (h : View s (t ++ t2 :: us)) :
    ∃ s1, testexpr s = .ok true s1 ∧ Post s s1 (t2 :: us) (count_vars t) 0 := by
  cases ht with
  | test hv he =>
    rename_i v e
    obtain ⟨e0, e1, rfl⟩ : ∃ e0 e1, e = e0 :: e1 := by
      cases he <;> exact ⟨_, _, rfl⟩
    obtain ⟨s1, h1, hp1⟩ := variable_view s v ['<', '='] (e0 :: (e1 ++ t2 :: us)) hv h
    obtain ⟨s2, h2, hp2⟩ := get_token_post s1 ['<', '='] e0 (e1 ++ t2 :: us) hp1.1
    obtain ⟨s3, h3, hp3⟩ := expr_view s2 (e0 :: e1) t2 us he hp2.1
    refine ⟨s3, ?_, ?_⟩
    · unfold testexpr
      simp only [h1, hp1.1.1, if_true, h2, h3]
    · have := (hp1.chain hp2).chain hp3
      rw [count_vars_cons v, count_vars_cons ['<', '='], count_vars_var v hv,
        count_vars_not ['<', '='] (by simp [is_variable])]
      simpa using this

theorem assign_view (s : State) (v : List Char) (e : List (List Char)) (t2 : List Char)
    (us : List (List Char)) (hv : is_variable v) (he : Derives .expr e 0)
    (h : View s (v :: ['='] :: e ++ t2 :: us)) :
    ∃ s1, assign s = .ok true s1 ∧ Post s s1 (t2 :: us) (count_vars (v :: ['='] :: e)) 1 := by
  obtain ⟨e0, e1, rfl⟩ : ∃ e0 e1, e = e0 :: e1 := by
    cases he <;> exact ⟨_, _, rfl⟩
  obtain ⟨s1, h1, hp1⟩ := variable_view s v ['='] (e0 :: (e1 ++ t2 :: us)) hv h
  obtain ⟨s2, h2, hp2⟩ := get_token_post s1 ['='] e0 (e1 ++ t2 :: us) hp1.1
  obtain ⟨s3, h3, hp3⟩ := expr_view s2 (e0 :: e1) t2 us he hp2.1
  refine ⟨{ s3 with assign_count := s3.assign_count + 1 }, ?_, ?_⟩
  · unfold assign
    simp only [h1, hp1.1.1, if_true, h2, h3]
  · obtain ⟨hw, hvr, hac⟩ := (hp1.chain hp2).chain hp3
    rw [count_vars_cons v, count_vars_cons ['='], count_vars_var v hv,
      count_vars_not ['='] (by simp [is_variable])]
    refine ⟨hw, ?_, ?_⟩
    · simpa using hvr
    · simp [hac]

theorem get_token_post_cons (s : State) (t : List Char) (rest : List (List Char))
    (h : View s (t :: rest)) (hne : rest ≠ []) :
    ∃ s1, get_token s = .ok () s1 ∧ Post s s1 rest 0 0 := by
  cases rest with
  | nil => exact absurd rfl hne
  | cons t2 us => exact get_token_post s t t2 us h

theorem derives_ne_nil (c : Cat) (ts : List (List Char)) (k : Nat) (h : Derives c ts k) :
    ts ≠ [] := by
  induction h with
  | operand _ => simp
  | binary _ _ _ => simp
  | test _ _ _ => simp
  | assign _ _ _ => simp
  | ifstmt _ _ _ _ _ _ => simp
  | whilestmt _ _ _ _ => simp
  | of_block _ ih => exact ih
  | block _ _ => simp
  | one _ ih => exact ih
  | more _ _ ih1 _ => simp [ih1]

theorem assign_not (s : State) (h : ¬ is_variable s.token) : assign s = .ok false s := by
  unfold assign
  rw [variable_view_not s h]

theorem ifstmt_not (n : Nat) (s : State) (h : s.token ≠ ['i', 'f']) :
    ifstmt (n + 1) s = .ok false s := by
  rw [ifstmt.eq_2, if_neg h]

theorem whilestmt_not (n : Nat) (s : State) (h : s.token ≠ ['w', 'h', 'i', 'l', 'e']) :
    whilestmt (n + 1) s = .ok false s := by
  rw [whilestmt.eq_2, if_neg h]

theorem accepts_of_derives (c : Cat) (ts : List (List Char)) (k : Nat) (h : Derives c ts k) :
    Accepts c ts k := by
  induction h with
  | operand _ => trivial
  | binary _ _ _ => trivial
  | test _ _ _ => trivial
  | @assign v e hv he _ =>
    intro n s t2 us hn hview
    obtain ⟨m, rfl⟩ : ∃ m, n = m + 1 := ⟨n - 1, by omega⟩
    obtain ⟨s1, h1, hp⟩ := assign_view s v e t2 us hv he hview
    exact ⟨s1, by rw [stmt.eq_2, h1], hp⟩
  | @ifstmt t s1 s2 k1 k2 ht h1 h2 _ ih1 ih2 =>
    intro n s t2 us hn hview
    simp only [List.length_cons, List.length_append] at hn
    obtain ⟨m, rfl⟩ : ∃ m, n = m + 2 := ⟨n - 2, by omega⟩
    have e : (['i', 'f'] :: (t ++ ['t', 'h', 'e', 'n'] :: (s1 ++ ['e', 'l', 's', 'e'] :: s2)))
        ++ t2 :: us
        = ['i', 'f'] :: (t ++ ['t', 'h', 'e', 'n'] :: (s1 ++ ['e', 'l', 's', 'e'] ::
            (s2 ++ t2 :: us))) := by simp
    rw [e] at hview
    have htok : s.token = ['i', 'f'] := hview.1
    obtain ⟨sA, hA, pA⟩ := get_token_post_cons s _ _ hview (by simp)
    obtain ⟨sB, hB, pB⟩ := testexpr_view sA t _ _ ht pA.1
    obtain ⟨sC, hC, pC⟩ := get_token_post_cons sB _ _ pB.1
      (by simp [derives_ne_nil _ _ _ h1])
    obtain ⟨sD, hD, pD⟩ := ih1 m sC _ _ (by omega) pC.1
    obtain ⟨sE, hE, pE⟩ := get_token_post_cons sD _ _ pD.1
      (by simp [derives_ne_nil _ _ _ h2])
    obtain ⟨sF, hF, pF⟩ := ih2 m sE _ _ (by omega) pE.1
    refine ⟨sF, ?_, ?_⟩
    · rw [stmt.eq_2, assign_not s (by rw [htok]; simp [is_variable])]
      simp only [ifstmt.eq_2, htok, if_true, hA, hB, pB.1.1, ne_eq, not_true_eq_false, if_false,
        hC, hD, pD.1.1, hE, hF]
    · have := ((((pA.chain pB).chain pC).chain pD).chain pE).chain pF
      rw [count_vars_cons, count_vars_append, count_vars_cons ['t', 'h', 'e', 'n'],
        count_vars_append, count_vars_cons ['e', 'l', 's', 'e'],
        count_vars_not ['i', 'f'] (by simp [is_variable]),
        count_vars_not ['t', 'h', 'e', 'n'] (by simp [is_variable]),
        count_vars_not ['e', 'l', 's', 'e'] (by simp [is_variable])]
      simpa [Nat.add_assoc] using this
  | @whilestmt t s1 k1 ht h1 _ ih1 =>
    intro n s t2 us hn hview
    simp only [List.length_cons, List.length_append] at hn
    obtain ⟨m, rfl⟩ : ∃ m, n = m + 2 := ⟨n - 2, by omega⟩
    have e : (['w', 'h', 'i', 'l', 'e'] :: (t ++ ['d', 'o'] :: s1)) ++ t2 :: us
        = ['w', 'h', 'i', 'l', 'e'] :: (t ++ ['d', 'o'] :: (s1 ++ t2 :: us)) := by simp
    rw [e] at hview
    have htok : s.token = ['w', 'h', 'i', 'l', 'e'] := hview.1
    obtain ⟨sA, hA, pA⟩ := get_token_post_cons s _ _ hview (by simp)
    obtain ⟨sB, hB, pB⟩ := testexpr_view sA t _ _ ht pA.1
    obtain ⟨sC, hC, pC⟩ := get_token_post_cons sB _ _ pB.1
      (by simp [derives_ne_nil _ _ _ h1])
    obtain ⟨sD, hD, pD⟩ := ih1 m sC _ _ (by omega) pC.1
    refine ⟨sD, ?_, ?_⟩
    · rw [stmt.eq_2, assign_not s (by rw [htok]; simp [is_variable])]
      simp only [ifstmt_not m s (by rw [htok]; simp)]
      simp only [whilestmt.eq_2, htok, if_true, hA, hB, pB.1.1, ne_eq, not_true_eq_false,
        if_false, hC, hD]
    · have := ((pA.chain pB).chain pC).chain pD
      rw [count_vars_cons, count_vars_append, count_vars_cons ['d', 'o'],
        count_vars_not ['w', 'h', 'i', 'l', 'e'] (by simp [is_variable]),
        count_vars_not ['d', 'o'] (by simp [is_variable])]
      simpa [Nat.add_assoc] using this
  | @of_block b k1 hb ih =>
    intro n s t2 us hn hview
    have hlen : 2 ≤ b.length := by
      cases hb with
      | block hl => simp
    obtain ⟨m, rfl⟩ : ∃ m, n = m + 2 := ⟨n - 2, by omega⟩
    have htok : s.token = ['b', 'e', 'g', 'i', 'n'] := by
      cases hb with
      | block hl => exact hview.1
    obtain ⟨s1, h1, hp⟩ := ih (m + 1) s t2 us (by omega) hview
    refine ⟨s1, ?_, hp⟩
    rw [stmt.eq_2, assign_not s (by rw [htok]; simp [is_variable])]
    simp only [ifstmt_not m s (by rw [htok]; simp), whilestmt_not m s (by rw [htok]; simp), h1]
  | @block l k1 hl ih =>
    intro n s t2 us hn hview
    simp only [List.length_cons, List.length_append, List.length_singleton] at hn
    obtain ⟨m, rfl⟩ : ∃ m, n = m + 1 := ⟨n - 1, by omega⟩
    have e : (['b', 'e', 'g', 'i', 'n'] :: (l ++ [['e', 'n', 'd']])) ++ t2 :: us
        = ['b', 'e', 'g', 'i', 'n'] :: (l ++ ['e', 'n', 'd'] :: t2 :: us) := by simp
    rw [e] at hview
    have htok : s.token = ['b', 'e', 'g', 'i', 'n'] := hview.1
    obtain ⟨sA, hA, pA⟩ := get_token_post_cons s _ _ hview (by simp)
    obtain ⟨sB, hB, pB⟩ := ih m sA _ _ (by omega) (Or.inl rfl) pA.1
    obtain ⟨sC, hC, pC⟩ := get_token_post_cons sB _ _ pB.1 (by simp)
    refine ⟨sC, ?_, ?_⟩
    · simp only [block.eq_2, htok, ne_eq, not_true_eq_false, if_false, hA, hB, pB.1.1, if_true,
        hC, false_and]
    · have := (pA.chain pB).chain pC
      rw [count_vars_cons, count_vars_append,
        count_vars_not ['b', 'e', 'g', 'i', 'n'] (by simp [is_variable]),
        count_vars_not ['e', 'n', 'd'] (by simp [is_variable])]
      simpa using this
  | @one s1 k1 h1 ih =>
    intro n s t2 us hn ht2 hview
    obtain ⟨m, rfl⟩ : ∃ m, n = m + 2 := ⟨n - 2, by omega⟩
    obtain ⟨sA, hA, pA⟩ := ih (m + 1) s t2 us (by omega) hview
    have htok : sA.token = t2 := pA.1.1
    refine ⟨sA, ?_, pA⟩
    rw [stmtlist.eq_2, hA]
    simp only [morestmts.eq_2, htok, ht2, if_true]
  | @more s1 l k1 k2 h1 h2 ih1 ih2 =>
    intro n s t2 us hn ht2 hview
    simp only [List.length_cons, List.length_append] at hn
    obtain ⟨m, rfl⟩ : ∃ m, n = m + 2 := ⟨n - 2, by omega⟩
    have e : (s1 ++ [';'] :: l) ++ t2 :: us = s1 ++ [';'] :: (l ++ t2 :: us) := by simp
    rw [e] at hview
    obtain ⟨sA, hA, pA⟩ := ih1 (m + 1) s _ _ (by omega) hview
    have htok : sA.token = [';'] := pA.1.1
    obtain ⟨sB, hB, pB⟩ := get_token_post_cons sA _ _ pA.1
      (by simp [derives_ne_nil _ _ _ h2])
    obtain ⟨sC, hC, pC⟩ := ih2 m sB _ _ (by omega) ht2 pB.1
    refine ⟨sC, ?_, ?_⟩
    · rw [stmtlist.eq_2, hA]
      simp only [morestmts.eq_2, htok, hB, hC]
      simp
    · have := (pA.chain pB).chain pC
      rw [count_vars_append, count_vars_cons [';'], count_vars_not [';'] (by simp [is_variable])]
      simpa [Nat.add_assoc] using this

/-- The run of `program` on a token stream that holds a sentence. -/
theorem program_sentence (s0 : State) (ts : List (List Char)) (k n : Nat)
    (hs : Sentence ts k) (hn : 3 * ts.length ≤ n) (h0 : Stream s0 ts) :
    ∃ s1, program n s0 = .ok () s1 ∧ s1.assign_count = s0.assign_count + k ∧
      s1.var_ref = s0.var_ref + count_vars ts := by
  obtain ⟨l, hl, hts⟩ := hs
  have hlne := derives_ne_nil _ _ _ hl
  have hacc : Accepts .stmtlist l k := accepts_of_derives _ _ _ hl
  have hnv1 : count_vars [['p', 'r', 'o', 'g', 'r', 'a', 'm']] = 0 :=
    count_vars_not _ (by simp [is_variable])
  have hnv2 : count_vars [['b', 'e', 'g', 'i', 'n']] = 0 :=
    count_vars_not _ (by simp [is_variable])
  have hnv3 : count_vars [['e', 'n', 'd']] = 0 := count_vars_not _ (by simp [is_variable])
  have hnv4 : count_vars [['.']] = 0 := count_vars_not _ (by simp [is_variable])
  have hnv5 : count_vars [['e', 'n', 'd', '.']] = 0 := count_vars_not _ (by simp [is_variable])
  rcases hts with rfl | rfl
  · simp only [List.length_cons, List.length_append, List.length_nil] at hn
    obtain ⟨m, rfl⟩ : ∃ m, n = m + 1 := ⟨n - 1, by omega⟩
    obtain ⟨sP, hP, htokP, hstP, hvP, haP⟩ := get_token_stream s0 _ _ h0
    have vP : View sP (['p', 'r', 'o', 'g', 'r', 'a', 'm'] :: ['b', 'e', 'g', 'i', 'n'] ::
        (l ++ [['e', 'n', 'd'], ['.']])) := ⟨htokP, hstP⟩
    obtain ⟨sA, hA, pA⟩ := get_token_post_cons sP _ _ vP (by simp)
    have htokA : sA.token = ['b', 'e', 'g', 'i', 'n'] := pA.1.1
    obtain ⟨sB, hB, pB⟩ := get_token_post_cons sA _ _ pA.1 (by simp [hlne])
    have vB : View sB (l ++ ['e', 'n', 'd'] :: [['.']]) := by simpa using pB.1
    obtain ⟨sC, hC, pC⟩ := hacc m sB _ _ (by omega) (Or.inl rfl) vB
    obtain ⟨sD, hD, pD⟩ := get_token_post_cons sC _ _ pC.1 (by simp)
    have htokD : sD.token = ['.'] := pD.1.1
    obtain ⟨-, hv, ha⟩ := ((pA.chain pB).chain pC).chain pD
    refine ⟨sD, ?_, by omega, ?_⟩
    · unfold program
      simp only [hP, htokP, ne_eq, not_true_eq_false, if_false, hA, block.eq_2, htokA, hB, hC,
        pC.1.1, if_true, hD, htokD, false_and]
    · rw [count_vars_cons, count_vars_cons ['b', 'e', 'g', 'i', 'n'], count_vars_append,
        count_vars_cons ['e', 'n', 'd'], hnv1, hnv2, hnv3, hnv4]
      omega
  · simp only [List.length_cons, List.length_append, List.length_nil] at hn
    obtain ⟨m, rfl⟩ : ∃ m, n = m + 1 := ⟨n - 1, by omega⟩
    obtain ⟨sP, hP, htokP, hstP, hvP, haP⟩ := get_token_stream s0 _ _ h0
    have vP : View sP (['p', 'r', 'o', 'g', 'r', 'a', 'm'] :: ['b', 'e', 'g', 'i', 'n'] ::
        (l ++ [['e', 'n', 'd', '.']])) := ⟨htokP, hstP⟩
    obtain ⟨sA, hA, pA⟩ := get_token_post_cons sP _ _ vP (by simp)
    have htokA : sA.token = ['b', 'e', 'g', 'i', 'n'] := pA.1.1
    obtain ⟨sB, hB, pB⟩ := get_token_post_cons sA _ _ pA.1 (by simp [hlne])
    obtain ⟨sC, hC, pC⟩ := hacc m sB _ _ (by omega) (Or.inr rfl) pB.1
    have htokC : sC.token = ['e', 'n', 'd', '.'] := pC.1.1
    obtain ⟨-, hv, ha⟩ := (pA.chain pB).chain pC
    refine ⟨sC, ?_, by omega, ?_⟩
    · unfold program
      simp only [hP, htokP, ne_eq, not_true_eq_false, if_false, hA, block.eq_2, htokA, hB, hC,
        htokC]
      simp [htokC]
    · rw [count_vars_cons, count_vars_cons ['b', 'e', 'g', 'i', 'n'], count_vars_append,
        hnv1, hnv2, hnv5]
      omega

theorem sentence_lexeme (ts : List (List Char)) (k : Nat) (hs : Sentence ts k) :
    ∀ t ∈ ts, Lexeme t := by
  obtain ⟨l, hl, hts⟩ := hs
  have := derives_lexeme _ _ _ hl
  rcases hts with rfl | rfl <;>
  · intro t ht
    simp only [List.mem_cons, List.mem_append, List.mem_singleton, List.not_mem_nil,
      or_false] at ht
    rcases ht with rfl | rfl | ht | ht
    · simp [Lexeme, nul]
    · simp [Lexeme, nul]
    · exact this t ht
    · rcases ht with rfl | rfl <;> simp [Lexeme, nul]

/-- Completeness with exact counts, for lines of any length and counters without limit: when the lines of the input hold, separated by
single blanks or line ends, the tokens of a sentence of `<program>` with `k` assignment
statements, the run returns to `main` with `assign_count = k` and with `var_ref` equal to the
number of tokens that are `a`, `b` or `c`. -/
theorem main_accepts_sentence (ts : List (List Char)) (k : Nat)
    (lines : List (List (List Char))) (hs : Sentence ts k) (hl : lines.flatten = ts) :
    ∃ s1, main (lines.map line_of) = .ok () s1 ∧ s1.assign_count = k ∧
      s1.var_ref = count_vars ts := by
  have hlex := sentence_lexeme ts k hs
  obtain ⟨t, us, rfl⟩ : ∃ t us, ts = t :: us := by
    obtain ⟨l, -, h | h⟩ := hs <;> exact ⟨_, _, h⟩
  obtain ⟨s0, hg, -, hv, ha, hk, cur, rest, hb, hst, hc⟩ :=
    get_buffer_stream (init (lines.map line_of)) lines t us rfl hl hlex
  have h0 : Stream s0 (t :: us) := by
    refine ⟨t :: cur, rest, Or.inr ⟨by simp, ?_⟩, hst, by simp [hc], hlex⟩
    rw [hk, hb]; rfl
  obtain ⟨s1, h1, hac, hvr⟩ := program_sentence s0 (t :: us) k (3 * (t :: us).length) hs
    (Nat.le_refl _) h0
  refine ⟨s1, ?_, ?_, ?_⟩
  · apply main_eq_of_fuel (3 * (t :: us).length)
    · unfold main_fuel
      rw [hg]
      exact h1
    · simp
  · rw [hac, ha]; simp [init]
  · rw [hvr, hv]; simp [init]

theorem main_accepts_sentence_witness :
    Sentence [['p', 'r', 'o', 'g', 'r', 'a', 'm'], ['b', 'e', 'g', 'i', 'n'], ['a'], ['='], ['+'],
        ['b'], ['1'], [';'], ['c'], ['='], ['a'], ['e', 'n', 'd', '.']] 2 ∧
    ∃ s1, main ["program begin a = + b 1 ; c = a end.".toList] = .ok () s1 ∧
      s1.assign_count = 2 ∧ s1.var_ref = 4 := by
  have hs : Sentence [['p', 'r', 'o', 'g', 'r', 'a', 'm'], ['b', 'e', 'g', 'i', 'n'], ['a'],
      ['='], ['+'], ['b'], ['1'], [';'], ['c'], ['='], ['a'], ['e', 'n', 'd', '.']] 2 := by
    refine ⟨[['a'], ['='], ['+'], ['b'], ['1'], [';'], ['c'], ['='], ['a']], ?_, Or.inr rfl⟩
    exact @Derives.more [['a'], ['='], ['+'], ['b'], ['1']] [['c'], ['='], ['a']] 1 1
      (Derives.assign (Or.inl rfl)
        (Derives.binary (Or.inl rfl) (Or.inl (Or.inr (Or.inl rfl))) (Or.inr (Or.inr (Or.inl rfl)))))
      (Derives.one (Derives.assign (Or.inr (Or.inr rfl)) (Derives.operand (Or.inl (Or.inl rfl)))))
  exact ⟨hs, main_accepts_sentence _ 2
    [[['p', 'r', 'o', 'g', 'r', 'a', 'm'], ['b', 'e', 'g', 'i', 'n'], ['a'], ['='], ['+'],
        ['b'], ['1'], [';'], ['c'], ['='], ['a'], ['e', 'n', 'd', '.']]] hs rfl⟩

theorem same_lex_refl (s : State) : same_lex s s := ⟨rfl, rfl, rfl, rfl⟩

theorem same_lex_symm {s t : State} (h : same_lex s t) : same_lex t s :=
  ⟨h.1.symm, h.2.1.symm, h.2.2.1.symm, h.2.2.2.symm⟩

theorem same_lex_trans {s t u : State} (h1 : same_lex s t) (h2 : same_lex t u) : same_lex s u :=
  ⟨h1.1.trans h2.1, h1.2.1.trans h2.2.1, h1.2.2.1.trans h2.2.2.1, h1.2.2.2.trans h2.2.2.2⟩

theorem get_token_counters (s : State) (v a : Nat) :
    get_token { s with var_ref := v, assign_count := a } =
      match get_token s with
      | .ok u s1 => .ok u { s1 with var_ref := v, assign_count := a }
      | .halt h => .halt h := by
  unfold get_token
  simp only [remove_whitespace]
  split
  · unfold get_buffer
    simp only
    cases s.stdin with
    | nil => rfl
    | cons l ls =>
      simp only
      cases get_buffer_loop l ls with
      | none => rfl
      | some p => rfl
  · rfl

theorem get_token_same_lex {s t s1 : State} (h : same_lex s t) (hg : get_token s = .ok () s1) :
    ∃ t1, get_token t = .ok () t1 ∧ same_lex s1 t1 := by
  have e : t = { s with var_ref := t.var_ref, assign_count := t.assign_count } := by
    obtain ⟨h1, h2, h3, h4⟩ := h
    cases s; cases t
    simp only at h1 h2 h3 h4
    simp [h1, h2, h3, h4]
  rw [e, get_token_counters, hg]
  exact ⟨_, rfl, rfl, rfl, rfl, rfl⟩

theorem Reads.of_same_lex_left {s t s2 : State} {ts : List (List Char)} (h : same_lex s t)
    (hr : Reads t ts s2) : Reads s ts s2 := by
  induction hr generalizing s with
  | done h2 => exact Reads.done (same_lex_trans h h2)
  | step hg _ ih =>
    obtain ⟨s1, hg1, hs1⟩ := get_token_same_lex (same_lex_symm h) hg
    rw [← h.2.2.2]
    exact Reads.step hg1 (ih (same_lex_symm hs1))

theorem Reads.of_same_lex_right {s s1 s2 : State} {ts : List (List Char)} (hr : Reads s ts s1)
    (h : same_lex s1 s2) : Reads s ts s2 := by
  induction hr with
  | done h2 => exact Reads.done (same_lex_trans h2 h)
  | step hg _ ih => exact Reads.step hg (ih h)

theorem Reads.append {s s1 s2 : State} {ts us : List (List Char)} (h1 : Reads s ts s1)
    (h2 : Reads s1 us s2) : Reads s (ts ++ us) s2 := by
  induction h1 with
  | done h => exact Reads.of_same_lex_left h h2
  | step hg _ ih => exact Reads.step hg (ih h2)

theorem Reads.one {s s1 : State} (h : get_token s = .ok () s1) : Reads s [s.token] s1 :=
  Reads.step h (Reads.done (same_lex_refl s1))

/-- Without the two liberties the phrases are those of the grammar. -/
theorem derives_of_loose_closed (c : Cat) (ts : List (List Char)) (o st : Bool)
    (h : Loose c ts o st) (ho : o = false) (hst : st = false) : ∃ k, Derives c ts k := by
  induction h with
  | assign hv he => exact ⟨1, Derives.assign hv he⟩
  | ifstmt ht _ _ ih1 ih2 =>
    simp only [Bool.or_eq_false_iff] at hst
    obtain ⟨k1, h1⟩ := ih1 rfl hst.1
    obtain ⟨k2, h2⟩ := ih2 ho hst.2
    exact ⟨k1 + k2, Derives.ifstmt ht h1 h2⟩
  | whilestmt ht _ ih1 =>
    obtain ⟨k1, h1⟩ := ih1 ho hst
    exact ⟨k1, Derives.whilestmt ht h1⟩
  | of_block _ ih =>
    obtain ⟨k1, h1⟩ := ih ho hst
    exact ⟨k1, Derives.of_block h1⟩
  | stray _ _ _ _ => simp at hst
  | block _ ih =>
    obtain ⟨k1, h1⟩ := ih rfl hst
    exact ⟨k1, Derives.block h1⟩
  | block_open _ _ => simp at ho
  | one _ ih =>
    obtain ⟨k1, h1⟩ := ih ho hst
    exact ⟨k1, Derives.one h1⟩
  | more _ _ ih1 ih2 =>
    simp only [Bool.or_eq_false_iff] at hst
    obtain ⟨k1, h1⟩ := ih1 rfl hst.1
    obtain ⟨k2, h2⟩ := ih2 ho hst.2
    exact ⟨k1 + k2, Derives.more h1 h2⟩

/-- An open phrase without stray variable becomes a phrase of the grammar when the missing
`end` tokens, at least one, are appended. -/
theorem derives_of_loose_open (c : Cat) (ts : List (List Char)) (o st : Bool)
    (h : Loose c ts o st) (ho : o = true) (hst : st = false) :
    ∃ j k, Derives c (ts ++ List.replicate (j + 1) ['e', 'n', 'd']) k := by
  induction h with
  | assign hv he => simp at ho
  | @ifstmt t s1 s2 o st1 st2 ht hl1 _ _ ih2 =>
    simp only [Bool.or_eq_false_iff] at hst
    obtain ⟨k1, h1⟩ := derives_of_loose_closed _ _ _ _ hl1 rfl hst.1
    obtain ⟨j, k2, h2⟩ := ih2 ho hst.2
    refine ⟨j, k1 + k2, ?_⟩
    have := Derives.ifstmt ht h1 h2
    simpa using this
  | @whilestmt t s1 o st ht _ ih1 =>
    obtain ⟨j, k1, h1⟩ := ih1 ho hst
    refine ⟨j, k1, ?_⟩
    have := Derives.whilestmt ht h1
    simpa using this
  | of_block _ ih =>
    obtain ⟨j, k1, h1⟩ := ih ho hst
    exact ⟨j, k1, Derives.of_block h1⟩
  | stray _ _ _ _ => simp at hst
  | block _ _ => simp at ho
  | @block_open l o st hl ih =>
    cases o with
    | false =>
      obtain ⟨k1, h1⟩ := derives_of_loose_closed _ _ _ _ hl rfl hst
      exact ⟨0, k1, by simpa using Derives.block h1⟩
    | true =>
      obtain ⟨j, k1, h1⟩ := ih rfl hst
      refine ⟨j + 1, k1, ?_⟩
      have := Derives.block h1
      rw [List.replicate_succ' (j + 1)]
      simpa using this
  | one _ ih =>
    obtain ⟨j, k1, h1⟩ := ih ho hst
    exact ⟨j, k1, Derives.one h1⟩
  | @more s1 l o st1 st2 hl1 _ _ ih2 =>
    simp only [Bool.or_eq_false_iff] at hst
    obtain ⟨k1, h1⟩ := derives_of_loose_closed _ _ _ _ hl1 rfl hst.1
    obtain ⟨j, k2, h2⟩ := ih2 ho hst.2
    refine ⟨j, k1 + k2, ?_⟩
    have := Derives.more h1 h2
    simpa using this

/-! ## Soundness: what a procedure that returns has read -/

theorem variable_sound (s s1 : State) (b : Bool) (h : variable_ s = .ok b s1) :
    (b = true ∧ is_variable s.token ∧ Reads s [s.token] s1) ∨
    (b = false ∧ ¬ is_variable s.token ∧ s1 = s) := by
  unfold variable_ at h
  split at h
  · rename_i hv
    cases hg : get_token s with
    | halt h0 => simp [hg] at h
    | ok u s2 =>
      simp only [hg, Res.ok.injEq] at h
      obtain ⟨rfl, rfl⟩ := h
      exact Or.inl ⟨rfl, hv, (Reads.one hg).of_same_lex_right ⟨rfl, rfl, rfl, rfl⟩⟩
  · rename_i hv
    simp only [Res.ok.injEq] at h
    obtain ⟨rfl, rfl⟩ := h
    exact Or.inr ⟨rfl, hv, rfl⟩

theorem digit_sound (s s1 : State) (b : Bool) (h : digit s = .ok b s1) :
    (b = true ∧ is_digit s.token ∧ Reads s [s.token] s1) ∨
    (b = false ∧ ¬ is_digit s.token ∧ s1 = s) := by
  unfold digit at h
  split at h
  · rename_i hv
    cases hg : get_token s with
    | halt h0 => simp [hg] at h
    | ok u s2 =>
      simp only [hg, Res.ok.injEq] at h
      obtain ⟨rfl, rfl⟩ := h
      exact Or.inl ⟨rfl, hv, Reads.one hg⟩
  · rename_i hv
    simp only [Res.ok.injEq] at h
    obtain ⟨rfl, rfl⟩ := h
    exact Or.inr ⟨rfl, hv, rfl⟩

theorem no_operand_sound (s s1 : State) (b : Bool) (h : no_operand s = .ok b s1) :
    (b = false ∧ is_operand s.token ∧ Reads s [s.token] s1) ∨
    (b = true ∧ ¬ is_operand s.token ∧ s1 = s) := by
  unfold no_operand at h
  cases hv : variable_ s with
  | halt h0 => simp [hv] at h
  | ok bv sv =>
    rcases variable_sound _ _ _ hv with ⟨rfl, h1, h2⟩ | ⟨rfl, h1, rfl⟩
    · simp only [hv, Res.ok.injEq] at h
      obtain ⟨rfl, rfl⟩ := h
      exact Or.inl ⟨rfl, Or.inl h1, h2⟩
    · simp only [hv] at h
      cases hd : digit sv with
      | halt h0 => simp [hd] at h
      | ok bd sd =>
        rcases digit_sound _ _ _ hd with ⟨rfl, h3, h4⟩ | ⟨rfl, h3, rfl⟩
        · simp only [hd, Res.ok.injEq] at h
          obtain ⟨rfl, rfl⟩ := h
          exact Or.inl ⟨rfl, Or.inr h3, h4⟩
        · simp only [hd, Res.ok.injEq] at h
          obtain ⟨rfl, rfl⟩ := h
          exact Or.inr ⟨rfl, fun ho => ho.elim h1 h3, rfl⟩

theorem expr_sound (s s1 : State) (u : Unit) (h : expr s = .ok u s1) :
    ∃ e, Derives .expr e 0 ∧ Reads s e s1 := by
  unfold expr at h
  split at h
  · rename_i hop
    cases hg : get_token s with
    | halt h0 => simp [hg] at h
    | ok u2 s2 =>
      simp only [hg, expr_loop] at h
      cases hn : no_operand s2 with
      | halt h0 => simp [hn] at h
      | ok b3 s3 =>
        rcases no_operand_sound _ _ _ hn with ⟨rfl, hx, hr3⟩ | ⟨rfl, -, -⟩
        · simp only [hn] at h
          cases hn2 : no_operand s3 with
          | halt h0 => simp [hn2] at h
          | ok b4 s4 =>
            rcases no_operand_sound _ _ _ hn2 with ⟨rfl, hy, hr4⟩ | ⟨rfl, -, -⟩
            · simp only [hn2, Res.ok.injEq] at h
              obtain ⟨-, rfl⟩ := h
              exact ⟨[s.token, s2.token, s3.token], Derives.binary hop hx hy,
                ((Reads.one hg).append hr3).append hr4⟩
            · simp [hn2] at h
        · simp [hn] at h
  · cases hn : no_operand s with
    | halt h0 => simp [hn] at h
    | ok b3 s3 =>
      rcases no_operand_sound _ _ _ hn with ⟨rfl, hx, hr3⟩ | ⟨rfl, -, -⟩
      · simp only [hn, Res.ok.injEq] at h
        obtain ⟨-, rfl⟩ := h
        exact ⟨[s.token], Derives.operand hx, hr3⟩
      · simp [hn] at h

theorem testexpr_sound (s s1 : State) (h : testexpr s = .ok true s1) :
    ∃ t, Derives .testexpr t 0 ∧ Reads s t s1 := by
  unfold testexpr at h
  cases hv : variable_ s with
  | halt h0 => simp [hv] at h
  | ok bv sv =>
    rcases variable_sound _ _ _ hv with ⟨rfl, h1, h2⟩ | ⟨rfl, h1, rfl⟩
    · simp only [hv] at h
      split at h
      · rename_i htok
        cases hg : get_token sv with
        | halt h0 => simp [hg] at h
        | ok u2 s2 =>
          simp only [hg] at h
          cases he : expr s2 with
          | halt h0 => simp [he] at h
          | ok u3 s3 =>
            simp only [he, Res.ok.injEq, true_and] at h
            subst h
            obtain ⟨e, hde, hre⟩ := expr_sound _ _ _ he
            refine ⟨s.token :: ['<', '='] :: e, Derives.test h1 hde, ?_⟩
            have := (h2.append (Reads.one hg)).append hre
            rw [htok] at this
            simpa using this
      · simp at h
    · simp [hv] at h

theorem assign_sound (s s1 : State) (b : Bool) (h : assign s = .ok b s1) :
    (b = true ∧ ∃ v e, is_variable v ∧ Derives .expr e 0 ∧ Reads s (v :: ['='] :: e) s1) ∨
    (b = false ∧ ¬ is_variable s.token ∧ s1 = s) ∨
    (b = false ∧ is_variable s.token ∧ Reads s [s.token] s1) := by
  unfold assign at h
  cases hv : variable_ s with
  | halt h0 => simp [hv] at h
  | ok bv sv =>
    rcases variable_sound _ _ _ hv with ⟨rfl, h1, h2⟩ | ⟨rfl, h1, rfl⟩
    · simp only [hv] at h
      split at h
      · rename_i htok
        cases hg : get_token sv with
        | halt h0 => simp [hg] at h
        | ok u2 s2 =>
          simp only [hg] at h
          cases he : expr s2 with
          | halt h0 => simp [he] at h
          | ok u3 s3 =>
            simp only [he, Res.ok.injEq] at h
            obtain ⟨rfl, rfl⟩ := h
            obtain ⟨e, hde, hre⟩ := expr_sound _ _ _ he
            refine Or.inl ⟨rfl, s.token, e, h1, hde, ?_⟩
            have := @Reads.of_same_lex_right _ _ { s3 with assign_count := s3.assign_count + 1 } _
              ((h2.append (Reads.one hg)).append hre) ⟨rfl, rfl, rfl, rfl⟩
            rw [htok] at this
            simpa using this
      · simp only [Res.ok.injEq] at h
        obtain ⟨rfl, rfl⟩ := h
        exact Or.inr (Or.inr ⟨rfl, h1, h2⟩)
    · simp only [hv, Res.ok.injEq] at h
      obtain ⟨rfl, rfl⟩ := h
      exact Or.inr (Or.inl ⟨rfl, h1, rfl⟩)

/-- What each recursive procedure has read when it returns: it returns `TRUE`, the tokens
consumed form a phrase of the loose grammar, and an open phrase leaves `end.` current. -/
theorem sound_step (n : Nat) :
    (∀ s b s1, block n s = .ok b s1 → b = true ∧ ∃ ts o st, Reads s ts s1 ∧
        Loose .block ts o st ∧ ts.head? = some ['b', 'e', 'g', 'i', 'n'] ∧
        (o = true → s1.token = ['e', 'n', 'd', '.'])) ∧
    (∀ s u s1, stmtlist n s = .ok u s1 → ∃ ts o st, Reads s ts s1 ∧
        Loose .stmtlist ts o st ∧ (o = true → s1.token = ['e', 'n', 'd', '.']) ∧
        (s1.token = ['e', 'n', 'd'] ∨ s1.token = ['e', 'n', 'd', '.'])) ∧
    (∀ s b s1, morestmts n s = .ok b s1 → b = true ∧
        ((s1 = s ∧ (s.token = ['e', 'n', 'd'] ∨ s.token = ['e', 'n', 'd', '.'])) ∨
         (s.token = [';'] ∧ ∃ l o st, Reads s ([';'] :: l) s1 ∧ Loose .stmtlist l o st ∧
            (o = true → s1.token = ['e', 'n', 'd', '.']) ∧
            (s1.token = ['e', 'n', 'd'] ∨ s1.token = ['e', 'n', 'd', '.'])))) ∧
    (∀ s b s1, stmt n s = .ok b s1 → b = true ∧ ∃ ts o st, Reads s ts s1 ∧
        Loose .stmt ts o st ∧ (o = true → s1.token = ['e', 'n', 'd', '.'])) ∧
    (∀ s b s1, ifstmt n s = .ok b s1 → (b = false ∧ s1 = s) ∨
        (b = true ∧ ∃ ts o st, Reads s ts s1 ∧ Loose .stmt ts o st ∧
          ts.head? = some ['i', 'f'] ∧ (o = true → s1.token = ['e', 'n', 'd', '.']))) ∧
    (∀ s b s1, whilestmt n s = .ok b s1 → (b = false ∧ s1 = s) ∨
        (b = true ∧ ∃ ts o st, Reads s ts s1 ∧ Loose .stmt ts o st ∧
          ts.head? = some ['w', 'h', 'i', 'l', 'e'] ∧
          (o = true → s1.token = ['e', 'n', 'd', '.']))) := by
  induction n with
  | zero => simp [block, stmtlist, morestmts, stmt, ifstmt, whilestmt]
  | succ n ih =>
    obtain ⟨hb, hsl, hm, hs, hi, hw⟩ := ih
    refine ⟨?_, ?_, ?_, ?_, ?_, ?_⟩
    · intro s b r h
      rw [block.eq_2 s n] at h
      split at h
      · simp at h
      · rename_i htok
        simp only [ne_eq, not_not] at htok
        cases hg : get_token s with
        | halt h0 => simp [hg] at h
        | ok u s1 =>
          simp only [hg] at h
          cases hl : stmtlist n s1 with
          | halt h0 => simp [hl] at h
          | ok u2 s2 =>
            obtain ⟨l, o, st, hrl, hll, hol, -⟩ := hsl _ _ _ hl
            simp only [hl] at h
            split at h
            · simp at h
            · split at h
              · rename_i hend
                cases hg2 : get_token s2 with
                | halt h0 => simp [hg2] at h
                | ok u3 s3 =>
                  simp only [hg2, Res.ok.injEq] at h
                  obtain ⟨rfl, rfl⟩ := h
                  have ho : o = false := by
                    cases o with
                    | false => rfl
                    | true => rw [hol rfl] at hend; simp at hend
                  subst ho
                  refine ⟨rfl, ['b', 'e', 'g', 'i', 'n'] :: (l ++ [['e', 'n', 'd']]), false, st,
                    ?_, Loose.block hll, rfl, by simp⟩
                  have := ((Reads.one hg).append hrl).append (Reads.one hg2)
                  rw [htok, hend] at this
                  simpa using this
              · rename_i hnot hend
                simp only [Res.ok.injEq] at h
                obtain ⟨rfl, rfl⟩ := h
                have hdot : s2.token = ['e', 'n', 'd', '.'] := by
                  by_contra hc
                  exact hnot ⟨hend, hc⟩
                refine ⟨rfl, ['b', 'e', 'g', 'i', 'n'] :: l, true, st, ?_,
                  Loose.block_open hll, rfl, fun _ => hdot⟩
                have := (Reads.one hg).append hrl
                rw [htok] at this
                simpa using this
    · intro s b r h
      rw [stmtlist.eq_2 s n] at h
      cases hst : stmt n s with
      | halt h0 => simp [hst] at h
      | ok b1 s1 =>
        obtain ⟨rfl, ts, o, st, hr1, hl1, ho1⟩ := hs _ _ _ hst
        simp only [hst] at h
        cases hmo : morestmts n s1 with
        | halt h0 => simp [hmo] at h
        | ok b2 s2 =>
          obtain ⟨rfl, hcase⟩ := hm _ _ _ hmo
          simp only [hmo, Res.ok.injEq, true_and] at h
          subst h
          rcases hcase with ⟨rfl, hend⟩ | ⟨hsemi, l, o2, st2, hr2, hl2, ho2, hend2⟩
          · exact ⟨ts, o, st, hr1, Loose.one hl1, ho1, hend⟩
          · have ho : o = false := by
              cases o with
              | false => rfl
              | true => rw [ho1 rfl] at hsemi; simp at hsemi
            subst ho
            exact ⟨ts ++ [';'] :: l, o2, st || st2, hr1.append hr2, Loose.more hl1 hl2, ho2, hend2⟩
    · intro s b r h
      rw [morestmts.eq_2 s n] at h
      split at h
      · rename_i hend
        simp only [Res.ok.injEq] at h
        obtain ⟨rfl, rfl⟩ := h
        exact ⟨rfl, Or.inl ⟨rfl, hend⟩⟩
      · split at h
        · rename_i hsemi
          cases hg : get_token s with
          | halt h0 => simp [hg] at h
          | ok u s1 =>
            simp only [hg] at h
            cases hl : stmtlist n s1 with
            | halt h0 => simp [hl] at h
            | ok u2 s2 =>
              obtain ⟨l, o, st, hrl, hll, hol, hend⟩ := hsl _ _ _ hl
              simp only [hl, Res.ok.injEq] at h
              obtain ⟨rfl, rfl⟩ := h
              refine ⟨rfl, Or.inr ⟨hsemi, l, o, st, ?_, hll, hol, hend⟩⟩
              have := (Reads.one hg).append hrl
              rw [hsemi] at this
              simpa using this
        · simp at h
    · intro s b r h
      rw [stmt.eq_2 s n] at h
      cases ha : assign s with
      | halt h0 => simp [ha] at h
      | ok b1 s1 =>
        have key : ∀ (pre : List (List Char)), Reads s pre s1 →
            (pre = [] ∨ ∃ v, is_variable v ∧ pre = [v]) →
            (match ifstmt n s1 with
              | .halt h => .halt h
              | .ok true s2 => .ok true s2
              | .ok false s2 =>
                match whilestmt n s2 with
                | .halt h => .halt h
                | .ok true s3 => .ok true s3
                | .ok false s3 =>
                  match block n s3 with
                  | .halt h => .halt h
                  | .ok true s4 => .ok true s4
                  | .ok false _ => .halt (.exit STMT_ERROR)) = Res.ok b r →
            b = true ∧ ∃ ts o st, Reads s ts r ∧ Loose .stmt ts o st ∧
              (o = true → r.token = ['e', 'n', 'd', '.']) := by
          intro pre hpre hshape h
          have wrap : ∀ ts o st, Reads s1 ts r → Loose .stmt ts o st →
              (ts.head? = some ['i', 'f'] ∨ ts.head? = some ['w', 'h', 'i', 'l', 'e'] ∨
                ts.head? = some ['b', 'e', 'g', 'i', 'n']) →
              (o = true → r.token = ['e', 'n', 'd', '.']) →
              ∃ ts o st, Reads s ts r ∧ Loose .stmt ts o st ∧
                (o = true → r.token = ['e', 'n', 'd', '.']) := by
            intro ts o st hr hl hh ho
            rcases hshape with rfl | ⟨v, hv, rfl⟩
            · exact ⟨ts, o, st, by simpa using hpre.append hr, hl, ho⟩
            · exact ⟨v :: ts, o, true, by simpa using hpre.append hr, Loose.stray hv hl hh, ho⟩
          cases hif : ifstmt n s1 with
          | halt h0 => simp [hif] at h
          | ok b2 s2 =>
            rcases hi _ _ _ hif with ⟨rfl, rfl⟩ | ⟨rfl, ts, o, st, hr, hl, hh, ho⟩
            · simp only [hif] at h
              cases hwh : whilestmt n s2 with
              | halt h0 => simp [hwh] at h
              | ok b3 s3 =>
                rcases hw _ _ _ hwh with ⟨rfl, rfl⟩ | ⟨rfl, ts, o, st, hr, hl, hh, ho⟩
                · simp only [hwh] at h
                  cases hbl : block n s3 with
                  | halt h0 => simp [hbl] at h
                  | ok b4 s4 =>
                    obtain ⟨rfl, ts, o, st, hr, hl, hh, ho⟩ := hb _ _ _ hbl
                    simp only [hbl, Res.ok.injEq] at h
                    obtain ⟨rfl, rfl⟩ := h
                    exact ⟨rfl, wrap ts o st hr (Loose.of_block hl) (Or.inr (Or.inr hh)) ho⟩
                · simp only [hwh, Res.ok.injEq] at h
                  obtain ⟨rfl, rfl⟩ := h
                  exact ⟨rfl, wrap ts o st hr hl (Or.inr (Or.inl hh)) ho⟩
            · simp only [hif, Res.ok.injEq] at h
              obtain ⟨rfl, rfl⟩ := h
              exact ⟨rfl, wrap ts o st hr hl (Or.inl hh) ho⟩
        rcases assign_sound _ _ _ ha with ⟨rfl, v, e, hv, he, hr⟩ | ⟨rfl, hnv, rfl⟩ |
          ⟨rfl, hv, hr⟩
        · simp only [ha, Res.ok.injEq] at h
          obtain ⟨rfl, rfl⟩ := h
          exact ⟨rfl, _, false, false, hr, Loose.assign hv he, by simp⟩
        · simp only [ha] at h
          exact key [] (Reads.done (same_lex_refl _)) (Or.inl rfl) h
        · simp only [ha] at h
          exact key [s.token] hr (Or.inr ⟨_, hv, rfl⟩) h
    · intro s b r h
      rw [ifstmt.eq_2 s n] at h
      split at h
      · rename_i htok
        cases hg : get_token s with
        | halt h0 => simp [hg] at h
        | ok u s1 =>
          simp only [hg] at h
          cases hte : testexpr s1 with
          | halt h0 => simp [hte] at h
          | ok bt s2 =>
            cases bt with
            | false => simp [hte] at h
            | true =>
              obtain ⟨t, hdt, hrt⟩ := testexpr_sound _ _ hte
              simp only [hte] at h
              split at h
              · simp at h
              · rename_i hthen
                simp only [ne_eq, not_not] at hthen
                cases hg2 : get_token s2 with
                | halt h0 => simp [hg2] at h
                | ok u2 s3 =>
                  simp only [hg2] at h
                  cases hst : stmt n s3 with
                  | halt h0 => simp [hst] at h
                  | ok b4 s4 =>
                    obtain ⟨-, ts1, o1, st1, hr1, hl1, ho1⟩ := hs _ _ _ hst
                    simp only [hst] at h
                    split at h
                    · simp at h
                    · rename_i helse
                      simp only [ne_eq, not_not] at helse
                      have ho : o1 = false := by
                        cases o1 with
                        | false => rfl
                        | true => rw [ho1 rfl] at helse; simp at helse
                      subst ho
                      cases hg3 : get_token s4 with
                      | halt h0 => simp [hg3] at h
                      | ok u3 s5 =>
                        simp only [hg3] at h
                        cases hst2 : stmt n s5 with
                        | halt h0 => simp [hst2] at h
                        | ok b6 s6 =>
                          obtain ⟨-, ts2, o2, st2, hr2, hl2, ho2⟩ := hs _ _ _ hst2
                          simp only [hst2, Res.ok.injEq] at h
                          obtain ⟨rfl, rfl⟩ := h
                          refine Or.inr ⟨rfl, _, o2, st1 || st2, ?_, Loose.ifstmt hdt hl1 hl2,
                            rfl, ho2⟩
                          have := (((((Reads.one hg).append hrt).append (Reads.one hg2)).append
                            hr1).append (Reads.one hg3)).append hr2
                          rw [htok, hthen, helse] at this
                          simpa using this
      · simp only [Res.ok.injEq] at h
        obtain ⟨rfl, rfl⟩ := h
        exact Or.inl ⟨rfl, rfl⟩
    · intro s b r h
      rw [whilestmt.eq_2 s n] at h
      split at h
      · rename_i htok
        cases hg : get_token s with
        | halt h0 => simp [hg] at h
        | ok u s1 =>
          simp only [hg] at h
          cases hte : testexpr s1 with
          | halt h0 => simp [hte] at h
          | ok bt s2 =>
            cases bt with
            | false => simp [hte] at h
            | true =>
              obtain ⟨t, hdt, hrt⟩ := testexpr_sound _ _ hte
              simp only [hte] at h
              split at h
              · simp at h
              · rename_i hdo
                simp only [ne_eq, not_not] at hdo
                cases hg2 : get_token s2 with
                | halt h0 => simp [hg2] at h
                | ok u2 s3 =>
                  simp only [hg2] at h
                  cases hst : stmt n s3 with
                  | halt h0 => simp [hst] at h
                  | ok b4 s4 =>
                    obtain ⟨-, ts1, o1, st1, hr1, hl1, ho1⟩ := hs _ _ _ hst
                    simp only [hst, Res.ok.injEq] at h
                    obtain ⟨rfl, rfl⟩ := h
                    refine Or.inr ⟨rfl, _, o1, st1, ?_, Loose.whilestmt hdt hl1, rfl, ho1⟩
                    have := (((Reads.one hg).append hrt).append (Reads.one hg2)).append hr1
                    rw [htok, hdo] at this
                    simpa using this
      · simp only [Res.ok.injEq] at h
        obtain ⟨rfl, rfl⟩ := h
        exact Or.inl ⟨rfl, rfl⟩

/-- In a phrase of the grammar every `begin` has its `end`. -/
theorem derives_begin_end (c : Cat) (ts : List (List Char)) (k : Nat) (h : Derives c ts k) :
    ts.count ['b', 'e', 'g', 'i', 'n'] = ts.count ['e', 'n', 'd'] := by
  induction h with
  | operand hx =>
    rcases hx with hx | hx <;> rcases hx with rfl | rfl | rfl <;> decide
  | binary ho hx hy =>
    rcases ho with rfl | rfl <;> rcases hx with hx | hx <;> rcases hx with rfl | rfl | rfl <;>
      rcases hy with hy | hy <;> rcases hy with rfl | rfl | rfl <;> decide
  | test hv _ ih =>
    rcases hv with rfl | rfl | rfl <;> simpa [List.count_cons] using ih
  | assign hv _ ih =>
    rcases hv with rfl | rfl | rfl <;> simpa [List.count_cons] using ih
  | ifstmt _ _ _ iht ih1 ih2 =>
    simp only [List.count_cons, List.count_append] at *
    simp
    omega
  | whilestmt _ _ iht ih1 =>
    simp only [List.count_cons, List.count_append] at *
    simp
    omega
  | of_block _ ih => exact ih
  | block _ ih =>
    simp only [List.count_cons, List.count_append] at *
    simp
    omega
  | one _ ih => exact ih
  | more _ _ ih1 ih2 =>
    simp only [List.count_cons, List.count_append] at *
    simp
    omega

/-- Counterexample to claim C2: the run on `program begin begin a = 0 end.` returns to
`main`, yet its tokens are no sentence of `<program>`: the inner block has no `end`. -/
theorem main_accepts_non_sentence :
    main ["program begin begin a = 0 end.".toList] =
      .ok () { stdin := [], buffer := "program begin begin a = 0 end.".toList, lookahead := 30,
               token := ['e', 'n', 'd', '.'], var_ref := 1, assign_count := 1 } ∧
    ¬ ∃ k, Sentence [['p', 'r', 'o', 'g', 'r', 'a', 'm'], ['b', 'e', 'g', 'i', 'n'],
        ['b', 'e', 'g', 'i', 'n'], ['a'], ['='], ['0'], ['e', 'n', 'd', '.']] k := by
  refine ⟨by decide, ?_⟩
  rintro ⟨k, l, hl, h | h⟩
  · have h2 := congrArg List.reverse h
    simp at h2
  · have e : l = [['b', 'e', 'g', 'i', 'n'], ['a'], ['='], ['0']] := by
      have h3 : [['b', 'e', 'g', 'i', 'n'], ['a'], ['='], ['0']] ++ [['e', 'n', 'd', '.']]
          = l ++ [['e', 'n', 'd', '.']] := by simpa using h
      exact (List.append_cancel_right h3).symm
    subst e
    have := derives_begin_end _ _ _ hl
    revert this
    decide

/-- Claim C2 as amended (soundness up to the liberties of the code): when the run returns to
`main`, the tokens read are `program`, a token sequence `b` and the terminator (the token
current at the end), which is `.` or `end.`.  Unless `b` holds a statement preceded by a
stray variable token, either `b` is a `<block>` of the grammar, or the terminator is
`end.` and `b` followed by some `end` tokens is a `<block>`. -/
theorem main_success_reads (input : List (List Char)) (sf : State)
    (h : main input = .ok () sf) :
    ∃ s0 sP b o st, get_buffer (init input) = .ok () s0 ∧ get_token s0 = .ok () sP ∧
      Reads sP (['p', 'r', 'o', 'g', 'r', 'a', 'm'] :: b) sf ∧ Loose .block b o st ∧
      (sf.token = ['.'] ∨ sf.token = ['e', 'n', 'd', '.']) ∧
      (st = false →
        (∃ k, Derives .block b k) ∨
        (sf.token = ['e', 'n', 'd', '.'] ∧
          ∃ j k, Derives .block (b ++ List.replicate j ['e', 'n', 'd']) k)) := by
  unfold main main_fuel at h
  cases hb : get_buffer (init input) with
  | halt h0 => simp [hb] at h
  | ok u0 s0 =>
    simp only [hb] at h
    unfold program at h
    cases hg : get_token s0 with
    | halt h0 => simp [hg] at h
    | ok u1 sP =>
      simp only [hg] at h
      split at h
      · simp at h
      · rename_i hprog
        simp only [ne_eq, not_not] at hprog
        cases hg2 : get_token sP with
        | halt h0 => simp [hg2] at h
        | ok u2 sA =>
          simp only [hg2] at h
          cases hbl : block (3 * remaining (init input)) sA with
          | halt h0 => simp [hbl] at h
          | ok b3 sB =>
            simp only [hbl] at h
            split at h
            · simp at h
            · rename_i hterm
              simp only [Res.ok.injEq, true_and] at h
              subst h
              obtain ⟨-, b, o, st, hr, hl, -, ho⟩ := (sound_step _).1 _ _ _ hbl
              have hterm2 : sB.token = ['.'] ∨ sB.token = ['e', 'n', 'd', '.'] := by
                by_cases hd : sB.token = ['.']
                · exact Or.inl hd
                · right
                  by_contra hc
                  exact hterm ⟨hd, hc⟩
              refine ⟨s0, sP, b, o, st, rfl, hg, ?_, hl, hterm2, ?_⟩
              · have := (Reads.one hg2).append hr
                rw [hprog] at this
                simpa using this
              · intro hst
                cases o with
                | false => exact Or.inl (derives_of_loose_closed _ _ _ _ hl rfl hst)
                | true =>
                  obtain ⟨j, k, hd⟩ := derives_of_loose_open _ _ _ _ hl rfl hst
                  exact Or.inr ⟨ho rfl, j + 1, k, hd⟩

theorem main_success_reads_witness :
    ∃ s0 sP b o st,
      get_buffer (init ["program begin begin a = 0 end.".toList]) = .ok () s0 ∧
      get_token s0 = .ok () sP ∧
      Reads sP (['p', 'r', 'o', 'g', 'r', 'a', 'm'] :: b)
        { stdin := [], buffer := "program begin begin a = 0 end.".toList, lookahead := 30,
          token := ['e', 'n', 'd', '.'], var_ref := 1, assign_count := 1 } ∧
      Loose .block b o st ∧
      (['e', 'n', 'd', '.'] = ['.'] ∨ ['e', 'n', 'd', '.'] = ['e', 'n', 'd', '.']) ∧
      (st = false →
        (∃ k, Derives .block b k) ∨
        (['e', 'n', 'd', '.'] = ['e', 'n', 'd', '.'] ∧
          ∃ j k, Derives .block (b ++ List.replicate j ['e', 'n', 'd']) k)) :=
  main_success_reads ["program begin begin a = 0 end.".toList]
    { stdin := [], buffer := "program begin begin a = 0 end.".toList, lookahead := 30,
      token := ['e', 'n', 'd', '.'], var_ref := 1, assign_count := 1 } (by decide)

/-! ## Missing `=` and missing `begin` -/

/-- Claim C3 at its own example: on `program begin a 0 end.` the run stops with status 101,
not with the status 104 of `stmt`: after `assign`, `ifstmt` and `whilestmt` have returned
failure, `block` does not return failure but calls `exit(BLOCK_ERROR)`. -/
theorem main_variable_without_assign_op :
    main ["program begin a 0 end.".toList] = .halt (.exit BLOCK_ERROR) ∧
    BLOCK_ERROR = 101 ∧ STMT_ERROR = 104 := by
  decide

/-- Claim C4 (missing `begin` is a block violation): when the first token read is `program`
and the second one is not `begin`, the run stops with status 101. -/
theorem main_missing_begin (input : List (List Char)) (s0 sP sA : State)
    (h0 : get_buffer (init input) = .ok () s0) (h1 : get_token s0 = .ok () sP)
    (hP : sP.token = ['p', 'r', 'o', 'g', 'r', 'a', 'm']) (h2 : get_token sP = .ok () sA)
    (hA : sA.token ≠ ['b', 'e', 'g', 'i', 'n']) :
    main input = .halt (.exit 101) ∧ main input ≠ .halt (.exit 100) := by
  have hr := get_buffer_remaining _ _ _ h0
  obtain ⟨m, hm⟩ : ∃ m, 3 * remaining (init input) = m + 1 :=
    ⟨3 * remaining (init input) - 1, by omega⟩
  have e : main input = .halt (.exit 101) := by
    unfold main main_fuel program
    simp only [h0, h1, hP, ne_eq, not_true_eq_false, if_false, h2, hm, block.eq_2, hA,
      not_false_eq_true, if_true, BLOCK_ERROR]
  rw [e]
  exact ⟨rfl, by simp⟩

theorem main_missing_begin_witness :
    main ["program starts begin a = 0 end.".toList] = .halt (.exit 101) ∧
    main ["program starts begin a = 0 end.".toList] ≠ .halt (.exit 100) :=
  main_missing_begin ["program starts begin a = 0 end.".toList]
    { stdin := [], buffer := "program starts begin a = 0 end.".toList, lookahead := 0,
      token := [], var_ref := 0, assign_count := 0 }
    { stdin := [], buffer := "program starts begin a = 0 end.".toList, lookahead := 7,
      token := "program".toList, var_ref := 0, assign_count := 0 }
    { stdin := [], buffer := "program starts begin a = 0 end.".toList, lookahead := 14,
      token := "starts".toList, var_ref := 0, assign_count := 0 }
    (by decide) (by decide) (by decide) (by decide) (by decide)

/-- Claim C5 (committed alternatives): `ifstmt` entered on a token other than `if` returns
failure and leaves the state alone; once `if` is matched, a failure of `testexpr`, a token
other than `then` after it, or a token other than `else` after the then-statement stops the
run with status 106.  Likewise for `whilestmt`, `while`, `do` and status 107. -/
theorem committed_alternatives (n : Nat) (s : State) :
    (s.token ≠ ['i', 'f'] → ifstmt (n + 1) s = .ok false s) ∧
    (s.token = ['i', 'f'] → ∀ sA, get_token s = .ok () sA →
      (∀ sB, testexpr sA = .ok false sB → ifstmt (n + 1) s = .halt (.exit 106)) ∧
      (∀ sB, testexpr sA = .ok true sB →
        (sB.token ≠ ['t', 'h', 'e', 'n'] → ifstmt (n + 1) s = .halt (.exit 106)) ∧
        (sB.token = ['t', 'h', 'e', 'n'] → ∀ sC, get_token sB = .ok () sC →
          ∀ b sD, stmt n sC = .ok b sD → sD.token ≠ ['e', 'l', 's', 'e'] →
            ifstmt (n + 1) s = .halt (.exit 106)))) ∧
    (s.token ≠ ['w', 'h', 'i', 'l', 'e'] → whilestmt (n + 1) s = .ok false s) ∧
    (s.token = ['w', 'h', 'i', 'l', 'e'] → ∀ sA, get_token s = .ok () sA →
      (∀ sB, testexpr sA = .ok false sB → whilestmt (n + 1) s = .halt (.exit 107)) ∧
      (∀ sB, testexpr sA = .ok true sB → sB.token ≠ ['d', 'o'] →
        whilestmt (n + 1) s = .halt (.exit 107))) := by
  refine ⟨ifstmt_not n s, ?_, whilestmt_not n s, ?_⟩
  · intro htok sA hA
    refine ⟨?_, ?_⟩
    · intro sB hB
      rw [ifstmt.eq_2, if_pos htok, hA]
      simp only [hB, IFSTMT_ERROR]
    · intro sB hB
      refine ⟨?_, ?_⟩
      · intro hthen
        rw [ifstmt.eq_2, if_pos htok, hA]
        simp only [hB, hthen, ne_eq, not_false_eq_true, if_true, IFSTMT_ERROR]
      · intro hthen sC hC b sD hD helse
        rw [ifstmt.eq_2, if_pos htok, hA]
        simp only [hB, hthen, ne_eq, not_true_eq_false, if_false, hC, hD, helse,
          not_false_eq_true, if_true, IFSTMT_ERROR]
  · intro htok sA hA
    refine ⟨?_, ?_⟩
    · intro sB hB
      rw [whilestmt.eq_2, if_pos htok, hA]
      simp only [hB, WHILESTMT_ERROR]
    · intro sB hB hdo
      rw [whilestmt.eq_2, if_pos htok, hA]
      simp only [hB, hdo, ne_eq, not_false_eq_true, if_true, WHILESTMT_ERROR]

theorem committed_alternatives_witness :
    ifstmt 4 (on_line "a = 0 end." 1 "a" 0 0) = .ok false (on_line "a = 0 end." 1 "a" 0 0) ∧
    ifstmt 4 (on_line "if 1 <= a then a = 0 else a = 1 end." 2 "if" 0 0) = .halt (.exit 106) ∧
    ifstmt 4 (on_line "if a <= 1 do a = 0 else a = 1 end." 2 "if" 0 0) = .halt (.exit 106) ∧
    ifstmt 4 (on_line "if a <= 1 then a = 0 end." 2 "if" 0 0) = .halt (.exit 106) ∧
    whilestmt 4 (on_line "a = 0 end." 1 "a" 0 0) = .ok false (on_line "a = 0 end." 1 "a" 0 0) ∧
    whilestmt 4 (on_line "while a < 1 do a = 0 end." 5 "while" 0 0) = .halt (.exit 107) ∧
    whilestmt 4 (on_line "while a <= 1 then a = 0 end." 5 "while" 0 0) = .halt (.exit 107) :=
  ⟨(committed_alternatives 3 (on_line "a = 0 end." 1 "a" 0 0)).1 (by decide),
   ((committed_alternatives 3 (on_line "if 1 <= a then a = 0 else a = 1 end." 2 "if" 0 0)).2.1
      (by decide) (on_line "if 1 <= a then a = 0 else a = 1 end." 4 "1" 0 0) (by decide)).1
      (on_line "if 1 <= a then a = 0 else a = 1 end." 4 "1" 0 0) (by decide),
   (((committed_alternatives 3 (on_line "if a <= 1 do a = 0 else a = 1 end." 2 "if" 0 0)).2.1
      (by decide) (on_line "if a <= 1 do a = 0 else a = 1 end." 4 "a" 0 0) (by decide)).2
      (on_line "if a <= 1 do a = 0 else a = 1 end." 12 "do" 1 0) (by decide)).1 (by decide),
   (((committed_alternatives 3 (on_line "if a <= 1 then a = 0 end." 2 "if" 0 0)).2.1
      (by decide) (on_line "if a <= 1 then a = 0 end." 4 "a" 0 0) (by decide)).2
      (on_line "if a <= 1 then a = 0 end." 14 "then" 1 0) (by decide)).2 (by decide)
      (on_line "if a <= 1 then a = 0 end." 16 "a" 1 0) (by decide) true
      (on_line "if a <= 1 then a = 0 end." 25 "end." 2 1) (by decide) (by decide),
   (committed_alternatives 3 (on_line "a = 0 end." 1 "a" 0 0)).2.2.1 (by decide),
   ((committed_alternatives 3 (on_line "while a < 1 do a = 0 end." 5 "while" 0 0)).2.2.2
      (by decide) (on_line "while a < 1 do a = 0 end." 7 "a" 0 0) (by decide)).1
      (on_line "while a < 1 do a = 0 end." 9 "<" 1 0) (by decide),
   ((committed_alternatives 3 (on_line "while a <= 1 then a = 0 end." 5 "while" 0 0)).2.2.2
      (by decide) (on_line "while a <= 1 then a = 0 end." 7 "a" 0 0) (by decide)).2
      (on_line "while a <= 1 then a = 0 end." 17 "then" 1 0) (by decide) (by decide)⟩

/-! ## Exact effect of `variable`, `digit` and `expr` -/

theorem variable_eq (s : State) :
    variable_ s = if is_variable s.token then
        (match get_token s with
          | .halt h => .halt h
          | .ok _ s1 => .ok true { s1 with var_ref := s.var_ref + 1 })
      else .ok false s := by
  unfold variable_ is_variable
  split
  · cases hg : get_token s with
    | halt h0 => rfl
    | ok u s1 =>
      have := (get_token_frame _ _ _ hg).1
      simp only [this]
  · rfl

theorem digit_eq (s : State) :
    digit s = if is_digit s.token then
        (match get_token s with
          | .halt h => .halt h
          | .ok _ s1 => .ok true s1)
      else .ok false s := by
  unfold digit is_digit
  rfl

theorem state_var_ref_self (s : State) (v : Nat) (h : s.var_ref = v) :
    { s with var_ref := v } = s := by
  subst h; rfl

theorem no_operand_eq (s : State) :
    no_operand s = if is_operand s.token then
        (match get_token s with
          | .halt h => .halt h
          | .ok _ s1 => .ok false { s1 with var_ref := s.var_ref + count_vars [s.token] })
      else .ok true s := by
  unfold no_operand
  rw [variable_eq]
  by_cases hv : is_variable s.token
  · rw [if_pos hv, if_pos (show is_operand s.token from Or.inl hv), count_vars_var _ hv]
    cases hg : get_token s with
    | halt h0 => rfl
    | ok u s1 => rfl
  · rw [if_neg hv]
    simp only
    rw [digit_eq, count_vars_not _ hv]
    by_cases hd : is_digit s.token
    · rw [if_pos hd, if_pos (show is_operand s.token from Or.inr hd)]
      cases hg : get_token s with
      | halt h0 => rfl
      | ok u s1 =>
        have := (get_token_frame _ _ _ hg).1
        simp only [Nat.add_zero]
        rw [state_var_ref_self s1 _ this]
    · rw [if_neg hd, if_neg (show ¬ is_operand s.token from fun h => h.elim hv hd)]

theorem get_token_with_var (s : State) (v : Nat) :
    get_token { s with var_ref := v } =
      match get_token s with
      | .ok u s1 => .ok u { s1 with var_ref := v }
      | .halt h => .halt h := by
  have := get_token_counters s v s.assign_count
  rw [this]
  cases hg : get_token s with
  | halt h0 => rfl
  | ok u s1 =>
    have := (get_token_frame _ _ _ hg).2
    simp only [← this]

/-! ## Who calls `exit` -/

theorem get_buffer_no_exit (s : State) (c : Nat) : get_buffer s ≠ .halt (.exit c) := by
  unfold get_buffer
  cases s.stdin with
  | nil => simp
  | cons l ls =>
    simp only
    cases get_buffer_loop l ls with
    | none => simp
    | some p => simp

theorem get_token_no_exit (s : State) (c : Nat) : get_token s ≠ .halt (.exit c) := by
  unfold get_token
  simp only
  split
  · have := get_buffer_no_exit (remove_whitespace s) c
    cases hb : get_buffer (remove_whitespace s) with
    | halt h0 =>
      intro h
      simp only [Res.halt.injEq] at h
      exact this (by rw [hb, h])
    | ok u s2 => simp
  · simp

theorem variable_no_exit (s : State) (c : Nat) : variable_ s ≠ .halt (.exit c) := by
  rw [variable_eq]
  split
  · have := get_token_no_exit s c
    cases hg : get_token s with
    | halt h0 =>
      intro h
      simp only [Res.halt.injEq] at h
      exact this (by rw [hg, h])
    | ok u s2 => simp
  · simp

theorem digit_no_exit (s : State) (c : Nat) : digit s ≠ .halt (.exit c) := by
  rw [digit_eq]
  split
  · have := get_token_no_exit s c
    cases hg : get_token s with
    | halt h0 =>
      intro h
      simp only [Res.halt.injEq] at h
      exact this (by rw [hg, h])
    | ok u s2 => simp
  · simp

theorem no_operand_no_exit (s : State) (c : Nat) : no_operand s ≠ .halt (.exit c) := by
  rw [no_operand_eq]
  split
  · have := get_token_no_exit s c
    cases hg : get_token s with
    | halt h0 =>
      intro h
      simp only [Res.halt.injEq] at h
      exact this (by rw [hg, h])
    | ok u s2 => simp
  · simp

theorem expr_loop_exit (k : Nat) (s : State) (c : Nat) (h : expr_loop k s = .halt (.exit c)) :
    c = 109 := by
  induction k generalizing s with
  | zero => simp [expr_loop] at h
  | succ k ih =>
    simp only [expr_loop] at h
    have hn := no_operand_no_exit s c
    cases hns : no_operand s with
    | halt h0 =>
      simp only [hns, Res.halt.injEq] at h
      exact absurd (by rw [hns, h]) hn
    | ok b s1 =>
      cases b with
      | true =>
        simp only [hns, Res.halt.injEq, Halt.exit.injEq, EXPR_ERROR] at h
        exact h.symm
      | false =>
        simp only [hns] at h
        exact ih s1 h

theorem expr_exit (s : State) (c : Nat) (h : expr s = .halt (.exit c)) : c = 109 := by
  unfold expr at h
  split at h
  · have hg := get_token_no_exit s c
    cases hgs : get_token s with
    | halt h0 =>
      simp only [hgs, Res.halt.injEq] at h
      exact absurd (by rw [hgs, h]) hg
    | ok u s1 =>
      simp only [hgs] at h
      exact expr_loop_exit 2 s1 c h
  · have hn := no_operand_no_exit s c
    cases hns : no_operand s with
    | halt h0 =>
      simp only [hns, Res.halt.injEq] at h
      exact absurd (by rw [hns, h]) hn
    | ok b s1 =>
      cases b with
      | true =>
        simp only [hns, Res.halt.injEq, Halt.exit.injEq, EXPR_ERROR] at h
        exact h.symm
      | false => simp [hns] at h

theorem testexpr_exit (s : State) (c : Nat) (h : testexpr s = .halt (.exit c)) : c = 109 := by
  unfold testexpr at h
  have hv := variable_no_exit s c
  cases hvs : variable_ s with
  | halt h0 =>
    simp only [hvs, Res.halt.injEq] at h
    exact absurd (by rw [hvs, h]) hv
  | ok b s1 =>
    cases b with
    | false => simp [hvs] at h
    | true =>
      simp only [hvs] at h
      split at h
      · have hg := get_token_no_exit s1 c
        cases hgs : get_token s1 with
        | halt h0 =>
          simp only [hgs, Res.halt.injEq] at h
          exact absurd (by rw [hgs, h]) hg
        | ok u s2 =>
          simp only [hgs] at h
          cases hes : expr s2 with
          | halt h0 =>
            simp only [hes, Res.halt.injEq] at h
            exact expr_exit s2 c (by rw [hes, h])
          | ok u2 s3 => simp [hes] at h
      · simp at h

theorem assign_exit (s : State) (c : Nat) (h : assign s = .halt (.exit c)) : c = 109 := by
  unfold assign at h
  have hv := variable_no_exit s c
  cases hvs : variable_ s with
  | halt h0 =>
    simp only [hvs, Res.halt.injEq] at h
    exact absurd (by rw [hvs, h]) hv
  | ok b s1 =>
    cases b with
    | false => simp [hvs] at h
    | true =>
      simp only [hvs] at h
      split at h
      · have hg := get_token_no_exit s1 c
        cases hgs : get_token s1 with
        | halt h0 =>
          simp only [hgs, Res.halt.injEq] at h
          exact absurd (by rw [hgs, h]) hg
        | ok u s2 =>
          simp only [hgs] at h
          cases hes : expr s2 with
          | halt h0 =>
            simp only [hes, Res.halt.injEq] at h
            exact expr_exit s2 c (by rw [hes, h])
          | ok u2 s3 => simp [hes] at h
      · simp at h

theorem expr_operator_eq (s s1 : State) (hop : is_operator s.token)
    (hg : get_token s = .ok () s1) :
    expr s = if is_operand s1.token then
        (match get_token s1 with
          | .halt h => .halt h
          | .ok _ s2 =>
            if is_operand s2.token then
              (match get_token s2 with
                | .halt h => .halt h
                | .ok _ s3 =>
                  .ok () { s3 with var_ref := s.var_ref + count_vars [s1.token, s2.token] })
            else .halt (.exit 109))
      else .halt (.exit 109) := by
  have hv1 := (get_token_frame _ _ _ hg).1
  unfold expr
  rw [if_pos (show s.token = ['+'] ∨ s.token = ['*'] from hop), hg]
  simp only [expr_loop]
  rw [no_operand_eq]
  by_cases h1 : is_operand s1.token
  · rw [if_pos h1, if_pos h1]
    cases hg1 : get_token s1 with
    | halt h0 => rfl
    | ok u2 s2 =>
      simp only
      rw [no_operand_eq]
      by_cases h2 : is_operand s2.token
      · rw [if_pos h2, if_pos h2, get_token_with_var]
        cases hg2 : get_token s2 with
        | halt h0 => rfl
        | ok u3 s3 =>
          simp only [hv1, count_vars_cons s1.token [s2.token], Nat.add_assoc]
      · rw [if_neg h2, if_neg h2]
        rfl
  · rw [if_neg h1, if_neg h1]
    rfl

/-- With counters without limit, `expr` is flat and two-operand: `expr` returns exactly when the current token is
an operand (one token consumed) or an operator followed by two operands (three tokens
consumed); then `var_ref` has grown by the number of variable operands and `assign_count`
is unchanged.  With any other tokens at the cursor the run stops with status 109, the only
status `expr` ever stops with; a nested expression such as `+ + a b c` is among them. -/
theorem expr_flat (s : State) :
    (∀ sf, expr s = .ok () sf ↔ expr_one s sf ∨ expr_three s sf) ∧
    (∀ sf, expr s = .ok () sf → sf.assign_count = s.assign_count) ∧
    (¬ is_operand s.token → ¬ is_operator s.token → expr s = .halt (.exit 109)) ∧
    (is_operator s.token → ∀ s1, get_token s = .ok () s1 →
      (¬ is_operand s1.token → expr s = .halt (.exit 109)) ∧
      (is_operand s1.token → ∀ s2, get_token s1 = .ok () s2 → ¬ is_operand s2.token →
        expr s = .halt (.exit 109))) ∧
    (∀ c, expr s = .halt (.exit c) → c = 109) ∧
    main ["program begin a = + + a b c end.".toList] = .halt (.exit 109) := by
  have hiff : ∀ sf, expr s = .ok () sf ↔ expr_one s sf ∨ expr_three s sf := by
    intro sf
    constructor
    · intro h
      by_cases hop : is_operator s.token
      · right
        cases hg : get_token s with
        | halt h0 =>
          unfold expr at h
          rw [if_pos (show s.token = ['+'] ∨ s.token = ['*'] from hop), hg] at h
          simp at h
        | ok u s1 =>
          rw [expr_operator_eq s s1 hop hg] at h
          by_cases h1 : is_operand s1.token
          · rw [if_pos h1] at h
            cases hg1 : get_token s1 with
            | halt h0 => simp [hg1] at h
            | ok u2 s2 =>
              simp only [hg1] at h
              by_cases h2 : is_operand s2.token
              · rw [if_pos h2] at h
                cases hg2 : get_token s2 with
                | halt h0 => simp [hg2] at h
                | ok u3 s3 =>
                  simp only [hg2, Res.ok.injEq, true_and] at h
                  exact ⟨hop, s1, s2, s3, hg, h1, hg1, h2, hg2, h.symm⟩
              · rw [if_neg h2] at h
                simp at h
          · rw [if_neg h1] at h
            simp at h
      · left
        unfold expr at h
        rw [if_neg (show ¬ (s.token = ['+'] ∨ s.token = ['*']) from hop), no_operand_eq] at h
        by_cases h1 : is_operand s.token
        · rw [if_pos h1] at h
          cases hg : get_token s with
          | halt h0 => simp [hg] at h
          | ok u s1 =>
            simp only [hg, Res.ok.injEq, true_and] at h
            exact ⟨h1, s1, hg, h.symm⟩
        · rw [if_neg h1] at h
          simp at h
    · rintro (⟨h1, sN, hg, rfl⟩ | ⟨hop, s1, s2, s3, hg, h1, hg1, h2, hg2, rfl⟩)
      · unfold expr
        rw [if_neg (show ¬ (s.token = ['+'] ∨ s.token = ['*']) from
          not_operator_of_operand _ h1), no_operand_eq, if_pos h1, hg]
      · rw [expr_operator_eq s s1 hop hg, if_pos h1, hg1]
        simp only [if_pos h2, hg2]
  refine ⟨hiff, ?_, ?_, ?_, expr_exit s, by decide⟩
  · intro sf h
    rcases (hiff sf).1 h with ⟨-, sN, hg, rfl⟩ | ⟨-, s1, s2, s3, hg, -, hg1, -, hg2, rfl⟩
    · exact (get_token_frame _ _ _ hg).2
    · have a1 := (get_token_frame _ _ _ hg).2
      have a2 := (get_token_frame _ _ _ hg1).2
      have a3 := (get_token_frame _ _ _ hg2).2
      show s3.assign_count = s.assign_count
      omega
  · intro h1 h2
    unfold expr
    rw [if_neg (show ¬ (s.token = ['+'] ∨ s.token = ['*']) from h2), no_operand_eq, if_neg h1]
    rfl
  · intro hop s1 hg
    rw [expr_operator_eq s s1 hop hg]
    refine ⟨fun h1 => by rw [if_neg h1], ?_⟩
    intro h1 s2 hg1 h2
    rw [if_pos h1, hg1]
    simp only [if_neg h2]

theorem expr_flat_witness :
    expr (on_line "a end." 1 "a" 0 0) = .ok () (on_line "a end." 6 "end." 1 0) ∧
    expr (on_line "+ b 1 ;" 1 "+" 0 0) = .ok () (on_line "+ b 1 ;" 7 ";" 1 0) ∧
    (on_line "+ b 1 ;" 7 ";" 1 0).assign_count = (on_line "+ b 1 ;" 1 "+" 0 0).assign_count ∧
    expr (on_line "; a" 1 ";" 0 0) = .halt (.exit 109) ∧
    expr (on_line "+ + a b c end." 1 "+" 0 0) = .halt (.exit 109) ∧
    expr (on_line "+ a + b c end." 1 "+" 0 0) = .halt (.exit 109) ∧
    main ["program begin a = + + a b c end.".toList] = .halt (.exit 109) :=
  ⟨((expr_flat (on_line "a end." 1 "a" 0 0)).1 (on_line "a end." 6 "end." 1 0)).2
      (Or.inl ⟨by decide, on_line "a end." 6 "end." 0 0, by decide, by decide⟩),
   ((expr_flat (on_line "+ b 1 ;" 1 "+" 0 0)).1 (on_line "+ b 1 ;" 7 ";" 1 0)).2
      (Or.inr ⟨by decide, on_line "+ b 1 ;" 3 "b" 0 0, on_line "+ b 1 ;" 5 "1" 0 0,
        on_line "+ b 1 ;" 7 ";" 0 0, by decide, by decide, by decide, by decide, by decide,
        by decide⟩),
   (expr_flat (on_line "+ b 1 ;" 1 "+" 0 0)).2.1 (on_line "+ b 1 ;" 7 ";" 1 0) (by decide),
   (expr_flat (on_line "; a" 1 ";" 0 0)).2.2.1 (by decide) (by decide),
   ((expr_flat (on_line "+ + a b c end." 1 "+" 0 0)).2.2.2.1 (by decide)
      (on_line "+ + a b c end." 3 "+" 0 0) (by decide)).1 (by decide),
   ((expr_flat (on_line "+ a + b c end." 1 "+" 0 0)).2.2.2.1 (by decide)
      (on_line "+ a + b c end." 3 "a" 0 0) (by decide)).2 (by decide)
      (on_line "+ a + b c end." 5 "+" 0 0) (by decide) (by decide),
   (expr_flat (on_line "a end." 1 "a" 0 0)).2.2.2.2.2⟩

/-- With counters without limit, `variable` and `digit` are exact single-token matchers: `variable` returns
success exactly on the tokens `a`, `b`, `c`; then the state is the one `get_token` leaves,
with `var_ref` one higher.  `digit` returns success exactly on `0`, `1`, `2`; then the state
is the one `get_token` leaves.  A failure leaves the state as it was. -/
theorem variable_digit_exact (s : State) :
    (∀ b s1, variable_ s = .ok b s1 → (b = true ↔ is_variable s.token)) ∧
    (is_variable s.token → ∀ sN, get_token s = .ok () sN →
      variable_ s = .ok true { sN with var_ref := s.var_ref + 1 } ∧
      sN.assign_count = s.assign_count) ∧
    (∀ s1, variable_ s = .ok false s1 → s1 = s) ∧
    (∀ b s1, digit s = .ok b s1 → (b = true ↔ is_digit s.token)) ∧
    (is_digit s.token → ∀ sN, get_token s = .ok () sN →
      digit s = .ok true sN ∧ sN.var_ref = s.var_ref ∧ sN.assign_count = s.assign_count) ∧
    (∀ s1, digit s = .ok false s1 → s1 = s) := by
  refine ⟨?_, ?_, ?_, ?_, ?_, ?_⟩
  · intro b s1 h
    rcases variable_sound _ _ _ h with ⟨rfl, hv, -⟩ | ⟨rfl, hv, -⟩
    · simp [hv]
    · simp [hv]
  · intro hv sN hg
    rw [variable_eq, if_pos hv, hg]
    exact ⟨rfl, (get_token_frame _ _ _ hg).2⟩
  · intro s1 h
    rcases variable_sound _ _ _ h with ⟨hb, -, -⟩ | ⟨-, -, e⟩
    · simp at hb
    · exact e
  · intro b s1 h
    rcases digit_sound _ _ _ h with ⟨rfl, hv, -⟩ | ⟨rfl, hv, -⟩
    · simp [hv]
    · simp [hv]
  · intro hv sN hg
    rw [digit_eq, if_pos hv, hg]
    exact ⟨rfl, get_token_frame _ _ _ hg⟩
  · intro s1 h
    rcases digit_sound _ _ _ h with ⟨hb, -, -⟩ | ⟨-, -, e⟩
    · simp at hb
    · exact e

theorem variable_digit_exact_witness :
    (true = true ↔ is_variable (on_line "c = a end." 1 "c" 3 1).token) ∧
    (variable_ (on_line "c = a end." 1 "c" 3 1) = .ok true (on_line "c = a end." 3 "=" 4 1) ∧
      (on_line "c = a end." 3 "=" 3 1).assign_count = (on_line "c = a end." 1 "c" 3 1).assign_count) ∧
    on_line "0 end." 1 "0" 3 1 = on_line "0 end." 1 "0" 3 1 ∧
    (true = true ↔ is_digit (on_line "0 end." 1 "0" 3 1).token) ∧
    (digit (on_line "0 end." 1 "0" 3 1) = .ok true (on_line "0 end." 6 "end." 3 1) ∧
      (on_line "0 end." 6 "end." 3 1).var_ref = (on_line "0 end." 1 "0" 3 1).var_ref ∧
      (on_line "0 end." 6 "end." 3 1).assign_count = (on_line "0 end." 1 "0" 3 1).assign_count) ∧
    on_line "c = a end." 1 "c" 3 1 = on_line "c = a end." 1 "c" 3 1 :=
  ⟨(variable_digit_exact (on_line "c = a end." 1 "c" 3 1)).1 true
      (on_line "c = a end." 3 "=" 4 1) (by decide),
   (variable_digit_exact (on_line "c = a end." 1 "c" 3 1)).2.1 (by decide)
      (on_line "c = a end." 3 "=" 3 1) (by decide),
   (variable_digit_exact (on_line "0 end." 1 "0" 3 1)).2.2.1
      (on_line "0 end." 1 "0" 3 1) (by decide),
   (variable_digit_exact (on_line "0 end." 1 "0" 3 1)).2.2.2.1 true
      (on_line "0 end." 6 "end." 3 1) (by decide),
   (variable_digit_exact (on_line "0 end." 1 "0" 3 1)).2.2.2.2.1 (by decide)
      (on_line "0 end." 6 "end." 3 1) (by decide),
   (variable_digit_exact (on_line "c = a end." 1 "c" 3 1)).2.2.2.2.2
      (on_line "c = a end." 1 "c" 3 1) (by decide)⟩

/-! ## Statement lists and the terminator -/

/-- Claim C7 (`morestmts` is a three-way decision): on `end` or `end.` it returns success
with the state unchanged; on `;` it consumes that token and runs `stmtlist` on what follows;
on every other token the run stops with status 103. -/
theorem morestmts_three_way (n : Nat) (s : State) :
    (s.token = ['e', 'n', 'd'] ∨ s.token = ['e', 'n', 'd', '.'] →
      morestmts (n + 1) s = .ok true s) ∧
    (s.token = [';'] → ∀ s1, get_token s = .ok () s1 →
      (∀ s2, stmtlist n s1 = .ok () s2 → morestmts (n + 1) s = .ok true s2) ∧
      (∀ h, stmtlist n s1 = .halt h → morestmts (n + 1) s = .halt h)) ∧
    (s.token ≠ ['e', 'n', 'd'] → s.token ≠ ['e', 'n', 'd', '.'] → s.token ≠ [';'] →
      morestmts (n + 1) s = .halt (.exit 103)) ∧
    main ["program begin a = 0 b = 1 end.".toList] = .halt (.exit 103) := by
  refine ⟨?_, ?_, ?_, by decide⟩
  · intro h
    rw [morestmts.eq_2, if_pos h]
  · intro h s1 hg
    have hne : ¬ (s.token = ['e', 'n', 'd'] ∨ s.token = ['e', 'n', 'd', '.']) := by
      rw [h]; decide
    refine ⟨?_, ?_⟩
    · intro s2 hl
      rw [morestmts.eq_2, if_neg hne, if_pos h, hg]
      simp only [hl]
    · intro h0 hl
      rw [morestmts.eq_2, if_neg hne, if_pos h, hg]
      simp only [hl]
  · intro h1 h2 h3
    rw [morestmts.eq_2, if_neg (fun h => h.elim h1 h2), if_neg h3]
    rfl

theorem morestmts_three_way_witness :
    morestmts 6 (on_line "a = 0 end ." 9 "end" 1 1) = .ok true (on_line "a = 0 end ." 9 "end" 1 1) ∧
    morestmts 6 (on_line "a = 0 ; b = 1 end." 7 ";" 1 1)
      = .ok true (on_line "a = 0 ; b = 1 end." 18 "end." 2 2) ∧
    morestmts 6 (on_line "a = 0 ; b 1 end." 7 ";" 1 1) = .halt (.exit 101) ∧
    morestmts 6 (on_line "a = 0 b = 1 end." 7 "b" 1 1) = .halt (.exit 103) ∧
    main ["program begin a = 0 b = 1 end.".toList] = .halt (.exit 103) :=
  ⟨(morestmts_three_way 5 (on_line "a = 0 end ." 9 "end" 1 1)).1 (by decide),
   ((morestmts_three_way 5 (on_line "a = 0 ; b = 1 end." 7 ";" 1 1)).2.1 (by decide)
      (on_line "a = 0 ; b = 1 end." 9 "b" 1 1) (by decide)).1
      (on_line "a = 0 ; b = 1 end." 18 "end." 2 2) (by decide),
   ((morestmts_three_way 5 (on_line "a = 0 ; b 1 end." 7 ";" 1 1)).2.1 (by decide)
      (on_line "a = 0 ; b 1 end." 9 "b" 1 1) (by decide)).2 (.exit 101) (by decide),
   (morestmts_three_way 5 (on_line "a = 0 b = 1 end." 7 "b" 1 1)).2.2.1 (by decide)
      (by decide) (by decide),
   (morestmts_three_way 5 (on_line "a = 0 b = 1 end." 7 "b" 1 1)).2.2.2⟩

/-- Claim C8 (terminator protocol): when `stmtlist` returns inside `block`, a current token
`end` is consumed and `end.` is left in place; `program` then returns when the current
token after `block` is `.` or `end.`, and stops the run with status 100 otherwise. -/
theorem terminator_protocol (n : Nat) :
    (∀ s s1 s2, s.token = ['b', 'e', 'g', 'i', 'n'] → get_token s = .ok () s1 →
      stmtlist n s1 = .ok () s2 →
      (s2.token = ['e', 'n', 'd'] → ∀ s3, get_token s2 = .ok () s3 →
        block (n + 1) s = .ok true s3) ∧
      (s2.token = ['e', 'n', 'd', '.'] → block (n + 1) s = .ok true s2)) ∧
    (∀ s0 sP sA b sB, get_token s0 = .ok () sP →
      sP.token = ['p', 'r', 'o', 'g', 'r', 'a', 'm'] → get_token sP = .ok () sA →
      block n sA = .ok b sB →
      (sB.token = ['.'] ∨ sB.token = ['e', 'n', 'd', '.'] → program n s0 = .ok () sB) ∧
      (sB.token ≠ ['.'] → sB.token ≠ ['e', 'n', 'd', '.'] →
        program n s0 = .halt (.exit 100))) ∧
    (∃ s1 s2, main ["program begin a = 0 end .".toList] = .ok () s1 ∧
      main ["program begin a = 0 end.".toList] = .ok () s2 ∧
      s1.var_ref = s2.var_ref ∧ s1.assign_count = s2.assign_count) := by
  refine ⟨?_, ?_, ⟨on_line "program begin a = 0 end ." 25 "." 1 1,
    on_line "program begin a = 0 end." 24 "end." 1 1, by decide, by decide, rfl, rfl⟩⟩
  · intro s s1 s2 hb hg hl
    refine ⟨?_, ?_⟩
    · intro he s3 hg3
      rw [block.eq_2]
      simp only [hb, ne_eq, not_true_eq_false, if_false, hg, hl, he, false_and, if_true, hg3]
    · intro he
      rw [block.eq_2]
      simp only [hb, ne_eq, not_true_eq_false, if_false, hg, hl, he, and_false]
      simp
  · intro s0 sP sA b sB h0 hP hA hB
    refine ⟨?_, ?_⟩
    · intro ht
      unfold program
      simp only [h0, hP, ne_eq, not_true_eq_false, if_false, hA, hB]
      rw [if_neg]
      rcases ht with ht | ht <;> simp [ht]
    · intro h1 h2
      unfold program
      simp only [h0, hP, ne_eq, not_true_eq_false, if_false, hA, hB, h1, h2,
        not_false_eq_true, and_self, if_true, PROGRAM_ERROR]

theorem terminator_protocol_witness :
    block 9 (on_line "program begin a = 0 end ." 13 "begin" 0 0)
      = .ok true (on_line "program begin a = 0 end ." 25 "." 1 1) ∧
    block 9 (on_line "program begin a = 0 end." 13 "begin" 0 0)
      = .ok true (on_line "program begin a = 0 end." 24 "end." 1 1) ∧
    program 9 (on_line "program begin a = 0 end ." 0 "" 0 0)
      = .ok () (on_line "program begin a = 0 end ." 25 "." 1 1) ∧
    program 9 (on_line "program begin a = 0 end ;" 0 "" 0 0) = .halt (.exit 100) ∧
    (∃ s1 s2, main ["program begin a = 0 end .".toList] = .ok () s1 ∧
      main ["program begin a = 0 end.".toList] = .ok () s2 ∧
      s1.var_ref = s2.var_ref ∧ s1.assign_count = s2.assign_count) :=
  ⟨((terminator_protocol 8).1 (on_line "program begin a = 0 end ." 13 "begin" 0 0)
      (on_line "program begin a = 0 end ." 15 "a" 0 0)
      (on_line "program begin a = 0 end ." 23 "end" 1 1) (by decide) (by decide) (by decide)).1
      (by decide) (on_line "program begin a = 0 end ." 25 "." 1 1) (by decide),
   ((terminator_protocol 8).1 (on_line "program begin a = 0 end." 13 "begin" 0 0)
      (on_line "program begin a = 0 end." 15 "a" 0 0)
      (on_line "program begin a = 0 end." 24 "end." 1 1) (by decide) (by decide) (by decide)).2
      (by decide),
   ((terminator_protocol 9).2.1 (on_line "program begin a = 0 end ." 0 "" 0 0)
      (on_line "program begin a = 0 end ." 7 "program" 0 0)
      (on_line "program begin a = 0 end ." 13 "begin" 0 0) true
      (on_line "program begin a = 0 end ." 25 "." 1 1) (by decide) (by decide) (by decide)
      (by decide)).1 (by decide),
   ((terminator_protocol 9).2.1 (on_line "program begin a = 0 end ;" 0 "" 0 0)
      (on_line "program begin a = 0 end ;" 7 "program" 0 0)
      (on_line "program begin a = 0 end ;" 13 "begin" 0 0) true
      (on_line "program begin a = 0 end ;" 25 ";" 1 1) (by decide) (by decide) (by decide)
      (by decide)).2 (by decide) (by decide),
   (terminator_protocol 0).2.2⟩

/-! ## Status codes of a failing run -/

theorem exit_codes_step (n : Nat) :
    (∀ s c, block n s = .halt (.exit c) → grammar_code c) ∧
    (∀ s c, stmtlist n s = .halt (.exit c) → grammar_code c) ∧
    (∀ s c, morestmts n s = .halt (.exit c) → grammar_code c) ∧
    (∀ s c, stmt n s = .halt (.exit c) → grammar_code c) ∧
    (∀ s c, ifstmt n s = .halt (.exit c) → grammar_code c) ∧
    (∀ s c, whilestmt n s = .halt (.exit c) → grammar_code c) := by
  induction n with
  | zero => simp [block, stmtlist, morestmts, stmt, ifstmt, whilestmt]
  | succ n ih =>
    obtain ⟨hb, hsl, hm, hs, hi, hw⟩ := ih
    obtain ⟨sb, ssl, sm, ss, si, sw⟩ := sound_step n
    refine ⟨?_, ?_, ?_, ?_, ?_, ?_⟩
    · intro s c h
      rw [block.eq_2 s n] at h
      split at h
      · simp only [Res.halt.injEq, Halt.exit.injEq, BLOCK_ERROR] at h
        exact Or.inl h.symm
      · cases hg : get_token s with
        | halt h0 =>
          simp only [hg, Res.halt.injEq] at h
          exact absurd (by rw [hg, h]) (get_token_no_exit s c)
        | ok u s1 =>
          simp only [hg] at h
          cases hl : stmtlist n s1 with
          | halt h0 =>
            simp only [hl, Res.halt.injEq] at h
            exact hsl s1 c (by rw [hl, h])
          | ok u2 s2 =>
            simp only [hl] at h
            split at h
            · simp only [Res.halt.injEq, Halt.exit.injEq, BLOCK_ERROR] at h
              exact Or.inl h.symm
            · split at h
              · cases hg2 : get_token s2 with
                | halt h0 =>
                  simp only [hg2, Res.halt.injEq] at h
                  exact absurd (by rw [hg2, h]) (get_token_no_exit s2 c)
                | ok u3 s3 => simp [hg2] at h
              · simp at h
    · intro s c h
      rw [stmtlist.eq_2 s n] at h
      cases hst : stmt n s with
      | halt h0 =>
        simp only [hst, Res.halt.injEq] at h
        exact hs s c (by rw [hst, h])
      | ok b s1 =>
        obtain ⟨rfl, -⟩ := ss _ _ _ hst
        simp only [hst] at h
        cases hmo : morestmts n s1 with
        | halt h0 =>
          simp only [hmo, Res.halt.injEq] at h
          exact hm s1 c (by rw [hmo, h])
        | ok b2 s2 =>
          obtain ⟨rfl, -⟩ := sm _ _ _ hmo
          simp [hmo] at h
    · intro s c h
      rw [morestmts.eq_2 s n] at h
      split at h
      · simp at h
      · split at h
        · cases hg : get_token s with
          | halt h0 =>
            simp only [hg, Res.halt.injEq] at h
            exact absurd (by rw [hg, h]) (get_token_no_exit s c)
          | ok u s1 =>
            simp only [hg] at h
            cases hl : stmtlist n s1 with
            | halt h0 =>
              simp only [hl, Res.halt.injEq] at h
              exact hsl s1 c (by rw [hl, h])
            | ok u2 s2 => simp [hl] at h
        · simp only [Res.halt.injEq, Halt.exit.injEq, MORESTMTS_ERROR] at h
          exact Or.inr (Or.inl h.symm)
    · intro s c h
      rw [stmt.eq_2 s n] at h
      cases ha : assign s with
      | halt h0 =>
        simp only [ha, Res.halt.injEq] at h
        have := assign_exit s c (by rw [ha, h])
        exact Or.inr (Or.inr (Or.inr (Or.inr this)))
      | ok b1 s1 =>
        cases b1 with
        | true => simp [ha] at h
        | false =>
          simp only [ha] at h
          cases hif : ifstmt n s1 with
          | halt h0 =>
            simp only [hif, Res.halt.injEq] at h
            exact hi s1 c (by rw [hif, h])
          | ok b2 s2 =>
            cases b2 with
            | true => simp [hif] at h
            | false =>
              simp only [hif] at h
              cases hwh : whilestmt n s2 with
              | halt h0 =>
                simp only [hwh, Res.halt.injEq] at h
                exact hw s2 c (by rw [hwh, h])
              | ok b3 s3 =>
                cases b3 with
                | true => simp [hwh] at h
                | false =>
                  simp only [hwh] at h
                  cases hbl : block n s3 with
                  | halt h0 =>
                    simp only [hbl, Res.halt.injEq] at h
                    exact hb s3 c (by rw [hbl, h])
                  | ok b4 s4 =>
                    obtain ⟨rfl, -⟩ := sb _ _ _ hbl
                    simp [hbl] at h
    · intro s c h
      rw [ifstmt.eq_2 s n] at h
      split at h
      · cases hg : get_token s with
        | halt h0 =>
          simp only [hg, Res.halt.injEq] at h
          exact absurd (by rw [hg, h]) (get_token_no_exit s c)
        | ok u s1 =>
          simp only [hg] at h
          cases hte : testexpr s1 with
          | halt h0 =>
            simp only [hte, Res.halt.injEq] at h
            have := testexpr_exit s1 c (by rw [hte, h])
            exact Or.inr (Or.inr (Or.inr (Or.inr this)))
          | ok bt s2 =>
            cases bt with
            | false =>
              simp only [hte, Res.halt.injEq, Halt.exit.injEq, IFSTMT_ERROR] at h
              exact Or.inr (Or.inr (Or.inl h.symm))
            | true =>
              simp only [hte] at h
              split at h
              · simp only [Res.halt.injEq, Halt.exit.injEq, IFSTMT_ERROR] at h
                exact Or.inr (Or.inr (Or.inl h.symm))
              · cases hg2 : get_token s2 with
                | halt h0 =>
                  simp only [hg2, Res.halt.injEq] at h
                  exact absurd (by rw [hg2, h]) (get_token_no_exit s2 c)
                | ok u2 s3 =>
                  simp only [hg2] at h
                  cases hst : stmt n s3 with
                  | halt h0 =>
                    simp only [hst, Res.halt.injEq] at h
                    exact hs s3 c (by rw [hst, h])
                  | ok b4 s4 =>
                    simp only [hst] at h
                    split at h
                    · simp only [Res.halt.injEq, Halt.exit.injEq, IFSTMT_ERROR] at h
                      exact Or.inr (Or.inr (Or.inl h.symm))
                    · cases hg3 : get_token s4 with
                      | halt h0 =>
                        simp only [hg3, Res.halt.injEq] at h
                        exact absurd (by rw [hg3, h]) (get_token_no_exit s4 c)
                      | ok u3 s5 =>
                        simp only [hg3] at h
                        cases hst2 : stmt n s5 with
                        | halt h0 =>
                          simp only [hst2, Res.halt.injEq] at h
                          exact hs s5 c (by rw [hst2, h])
                        | ok b6 s6 => simp [hst2] at h
      · simp at h
    · intro s c h
      rw [whilestmt.eq_2 s n] at h
      split at h
      · cases hg : get_token s with
        | halt h0 =>
          simp only [hg, Res.halt.injEq] at h
          exact absurd (by rw [hg, h]) (get_token_no_exit s c)
        | ok u s1 =>
          simp only [hg] at h
          cases hte : testexpr s1 with
          | halt h0 =>
            simp only [hte, Res.halt.injEq] at h
            have := testexpr_exit s1 c (by rw [hte, h])
            exact Or.inr (Or.inr (Or.inr (Or.inr this)))
          | ok bt s2 =>
            cases bt with
            | false =>
              simp only [hte, Res.halt.injEq, Halt.exit.injEq, WHILESTMT_ERROR] at h
              exact Or.inr (Or.inr (Or.inr (Or.inl h.symm)))
            | true =>
              simp only [hte] at h
              split at h
              · simp only [Res.halt.injEq, Halt.exit.injEq, WHILESTMT_ERROR] at h
                exact Or.inr (Or.inr (Or.inr (Or.inl h.symm)))
              · cases hg2 : get_token s2 with
                | halt h0 =>
                  simp only [hg2, Res.halt.injEq] at h
                  exact absurd (by rw [hg2, h]) (get_token_no_exit s2 c)
                | ok u2 s3 =>
                  simp only [hg2] at h
                  cases hst : stmt n s3 with
                  | halt h0 =>
                    simp only [hst, Res.halt.injEq] at h
                    exact hs s3 c (by rw [hst, h])
                  | ok b4 s4 => simp [hst] at h
      · simp at h

/-- Every status code of `main` is one of 100, 101, 103, 106, 107 and 109. -/
theorem main_exit_codes (input : List (List Char)) (c : Nat)
    (h : main input = .halt (.exit c)) : c = 100 ∨ grammar_code c := by
  unfold main main_fuel at h
  cases hb : get_buffer (init input) with
  | halt h0 =>
    simp only [hb, Res.halt.injEq] at h
    exact absurd (by rw [hb, h]) (get_buffer_no_exit _ c)
  | ok u0 s0 =>
    simp only [hb] at h
    unfold program at h
    cases hg : get_token s0 with
    | halt h0 =>
      simp only [hg, Res.halt.injEq] at h
      exact absurd (by rw [hg, h]) (get_token_no_exit _ c)
    | ok u1 sP =>
      simp only [hg] at h
      split at h
      · simp only [Res.halt.injEq, Halt.exit.injEq, PROGRAM_ERROR] at h
        exact Or.inl h.symm
      · cases hg2 : get_token sP with
        | halt h0 =>
          simp only [hg2, Res.halt.injEq] at h
          exact absurd (by rw [hg2, h]) (get_token_no_exit _ c)
        | ok u2 sA =>
          simp only [hg2] at h
          cases hbl : block (3 * remaining (init input)) sA with
          | halt h0 =>
            simp only [hbl, Res.halt.injEq] at h
            exact Or.inr ((exit_codes_step _).1 sA c (by rw [hbl, h]))
          | ok b3 sB =>
            simp only [hbl] at h
            split at h
            · simp only [Res.halt.injEq, Halt.exit.injEq, PROGRAM_ERROR] at h
              exact Or.inl h.symm
            · simp at h

/-- Claim C9 (exit-code taxonomy): a run that stops with a status code stops with one of
100, 101, 102, 103, 104, 106, 107, 109, never with 105, 108, 110 or 111: `variable` and
`digit` never call `exit`, and `assign` and `testexpr` stop the run only inside `expr`,
with status 109. -/
theorem exit_code_taxonomy (input : List (List Char)) (c : Nat)
    (h : main input = .halt (.exit c)) :
    (c = PROGRAM_ERROR ∨ c = BLOCK_ERROR ∨ c = STMTLIST_ERROR ∨ c = MORESTMTS_ERROR ∨
      c = STMT_ERROR ∨ c = IFSTMT_ERROR ∨ c = WHILESTMT_ERROR ∨ c = EXPR_ERROR) ∧
    c ≠ ASSIGN_ERROR ∧ c ≠ TESTEXPR_ERROR ∧ c ≠ VARIABLE_ERROR ∧ c ≠ DIGIT_ERROR ∧
    (∀ s k, variable_ s ≠ .halt (.exit k)) ∧ (∀ s k, digit s ≠ .halt (.exit k)) ∧
    (∀ s k, assign s = .halt (.exit k) → k = EXPR_ERROR) ∧
    (∀ s k, testexpr s = .halt (.exit k) → k = EXPR_ERROR) := by
  have hc := main_exit_codes input c h
  simp only [PROGRAM_ERROR, BLOCK_ERROR, STMTLIST_ERROR, MORESTMTS_ERROR, STMT_ERROR,
    IFSTMT_ERROR, WHILESTMT_ERROR, EXPR_ERROR, ASSIGN_ERROR, TESTEXPR_ERROR, VARIABLE_ERROR,
    DIGIT_ERROR]
  refine ⟨?_, ?_, ?_, ?_, ?_, variable_no_exit, digit_no_exit, assign_exit, testexpr_exit⟩
  · rcases hc with h1 | h1 | h1 | h1 | h1 | h1 <;> omega
  · rcases hc with h1 | h1 | h1 | h1 | h1 | h1 <;> omega
  · rcases hc with h1 | h1 | h1 | h1 | h1 | h1 <;> omega
  · rcases hc with h1 | h1 | h1 | h1 | h1 | h1 <;> omega
  · rcases hc with h1 | h1 | h1 | h1 | h1 | h1 <;> omega

theorem exit_code_taxonomy_witness :
    main ["program begin a = + + a b c end.".toList] = .halt (.exit 109) ∧
    (109 = PROGRAM_ERROR ∨ 109 = BLOCK_ERROR ∨ 109 = STMTLIST_ERROR ∨ 109 = MORESTMTS_ERROR ∨
      109 = STMT_ERROR ∨ 109 = IFSTMT_ERROR ∨ 109 = WHILESTMT_ERROR ∨ 109 = EXPR_ERROR) :=
  ⟨by decide,
   (exit_code_taxonomy ["program begin a = + + a b c end.".toList] 109 (by decide)).1⟩

/-! ## The speculative commit of `assign` -/

theorem expr_assign_count (s s1 : State) (u : Unit) (h : expr s = .ok u s1) :
    s1.assign_count = s.assign_count := by
  by_cases hop : is_operator s.token
  · cases hg : get_token s with
    | halt h0 =>
      unfold expr at h
      rw [if_pos (show s.token = ['+'] ∨ s.token = ['*'] from hop), hg] at h
      simp at h
    | ok u0 sA =>
      have a0 := (get_token_frame _ _ _ hg).2
      rw [expr_operator_eq s sA hop hg] at h
      split at h
      · cases hg1 : get_token sA with
        | halt h0 => simp [hg1] at h
        | ok u1 sB =>
          have a1 := (get_token_frame _ _ _ hg1).2
          simp only [hg1] at h
          split at h
          · cases hg2 : get_token sB with
            | halt h0 => simp [hg2] at h
            | ok u2 sC =>
              have a2 := (get_token_frame _ _ _ hg2).2
              simp only [hg2, Res.ok.injEq, true_and] at h
              subst h
              show sC.assign_count = s.assign_count
              omega
          · simp at h
      · simp at h
  · unfold expr at h
    rw [if_neg (show ¬ (s.token = ['+'] ∨ s.token = ['*']) from hop), no_operand_eq] at h
    by_cases h1 : is_operand s.token
    · rw [if_pos h1] at h
      cases hg : get_token s with
      | halt h0 => simp [hg] at h
      | ok u0 sA =>
        have a0 := (get_token_frame _ _ _ hg).2
        simp only [hg, Res.ok.injEq, true_and] at h
        subst h
        exact a0
    · rw [if_neg h1] at h
      simp at h

/-- With counters without limit, `assign` is a speculative, non-backtracking commit: on a token that is no
variable `assign` returns failure with the state unchanged; on a variable followed by a token
other than `=` it returns failure with the token after the variable current, `var_ref` one
higher and `assign_count` unchanged; `assign_count` grows, by one, exactly when `assign`
returns success. -/
theorem assign_speculative (s : State) :
    (¬ is_variable s.token → assign s = .ok false s) ∧
    (is_variable s.token → ∀ sN, get_token s = .ok () sN → sN.token ≠ ['='] →
      assign s = .ok false { sN with var_ref := s.var_ref + 1 } ∧
      sN.assign_count = s.assign_count) ∧
    (∀ b s1, assign s = .ok b s1 →
      s1.assign_count = s.assign_count + (if b = true then 1 else 0)) := by
  refine ⟨assign_not s, ?_, ?_⟩
  · intro hv sN hg hne
    unfold assign
    rw [variable_eq, if_pos hv, hg]
    simp only
    rw [if_neg hne]
    exact ⟨rfl, (get_token_frame _ _ _ hg).2⟩
  · intro b s1 h
    unfold assign at h
    rw [variable_eq] at h
    by_cases hv : is_variable s.token
    · rw [if_pos hv] at h
      cases hg : get_token s with
      | halt h0 => simp [hg] at h
      | ok u0 sN =>
        have a0 := (get_token_frame _ _ _ hg).2
        simp only [hg] at h
        split at h
        · cases hg1 : get_token { sN with var_ref := s.var_ref + 1 } with
          | halt h0 => simp [hg1] at h
          | ok u1 sA =>
            have a1 := (get_token_frame _ _ _ hg1).2
            simp only [hg1] at h
            cases he : expr sA with
            | halt h0 => simp [he] at h
            | ok u2 sB =>
              have a2 := expr_assign_count _ _ _ he
              simp only [he, Res.ok.injEq] at h
              obtain ⟨rfl, rfl⟩ := h
              simp only [if_true]
              show sB.assign_count + 1 = s.assign_count + 1
              simp only at a1
              omega
        · simp only [Res.ok.injEq] at h
          obtain ⟨rfl, rfl⟩ := h
          simpa using a0
    · rw [if_neg hv] at h
      simp only [Res.ok.injEq] at h
      obtain ⟨rfl, rfl⟩ := h
      simp

theorem assign_speculative_witness :
    assign (on_line "if a <= 1 then" 2 "if" 3 1) = .ok false (on_line "if a <= 1 then" 2 "if" 3 1) ∧
    (assign (on_line "a 0 end." 1 "a" 3 1) = .ok false (on_line "a 0 end." 3 "0" 4 1) ∧
      (on_line "a 0 end." 3 "0" 3 1).assign_count = (on_line "a 0 end." 1 "a" 3 1).assign_count) ∧
    (on_line "a = 0 end." 10 "end." 4 2).assign_count
      = (on_line "a = 0 end." 1 "a" 3 1).assign_count + (if true = true then 1 else 0) :=
  ⟨(assign_speculative (on_line "if a <= 1 then" 2 "if" 3 1)).1 (by decide),
   (assign_speculative (on_line "a 0 end." 1 "a" 3 1)).2.1 (by decide)
     (on_line "a 0 end." 3 "0" 3 1) (by decide) (by decide),
   (assign_speculative (on_line "a = 0 end." 1 "a" 3 1)).2.2 true
     (on_line "a = 0 end." 10 "end." 4 2) (by decide)⟩

/-- Claim C14 at a failing input: `program begin a if a <= 1 then b = 0 else c = 0 end.`
holds the variable `a` at a statement position, not followed by `=`, and the run returns to
`main` all the same: `assign` has consumed `a` when it returns failure, and `ifstmt` then
matches the `if` that follows. -/
theorem main_accepts_stray_variable :
    main ["program begin a if a <= 1 then b = 0 else c = 0 end.".toList] =
      .ok () (on_line "program begin a if a <= 1 then b = 0 else c = 0 end." 52 "end." 4 2) := by
  decide

/-! ## Branches that are never taken -/

theorem not_grammar_code_102 : ¬ grammar_code 102 := by
  unfold grammar_code; omega

theorem not_grammar_code_104 : ¬ grammar_code 104 := by
  unfold grammar_code; omega

/-- Claim C16 (`stmt`, `block` and `morestmts` never return failure): whenever one of them
returns, it returns `TRUE`; so the branches of `stmtlist` with status 102 and the last
branch of `stmt` with status 104 are never taken, and no run stops with 102 or 104. -/
theorem never_return_failure (n : Nat) (s : State) :
    (∀ b s1, stmt n s = .ok b s1 → b = true) ∧
    (∀ b s1, block n s = .ok b s1 → b = true) ∧
    (∀ b s1, morestmts n s = .ok b s1 → b = true) ∧
    stmtlist n s ≠ .halt (.exit STMTLIST_ERROR) ∧ stmt n s ≠ .halt (.exit STMT_ERROR) ∧
    (∀ input, main input ≠ .halt (.exit 102) ∧ main input ≠ .halt (.exit 104)) := by
  obtain ⟨sb, -, sm, ss, -, -⟩ := sound_step n
  obtain ⟨-, esl, -, es, -, -⟩ := exit_codes_step n
  refine ⟨fun b s1 h => (ss s b s1 h).1, fun b s1 h => (sb s b s1 h).1,
    fun b s1 h => (sm s b s1 h).1, ?_, ?_, ?_⟩
  · intro h
    exact not_grammar_code_102 (esl s 102 h)
  · intro h
    exact not_grammar_code_104 (es s 104 h)
  · intro input
    refine ⟨?_, ?_⟩
    · intro h
      rcases main_exit_codes input 102 h with h1 | h1
      · omega
      · exact not_grammar_code_102 h1
    · intro h
      rcases main_exit_codes input 104 h with h1 | h1
      · omega
      · exact not_grammar_code_104 h1

theorem never_return_failure_witness :
    true = true ∧ true = true ∧ true = true :=
  ⟨(never_return_failure 5 (on_line "a = 0 end." 1 "a" 0 0)).1 true
      (on_line "a = 0 end." 10 "end." 1 1) (by decide),
   (never_return_failure 5 (on_line "begin a = 0 end ." 5 "begin" 0 0)).2.1 true
      (on_line "begin a = 0 end ." 17 "." 1 1) (by decide),
   (never_return_failure 5 (on_line "a = 0 ; b = 1 end." 7 ";" 1 1)).2.2.1 true
      (on_line "a = 0 ; b = 1 end." 18 "end." 2 2) (by decide)⟩

/-- Claim C17 (postcondition of `stmtlist`): whenever `stmtlist` returns, the current token is
`end` or `end.`; so when `stmtlist` has returned inside `block`, `block` does not stop with
status 101; and when the token after a statement is none of `;`, `end`, `end.`, the run
stops with status 103. -/
theorem stmtlist_postcondition (n : Nat) (s : State) :
    (∀ u s1, stmtlist n s = .ok u s1 →
      s1.token = ['e', 'n', 'd'] ∨ s1.token = ['e', 'n', 'd', '.']) ∧
    (s.token = ['b', 'e', 'g', 'i', 'n'] → ∀ s1, get_token s = .ok () s1 →
      ∀ u s2, stmtlist n s1 = .ok u s2 → block (n + 1) s ≠ .halt (.exit 101)) ∧
    (∀ b s1, stmt n s = .ok b s1 → s1.token ≠ [';'] → s1.token ≠ ['e', 'n', 'd'] →
      s1.token ≠ ['e', 'n', 'd', '.'] → stmtlist (n + 1) s = .halt (.exit 103)) := by
  obtain ⟨-, ssl, -, ss, -, -⟩ := sound_step n
  refine ⟨?_, ?_, ?_⟩
  · intro u s1 h
    obtain ⟨ts, o, st, -, -, -, hend⟩ := ssl s u s1 h
    exact hend
  · intro hb s1 hg u s2 hl
    obtain ⟨ts, o, st, -, -, -, hend⟩ := ssl s1 u s2 hl
    rw [block.eq_2]
    simp only [hb, ne_eq, not_true_eq_false, if_false, hg, hl]
    rcases hend with he | he
    · simp only [he, not_true_eq_false, false_and, if_false, if_true]
      cases hg2 : get_token s2 with
      | halt h0 =>
        intro h
        simp only [Res.halt.injEq] at h
        exact get_token_no_exit s2 101 (by rw [hg2, h])
      | ok u2 s3 => simp
    · simp [he]
  · intro b s1 h h1 h2 h3
    obtain ⟨rfl, -⟩ := ss s b s1 h
    obtain ⟨m, rfl⟩ : ∃ m, n = m + 1 := by
      cases n with
      | zero => simp [stmt] at h
      | succ m => exact ⟨m, rfl⟩
    rw [stmtlist.eq_2, h]
    simp only [morestmts.eq_2, h1, h2, h3, or_self, if_false, MORESTMTS_ERROR]

theorem stmtlist_postcondition_witness :
    ((on_line "a = 0 ; b = 1 end." 18 "end." 2 2).token = ['e', 'n', 'd'] ∨
      (on_line "a = 0 ; b = 1 end." 18 "end." 2 2).token = ['e', 'n', 'd', '.']) ∧
    block 9 (on_line "begin a = 0 end ." 5 "begin" 0 0) ≠ .halt (.exit 101) ∧
    stmtlist 9 (on_line "a = 0 b = 1 end." 1 "a" 0 0) = .halt (.exit 103) :=
  ⟨(stmtlist_postcondition 8 (on_line "a = 0 ; b = 1 end." 1 "a" 0 0)).1 ()
      (on_line "a = 0 ; b = 1 end." 18 "end." 2 2) (by decide),
   (stmtlist_postcondition 8 (on_line "begin a = 0 end ." 5 "begin" 0 0)).2.1 (by decide)
      (on_line "begin a = 0 end ." 7 "a" 0 0) (by decide) ()
      (on_line "begin a = 0 end ." 15 "end" 1 1) (by decide),
   (stmtlist_postcondition 8 (on_line "a = 0 b = 1 end." 1 "a" 0 0)).2.2 true
      (on_line "a = 0 b = 1 end." 7 "b" 1 1) (by decide) (by decide) (by decide) (by decide)⟩

/-! ## Nesting -/

/-- A run of `program` that succeeds on every state whose unread input holds the lexemes
`ts` makes `main` succeed on every layout of `ts`. -/
theorem main_of_program (ts : List (List Char)) (lines : List (List (List Char))) (k v : Nat)
    (hl : lines.flatten = ts) (hne : ts ≠ []) (hlex : ∀ t ∈ ts, Lexeme t)
    (hprog : ∀ s0, Stream s0 ts → ∃ n s1, program n s0 = .ok () s1 ∧
      s1.assign_count = s0.assign_count + k ∧ s1.var_ref = s0.var_ref + v) :
    ∃ s1, main (lines.map line_of) = .ok () s1 ∧ s1.assign_count = k ∧ s1.var_ref = v := by
  obtain ⟨t, us, rfl⟩ : ∃ t us, ts = t :: us := by
    cases ts with
    | nil => exact absurd rfl hne
    | cons t us => exact ⟨t, us, rfl⟩
  obtain ⟨s0, hg, -, hv, ha, hk, cur, rest, hb, hst, hc⟩ :=
    get_buffer_stream (init (lines.map line_of)) lines t us rfl hl hlex
  have h0 : Stream s0 (t :: us) := by
    refine ⟨t :: cur, rest, Or.inr ⟨by simp, ?_⟩, hst, by simp [hc], hlex⟩
    rw [hk, hb]; rfl
  obtain ⟨n, s1, h1, hac, hvr⟩ := hprog s0 h0
  refine ⟨s1, ?_, ?_, ?_⟩
  · apply main_eq_of_fuel n
    · unfold main_fuel
      rw [hg]
      exact h1
    · simp
  · rw [hac, ha]; simp [init]
  · rw [hvr, hv]; simp [init]

theorem nested_succ (m : Nat) :
    nested (m + 1) = ['b', 'e', 'g', 'i', 'n'] :: (nested m ++ [['e', 'n', 'd']]) := by
  unfold nested
  rw [List.replicate_succ, List.replicate_succ' m ['e', 'n', 'd']]
  simp

theorem derives_nested (m : Nat) : Derives .stmt (nested m) 1 := by
  induction m with
  | zero => exact Derives.assign (Or.inl rfl) (Derives.operand (Or.inr (Or.inl rfl)))
  | succ m ih =>
    rw [nested_succ]
    exact Derives.of_block (Derives.block (Derives.one ih))

theorem sentence_nested (m : Nat) : Sentence (nested_program (m + 1)) 1 := by
  refine ⟨nested m, Derives.one (derives_nested m), Or.inl ?_⟩
  unfold nested_program
  rw [nested_succ]
  simp

theorem count_vars_replicate (n : Nat) (t : List Char) (h : ¬ is_variable t) :
    count_vars (List.replicate n t) = 0 := by
  induction n with
  | zero => rfl
  | succ n ih => rw [List.replicate_succ, count_vars_cons, count_vars_not t h, ih]

theorem count_vars_nested_program (n : Nat) : count_vars (nested_program n) = 1 := by
  unfold nested_program nested
  rw [count_vars_cons, count_vars_append, count_vars_append, count_vars_cons ['a'],
    count_vars_cons ['='], count_vars_cons ['0'],
    count_vars_replicate n _ (by simp [is_variable]),
    count_vars_replicate n _ (by simp [is_variable]),
    count_vars_not ['p', 'r', 'o', 'g', 'r', 'a', 'm'] (by simp [is_variable]),
    count_vars_not ['='] (by simp [is_variable]), count_vars_not ['0'] (by simp [is_variable]),
    count_vars_not ['.'] (by simp [is_variable]), count_vars_var ['a'] (Or.inl rfl)]

/-- Claim C12 (no ceiling on nesting): for every `n ≥ 1` the input that holds, separated by
single blanks or line ends, the tokens `program`, `n` times `begin`, `a = 0`, `n` times
`end` and `.` is accepted, with `assign_count = 1` and `var_ref = 1`. -/
theorem main_accepts_nested (n : Nat) (lines : List (List (List Char))) (hn : 1 ≤ n)
    (hl : lines.flatten = nested_program n) :
    ∃ s1, main (lines.map line_of) = .ok () s1 ∧ s1.assign_count = 1 ∧ s1.var_ref = 1 := by
  obtain ⟨m, rfl⟩ : ∃ m, n = m + 1 := ⟨n - 1, by omega⟩
  have hs := sentence_nested m
  refine main_of_program (nested_program (m + 1)) lines 1 1 hl (by simp [nested_program])
    (sentence_lexeme _ _ hs) ?_
  intro s0 h0
  obtain ⟨s1, h1, ha, hv⟩ := program_sentence s0 _ 1 _ hs (Nat.le_refl _) h0
  exact ⟨_, s1, h1, ha, by rw [hv, count_vars_nested_program]⟩

theorem main_accepts_nested_witness :
    ∃ s1, main ["program begin begin".toList, "begin a = 0 end".toList, "end end .".toList]
      = .ok () s1 ∧ s1.assign_count = 1 ∧ s1.var_ref = 1 :=
  main_accepts_nested 3
    [["program".toList, "begin".toList, "begin".toList],
     ["begin".toList, "a".toList, "=".toList, "0".toList, "end".toList],
     ["end".toList, "end".toList, ".".toList]] (by decide) (by decide)

/-- On `m + 1` times `begin`, `a = 0` and `end.`, the outermost `block` returns with `end.`
still current: every inner `block`, and every `morestmts`, leaves it where it is. -/
theorem block_fused (m : Nat) : ∀ (n : Nat) (s : State) (rest : List (List Char)),
    3 * m + 3 ≤ n →
    View s (List.replicate (m + 1) ['b', 'e', 'g', 'i', 'n'] ++
      (['a'] :: ['='] :: ['0'] :: ['e', 'n', 'd', '.'] :: rest)) →
    ∃ s1, block n s = .ok true s1 ∧ Post s s1 (['e', 'n', 'd', '.'] :: rest) 1 1 := by
  induction m with
  | zero =>
    intro n s rest hn hview
    obtain ⟨k, rfl⟩ : ∃ k, n = k + 3 := ⟨n - 3, by omega⟩
    have hview2 : View s (['b', 'e', 'g', 'i', 'n'] ::
        (['a'] :: ['='] :: ['0'] :: ['e', 'n', 'd', '.'] :: rest)) := hview
    have htok : s.token = ['b', 'e', 'g', 'i', 'n'] := hview2.1
    obtain ⟨sA, hA, pA⟩ := get_token_post_cons s _ _ hview2 (by simp)
    obtain ⟨sB, hB, pB⟩ := assign_view sA ['a'] [['0']] ['e', 'n', 'd', '.'] rest (Or.inl rfl)
      (Derives.operand (Or.inr (Or.inl rfl))) pA.1
    have htokB : sB.token = ['e', 'n', 'd', '.'] := pB.1.1
    refine ⟨sB, ?_, ?_⟩
    · rw [block.eq_2]
      simp only [htok, ne_eq, not_true_eq_false, if_false, hA, stmtlist.eq_2, stmt.eq_2, hB,
        morestmts.eq_2, htokB, or_true, if_true]
      simp
    · have := pA.chain pB
      have e : count_vars [['a'], ['='], ['0']] = 1 := by decide
      rw [e] at this
      simpa using this
  | succ m ih =>
    intro n s rest hn hview
    obtain ⟨k, rfl⟩ : ∃ k, n = k + 4 := ⟨n - 4, by omega⟩
    have hview2 : View s (['b', 'e', 'g', 'i', 'n'] ::
        (List.replicate (m + 1) ['b', 'e', 'g', 'i', 'n'] ++
          (['a'] :: ['='] :: ['0'] :: ['e', 'n', 'd', '.'] :: rest))) := by
      rw [List.replicate_succ] at hview
      exact hview
    have htok : s.token = ['b', 'e', 'g', 'i', 'n'] := hview2.1
    obtain ⟨sA, hA, pA⟩ := get_token_post_cons s _ _ hview2 (by simp)
    have htokA : sA.token = ['b', 'e', 'g', 'i', 'n'] := by
      have := pA.1
      rw [List.replicate_succ] at this
      exact this.1
    obtain ⟨sB, hB, pB⟩ := ih (k + 1) sA rest (by omega) pA.1
    have htokB : sB.token = ['e', 'n', 'd', '.'] := pB.1.1
    refine ⟨sB, ?_, ?_⟩
    · rw [block.eq_2]
      simp only [htok, ne_eq, not_true_eq_false, if_false, hA, stmtlist.eq_2, stmt.eq_2,
        assign_not sA (by rw [htokA]; simp [is_variable]),
        ifstmt_not k sA (by rw [htokA]; simp), whilestmt_not k sA (by rw [htokA]; simp), hB,
        morestmts.eq_2, htokB, or_true, if_true]
      simp
    · have := pA.chain pB
      simpa using this

theorem count_begin_replicate (n : Nat) :
    (List.replicate n ['b', 'e', 'g', 'i', 'n'] ++ [['a'], ['='], ['0']]).count
        ['b', 'e', 'g', 'i', 'n'] = n ∧
    (List.replicate n ['b', 'e', 'g', 'i', 'n'] ++ [['a'], ['='], ['0']]).count
        ['e', 'n', 'd'] = 0 := by
  induction n with
  | zero => exact ⟨by decide, by decide⟩
  | succ n ih =>
    rw [List.replicate_succ, List.cons_append, List.count_cons, List.count_cons, ih.1, ih.2]
    exact ⟨by simp, by simp⟩

/-- A single fused `end.` closes every open block, for lines of any length: for every `n ≥ 1` the input
that holds the tokens `program`, `n` times `begin`, `a = 0` and one `end.` is accepted with
`assign_count = 1` and `var_ref = 1`; for `n ≥ 2` these tokens are no sentence of the
grammar, `n - 1` tokens `end` are missing. -/
theorem main_accepts_fused (n : Nat) (lines : List (List (List Char))) (hn : 1 ≤ n)
    (hl : lines.flatten = fused_program n) :
    (∃ s1, main (lines.map line_of) = .ok () s1 ∧ s1.assign_count = 1 ∧ s1.var_ref = 1) ∧
    (2 ≤ n → ¬ ∃ k, Sentence (fused_program n) k) := by
  obtain ⟨m, rfl⟩ : ∃ m, n = m + 1 := ⟨n - 1, by omega⟩
  refine ⟨?_, ?_⟩
  · have hlex : ∀ t ∈ fused_program (m + 1), Lexeme t := by
      intro t ht
      simp only [fused_program, List.mem_cons, List.mem_append, List.mem_replicate,
        List.mem_singleton, List.not_mem_nil, or_false] at ht
      rcases ht with rfl | ⟨-, rfl⟩ | rfl | rfl | rfl | rfl <;> simp [Lexeme, nul]
    refine main_of_program (fused_program (m + 1)) lines 1 1 hl (by simp [fused_program])
      hlex ?_
    intro s0 h0
    obtain ⟨sP, hP, htokP, hstP, hvP, haP⟩ := get_token_stream s0 _ _ h0
    have vP : View sP (['p', 'r', 'o', 'g', 'r', 'a', 'm'] ::
        (List.replicate (m + 1) ['b', 'e', 'g', 'i', 'n'] ++
          [['a'], ['='], ['0'], ['e', 'n', 'd', '.']])) := ⟨htokP, hstP⟩
    obtain ⟨sA, hA, pA⟩ := get_token_post_cons sP _ _ vP (by simp)
    obtain ⟨sB, hB, pB⟩ := block_fused m (3 * m + 3) sA [] (Nat.le_refl _) pA.1
    have htokB : sB.token = ['e', 'n', 'd', '.'] := pB.1.1
    obtain ⟨-, hv, ha⟩ := pA.chain pB
    refine ⟨3 * m + 3, sB, ?_, by omega, by omega⟩
    unfold program
    simp only [hP, htokP, ne_eq, not_true_eq_false, if_false, hA, hB, htokB]
    simp
  · intro h2
    rintro ⟨k, l, hd, h | h⟩
    · have h3 := congrArg List.reverse h
      simp [fused_program] at h3
    · have e : l = List.replicate m ['b', 'e', 'g', 'i', 'n'] ++ [['a'], ['='], ['0']] := by
        have h3 : (List.replicate m ['b', 'e', 'g', 'i', 'n'] ++ [['a'], ['='], ['0']]) ++
            [['e', 'n', 'd', '.']] = l ++ [['e', 'n', 'd', '.']] := by
          simp only [fused_program, List.replicate_succ, List.cons_append, List.cons.injEq,
            true_and] at h
          simpa using h
        exact (List.append_cancel_right h3).symm
      subst e
      have hc := derives_begin_end _ _ _ hd
      rw [(count_begin_replicate m).1, (count_begin_replicate m).2] at hc
      omega

theorem main_accepts_fused_witness :
    (∃ s1, main ["program begin begin".toList, "begin a = 0 end.".toList]
      = .ok () s1 ∧ s1.assign_count = 1 ∧ s1.var_ref = 1) ∧
    (2 ≤ 3 → ¬ ∃ k, Sentence (fused_program 3) k) :=
  main_accepts_fused 3
    [["program".toList, "begin".toList, "begin".toList],
     ["begin".toList, "a".toList, "=".toList, "0".toList, "end.".toList]]
    (by decide) (by decide)

/-! ## The cursor stays inside the line -/

theorem remove_whitespace_bound (s : State) (h : s.lookahead ≤ s.buffer.length) :
    (remove_whitespace s).lookahead ≤ (remove_whitespace s).buffer.length := by
  have := skip_ws_le (s.buffer.drop s.lookahead) s.lookahead
  simp only [List.length_drop] at this
  show skip_ws (s.buffer.drop s.lookahead) s.lookahead ≤ s.buffer.length
  omega

theorem get_token_copy_bound (s : State) (h : s.lookahead ≤ s.buffer.length) :
    (get_token_copy s).lookahead ≤ (get_token_copy s).buffer.length := by
  have h1 := remove_whitespace_bound s h
  have := copy_token_le ((remove_whitespace s).buffer.drop (remove_whitespace s).lookahead)
    (remove_whitespace s).lookahead
  simp only [List.length_drop] at this
  simp only [remove_whitespace_buffer] at this h1
  show (copy_token ((remove_whitespace s).buffer.drop (remove_whitespace s).lookahead)
    (remove_whitespace s).lookahead).2 ≤ s.buffer.length
  simp only [remove_whitespace_buffer]
  omega

theorem get_token_bound (s s1 : State) (u : Unit) (hg : get_token s = .ok u s1)
    (h : s.lookahead ≤ s.buffer.length) : s1.lookahead ≤ s1.buffer.length := by
  unfold get_token at hg
  simp only at hg
  split at hg
  · cases hb : get_buffer (remove_whitespace s) with
    | halt h0 => simp [hb] at hg
    | ok u2 s2 =>
      simp only [hb, Res.ok.injEq, true_and] at hg
      subst hg
      have := (get_buffer_ok _ _ _ hb).1
      exact get_token_copy_bound s2 (by omega)
  · simp only [Res.ok.injEq, true_and] at hg
    subst hg
    exact get_token_copy_bound _ (remove_whitespace_bound s h)

theorem reads_bound (s s1 : State) (ts : List (List Char)) (hr : Reads s ts s1)
    (h : s.lookahead ≤ s.buffer.length) : s1.lookahead ≤ s1.buffer.length := by
  induction hr with
  | done hl =>
    obtain ⟨-, h2, h3, -⟩ := hl
    rw [← h2, ← h3]; exact h
  | step hg _ ih => exact ih (get_token_bound _ _ _ hg h)

theorem testexpr_bound (s s1 : State) (b : Bool) (ht : testexpr s = .ok b s1)
    (h : s.lookahead ≤ s.buffer.length) : s1.lookahead ≤ s1.buffer.length := by
  cases b with
  | true =>
    obtain ⟨t, -, hr⟩ := testexpr_sound _ _ ht
    exact reads_bound _ _ _ hr h
  | false =>
    unfold testexpr at ht
    cases hv : variable_ s with
    | halt h0 => simp [hv] at ht
    | ok bv sv =>
      rcases variable_sound _ _ _ hv with ⟨rfl, -, hr⟩ | ⟨rfl, -, rfl⟩
      · simp only [hv] at ht
        split at ht
        · cases hg : get_token sv with
          | halt h0 => simp [hg] at ht
          | ok u2 s2 =>
            simp only [hg] at ht
            cases he : expr s2 with
            | halt h0 => simp [he] at ht
            | ok u3 s3 => simp [he] at ht
        · simp only [Res.ok.injEq, true_and] at ht
          subst ht
          exact reads_bound _ _ _ hr h
      · simp only [hv, Res.ok.injEq, true_and] at ht
        subst ht
        exact h

theorem getD_lt_of_ne_nul (l : List Char) (k : Nat) (h : l.getD k nul ≠ nul) : k < l.length := by
  by_contra hc
  apply h
  rw [List.getD_eq_default]
  omega

/-- Claim C15 (cursor bound): in every state the run passes through, the cursor `lookahead`
is at most the length of the current line, so that `buffer[lookahead]` is a character of the
line or its terminating nul; and `get_buffer` leaves the cursor at 0. -/
theorem cursor_bound (input : List (List Char)) (s : State) (hr : Reach input s) :
    s.lookahead ≤ s.buffer.length ∧
    (∀ t t1, get_buffer t = .ok () t1 → t1.lookahead = 0) := by
  refine ⟨?_, fun t t1 h => (get_buffer_ok _ _ _ h).1⟩
  induction hr with
  | start h => rw [(get_buffer_ok _ _ _ h).1]; exact Nat.zero_le _
  | @ws_step t _ hc ih =>
    have : t.lookahead < t.buffer.length := by
      apply getD_lt_of_ne_nul
      rcases hc with hc | hc <;> rw [hc] <;> decide
    exact this
  | @copy_step t tk _ _ hc ih =>
    exact getD_lt_of_ne_nul _ _ hc
  | ret_get_buffer _ h _ => rw [(get_buffer_ok _ _ _ h).1]; exact Nat.zero_le _
  | ret_remove_whitespace _ ih => exact remove_whitespace_bound _ ih
  | ret_get_token _ h ih => exact get_token_bound _ _ _ h ih
  | ret_variable _ h ih =>
    rcases variable_sound _ _ _ h with ⟨-, -, hr⟩ | ⟨-, -, rfl⟩
    · exact reads_bound _ _ _ hr ih
    · exact ih
  | ret_digit _ h ih =>
    rcases digit_sound _ _ _ h with ⟨-, -, hr⟩ | ⟨-, -, rfl⟩
    · exact reads_bound _ _ _ hr ih
    · exact ih
  | ret_expr _ h ih =>
    obtain ⟨e, -, hr⟩ := expr_sound _ _ _ h
    exact reads_bound _ _ _ hr ih
  | ret_testexpr _ h ih => exact testexpr_bound _ _ _ h ih
  | ret_assign _ h ih =>
    rcases assign_sound _ _ _ h with ⟨-, v, e, -, -, hr⟩ | ⟨-, -, rfl⟩ | ⟨-, -, hr⟩
    · exact reads_bound _ _ _ hr ih
    · exact ih
    · exact reads_bound _ _ _ hr ih
  | ret_block n _ h ih =>
    obtain ⟨-, ts, o, st, hr, -⟩ := (sound_step n).1 _ _ _ h
    exact reads_bound _ _ _ hr ih
  | ret_stmtlist n _ h ih =>
    obtain ⟨ts, o, st, hr, -⟩ := (sound_step n).2.1 _ _ _ h
    exact reads_bound _ _ _ hr ih
  | ret_morestmts n _ h ih =>
    obtain ⟨-, ⟨rfl, -⟩ | ⟨-, l, o, st, hr, -⟩⟩ := (sound_step n).2.2.1 _ _ _ h
    · exact ih
    · exact reads_bound _ _ _ hr ih
  | ret_stmt n _ h ih =>
    obtain ⟨-, ts, o, st, hr, -⟩ := (sound_step n).2.2.2.1 _ _ _ h
    exact reads_bound _ _ _ hr ih
  | ret_ifstmt n _ h ih =>
    rcases (sound_step n).2.2.2.2.1 _ _ _ h with ⟨-, rfl⟩ | ⟨-, ts, o, st, hr, -⟩
    · exact ih
    · exact reads_bound _ _ _ hr ih
  | ret_whilestmt n _ h ih =>
    rcases (sound_step n).2.2.2.2.2 _ _ _ h with ⟨-, rfl⟩ | ⟨-, ts, o, st, hr, -⟩
    · exact ih
    · exact reads_bound _ _ _ hr ih
  | @ret_program t t1 n _ h ih =>
    unfold program at h
    cases hg : get_token t with
    | halt h0 => simp [hg] at h
    | ok u sP =>
      simp only [hg] at h
      split at h
      · simp at h
      · cases hg2 : get_token sP with
        | halt h0 => simp [hg2] at h
        | ok u2 sA =>
          simp only [hg2] at h
          cases hbl : block n sA with
          | halt h0 => simp [hbl] at h
          | ok b3 sB =>
            simp only [hbl] at h
            split at h
            · simp at h
            · simp only [Res.ok.injEq, true_and] at h
              subst h
              obtain ⟨-, ts, o, st, hr, -⟩ := (sound_step n).1 _ _ _ hbl
              exact reads_bound _ _ _ hr
                (get_token_bound _ _ _ hg2 (get_token_bound _ _ _ hg ih))

theorem cursor_bound_witness :
    (on_line "program begin" 13 "begin" 0 0).lookahead
      ≤ (on_line "program begin" 13 "begin" 0 0).buffer.length ∧
    (∀ t t1, get_buffer t = .ok () t1 → t1.lookahead = 0) :=
  cursor_bound ["program begin".toList] (on_line "program begin" 13 "begin" 0 0)
    (Reach.ret_get_token
      (Reach.ret_get_token
        (Reach.start (show get_buffer (init ["program begin".toList])
          = .ok () (on_line "program begin" 0 "" 0 0) by decide))
        (show get_token (on_line "program begin" 0 "" 0 0)
          = .ok () (on_line "program begin" 7 "program" 0 0) by decide))
      (show get_token (on_line "program begin" 7 "program" 0 0)
        = .ok () (on_line "program begin" 13 "begin" 0 0) by decide))

/-! ## The words `get_token` delivers -/

theorem line_words_skip (l : List Char) (k : Nat) :
    line_words (l.drop (skip_ws l k - k)) = line_words l := by
  induction l generalizing k with
  | nil => simp [skip_ws]
  | cons c cs ih =>
    by_cases h : c = ' ' ∨ c = '\t'
    · have hk := skip_ws_ge cs (k + 1)
      have e : skip_ws (c :: cs) k = skip_ws cs (k + 1) := by simp [skip_ws, h]
      have e2 : skip_ws cs (k + 1) - k = (skip_ws cs (k + 1) - (k + 1)) + 1 := by omega
      rw [e, e2, List.drop_succ_cons, ih (k + 1)]
      simp [line_words, line_words_aux, h]
    · have e : skip_ws (c :: cs) k = k := by simp [skip_ws, h]
      rw [e]; simp

theorem skip_ws_drop_head (l : List Char) (k : Nat) :
    l.drop (skip_ws l k - k) = [] ∨
    ∃ c cs, l.drop (skip_ws l k - k) = c :: cs ∧ c ≠ ' ' ∧ c ≠ '\t' := by
  induction l generalizing k with
  | nil => left; simp
  | cons c cs ih =>
    by_cases h : c = ' ' ∨ c = '\t'
    · have hk := skip_ws_ge cs (k + 1)
      have e : skip_ws (c :: cs) k = skip_ws cs (k + 1) := by simp [skip_ws, h]
      have e2 : skip_ws cs (k + 1) - k = (skip_ws cs (k + 1) - (k + 1)) + 1 := by omega
      rw [e, e2, List.drop_succ_cons]
      exact ih (k + 1)
    · have e : skip_ws (c :: cs) k = k := by simp [skip_ws, h]
      rw [e]
      right
      refine ⟨c, cs, by simp, fun h1 => h (Or.inl h1), fun h1 => h (Or.inr h1)⟩

theorem copy_token_split (l : List Char) (k : Nat) :
    l = (copy_token l k).1 ++ l.drop (copy_token l k).1.length ∧
    (∀ c ∈ (copy_token l k).1, c ≠ ' ' ∧ c ≠ nul) := by
  induction l generalizing k with
  | nil => simp [copy_token]
  | cons c cs ih =>
    by_cases h : c ≠ ' ' ∧ c ≠ nul
    · have e : copy_token (c :: cs) k
          = (c :: (copy_token cs (k + 1)).1, (copy_token cs (k + 1)).2) := by
        simp [copy_token, h.1, h.2]
      rw [e]
      obtain ⟨h1, h2⟩ := ih (k + 1)
      refine ⟨?_, ?_⟩
      · simp only [List.length_cons, List.cons_append, List.drop_succ_cons, List.cons.injEq,
          true_and]
        exact h1
      · intro d hd
        simp only [List.mem_cons] at hd
        rcases hd with rfl | hd
        · exact h
        · exact h2 d hd
    · have e : copy_token (c :: cs) k = ([], k) := by
        simp only [copy_token]
        rw [if_neg h]
      rw [e]
      simp

/-- Inside a word the words of the line and the copy loop of `get_token` agree. -/
theorem line_words_aux_copy (l : List Char) (w : List Char) (k : Nat) (hw : w ≠ [])
    (hl : ∀ c ∈ l, c ≠ nul) :
    line_words_aux l w = (w ++ (copy_token l k).1) ::
      line_words (l.drop (copy_token l k).1.length) := by
  induction l generalizing w k with
  | nil => simp [line_words_aux, copy_token, hw, line_words]
  | cons c cs ih =>
    have hc : c ≠ nul := hl c (List.mem_cons_self c cs)
    have hcs : ∀ d ∈ cs, d ≠ nul := fun d hd => hl d (List.mem_cons_of_mem c hd)
    by_cases h : c = ' '
    · have e : copy_token (c :: cs) k = ([], k) := by simp [copy_token, h]
      rw [e]
      simp only [line_words_aux, hw, if_false, h, if_true, List.append_nil, List.length_nil,
        List.drop_zero]
      simp [line_words, line_words_aux]
    · have e : copy_token (c :: cs) k
          = (c :: (copy_token cs (k + 1)).1, (copy_token cs (k + 1)).2) := by
        simp [copy_token, h, hc]
      rw [e]
      simp only [line_words_aux, hw, if_false, h, List.length_cons, List.drop_succ_cons]
      rw [ih (w ++ [c]) (k + 1) (by simp) hcs]
      simp

theorem line_words_cons (c : Char) (cs : List Char) (k : Nat) (h1 : c ≠ ' ') (h2 : c ≠ '\t')
    (hl : ∀ d ∈ c :: cs, d ≠ nul) :
    line_words (c :: cs) = (copy_token (c :: cs) k).1 ::
      line_words ((c :: cs).drop (copy_token (c :: cs) k).1.length) ∧
    (copy_token (c :: cs) k).1.head? = some c := by
  have hc : c ≠ nul := hl c (List.mem_cons_self c cs)
  have hcs : ∀ d ∈ cs, d ≠ nul := fun d hd => hl d (List.mem_cons_of_mem c hd)
  have e : copy_token (c :: cs) k
      = (c :: (copy_token cs (k + 1)).1, (copy_token cs (k + 1)).2) := by
    simp [copy_token, h1, hc]
  rw [e]
  refine ⟨?_, rfl⟩
  have : line_words (c :: cs) = line_words_aux cs [c] := by
    simp [line_words, line_words_aux, h1, h2]
  rw [this, line_words_aux_copy cs [c] (k + 1) (by simp) hcs]
  simp

theorem line_words_nil : line_words [] = [] := rfl

theorem input_words_cons (l : List Char) (ls : List (List Char)) :
    input_words (l :: ls) = line_words l ++ input_words ls := by
  simp [input_words]

/-- The copy step of `get_token` on a line whose rest holds the words `w :: ws`. -/
theorem get_token_copy_words (t : State) (w : List Char) (ws : List (List Char))
    (hb : ∀ c ∈ t.buffer, c ≠ nul)
    (hw : line_words (t.buffer.drop t.lookahead) = w :: ws) :
    (remove_whitespace t).buffer.getD (remove_whitespace t).lookahead nul ≠ nul ∧
    (get_token_copy t).token = w ∧
    line_words ((get_token_copy t).buffer.drop (get_token_copy t).lookahead) = ws ∧
    w ≠ [] ∧ (∀ c ∈ w, c ≠ ' ') ∧ w.head? ≠ some '\t' ∧
    ∃ k, (get_token_copy t).lookahead = k + w.length ∧
      (get_token_copy t).buffer.drop k
        = w ++ (get_token_copy t).buffer.drop (get_token_copy t).lookahead := by
  have hge := skip_ws_ge (t.buffer.drop t.lookahead) t.lookahead
  have hk : (remove_whitespace t).lookahead
      = skip_ws (t.buffer.drop t.lookahead) t.lookahead := rfl
  have hdrop : t.buffer.drop (skip_ws (t.buffer.drop t.lookahead) t.lookahead)
      = (t.buffer.drop t.lookahead).drop
          (skip_ws (t.buffer.drop t.lookahead) t.lookahead - t.lookahead) := by
    rw [List.drop_drop]
    congr 1
    omega
  have hskip := line_words_skip (t.buffer.drop t.lookahead) t.lookahead
  rw [← hdrop, hw] at hskip
  rcases skip_ws_drop_head (t.buffer.drop t.lookahead) t.lookahead with h0 | ⟨c, cs, h0, h1, h2⟩
  · rw [← hdrop] at h0
    rw [h0] at hskip
    simp [line_words_nil] at hskip
  · rw [← hdrop] at h0
    have hclean : ∀ d ∈ c :: cs, d ≠ nul := by
      intro d hd
      rw [← h0] at hd
      exact hb d (List.mem_of_mem_drop hd)
    obtain ⟨hlw, hhead⟩ := line_words_cons c cs
      (skip_ws (t.buffer.drop t.lookahead) t.lookahead) h1 h2 hclean
    rw [h0, hlw] at hskip
    simp only [List.cons.injEq] at hskip
    obtain ⟨hw1, hws⟩ := hskip
    obtain ⟨hsplit, hchars⟩ := copy_token_split (c :: cs)
      (skip_ws (t.buffer.drop t.lookahead) t.lookahead)
    have hsnd := copy_token_snd (c :: cs) (skip_ws (t.buffer.drop t.lookahead) t.lookahead)
    have htok : (get_token_copy t).token = w := by
      simp only [get_token_copy, remove_whitespace_buffer, hk, h0]
      exact hw1
    have hlook : (get_token_copy t).lookahead
        = skip_ws (t.buffer.drop t.lookahead) t.lookahead + w.length := by
      simp only [get_token_copy, remove_whitespace_buffer, hk, h0]
      rw [hsnd, hw1]
    have hrest : t.buffer.drop (skip_ws (t.buffer.drop t.lookahead) t.lookahead + w.length)
        = (c :: cs).drop w.length := by
      rw [← List.drop_drop, h0]
    refine ⟨?_, htok, ?_, ?_, ?_, ?_, skip_ws (t.buffer.drop t.lookahead) t.lookahead, hlook, ?_⟩
    · rw [remove_whitespace_buffer, hk, getD_of_drop_eq _ _ c _ h0]
      exact hclean c (List.mem_cons_self c cs)
    · rw [get_token_copy_buffer, hlook, hrest, ← hw1]
      exact hws
    · rw [← hw1]
      intro he
      rw [he] at hhead
      simp at hhead
    · intro d hd
      rw [← hw1] at hd
      exact (hchars d hd).1
    · rw [← hw1, hhead]
      intro he
      simp only [Option.some.injEq] at he
      exact h2 he
    · rw [get_token_copy_buffer, hlook, hrest, h0]
      rw [← hw1]
      exact hsplit

theorem line_words_ne_nil_of_ne_nil (t : State)
    (h : line_words (t.buffer.drop t.lookahead) = []) :
    (remove_whitespace t).buffer.getD (remove_whitespace t).lookahead nul = nul ∨
    ∃ c, c ∈ t.buffer ∧ c = nul := by
  have hge := skip_ws_ge (t.buffer.drop t.lookahead) t.lookahead
  have hk : (remove_whitespace t).lookahead
      = skip_ws (t.buffer.drop t.lookahead) t.lookahead := rfl
  have hdrop : t.buffer.drop (skip_ws (t.buffer.drop t.lookahead) t.lookahead)
      = (t.buffer.drop t.lookahead).drop
          (skip_ws (t.buffer.drop t.lookahead) t.lookahead - t.lookahead) := by
    rw [List.drop_drop]
    congr 1
    omega
  have hskip := line_words_skip (t.buffer.drop t.lookahead) t.lookahead
  rw [← hdrop, h] at hskip
  rcases skip_ws_drop_head (t.buffer.drop t.lookahead) t.lookahead with h0 | ⟨c, cs, h0, h1, h2⟩
  · rw [← hdrop] at h0
    left
    rw [remove_whitespace_buffer, hk, getD_eq_headD_drop, h0]
    rfl
  · rw [← hdrop] at h0
    by_cases hn : ∀ d ∈ c :: cs, d ≠ nul
    · obtain ⟨hlw, -⟩ := line_words_cons c cs 0 h1 h2 hn
      rw [h0, hlw] at hskip
      simp at hskip
    · right
      push_neg at hn
      obtain ⟨d, hd, hd2⟩ := hn
      rw [← h0] at hd
      exact ⟨d, List.mem_of_mem_drop hd, hd2⟩

theorem get_buffer_loop_words (ls : List (List Char)) : ∀ (l : List Char),
    (∀ x ∈ l :: ls, x = [] ∨ line_words x ≠ []) →
    (input_words (l :: ls) = [] ∧ get_buffer_loop l ls = none) ∨
    (∃ line rest, get_buffer_loop l ls = some (line, rest) ∧ line_words line ≠ [] ∧
      input_words (l :: ls) = line_words line ++ input_words rest ∧
      ∀ x ∈ line :: rest, x ∈ l :: ls) := by
  induction ls with
  | nil =>
    intro l h
    cases l with
    | nil => left; exact ⟨rfl, rfl⟩
    | cons c cs =>
      right
      refine ⟨c :: cs, [], rfl, ?_, rfl, fun x hx => hx⟩
      rcases h (c :: cs) (List.mem_cons_self _ _) with h1 | h1
      · simp at h1
      · exact h1
  | cons l2 ls ih =>
    intro l h
    cases l with
    | nil =>
      have h2 : ∀ x ∈ l2 :: ls, x = [] ∨ line_words x ≠ [] :=
        fun x hx => h x (List.mem_cons_of_mem _ hx)
      rcases ih l2 h2 with ⟨h3, h4⟩ | ⟨line, rest, h3, h4, h5, h6⟩
      · left
        refine ⟨?_, ?_⟩
        · rw [input_words_cons, line_words_nil, h3]; rfl
        · simpa [get_buffer_loop] using h4
      · right
        refine ⟨line, rest, ?_, h4, ?_, fun x hx => List.mem_cons_of_mem _ (h6 x hx)⟩
        · simpa [get_buffer_loop] using h3
        · rw [input_words_cons, line_words_nil, h5]; rfl
    | cons c cs =>
      right
      refine ⟨c :: cs, l2 :: ls, rfl, ?_, rfl, fun x hx => hx⟩
      rcases h (c :: cs) (List.mem_cons_self _ _) with h1 | h1
      · simp at h1
      · exact h1

theorem get_token_copy_remove_whitespace (s : State) :
    get_token_copy (remove_whitespace s) = get_token_copy s := by
  simp only [get_token_copy, remove_whitespace_idem]

/-- One call of `get_token` on tidy input: it delivers the first word that is left, or, when
no word is left, does not return. -/
theorem get_token_next_word (s : State) (ht : Tidy s) :
    (∀ w ws, rest_words s = w :: ws →
      ∃ s1, get_token s = .ok () s1 ∧ s1.token = w ∧ rest_words s1 = ws ∧ Tidy s1 ∧
        w ≠ [] ∧ (∀ c ∈ w, c ≠ ' ') ∧ w.head? ≠ some '\t' ∧
        ∃ k, s1.lookahead = k + w.length ∧
          s1.buffer.drop k = w ++ s1.buffer.drop s1.lookahead) ∧
    (rest_words s = [] → ∃ h, get_token s = .halt h) := by
  obtain ⟨hb, hl⟩ := ht
  cases hlw : line_words (s.buffer.drop s.lookahead) with
  | cons w0 ws0 =>
    obtain ⟨hnn, htok, hrest, h1, h2, h3, k, hk1, hk2⟩ := get_token_copy_words s w0 ws0 hb hlw
    have hg : get_token s = .ok () (get_token_copy s) := by
      unfold get_token
      simp only
      rw [if_neg hnn, get_token_copy_remove_whitespace]
    refine ⟨?_, ?_⟩
    · intro w ws hw
      simp only [rest_words, hlw, List.cons_append, List.cons.injEq] at hw
      obtain ⟨rfl, rfl⟩ := hw
      refine ⟨get_token_copy s, hg, htok, ?_, ⟨hb, hl⟩, h1, h2, h3, k, hk1, hk2⟩
      simp only [rest_words, hrest, get_token_copy_stdin]
    · intro hw
      simp [rest_words, hlw] at hw
  | nil =>
    have hn : (remove_whitespace s).buffer.getD (remove_whitespace s).lookahead nul = nul := by
      rcases line_words_ne_nil_of_ne_nil s hlw with h | ⟨c, hc, hc2⟩
      · exact h
      · exact absurd hc2 (hb c hc)
    have hg : get_token s = match get_buffer (remove_whitespace s) with
        | .halt h => .halt h
        | .ok _ s2 => .ok () (get_token_copy s2) := by
      unfold get_token
      simp only
      rw [if_pos hn]
    have hrw : rest_words s = input_words s.stdin := by
      simp [rest_words, hlw]
    cases hst : s.stdin with
    | nil =>
      have hgb : get_buffer (remove_whitespace s) = .halt .exhausted := by
        unfold get_buffer
        simp only [remove_whitespace_stdin, hst]
      refine ⟨?_, fun _ => ⟨_, by rw [hg, hgb]⟩⟩
      intro w ws hw
      rw [hrw, hst] at hw
      simp [input_words] at hw
    | cons l ls =>
      have hl2 : ∀ x ∈ l :: ls, x = [] ∨ line_words x ≠ [] := by
        intro x hx
        rw [← hst] at hx
        exact (hl x hx).2
      rcases get_buffer_loop_words ls l hl2 with ⟨h1, h2⟩ | ⟨line, rest, h1, h2, h3, h4⟩
      · have hgb : get_buffer (remove_whitespace s) = .halt .spin := by
          unfold get_buffer
          simp only [remove_whitespace_stdin, hst, h2]
        refine ⟨?_, fun _ => ⟨_, by rw [hg, hgb]⟩⟩
        intro w ws hw
        rw [hrw, hst, h1] at hw
        simp at hw
      · have hgb : get_buffer (remove_whitespace s) = .ok ()
            { remove_whitespace s with stdin := rest, buffer := line, lookahead := 0 } := by
          unfold get_buffer
          simp only [remove_whitespace_stdin, hst, h1]
        have hline : ∀ c ∈ line, c ≠ nul := by
          have := h4 line (List.mem_cons_self _ _)
          rw [← hst] at this
          exact (hl line this).1
        have hrestT : ∀ x ∈ rest, (∀ c ∈ x, c ≠ nul) ∧ (x = [] ∨ line_words x ≠ []) := by
          intro x hx
          have := h4 x (List.mem_cons_of_mem _ hx)
          rw [← hst] at this
          exact hl x this
        refine ⟨?_, ?_⟩
        · intro w ws hw
          rw [hrw, hst, h3] at hw
          cases hlw2 : line_words line with
          | nil => exact absurd hlw2 h2
          | cons w1 ws1 =>
            rw [hlw2] at hw
            simp only [List.cons_append, List.cons.injEq] at hw
            obtain ⟨rfl, rfl⟩ := hw
            obtain ⟨-, htok, hrest, g1, g2, g3, k, hk1, hk2⟩ := get_token_copy_words
              { remove_whitespace s with stdin := rest, buffer := line, lookahead := 0 }
              w1 ws1 hline (by simpa using hlw2)
            refine ⟨_, by rw [hg, hgb], htok, ?_, ⟨hline, hrestT⟩, g1, g2, g3, k, hk1, hk2⟩
            simp only [rest_words, hrest, get_token_copy_stdin]
        · intro hw
          rw [hrw, hst, h3] at hw
          simp only [List.append_eq_nil] at hw
          exact absurd hw.1 h2

theorem read_tokens_eq (n : Nat) : ∀ (s : State), Tidy s →
    read_tokens n s = (rest_words s).take n := by
  induction n with
  | zero => intro s _; rfl
  | succ n ih =>
    intro s ht
    obtain ⟨h1, h2⟩ := get_token_next_word s ht
    cases hw : rest_words s with
    | nil =>
      obtain ⟨h, hg⟩ := h2 hw
      simp [read_tokens, hg]
    | cons w ws =>
      obtain ⟨s1, hg, htok, hrest, ht1, -⟩ := h1 w ws hw
      simp only [read_tokens, hg, htok, List.take_succ_cons, List.cons.injEq, true_and]
      rw [ih s1 ht1, hrest]

/-- Two facts of the lexer: after a line that holds only a blank, `get_token` delivers
the empty token although the word `b` is left on the next line; and on the line `a<tab>b`
it delivers one token that holds the tab. -/
theorem get_token_blank_line_and_tab :
    get_token (init [[' '], ['b']]) = .ok ()
      { stdin := [['b']], buffer := [' '], lookahead := 1, token := [], var_ref := 0,
        assign_count := 0 } ∧
    get_token (init [['a', '\t', 'b']]) = .ok ()
      { stdin := [], buffer := ['a', '\t', 'b'], lookahead := 3, token := ['a', '\t', 'b'],
        var_ref := 0, assign_count := 0 } := by
  decide

/-- The lexer yields the words of the input, for lines of any length: when the unread input
holds no nul character and no line that consists of blanks and tabs only, `get_token`
delivers the next word, skipping blanks, tabs and empty lines before it; a word runs up
to the next blank or line end, so it is not empty, holds no blank and does not start with a
tab; the cursor is left just past the word.  Repeated calls deliver the words of the
input in order. -/
theorem get_token_delivers_words (s : State) (ht : Tidy s) :
    (∀ w ws, rest_words s = w :: ws →
      ∃ s1, get_token s = .ok () s1 ∧ s1.token = w ∧ rest_words s1 = ws ∧
        w ≠ [] ∧ (∀ c ∈ w, c ≠ ' ') ∧ w.head? ≠ some '\t' ∧
        ∃ k, s1.lookahead = k + w.length ∧
          s1.buffer.drop k = w ++ s1.buffer.drop s1.lookahead) ∧
    (∀ n, read_tokens n s = (rest_words s).take n) := by
  refine ⟨?_, fun n => read_tokens_eq n s ht⟩
  intro w ws hw
  obtain ⟨s1, h1, h2, h3, -, h4⟩ := (get_token_next_word s ht).1 w ws hw
  exact ⟨s1, h1, h2, h3, h4⟩

theorem get_token_delivers_words_witness :
    (∃ s1, get_token (init ["  program".toList, [], "\tbegin a".toList]) = .ok () s1 ∧
        s1.token = "program".toList ∧
        rest_words s1 = ["begin".toList, "a".toList] ∧
        "program".toList ≠ [] ∧ (∀ c ∈ "program".toList, c ≠ ' ') ∧
        "program".toList.head? ≠ some '\t' ∧
        ∃ k, s1.lookahead = k + "program".toList.length ∧
          s1.buffer.drop k = "program".toList ++ s1.buffer.drop s1.lookahead) ∧
    read_tokens 5 (init ["  program".toList, [], "\tbegin a".toList])
      = (rest_words (init ["  program".toList, [], "\tbegin a".toList])).take 5 :=
  ⟨(get_token_delivers_words (init ["  program".toList, [], "\tbegin a".toList])
      (by simp [Tidy, init, nul]; decide)).1
      "program".toList ["begin".toList, "a".toList] (by decide),
   (get_token_delivers_words (init ["  program".toList, [], "\tbegin a".toList])
      (by simp [Tidy, init, nul]; decide)).2 5⟩

/-! ## Where a run can stop short of `exit` -/

theorem reads_inv {P : State → Prop} (I : LexKeep P) (s s1 : State)
    (ts : List (List Char)) (hr : Reads s ts s1) (h : P s) : P s1 := by
  induction hr with
  | done hl => exact I.lex _ _ h hl
  | step hg _ ih => exact ih (I.step _ _ h hg)

theorem halt_exit_ne {α : Type} {P : State → Prop} {h0 : Halt} (I : LexInv P h0) (c : Nat) :
    (Res.halt (.exit c) : Res α) ≠ .halt h0 := by
  intro h
  simp only [Res.halt.injEq] at h
  exact I.not_exit c h.symm

theorem variable_safe {P : State → Prop} {h0 : Halt} (I : LexInv P h0) (s : State)
    (h : P s) : variable_ s ≠ .halt h0 := by
  rw [variable_eq]
  split
  · have hg := I.safe s h
    cases hgs : get_token s with
    | halt h1 =>
      intro he
      simp only [Res.halt.injEq] at he
      exact hg (by rw [hgs, he])
    | ok u s1 => simp
  · simp

theorem no_operand_safe {P : State → Prop} {h0 : Halt} (I : LexInv P h0) (s : State)
    (h : P s) : no_operand s ≠ .halt h0 := by
  rw [no_operand_eq]
  split
  · have hg := I.safe s h
    cases hgs : get_token s with
    | halt h1 =>
      intro he
      simp only [Res.halt.injEq] at he
      exact hg (by rw [hgs, he])
    | ok u s1 => simp
  · simp

theorem no_operand_inv {P : State → Prop} (I : LexKeep P) (s s1 : State)
    (b : Bool) (hn : no_operand s = .ok b s1) (h : P s) : P s1 := by
  rcases no_operand_sound _ _ _ hn with ⟨-, -, hr⟩ | ⟨-, -, rfl⟩
  · exact reads_inv I _ _ _ hr h
  · exact h

theorem expr_loop_safe {P : State → Prop} {h0 : Halt} (I : LexInv P h0) (k : Nat) :
    ∀ s, P s → expr_loop k s ≠ .halt h0 := by
  induction k with
  | zero => intro s _; simp [expr_loop]
  | succ k ih =>
    intro s h
    simp only [expr_loop]
    have hn := no_operand_safe I s h
    cases hns : no_operand s with
    | halt h1 =>
      intro he
      simp only [Res.halt.injEq] at he
      exact hn (by rw [hns, he])
    | ok b s1 =>
      cases b with
      | true => exact halt_exit_ne I _
      | false => exact ih s1 (no_operand_inv I.keep _ _ _ hns h)

theorem expr_safe {P : State → Prop} {h0 : Halt} (I : LexInv P h0) (s : State)
    (h : P s) : expr s ≠ .halt h0 := by
  unfold expr
  split
  · have hg := I.safe s h
    cases hgs : get_token s with
    | halt h1 =>
      intro he
      simp only [Res.halt.injEq] at he
      exact hg (by rw [hgs, he])
    | ok u s1 => exact expr_loop_safe I 2 s1 (I.keep.step _ _ h hgs)
  · have hn := no_operand_safe I s h
    cases hns : no_operand s with
    | halt h1 =>
      intro he
      simp only [Res.halt.injEq] at he
      exact hn (by rw [hns, he])
    | ok b s1 =>
      cases b with
      | true => exact halt_exit_ne I _
      | false => simp

theorem testexpr_safe {P : State → Prop} {h0 : Halt} (I : LexInv P h0) (s : State)
    (h : P s) : testexpr s ≠ .halt h0 := by
  unfold testexpr
  have hv := variable_safe I s h
  cases hvs : variable_ s with
  | halt h1 =>
    intro he
    simp only [Res.halt.injEq] at he
    exact hv (by rw [hvs, he])
  | ok b s1 =>
    cases b with
    | false => simp
    | true =>
      have h1 : P s1 := by
        rcases variable_sound _ _ _ hvs with ⟨-, -, hr⟩ | ⟨hb, -, -⟩
        · exact reads_inv I.keep _ _ _ hr h
        · simp at hb
      simp only
      split
      · have hg := I.safe s1 h1
        cases hgs : get_token s1 with
        | halt h2 =>
          intro he
          simp only [Res.halt.injEq] at he
          exact hg (by rw [hgs, he])
        | ok u s2 =>
          simp only
          have hx := expr_safe I s2 (I.keep.step _ _ h1 hgs)
          cases hes : expr s2 with
          | halt h2 =>
            intro he
            simp only [Res.halt.injEq] at he
            exact hx (by rw [hes, he])
          | ok u2 s3 => simp
      · simp

theorem assign_safe {P : State → Prop} {h0 : Halt} (I : LexInv P h0) (s : State)
    (h : P s) : assign s ≠ .halt h0 := by
  unfold assign
  have hv := variable_safe I s h
  cases hvs : variable_ s with
  | halt h1 =>
    intro he
    simp only [Res.halt.injEq] at he
    exact hv (by rw [hvs, he])
  | ok b s1 =>
    cases b with
    | false => simp
    | true =>
      have h1 : P s1 := by
        rcases variable_sound _ _ _ hvs with ⟨-, -, hr⟩ | ⟨hb, -, -⟩
        · exact reads_inv I.keep _ _ _ hr h
        · simp at hb
      simp only
      split
      · have hg := I.safe s1 h1
        cases hgs : get_token s1 with
        | halt h2 =>
          intro he
          simp only [Res.halt.injEq] at he
          exact hg (by rw [hgs, he])
        | ok u s2 =>
          simp only
          have hx := expr_safe I s2 (I.keep.step _ _ h1 hgs)
          cases hes : expr s2 with
          | halt h2 =>
            intro he
            simp only [Res.halt.injEq] at he
            exact hx (by rw [hes, he])
          | ok u2 s3 => simp
      · simp

theorem testexpr_inv {P : State → Prop} (I : LexKeep P) (s s1 : State)
    (ht : testexpr s = .ok true s1) (h : P s) : P s1 := by
  obtain ⟨t, -, hr⟩ := testexpr_sound _ _ ht
  exact reads_inv I _ _ _ hr h

theorem assign_inv {P : State → Prop} (I : LexKeep P) (s s1 : State) (b : Bool)
    (ha : assign s = .ok b s1) (h : P s) : P s1 := by
  rcases assign_sound _ _ _ ha with ⟨-, v, e, -, -, hr⟩ | ⟨-, -, rfl⟩ | ⟨-, -, hr⟩
  · exact reads_inv I _ _ _ hr h
  · exact h
  · exact reads_inv I _ _ _ hr h

theorem grammar_inv {P : State → Prop} (I : LexKeep P) (n : Nat) :
    (∀ s b s1, block n s = .ok b s1 → P s → P s1) ∧
    (∀ s u s1, stmtlist n s = .ok u s1 → P s → P s1) ∧
    (∀ s b s1, stmt n s = .ok b s1 → P s → P s1) ∧
    (∀ s b s1, ifstmt n s = .ok b s1 → P s → P s1) ∧
    (∀ s b s1, whilestmt n s = .ok b s1 → P s → P s1) := by
  obtain ⟨hb, hsl, -, hs, hi, hw⟩ := sound_step n
  refine ⟨?_, ?_, ?_, ?_, ?_⟩
  · intro s b s1 h hp
    obtain ⟨-, ts, o, st, hr, -⟩ := hb _ _ _ h
    exact reads_inv I _ _ _ hr hp
  · intro s b s1 h hp
    obtain ⟨ts, o, st, hr, -⟩ := hsl _ _ _ h
    exact reads_inv I _ _ _ hr hp
  · intro s b s1 h hp
    obtain ⟨-, ts, o, st, hr, -⟩ := hs _ _ _ h
    exact reads_inv I _ _ _ hr hp
  · intro s b s1 h hp
    rcases hi _ _ _ h with ⟨-, rfl⟩ | ⟨-, ts, o, st, hr, -⟩
    · exact hp
    · exact reads_inv I _ _ _ hr hp
  · intro s b s1 h hp
    rcases hw _ _ _ h with ⟨-, rfl⟩ | ⟨-, ts, o, st, hr, -⟩
    · exact hp
    · exact reads_inv I _ _ _ hr hp

theorem safe_step {P : State → Prop} {h0 : Halt} (I : LexInv P h0) (n : Nat) :
    (∀ s, P s → block n s ≠ .halt h0) ∧
    (∀ s, P s → stmtlist n s ≠ .halt h0) ∧
    (∀ s, P s → morestmts n s ≠ .halt h0) ∧
    (∀ s, P s → stmt n s ≠ .halt h0) ∧
    (∀ s, P s → ifstmt n s ≠ .halt h0) ∧
    (∀ s, P s → whilestmt n s ≠ .halt h0) := by
  induction n with
  | zero =>
    have hf : (Res.halt .fuel : Res Bool) ≠ .halt h0 := by
      intro h
      simp only [Res.halt.injEq] at h
      exact I.not_fuel h.symm
    have hf2 : (Res.halt .fuel : Res Unit) ≠ .halt h0 := by
      intro h
      simp only [Res.halt.injEq] at h
      exact I.not_fuel h.symm
    exact ⟨fun _ _ => hf, fun _ _ => hf2, fun _ _ => hf, fun _ _ => hf, fun _ _ => hf,
      fun _ _ => hf⟩
  | succ n ih =>
    obtain ⟨hb, hsl, hm, hs, hi, hw⟩ := ih
    obtain ⟨rb, rsl, rs, ri, rw_⟩ := grammar_inv I.keep n
    refine ⟨?_, ?_, ?_, ?_, ?_, ?_⟩
    · intro s hn
      rw [block.eq_2 s n]
      split
      · exact halt_exit_ne I _
      · have hg := I.safe s hn
        cases hgs : get_token s with
        | halt h1 =>
          intro h
          simp only [Res.halt.injEq] at h
          exact hg (by rw [hgs, h])
        | ok u s1 =>
          have h1 := I.keep.step _ _ hn hgs
          simp only
          have hl := hsl s1 h1
          cases hls : stmtlist n s1 with
          | halt h1 =>
            intro h
            simp only [Res.halt.injEq] at h
            exact hl (by rw [hls, h])
          | ok u2 s2 =>
            have h2 := rsl _ _ _ hls h1
            simp only
            split
            · exact halt_exit_ne I _
            · split
              · have hg2 := I.safe s2 h2
                cases hgs2 : get_token s2 with
                | halt h1 =>
                  intro h
                  simp only [Res.halt.injEq] at h
                  exact hg2 (by rw [hgs2, h])
                | ok u3 s3 => simp
              · simp
    · intro s hn
      rw [stmtlist.eq_2 s n]
      have hst := hs s hn
      cases hsts : stmt n s with
      | halt h1 =>
        intro h
        simp only [Res.halt.injEq] at h
        exact hst (by rw [hsts, h])
      | ok b s1 =>
        have h1 := rs _ _ _ hsts hn
        cases b with
        | false => exact halt_exit_ne I _
        | true =>
          simp only
          have hmo := hm s1 h1
          cases hmos : morestmts n s1 with
          | halt h1 =>
            intro h
            simp only [Res.halt.injEq] at h
            exact hmo (by rw [hmos, h])
          | ok b2 s2 =>
            cases b2 with
            | false => exact halt_exit_ne I _
            | true => simp
    · intro s hn
      rw [morestmts.eq_2 s n]
      split
      · simp
      · split
        · have hg := I.safe s hn
          cases hgs : get_token s with
          | halt h1 =>
            intro h
            simp only [Res.halt.injEq] at h
            exact hg (by rw [hgs, h])
          | ok u s1 =>
            have h1 := I.keep.step _ _ hn hgs
            simp only
            have hl := hsl s1 h1
            cases hls : stmtlist n s1 with
            | halt h1 =>
              intro h
              simp only [Res.halt.injEq] at h
              exact hl (by rw [hls, h])
            | ok u2 s2 => simp
        · exact halt_exit_ne I _
    · intro s hn
      rw [stmt.eq_2 s n]
      have ha := assign_safe I s hn
      cases has : assign s with
      | halt h1 =>
        intro h
        simp only [Res.halt.injEq] at h
        exact ha (by rw [has, h])
      | ok b s1 =>
        have h1 := assign_inv I.keep _ _ _ has hn
        cases b with
        | true => simp
        | false =>
          simp only
          have hif := hi s1 h1
          cases hifs : ifstmt n s1 with
          | halt h1 =>
            intro h
            simp only [Res.halt.injEq] at h
            exact hif (by rw [hifs, h])
          | ok b2 s2 =>
            have h2 := ri _ _ _ hifs h1
            cases b2 with
            | true => simp
            | false =>
              simp only
              have hwh := hw s2 h2
              cases hwhs : whilestmt n s2 with
              | halt h1 =>
                intro h
                simp only [Res.halt.injEq] at h
                exact hwh (by rw [hwhs, h])
              | ok b3 s3 =>
                have h3 := rw_ _ _ _ hwhs h2
                cases b3 with
                | true => simp
                | false =>
                  simp only
                  have hbl := hb s3 h3
                  cases hbls : block n s3 with
                  | halt h1 =>
                    intro h
                    simp only [Res.halt.injEq] at h
                    exact hbl (by rw [hbls, h])
                  | ok b4 s4 =>
                    cases b4 with
                    | true => simp
                    | false => exact halt_exit_ne I _
    · intro s hn
      rw [ifstmt.eq_2 s n]
      split
      · have hg := I.safe s hn
        cases hgs : get_token s with
        | halt h1 =>
          intro h
          simp only [Res.halt.injEq] at h
          exact hg (by rw [hgs, h])
        | ok u s1 =>
          have h1 := I.keep.step _ _ hn hgs
          simp only
          have hte := testexpr_safe I s1 h1
          cases htes : testexpr s1 with
          | halt h1 =>
            intro h
            simp only [Res.halt.injEq] at h
            exact hte (by rw [htes, h])
          | ok bt s2 =>
            cases bt with
            | false => exact halt_exit_ne I _
            | true =>
              have h2 := testexpr_inv I.keep _ _ htes h1
              simp only
              split
              · exact halt_exit_ne I _
              · have hg2 := I.safe s2 h2
                cases hgs2 : get_token s2 with
                | halt h1 =>
                  intro h
                  simp only [Res.halt.injEq] at h
                  exact hg2 (by rw [hgs2, h])
                | ok u2 s3 =>
                  have h3 := I.keep.step _ _ h2 hgs2
                  simp only
                  have hst := hs s3 h3
                  cases hsts : stmt n s3 with
                  | halt h1 =>
                    intro h
                    simp only [Res.halt.injEq] at h
                    exact hst (by rw [hsts, h])
                  | ok b4 s4 =>
                    have h4 := rs _ _ _ hsts h3
                    simp only
                    split
                    · exact halt_exit_ne I _
                    · have hg3 := I.safe s4 h4
                      cases hgs3 : get_token s4 with
                      | halt h1 =>
                        intro h
                        simp only [Res.halt.injEq] at h
                        exact hg3 (by rw [hgs3, h])
                      | ok u3 s5 =>
                        have h5 := I.keep.step _ _ h4 hgs3
                        simp only
                        have hst2 := hs s5 h5
                        cases hsts2 : stmt n s5 with
                        | halt h1 =>
                          intro h
                          simp only [Res.halt.injEq] at h
                          exact hst2 (by rw [hsts2, h])
                        | ok b6 s6 => simp
      · simp
    · intro s hn
      rw [whilestmt.eq_2 s n]
      split
      · have hg := I.safe s hn
        cases hgs : get_token s with
        | halt h1 =>
          intro h
          simp only [Res.halt.injEq] at h
          exact hg (by rw [hgs, h])
        | ok u s1 =>
          have h1 := I.keep.step _ _ hn hgs
          simp only
          have hte := testexpr_safe I s1 h1
          cases htes : testexpr s1 with
          | halt h1 =>
            intro h
            simp only [Res.halt.injEq] at h
            exact hte (by rw [htes, h])
          | ok bt s2 =>
            cases bt with
            | false => exact halt_exit_ne I _
            | true =>
              have h2 := testexpr_inv I.keep _ _ htes h1
              simp only
              split
              · exact halt_exit_ne I _
              · have hg2 := I.safe s2 h2
                cases hgs2 : get_token s2 with
                | halt h1 =>
                  intro h
                  simp only [Res.halt.injEq] at h
                  exact hg2 (by rw [hgs2, h])
                | ok u2 s3 =>
                  have h3 := I.keep.step _ _ h2 hgs2
                  simp only
                  have hst := hs s3 h3
                  cases hsts : stmt n s3 with
                  | halt h1 =>
                    intro h
                    simp only [Res.halt.injEq] at h
                    exact hst (by rw [hsts, h])
                  | ok b4 s4 => simp
      · simp

theorem program_safe {P : State → Prop} {h0 : Halt} (I : LexInv P h0) (n : Nat) (s : State)
    (hn : P s) : program n s ≠ .halt h0 := by
  unfold program
  have hg := I.safe s hn
  cases hgs : get_token s with
  | halt h1 =>
    intro h
    simp only [Res.halt.injEq] at h
    exact hg (by rw [hgs, h])
  | ok u s1 =>
    have h1 := I.keep.step _ _ hn hgs
    simp only
    split
    · exact halt_exit_ne I _
    · have hg2 := I.safe s1 h1
      cases hgs2 : get_token s1 with
      | halt h1 =>
        intro h
        simp only [Res.halt.injEq] at h
        exact hg2 (by rw [hgs2, h])
      | ok u2 s2 =>
        have h2 := I.keep.step _ _ h1 hgs2
        simp only
        have hb := (safe_step I n).1 s2 h2
        cases hbs : block n s2 with
        | halt h1 =>
          intro h
          simp only [Res.halt.injEq] at h
          exact hb (by rw [hbs, h])
        | ok b s3 =>
          simp only
          split
          · exact halt_exit_ne I _
          · simp

/-! ## Termination -/

theorem get_buffer_loop_none (ls : List (List Char)) :
    ∀ l, get_buffer_loop l ls = none → (l :: ls).getLast? = some [] := by
  induction ls with
  | nil =>
    intro l h
    cases l with
    | nil => rfl
    | cons c cs => simp [get_buffer_loop] at h
  | cons l2 ls ih =>
    intro l h
    cases l with
    | nil =>
      simp only [get_buffer_loop] at h
      rw [List.getLast?_cons_cons]
      exact ih l2 h
    | cons c cs => simp [get_buffer_loop] at h

theorem get_buffer_loop_last (ls : List (List Char)) :
    ∀ l line rest, get_buffer_loop l ls = some (line, rest) →
      rest = [] ∨ rest.getLast? = (l :: ls).getLast? := by
  induction ls with
  | nil =>
    intro l line rest h
    cases l with
    | nil => simp [get_buffer_loop] at h
    | cons c cs =>
      simp only [get_buffer_loop, Option.some.injEq, Prod.mk.injEq] at h
      exact Or.inl h.2.symm
  | cons l2 ls ih =>
    intro l line rest h
    cases l with
    | nil =>
      simp only [get_buffer_loop] at h
      rw [List.getLast?_cons_cons]
      exact ih l2 line rest h
    | cons c cs =>
      simp only [get_buffer_loop, Option.some.injEq, Prod.mk.injEq] at h
      right
      rw [← h.2, List.getLast?_cons_cons]

theorem get_buffer_last (s s1 : State) (h : get_buffer s = .ok () s1) (hl : last_line_full s) :
    last_line_full s1 := by
  unfold get_buffer at h
  unfold last_line_full at hl ⊢
  cases hs : s.stdin with
  | nil => simp [hs] at h
  | cons l ls =>
    simp only [hs] at h
    cases hg : get_buffer_loop l ls with
    | none => simp [hg] at h
    | some p =>
      obtain ⟨line, rest⟩ := p
      simp only [hg, Res.ok.injEq, true_and] at h
      subst h
      simp only
      rcases get_buffer_loop_last _ _ _ _ hg with e | e
      · simp [e]
      · rw [e, ← hs]
        exact hl

theorem get_buffer_no_spin (s : State) (hl : last_line_full s) : get_buffer s ≠ .halt .spin := by
  unfold get_buffer
  unfold last_line_full at hl
  cases hs : s.stdin with
  | nil => simp
  | cons l ls =>
    simp only
    cases hg : get_buffer_loop l ls with
    | none =>
      rw [hs] at hl
      exact absurd (get_buffer_loop_none _ _ hg) hl
    | some p => simp

theorem last_line_full_keep : LexKeep last_line_full where
  step := by
    intro s s1 hp hg
    unfold get_token at hg
    simp only at hg
    split at hg
    · cases hb : get_buffer (remove_whitespace s) with
      | halt h1 => simp [hb] at hg
      | ok u s2 =>
        simp only [hb, Res.ok.injEq, true_and] at hg
        subst hg
        have := get_buffer_last _ _ hb (by simpa [last_line_full, remove_whitespace] using hp)
        simpa [last_line_full, get_token_copy, remove_whitespace] using this
    · simp only [Res.ok.injEq, true_and] at hg
      subst hg
      simpa [last_line_full, get_token_copy, remove_whitespace] using hp
  lex := by
    intro s s1 hp hl
    unfold last_line_full at hp ⊢
    rw [← hl.1]
    exact hp

theorem last_line_full_inv : LexInv last_line_full .spin where
  keep := last_line_full_keep
  safe := by
    intro s hp
    unfold get_token
    simp only
    split
    · have hb := get_buffer_no_spin (remove_whitespace s)
        (by simpa [last_line_full, remove_whitespace] using hp)
      cases hbs : get_buffer (remove_whitespace s) with
      | halt h1 =>
        intro h
        simp only [Res.halt.injEq] at h
        exact hb (by rw [hbs, h])
      | ok u s2 => simp
    · simp
  not_exit := by intro c; simp
  not_fuel := by simp

theorem main_spin (input : List (List Char)) (h : main input = .halt .spin) :
    input.getLast? = some [] := by
  by_contra hne
  have hp : last_line_full (init input) := hne
  unfold main main_fuel at h
  have hb := get_buffer_no_spin _ hp
  cases hbs : get_buffer (init input) with
  | halt h1 =>
    rw [hbs] at h
    simp only [Res.halt.injEq] at h
    exact hb (by rw [hbs, h])
  | ok u s =>
    rw [hbs] at h
    exact program_safe last_line_full_inv _ s (get_buffer_last _ _ hbs hp) h

/-- Counterexample to claim C19: the input of the two lines `program` and an empty line.
After the word `program` the lexer asks for the next line, the loop of `get_buffer` that
skips empty lines reads past the end of the input, where `fgets` leaves the empty line in
the buffer, and the loop never ends: the run reaches none of the three outcomes. -/
theorem main_spins_on_empty_last_line :
    main ["program".toList, []] = .halt .spin ∧
    (∀ s, main ["program".toList, []] ≠ .ok () s) ∧
    (∀ c, main ["program".toList, []] ≠ .halt (.exit c)) ∧
    main ["program".toList, []] ≠ .halt .exhausted := by
  have h : main ["program".toList, []] = .halt .spin := by decide
  rw [h]
  simp

/-- Claim C19 as amended: on an input whose last line is not empty the run ends in one of
three outcomes, success, a call of `exit` with a status code, or the end of the line
source, and in no other way; every call of `get_token` that returns leaves fewer unread
characters, and the six mutually recursive procedures never use up a recursion depth of
three per unread character (plus three), so the recursion is well-founded on the
remaining input. -/
theorem run_terminates (input : List (List Char)) (h : input.getLast? ≠ some []) :
    ((∃ s, main input = .ok () s) ∨ (∃ c, main input = .halt (.exit c)) ∨
      main input = .halt .exhausted) ∧
    main input ≠ .halt .spin ∧ main input ≠ .halt .fuel ∧
    (∀ s s1, get_token s = .ok () s1 → remaining s1 < remaining s) ∧
    (∀ n s, 3 * remaining s + 3 ≤ n →
      block n s ≠ .halt .fuel ∧ stmtlist n s ≠ .halt .fuel ∧ morestmts n s ≠ .halt .fuel ∧
      stmt n s ≠ .halt .fuel ∧ ifstmt n s ≠ .halt .fuel ∧ whilestmt n s ≠ .halt .fuel) := by
  have hs : main input ≠ .halt .spin := fun e => h (main_spin input e)
  have hf := main_no_fuel input
  refine ⟨?_, hs, hf, ?_, ?_⟩
  · cases hm : main input with
    | ok u s => exact Or.inl ⟨s, rfl⟩
    | halt h1 =>
      cases h1 with
      | exit c => exact Or.inr (Or.inl ⟨c, rfl⟩)
      | exhausted => exact Or.inr (Or.inr rfl)
      | spin => exact absurd hm hs
      | fuel => exact absurd hm hf
  · intro s s1 hg
    exact get_token_remaining _ _ _ hg
  · intro n s hn
    obtain ⟨hb, hsl, hm, hst, hi, hw⟩ := fuel_enough_step n
    exact ⟨hb s (by omega), hsl s hn, hm s (by omega), hst s (by omega), hi s (by omega),
      hw s (by omega)⟩

theorem run_terminates_witness :
    ["program begin a = 0 end.".toList].getLast? ≠ some [] ∧
    ((∃ s, main ["program begin a = 0 end.".toList] = .ok () s) ∨
      (∃ c, main ["program begin a = 0 end.".toList] = .halt (.exit c)) ∨
      main ["program begin a = 0 end.".toList] = .halt .exhausted) ∧
    main ["program begin a = 0 end.".toList] ≠ .halt .spin :=
  ⟨by decide, (run_terminates ["program begin a = 0 end.".toList] (by decide)).1,
    (run_terminates ["program begin a = 0 end.".toList] (by decide)).2.1⟩

/-! ## Text after the terminator -/

theorem get_buffer_loop_length (ls : List (List Char)) :
    ∀ l line rest, get_buffer_loop l ls = some (line, rest) → rest.length ≤ ls.length := by
  induction ls with
  | nil =>
    intro l line rest h
    cases l with
    | nil => simp [get_buffer_loop] at h
    | cons c cs =>
      simp only [get_buffer_loop, Option.some.injEq, Prod.mk.injEq] at h
      rw [← h.2]
  | cons l2 ls ih =>
    intro l line rest h
    cases l with
    | nil =>
      simp only [get_buffer_loop] at h
      have := ih l2 line rest h
      simp only [List.length_cons]
      omega
    | cons c cs =>
      simp only [get_buffer_loop, Option.some.injEq, Prod.mk.injEq] at h
      rw [← h.2]

theorem get_buffer_stdin (s s1 : State) (u : Unit) (h : get_buffer s = .ok u s1) :
    s1.stdin.length < s.stdin.length := by
  unfold get_buffer at h
  cases hs : s.stdin with
  | nil => simp [hs] at h
  | cons l ls =>
    simp only [hs] at h
    cases hg : get_buffer_loop l ls with
    | none => simp [hg] at h
    | some p =>
      obtain ⟨line, rest⟩ := p
      simp only [hg, Res.ok.injEq, true_and] at h
      subst h
      have := get_buffer_loop_length _ _ _ _ hg
      simp only [List.length_cons]
      omega

theorem get_token_cases (s s1 : State) (u : Unit) (h : get_token s = .ok u s1) :
    ((remove_whitespace s).buffer.getD (remove_whitespace s).lookahead nul ≠ nul ∧
      s1 = get_token_copy s) ∨
    ((remove_whitespace s).buffer.getD (remove_whitespace s).lookahead nul = nul ∧
      ∃ s2, get_buffer (remove_whitespace s) = .ok () s2 ∧ s1 = get_token_copy s2) := by
  unfold get_token at h
  simp only at h
  split at h
  · rename_i hn
    cases hb : get_buffer (remove_whitespace s) with
    | halt h0 => simp [hb] at h
    | ok u2 s2 =>
      simp only [hb, Res.ok.injEq, true_and] at h
      exact Or.inr ⟨hn, s2, rfl, h.symm⟩
  · rename_i hn
    simp only [Res.ok.injEq, true_and] at h
    rw [get_token_copy_remove_whitespace] at h
    exact Or.inl ⟨hn, h.symm⟩

theorem dead_keep (post : List (List Char)) : LexKeep (Dead post) where
  step := by
    intro s s1 hd hg
    rcases get_token_cases _ _ _ hg with ⟨hn, rfl⟩ | ⟨hn, s2, hb, rfl⟩
    · rcases hd with hd | ⟨h1, h2, h3⟩
      · left
        simpa using hd
      · exfalso
        apply hn
        have hk : (remove_whitespace s).lookahead = s.lookahead := by
          show skip_ws (s.buffer.drop s.lookahead) s.lookahead = s.lookahead
          rw [List.drop_eq_nil_of_le h3]
          rfl
        rw [hk, remove_whitespace_buffer, List.getD_eq_default]
        exact h3
    · left
      have h1 := get_buffer_stdin _ _ _ hb
      have h2 : s.stdin.length ≤ post.length := by
        rcases hd with hd | ⟨h1, -, -⟩
        · omega
        · rw [h1]
      simp only [get_token_copy_stdin, remove_whitespace_stdin] at h1 ⊢
      omega
  lex := by
    intro s s1 hd hl
    obtain ⟨e1, e2, e3, e4⟩ := hl
    unfold Dead at hd ⊢
    rw [← e1, ← e2, ← e3, ← e4]
    exact hd

theorem skip_ws_append (a b : List Char) :
    ∀ k, skip_ws a k < k + a.length → skip_ws (a ++ b) k = skip_ws a k := by
  induction a with
  | nil => intro k h; simp [skip_ws] at h
  | cons c cs ih =>
    intro k h
    simp only [List.cons_append, skip_ws] at h ⊢
    split
    · rename_i hc
      rw [if_pos hc] at h
      exact ih (k + 1) (by simp only [List.length_cons] at h; omega)
    · rfl

theorem copy_token_append (a e : List Char) (he : e = [] ∨ ∃ x, e = ' ' :: x) :
    ∀ k, copy_token (a ++ e) k = copy_token a k := by
  induction a with
  | nil =>
    intro k
    rcases he with rfl | ⟨x, rfl⟩
    · rfl
    · simp [copy_token]
  | cons c cs ih =>
    intro k
    have e1 := ih (k + 1)
    show copy_token (c :: (cs ++ e)) k = copy_token (c :: cs) k
    simp only [copy_token, e1]

theorem get_buffer_loop_ext (post post2 : List (List Char)) (e l : List Char) :
    ∀ ls l0 line rest, get_buffer_loop l0 (ls ++ l :: post) = some (line, rest) →
      rest.length < post.length ∨
      (rest = post ∧ line = l ∧
        get_buffer_loop l0 (ls ++ (l ++ e) :: post2) = some (l ++ e, post2)) ∨
      (∃ ls2, rest = ls2 ++ l :: post ∧
        get_buffer_loop l0 (ls ++ (l ++ e) :: post2) = some (line, ls2 ++ (l ++ e) :: post2)) := by
  intro ls
  induction ls with
  | nil =>
    intro l0 line rest h
    cases l0 with
    | cons c cs =>
      simp only [List.nil_append, get_buffer_loop, Option.some.injEq, Prod.mk.injEq] at h
      right; right
      refine ⟨[], by rw [← h.2]; rfl, ?_⟩
      rw [← h.1]
      rfl
    | nil =>
      simp only [List.nil_append, get_buffer_loop] at h
      cases l with
      | nil =>
        left
        cases post with
        | nil => simp [get_buffer_loop] at h
        | cons x xs =>
          simp only [get_buffer_loop] at h
          have := get_buffer_loop_length _ _ _ _ h
          simp only [List.length_cons]
          omega
      | cons c cs =>
        simp only [get_buffer_loop, Option.some.injEq, Prod.mk.injEq] at h
        right; left
        refine ⟨h.2.symm, h.1.symm, ?_⟩
        show get_buffer_loop [] ((c :: (cs ++ e)) :: post2) = some (c :: (cs ++ e), post2)
        simp only [get_buffer_loop]
  | cons x ls ih =>
    intro l0 line rest h
    cases l0 with
    | cons c cs =>
      simp only [List.cons_append, get_buffer_loop, Option.some.injEq, Prod.mk.injEq] at h
      right; right
      refine ⟨x :: ls, by rw [← h.2]; rfl, ?_⟩
      rw [← h.1]
      rfl
    | nil =>
      simp only [List.cons_append, get_buffer_loop] at h
      exact ih x line rest h

theorem get_buffer_ok_iff (s s2 : State) :
    get_buffer s = .ok () s2 ↔
      ∃ line rest, s.stdin ≠ [] ∧ get_buffer_loop [] s.stdin = some (line, rest) ∧
        s2 = { s with stdin := rest, buffer := line, lookahead := 0 } := by
  unfold get_buffer
  cases hs : s.stdin with
  | nil => simp [get_buffer_loop]
  | cons x xs =>
    simp only [get_buffer_loop]
    cases hl : get_buffer_loop x xs with
    | none => simp
    | some p =>
      obtain ⟨line, rest⟩ := p
      simp only [Res.ok.injEq, true_and, ne_eq, reduceCtorEq, not_false_eq_true,
        Option.some.injEq, Prod.mk.injEq]
      constructor
      · intro h
        exact ⟨line, rest, ⟨rfl, rfl⟩, h.symm⟩
      · rintro ⟨line2, rest2, ⟨rfl, rfl⟩, h⟩
        exact h.symm

theorem get_buffer_sim (post post2 : List (List Char)) (e : List Char) (s t s2 : State)
    (hr : Rel post post2 e s t) (h : get_buffer s = .ok () s2) :
    s2.stdin.length < post.length ∨
      ∃ t2, get_buffer t = .ok () t2 ∧ Rel post post2 e s2 t2 := by
  rcases hr.lines with ⟨ls, l, h1, h2, -⟩ | ⟨h1, -, -⟩
  · obtain ⟨line, rest, -, hl, rfl⟩ := (get_buffer_ok_iff s s2).1 h
    rw [h1] at hl
    rcases get_buffer_loop_ext post post2 e l ls [] line rest hl with hd | ⟨e1, e2, hl2⟩ |
      ⟨ls2, e1, hl2⟩
    · left
      exact hd
    · right
      refine ⟨{ t with stdin := post2, buffer := l ++ e, lookahead := 0 }, ?_, ?_⟩
      · rw [get_buffer_ok_iff]
        exact ⟨l ++ e, post2, by rw [h2]; simp, by rw [h2]; exact hl2, rfl⟩
      · exact ⟨hr.token, hr.var_ref, hr.assign_count, rfl, Nat.zero_le _,
          Or.inr ⟨e1, rfl, by rw [e2]⟩⟩
    · right
      refine ⟨{ t with stdin := ls2 ++ (l ++ e) :: post2, buffer := line, lookahead := 0 },
        ?_, ?_⟩
      · rw [get_buffer_ok_iff]
        exact ⟨line, _, by rw [h2]; simp, by rw [h2]; exact hl2, rfl⟩
      · exact ⟨hr.token, hr.var_ref, hr.assign_count, rfl, Nat.zero_le _,
          Or.inl ⟨ls2, l, e1, rfl, rfl⟩⟩
  · left
    have := get_buffer_stdin _ _ _ h
    rw [h1] at this
    exact this

theorem rel_buffer {post post2 : List (List Char)} {e : List Char} {s t : State}
    (he : e = [] ∨ ∃ x, e = ' ' :: x) (hr : Rel post post2 e s t) :
    ∃ e2, (e2 = [] ∨ ∃ x, e2 = ' ' :: x) ∧ t.buffer = s.buffer ++ e2 := by
  rcases hr.lines with ⟨ls, l, -, -, h⟩ | ⟨-, -, h⟩
  · exact ⟨[], Or.inl rfl, by rw [h, List.append_nil]⟩
  · exact ⟨e, he, h⟩

theorem get_token_copy_ext (s t : State) (e2 : List Char)
    (he : e2 = [] ∨ ∃ x, e2 = ' ' :: x) (hb : t.buffer = s.buffer ++ e2)
    (hl : t.lookahead = s.lookahead) (hbd : s.lookahead ≤ s.buffer.length)
    (hk : (remove_whitespace s).lookahead < s.buffer.length) :
    (remove_whitespace t).lookahead = (remove_whitespace s).lookahead ∧
    (get_token_copy t).token = (get_token_copy s).token ∧
    (get_token_copy t).lookahead = (get_token_copy s).lookahead ∧
    t.buffer.getD (remove_whitespace s).lookahead nul
      = s.buffer.getD (remove_whitespace s).lookahead nul := by
  have h1 : (remove_whitespace t).lookahead = (remove_whitespace s).lookahead := by
    show skip_ws (t.buffer.drop t.lookahead) t.lookahead
      = skip_ws (s.buffer.drop s.lookahead) s.lookahead
    rw [hb, hl, List.drop_append_of_le_length hbd]
    apply skip_ws_append
    have : skip_ws (s.buffer.drop s.lookahead) s.lookahead < s.buffer.length := hk
    rw [List.length_drop]
    omega
  have h2 : t.buffer.drop (remove_whitespace s).lookahead
      = s.buffer.drop (remove_whitespace s).lookahead ++ e2 := by
    rw [hb, List.drop_append_of_le_length (Nat.le_of_lt hk)]
  have h3 : copy_token (t.buffer.drop (remove_whitespace t).lookahead)
        (remove_whitespace t).lookahead
      = copy_token (s.buffer.drop (remove_whitespace s).lookahead)
        (remove_whitespace s).lookahead := by
    rw [h1, h2]
    exact copy_token_append _ _ he _
  refine ⟨h1, ?_, ?_, ?_⟩
  · show (copy_token ((remove_whitespace t).buffer.drop (remove_whitespace t).lookahead)
        (remove_whitespace t).lookahead).1 =
      (copy_token ((remove_whitespace s).buffer.drop (remove_whitespace s).lookahead)
        (remove_whitespace s).lookahead).1
    rw [remove_whitespace_buffer, remove_whitespace_buffer, h3]
  · show (copy_token ((remove_whitespace t).buffer.drop (remove_whitespace t).lookahead)
        (remove_whitespace t).lookahead).2 =
      (copy_token ((remove_whitespace s).buffer.drop (remove_whitespace s).lookahead)
        (remove_whitespace s).lookahead).2
    rw [remove_whitespace_buffer, remove_whitespace_buffer, h3]
  · rw [hb, List.getD_append _ _ _ _ hk]

theorem get_token_copy_same (s t : State) (hb : t.buffer = s.buffer)
    (hl : t.lookahead = s.lookahead) :
    (get_token_copy t).token = (get_token_copy s).token ∧
    (get_token_copy t).lookahead = (get_token_copy s).lookahead := by
  simp only [get_token_copy, remove_whitespace, hb, hl, and_self]

theorem rel_get_token_copy {post post2 : List (List Char)} {e : List Char} {s t : State}
    (he : e = [] ∨ ∃ x, e = ' ' :: x) (hr : Rel post post2 e s t) :
    Dead post (get_token_copy s) ∨ Rel post post2 e (get_token_copy s) (get_token_copy t) := by
  rcases hr.lines with ⟨ls, l, h1, h2, h3⟩ | ⟨h1, h2, h3⟩
  · right
    obtain ⟨e1, e2⟩ := get_token_copy_same s t h3 hr.lookahead
    exact ⟨e1, hr.var_ref, hr.assign_count, e2, get_token_copy_bound s hr.bound,
      Or.inl ⟨ls, l, h1, h2, h3⟩⟩
  · by_cases hk : (remove_whitespace s).lookahead < s.buffer.length
    · right
      obtain ⟨-, e1, e2, -⟩ := get_token_copy_ext s t e he h3 hr.lookahead hr.bound hk
      exact ⟨e1, hr.var_ref, hr.assign_count, e2, get_token_copy_bound s hr.bound,
        Or.inr ⟨h1, h2, h3⟩⟩
    · left; right
      have hd : (remove_whitespace s).buffer.drop (remove_whitespace s).lookahead = [] := by
        rw [remove_whitespace_buffer]
        exact List.drop_eq_nil_of_le (by omega)
      refine ⟨h1, ?_, ?_⟩
      · show (copy_token ((remove_whitespace s).buffer.drop (remove_whitespace s).lookahead)
          (remove_whitespace s).lookahead).1 = []
        rw [hd]
        rfl
      · show s.buffer.length ≤
          (copy_token ((remove_whitespace s).buffer.drop (remove_whitespace s).lookahead)
            (remove_whitespace s).lookahead).2
        rw [hd]
        show s.buffer.length ≤ (remove_whitespace s).lookahead
        omega

theorem get_token_sim {post post2 : List (List Char)} {e : List Char} {s t s1 : State}
    (he : e = [] ∨ ∃ x, e = ' ' :: x) (hr : Rel post post2 e s t)
    (hg : get_token s = .ok () s1) :
    Dead post s1 ∨ ∃ t1, get_token t = .ok () t1 ∧ Rel post post2 e s1 t1 := by
  rcases get_token_cases _ _ _ hg with ⟨hn, rfl⟩ | ⟨hn, s2, hb, rfl⟩
  · right
    have hk := getD_lt_of_ne_nul _ _ hn
    rw [remove_whitespace_buffer] at hk
    obtain ⟨e2, he2, hb2⟩ := rel_buffer he hr
    obtain ⟨e1, e3, e4, e5⟩ := get_token_copy_ext s t e2 he2 hb2 hr.lookahead hr.bound hk
    refine ⟨get_token_copy t, ?_, ⟨e3, hr.var_ref, hr.assign_count, e4,
      get_token_copy_bound s hr.bound, hr.lines⟩⟩
    unfold get_token
    simp only
    rw [if_neg, get_token_copy_remove_whitespace]
    rw [remove_whitespace_buffer, e1, e5]
    exact hn
  · rcases hr.lines with ⟨ls, l, h1, h2, h3⟩ | ⟨h1, h2, h3⟩
    · have e1 : (remove_whitespace t).lookahead = (remove_whitespace s).lookahead := by
        simp only [remove_whitespace, h3, hr.lookahead]
      have hr2 : Rel post post2 e (remove_whitespace s) (remove_whitespace t) :=
        ⟨hr.token, hr.var_ref, hr.assign_count, e1, remove_whitespace_bound s hr.bound,
          Or.inl ⟨ls, l, h1, h2, h3⟩⟩
      rcases get_buffer_sim post post2 e _ _ _ hr2 hb with hd | ⟨t2, hb2, hr3⟩
      · left; left
        exact hd
      · rcases rel_get_token_copy he hr3 with hd | hr4
        · exact Or.inl hd
        · right
          refine ⟨get_token_copy t2, ?_, hr4⟩
          unfold get_token
          simp only
          rw [if_pos, hb2]
          rw [remove_whitespace_buffer, e1, h3]
          exact hn
    · left; left
      have := get_buffer_stdin _ _ _ hb
      simp only [remove_whitespace_stdin, h1] at this
      exact this

theorem rel_var_ref {post post2 : List (List Char)} {e : List Char} {s t : State}
    (hr : Rel post post2 e s t) (v : Nat) :
    Rel post post2 e { s with var_ref := v } { t with var_ref := v } :=
  ⟨hr.token, rfl, hr.assign_count, hr.lookahead, hr.bound, hr.lines⟩

theorem rel_assign_count {post post2 : List (List Char)} {e : List Char} {s t : State}
    (hr : Rel post post2 e s t) (a : Nat) :
    Rel post post2 e { s with assign_count := a } { t with assign_count := a } :=
  ⟨hr.token, hr.var_ref, rfl, hr.lookahead, hr.bound, hr.lines⟩

theorem get_token_alive {post post2 : List (List Char)} {e : List Char} {s t s1 : State}
    (he : e = [] ∨ ∃ x, e = ' ' :: x) (hr : Rel post post2 e s t)
    (hg : get_token s = .ok () s1) (hnd : ¬ Dead post s1) :
    ∃ t1, get_token t = .ok () t1 ∧ Rel post post2 e s1 t1 := by
  rcases get_token_sim he hr hg with hd | h
  · exact absurd hd hnd
  · exact h

theorem variable_inv {P : State → Prop} (I : LexKeep P) (s s1 : State) (b : Bool)
    (hv : variable_ s = .ok b s1) (h : P s) : P s1 := by
  rcases variable_sound _ _ _ hv with ⟨-, -, hr⟩ | ⟨-, -, rfl⟩
  · exact reads_inv I _ _ _ hr h
  · exact h

theorem expr_inv {P : State → Prop} (I : LexKeep P) (s s1 : State) (u : Unit)
    (hx : expr s = .ok u s1) (h : P s) : P s1 := by
  obtain ⟨t, -, hr⟩ := expr_sound _ _ _ hx
  exact reads_inv I _ _ _ hr h

theorem variable_alive {post post2 : List (List Char)} {e : List Char} {s t s1 : State}
    {b : Bool} (he : e = [] ∨ ∃ x, e = ' ' :: x) (hr : Rel post post2 e s t)
    (h : variable_ s = .ok b s1) (hnd : ¬ Dead post s1) :
    ∃ t1, variable_ t = .ok b t1 ∧ Rel post post2 e s1 t1 := by
  rw [variable_eq] at h
  rw [variable_eq, hr.token]
  by_cases hv : is_variable s.token
  · rw [if_pos hv] at h
    rw [if_pos hv]
    cases hg : get_token s with
    | halt h0 => simp [hg] at h
    | ok u s2 =>
      simp only [hg, Res.ok.injEq] at h
      obtain ⟨rfl, rfl⟩ := h
      obtain ⟨t2, hg2, hr2⟩ := get_token_alive he hr hg (fun d => hnd d)
      simp only [hg2]
      refine ⟨_, rfl, ?_⟩
      rw [hr.var_ref]
      exact rel_var_ref hr2 _
  · rw [if_neg hv] at h
    rw [if_neg hv]
    simp only [Res.ok.injEq] at h
    obtain ⟨rfl, rfl⟩ := h
    exact ⟨t, rfl, hr⟩

theorem no_operand_alive {post post2 : List (List Char)} {e : List Char} {s t s1 : State}
    {b : Bool} (he : e = [] ∨ ∃ x, e = ' ' :: x) (hr : Rel post post2 e s t)
    (h : no_operand s = .ok b s1) (hnd : ¬ Dead post s1) :
    ∃ t1, no_operand t = .ok b t1 ∧ Rel post post2 e s1 t1 := by
  rw [no_operand_eq] at h
  rw [no_operand_eq, hr.token]
  by_cases hv : is_operand s.token
  · rw [if_pos hv] at h
    rw [if_pos hv]
    cases hg : get_token s with
    | halt h0 => simp [hg] at h
    | ok u s2 =>
      simp only [hg, Res.ok.injEq] at h
      obtain ⟨rfl, rfl⟩ := h
      obtain ⟨t2, hg2, hr2⟩ := get_token_alive he hr hg (fun d => hnd d)
      simp only [hg2]
      refine ⟨_, rfl, ?_⟩
      rw [hr.var_ref]
      exact rel_var_ref hr2 _
  · rw [if_neg hv] at h
    rw [if_neg hv]
    simp only [Res.ok.injEq] at h
    obtain ⟨rfl, rfl⟩ := h
    exact ⟨t, rfl, hr⟩

theorem expr_alive {post post2 : List (List Char)} {e : List Char} {s t s1 : State}
    {u : Unit} (he : e = [] ∨ ∃ x, e = ' ' :: x) (hr : Rel post post2 e s t)
    (h : expr s = .ok u s1) (hnd : ¬ Dead post s1) :
    ∃ t1, expr t = .ok u t1 ∧ Rel post post2 e s1 t1 := by
  have K := dead_keep post
  by_cases hop : is_operator s.token
  · cases hg : get_token s with
    | halt h0 =>
      unfold expr at h
      rw [if_pos (show s.token = ['+'] ∨ s.token = ['*'] from hop)] at h
      simp [hg] at h
    | ok u1 s2 =>
      rw [expr_operator_eq s s2 hop hg] at h
      by_cases ho1 : is_operand s2.token
      · rw [if_pos ho1] at h
        cases hg2 : get_token s2 with
        | halt h0 => simp [hg2] at h
        | ok u2 s3 =>
          simp only [hg2] at h
          by_cases ho2 : is_operand s3.token
          · rw [if_pos ho2] at h
            cases hg3 : get_token s3 with
            | halt h0 => simp [hg3] at h
            | ok u3 s4 =>
              simp only [hg3, Res.ok.injEq, true_and] at h
              subst h
              have d4 : ¬ Dead post s4 := fun d => hnd d
              have d3 : ¬ Dead post s3 := fun d => d4 (K.step _ _ d hg3)
              have d2 : ¬ Dead post s2 := fun d => d3 (K.step _ _ d hg2)
              obtain ⟨t2, hgt, hr2⟩ := get_token_alive he hr hg d2
              obtain ⟨t3, hgt2, hr3⟩ := get_token_alive he hr2 hg2 d3
              obtain ⟨t4, hgt3, hr4⟩ := get_token_alive he hr3 hg3 d4
              rw [expr_operator_eq t t2 (by rw [hr.token]; exact hop) hgt, hr2.token,
                if_pos ho1]
              simp only [hgt2]
              rw [hr3.token, if_pos ho2]
              simp only [hgt3]
              refine ⟨_, rfl, ?_⟩
              rw [hr.var_ref]
              exact rel_var_ref hr4 _
          · rw [if_neg ho2] at h
            simp at h
      · rw [if_neg ho1] at h
        simp at h
  · unfold expr at h
    rw [if_neg (show ¬ (s.token = ['+'] ∨ s.token = ['*']) from hop)] at h
    cases hn : no_operand s with
    | halt h0 => simp [hn] at h
    | ok b s2 =>
      cases b with
      | true => simp [hn] at h
      | false =>
        simp only [hn, Res.ok.injEq, true_and] at h
        subst h
        obtain ⟨t2, hn2, hr2⟩ := no_operand_alive he hr hn hnd
        unfold expr
        rw [hr.token, if_neg (show ¬ (s.token = ['+'] ∨ s.token = ['*']) from hop)]
        simp only [hn2]
        exact ⟨t2, rfl, hr2⟩

theorem testexpr_alive {post post2 : List (List Char)} {e : List Char} {s t s1 : State}
    {b : Bool} (he : e = [] ∨ ∃ x, e = ' ' :: x) (hr : Rel post post2 e s t)
    (h : testexpr s = .ok b s1) (hnd : ¬ Dead post s1) :
    ∃ t1, testexpr t = .ok b t1 ∧ Rel post post2 e s1 t1 := by
  have K := dead_keep post
  unfold testexpr at h
  cases hv : variable_ s with
  | halt h0 => simp [hv] at h
  | ok bv s2 =>
    cases bv with
    | false =>
      simp only [hv, Res.ok.injEq] at h
      obtain ⟨rfl, rfl⟩ := h
      obtain ⟨t2, hv2, hr2⟩ := variable_alive he hr hv hnd
      unfold testexpr
      simp only [hv2]
      exact ⟨t2, rfl, hr2⟩
    | true =>
      simp only [hv] at h
      by_cases ht : s2.token = ['<', '=']
      · rw [if_pos ht] at h
        cases hg : get_token s2 with
        | halt h0 => simp [hg] at h
        | ok u s3 =>
          simp only [hg] at h
          cases hx : expr s3 with
          | halt h0 => simp [hx] at h
          | ok u2 s4 =>
            simp only [hx, Res.ok.injEq] at h
            obtain ⟨rfl, rfl⟩ := h
            have d3 : ¬ Dead post s3 := fun d => hnd (expr_inv K _ _ _ hx d)
            have d2 : ¬ Dead post s2 := fun d => d3 (K.step _ _ d hg)
            obtain ⟨t2, hv2, hr2⟩ := variable_alive he hr hv d2
            obtain ⟨t3, hg2, hr3⟩ := get_token_alive he hr2 hg d3
            obtain ⟨t4, hx2, hr4⟩ := expr_alive he hr3 hx hnd
            unfold testexpr
            simp only [hv2]
            rw [hr2.token, if_pos ht]
            simp only [hg2, hx2]
            exact ⟨t4, rfl, hr4⟩
      · rw [if_neg ht] at h
        simp only [Res.ok.injEq] at h
        obtain ⟨rfl, rfl⟩ := h
        obtain ⟨t2, hv2, hr2⟩ := variable_alive he hr hv hnd
        unfold testexpr
        simp only [hv2]
        rw [hr2.token, if_neg ht]
        exact ⟨t2, rfl, hr2⟩

theorem assign_alive {post post2 : List (List Char)} {e : List Char} {s t s1 : State}
    {b : Bool} (he : e = [] ∨ ∃ x, e = ' ' :: x) (hr : Rel post post2 e s t)
    (h : assign s = .ok b s1) (hnd : ¬ Dead post s1) :
    ∃ t1, assign t = .ok b t1 ∧ Rel post post2 e s1 t1 := by
  have K := dead_keep post
  unfold assign at h
  cases hv : variable_ s with
  | halt h0 => simp [hv] at h
  | ok bv s2 =>
    cases bv with
    | false =>
      simp only [hv, Res.ok.injEq] at h
      obtain ⟨rfl, rfl⟩ := h
      obtain ⟨t2, hv2, hr2⟩ := variable_alive he hr hv hnd
      unfold assign
      simp only [hv2]
      exact ⟨t2, rfl, hr2⟩
    | true =>
      simp only [hv] at h
      by_cases ht : s2.token = ['=']
      · rw [if_pos ht] at h
        cases hg : get_token s2 with
        | halt h0 => simp [hg] at h
        | ok u s3 =>
          simp only [hg] at h
          cases hx : expr s3 with
          | halt h0 => simp [hx] at h
          | ok u2 s4 =>
            simp only [hx, Res.ok.injEq] at h
            obtain ⟨rfl, rfl⟩ := h
            have d4 : ¬ Dead post s4 := fun d => hnd d
            have d3 : ¬ Dead post s3 := fun d => d4 (expr_inv K _ _ _ hx d)
            have d2 : ¬ Dead post s2 := fun d => d3 (K.step _ _ d hg)
            obtain ⟨t2, hv2, hr2⟩ := variable_alive he hr hv d2
            obtain ⟨t3, hg2, hr3⟩ := get_token_alive he hr2 hg d3
            obtain ⟨t4, hx2, hr4⟩ := expr_alive he hr3 hx d4
            unfold assign
            simp only [hv2]
            rw [hr2.token, if_pos ht]
            simp only [hg2, hx2]
            refine ⟨_, rfl, ?_⟩
            rw [hr4.assign_count]
            exact rel_assign_count hr4 _
      · rw [if_neg ht] at h
        simp only [Res.ok.injEq] at h
        obtain ⟨rfl, rfl⟩ := h
        obtain ⟨t2, hv2, hr2⟩ := variable_alive he hr hv hnd
        unfold assign
        simp only [hv2]
        rw [hr2.token, if_neg ht]
        exact ⟨t2, rfl, hr2⟩

theorem morestmts_inv {P : State → Prop} (I : LexKeep P) (n : Nat) (s s1 : State) (b : Bool)
    (hm : morestmts n s = .ok b s1) (h : P s) : P s1 := by
  rcases ((sound_step n).2.2.1 _ _ _ hm).2 with ⟨rfl, -⟩ | ⟨-, l, o, st, hr, -⟩
  · exact h
  · exact reads_inv I _ _ _ hr h

theorem alive_step {post post2 : List (List Char)} {e : List Char}
    (he : e = [] ∨ ∃ x, e = ' ' :: x) (n : Nat) :
    (∀ s t b s1, Rel post post2 e s t → block n s = .ok b s1 → ¬ Dead post s1 →
      ∃ t1, block n t = .ok b t1 ∧ Rel post post2 e s1 t1) ∧
    (∀ s t u s1, Rel post post2 e s t → stmtlist n s = .ok u s1 → ¬ Dead post s1 →
      ∃ t1, stmtlist n t = .ok u t1 ∧ Rel post post2 e s1 t1) ∧
    (∀ s t b s1, Rel post post2 e s t → morestmts n s = .ok b s1 → ¬ Dead post s1 →
      ∃ t1, morestmts n t = .ok b t1 ∧ Rel post post2 e s1 t1) ∧
    (∀ s t b s1, Rel post post2 e s t → stmt n s = .ok b s1 → ¬ Dead post s1 →
      ∃ t1, stmt n t = .ok b t1 ∧ Rel post post2 e s1 t1) ∧
    (∀ s t b s1, Rel post post2 e s t → ifstmt n s = .ok b s1 → ¬ Dead post s1 →
      ∃ t1, ifstmt n t = .ok b t1 ∧ Rel post post2 e s1 t1) ∧
    (∀ s t b s1, Rel post post2 e s t → whilestmt n s = .ok b s1 → ¬ Dead post s1 →
      ∃ t1, whilestmt n t = .ok b t1 ∧ Rel post post2 e s1 t1) := by
  have K := dead_keep post
  induction n with
  | zero => simp [block, stmtlist, morestmts, stmt, ifstmt, whilestmt]
  | succ n ih =>
    obtain ⟨hb, hsl, hm, hs, hi, hw⟩ := ih
    obtain ⟨kb, ksl, ks, ki, kw⟩ := grammar_inv K n
    refine ⟨?_, ?_, ?_, ?_, ?_, ?_⟩
    · intro s t b sf hr h hnd
      rw [block.eq_2 s n] at h
      by_cases h0 : s.token ≠ ['b', 'e', 'g', 'i', 'n']
      · rw [if_pos h0] at h
        simp at h
      · rw [if_neg h0] at h
        cases hg : get_token s with
        | halt x => simp [hg] at h
        | ok u s1 =>
          simp only [hg] at h
          cases hl : stmtlist n s1 with
          | halt x => simp [hl] at h
          | ok u2 s2 =>
            simp only [hl] at h
            by_cases h1 : s2.token ≠ ['e', 'n', 'd'] ∧ s2.token ≠ ['e', 'n', 'd', '.']
            · rw [if_pos h1] at h
              simp at h
            · rw [if_neg h1] at h
              by_cases h2 : s2.token = ['e', 'n', 'd']
              · rw [if_pos h2] at h
                cases hg2 : get_token s2 with
                | halt x => simp [hg2] at h
                | ok u3 s3 =>
                  simp only [hg2, Res.ok.injEq] at h
                  obtain ⟨rfl, rfl⟩ := h
                  have d2 : ¬ Dead post s2 := fun d => hnd (K.step _ _ d hg2)
                  have d1 : ¬ Dead post s1 := fun d => d2 (ksl _ _ _ hl d)
                  obtain ⟨t1, hgt, hr1⟩ := get_token_alive he hr hg d1
                  obtain ⟨t2, hlt, hr2⟩ := hsl _ _ _ _ hr1 hl d2
                  obtain ⟨t3, hgt2, hr3⟩ := get_token_alive he hr2 hg2 hnd
                  rw [block.eq_2 t n, hr.token, if_neg h0]
                  simp only [hgt, hlt]
                  rw [hr2.token, if_neg h1, if_pos h2]
                  simp only [hgt2]
                  exact ⟨t3, rfl, hr3⟩
              · rw [if_neg h2] at h
                simp only [Res.ok.injEq] at h
                obtain ⟨rfl, rfl⟩ := h
                have d1 : ¬ Dead post s1 := fun d => hnd (ksl _ _ _ hl d)
                obtain ⟨t1, hgt, hr1⟩ := get_token_alive he hr hg d1
                obtain ⟨t2, hlt, hr2⟩ := hsl _ _ _ _ hr1 hl hnd
                rw [block.eq_2 t n, hr.token, if_neg h0]
                simp only [hgt, hlt]
                rw [hr2.token, if_neg h1, if_neg h2]
                exact ⟨t2, rfl, hr2⟩
    · intro s t u sf hr h hnd
      rw [stmtlist.eq_2 s n] at h
      cases hst : stmt n s with
      | halt x => simp [hst] at h
      | ok b1 s1 =>
        cases b1 with
        | false => simp [hst] at h
        | true =>
          simp only [hst] at h
          cases hmo : morestmts n s1 with
          | halt x => simp [hmo] at h
          | ok b2 s2 =>
            cases b2 with
            | false => simp [hmo] at h
            | true =>
              simp only [hmo, Res.ok.injEq, true_and] at h
              subst h
              have d1 : ¬ Dead post s1 := fun d => hnd (morestmts_inv K _ _ _ _ hmo d)
              obtain ⟨t1, hst2, hr1⟩ := hs _ _ _ _ hr hst d1
              obtain ⟨t2, hmo2, hr2⟩ := hm _ _ _ _ hr1 hmo hnd
              rw [stmtlist.eq_2 t n]
              simp only [hst2, hmo2]
              exact ⟨t2, rfl, hr2⟩
    · intro s t b sf hr h hnd
      rw [morestmts.eq_2 s n] at h
      by_cases h0 : s.token = ['e', 'n', 'd'] ∨ s.token = ['e', 'n', 'd', '.']
      · rw [if_pos h0] at h
        simp only [Res.ok.injEq] at h
        obtain ⟨rfl, rfl⟩ := h
        rw [morestmts.eq_2 t n, hr.token, if_pos h0]
        exact ⟨t, rfl, hr⟩
      · rw [if_neg h0] at h
        by_cases h1 : s.token = [';']
        · rw [if_pos h1] at h
          cases hg : get_token s with
          | halt x => simp [hg] at h
          | ok u s1 =>
            simp only [hg] at h
            cases hl : stmtlist n s1 with
            | halt x => simp [hl] at h
            | ok u2 s2 =>
              simp only [hl, Res.ok.injEq] at h
              obtain ⟨rfl, rfl⟩ := h
              have d1 : ¬ Dead post s1 := fun d => hnd (ksl _ _ _ hl d)
              obtain ⟨t1, hgt, hr1⟩ := get_token_alive he hr hg d1
              obtain ⟨t2, hlt, hr2⟩ := hsl _ _ _ _ hr1 hl hnd
              rw [morestmts.eq_2 t n, hr.token, if_neg h0, if_pos h1]
              simp only [hgt, hlt]
              exact ⟨t2, rfl, hr2⟩
        · rw [if_neg h1] at h
          simp at h
    · intro s t b sf hr h hnd
      rw [stmt.eq_2 s n] at h
      cases ha : assign s with
      | halt x => simp [ha] at h
      | ok b1 s1 =>
        cases b1 with
        | true =>
          simp only [ha, Res.ok.injEq] at h
          obtain ⟨rfl, rfl⟩ := h
          obtain ⟨t1, ha2, hr1⟩ := assign_alive he hr ha hnd
          rw [stmt.eq_2 t n]
          simp only [ha2]
          exact ⟨t1, rfl, hr1⟩
        | false =>
          simp only [ha] at h
          cases hif : ifstmt n s1 with
          | halt x => simp [hif] at h
          | ok b2 s2 =>
            cases b2 with
            | true =>
              simp only [hif, Res.ok.injEq] at h
              obtain ⟨rfl, rfl⟩ := h
              have d1 : ¬ Dead post s1 := fun d => hnd (ki _ _ _ hif d)
              obtain ⟨t1, ha2, hr1⟩ := assign_alive he hr ha d1
              obtain ⟨t2, hif2, hr2⟩ := hi _ _ _ _ hr1 hif hnd
              rw [stmt.eq_2 t n]
              simp only [ha2, hif2]
              exact ⟨t2, rfl, hr2⟩
            | false =>
              simp only [hif] at h
              cases hwh : whilestmt n s2 with
              | halt x => simp [hwh] at h
              | ok b3 s3 =>
                cases b3 with
                | true =>
                  simp only [hwh, Res.ok.injEq] at h
                  obtain ⟨rfl, rfl⟩ := h
                  have d2 : ¬ Dead post s2 := fun d => hnd (kw _ _ _ hwh d)
                  have d1 : ¬ Dead post s1 := fun d => d2 (ki _ _ _ hif d)
                  obtain ⟨t1, ha2, hr1⟩ := assign_alive he hr ha d1
                  obtain ⟨t2, hif2, hr2⟩ := hi _ _ _ _ hr1 hif d2
                  obtain ⟨t3, hwh2, hr3⟩ := hw _ _ _ _ hr2 hwh hnd
                  rw [stmt.eq_2 t n]
                  simp only [ha2, hif2, hwh2]
                  exact ⟨t3, rfl, hr3⟩
                | false =>
                  simp only [hwh] at h
                  cases hbl : block n s3 with
                  | halt x => simp [hbl] at h
                  | ok b4 s4 =>
                    cases b4 with
                    | false => simp [hbl] at h
                    | true =>
                      simp only [hbl, Res.ok.injEq] at h
                      obtain ⟨rfl, rfl⟩ := h
                      have d3 : ¬ Dead post s3 := fun d => hnd (kb _ _ _ hbl d)
                      have d2 : ¬ Dead post s2 := fun d => d3 (kw _ _ _ hwh d)
                      have d1 : ¬ Dead post s1 := fun d => d2 (ki _ _ _ hif d)
                      obtain ⟨t1, ha2, hr1⟩ := assign_alive he hr ha d1
                      obtain ⟨t2, hif2, hr2⟩ := hi _ _ _ _ hr1 hif d2
                      obtain ⟨t3, hwh2, hr3⟩ := hw _ _ _ _ hr2 hwh d3
                      obtain ⟨t4, hbl2, hr4⟩ := hb _ _ _ _ hr3 hbl hnd
                      rw [stmt.eq_2 t n]
                      simp only [ha2, hif2, hwh2, hbl2]
                      exact ⟨t4, rfl, hr4⟩
    · intro s t b sf hr h hnd
      rw [ifstmt.eq_2 s n] at h
      by_cases h0 : s.token = ['i', 'f']
      · rw [if_pos h0] at h
        cases hg : get_token s with
        | halt x => simp [hg] at h
        | ok u s1 =>
          simp only [hg] at h
          cases hte : testexpr s1 with
          | halt x => simp [hte] at h
          | ok bt s2 =>
            cases bt with
            | false => simp [hte] at h
            | true =>
              simp only [hte] at h
              by_cases h1 : s2.token ≠ ['t', 'h', 'e', 'n']
              · rw [if_pos h1] at h
                simp at h
              · rw [if_neg h1] at h
                cases hg2 : get_token s2 with
                | halt x => simp [hg2] at h
                | ok u2 s3 =>
                  simp only [hg2] at h
                  cases hst : stmt n s3 with
                  | halt x => simp [hst] at h
                  | ok b4 s4 =>
                    simp only [hst] at h
                    by_cases h2 : s4.token ≠ ['e', 'l', 's', 'e']
                    · rw [if_pos h2] at h
                      simp at h
                    · rw [if_neg h2] at h
                      cases hg3 : get_token s4 with
                      | halt x => simp [hg3] at h
                      | ok u3 s5 =>
                        simp only [hg3] at h
                        cases hst2 : stmt n s5 with
                        | halt x => simp [hst2] at h
                        | ok b6 s6 =>
                          simp only [hst2, Res.ok.injEq] at h
                          obtain ⟨rfl, rfl⟩ := h
                          have d5 : ¬ Dead post s5 := fun d => hnd (ks _ _ _ hst2 d)
                          have d4 : ¬ Dead post s4 := fun d => d5 (K.step _ _ d hg3)
                          have d3 : ¬ Dead post s3 := fun d => d4 (ks _ _ _ hst d)
                          have d2 : ¬ Dead post s2 := fun d => d3 (K.step _ _ d hg2)
                          have d1 : ¬ Dead post s1 := fun d => d2 (testexpr_inv K _ _ hte d)
                          obtain ⟨t1, hgt, hr1⟩ := get_token_alive he hr hg d1
                          obtain ⟨t2, hte2, hr2⟩ := testexpr_alive he hr1 hte d2
                          obtain ⟨t3, hgt2, hr3⟩ := get_token_alive he hr2 hg2 d3
                          obtain ⟨t4, hst3, hr4⟩ := hs _ _ _ _ hr3 hst d4
                          obtain ⟨t5, hgt3, hr5⟩ := get_token_alive he hr4 hg3 d5
                          obtain ⟨t6, hst4, hr6⟩ := hs _ _ _ _ hr5 hst2 hnd
                          rw [ifstmt.eq_2 t n, hr.token, if_pos h0]
                          simp only [hgt, hte2]
                          rw [hr2.token, if_neg h1]
                          simp only [hgt2, hst3]
                          rw [hr4.token, if_neg h2]
                          simp only [hgt3, hst4]
                          exact ⟨t6, rfl, hr6⟩
      · rw [if_neg h0] at h
        simp only [Res.ok.injEq] at h
        obtain ⟨rfl, rfl⟩ := h
        rw [ifstmt.eq_2 t n, hr.token, if_neg h0]
        exact ⟨t, rfl, hr⟩
    · intro s t b sf hr h hnd
      rw [whilestmt.eq_2 s n] at h
      by_cases h0 : s.token = ['w', 'h', 'i', 'l', 'e']
      · rw [if_pos h0] at h
        cases hg : get_token s with
        | halt x => simp [hg] at h
        | ok u s1 =>
          simp only [hg] at h
          cases hte : testexpr s1 with
          | halt x => simp [hte] at h
          | ok bt s2 =>
            cases bt with
            | false => simp [hte] at h
            | true =>
              simp only [hte] at h
              by_cases h1 : s2.token ≠ ['d', 'o']
              · rw [if_pos h1] at h
                simp at h
              · rw [if_neg h1] at h
                cases hg2 : get_token s2 with
                | halt x => simp [hg2] at h
                | ok u2 s3 =>
                  simp only [hg2] at h
                  cases hst : stmt n s3 with
                  | halt x => simp [hst] at h
                  | ok b4 s4 =>
                    simp only [hst, Res.ok.injEq] at h
                    obtain ⟨rfl, rfl⟩ := h
                    have d3 : ¬ Dead post s3 := fun d => hnd (ks _ _ _ hst d)
                    have d2 : ¬ Dead post s2 := fun d => d3 (K.step _ _ d hg2)
                    have d1 : ¬ Dead post s1 := fun d => d2 (testexpr_inv K _ _ hte d)
                    obtain ⟨t1, hgt, hr1⟩ := get_token_alive he hr hg d1
                    obtain ⟨t2, hte2, hr2⟩ := testexpr_alive he hr1 hte d2
                    obtain ⟨t3, hgt2, hr3⟩ := get_token_alive he hr2 hg2 d3
                    obtain ⟨t4, hst3, hr4⟩ := hs _ _ _ _ hr3 hst hnd
                    rw [whilestmt.eq_2 t n, hr.token, if_pos h0]
                    simp only [hgt, hte2]
                    rw [hr2.token, if_neg h1]
                    simp only [hgt2, hst3]
                    exact ⟨t4, rfl, hr4⟩
      · rw [if_neg h0] at h
        simp only [Res.ok.injEq] at h
        obtain ⟨rfl, rfl⟩ := h
        rw [whilestmt.eq_2 t n, hr.token, if_neg h0]
        exact ⟨t, rfl, hr⟩

theorem get_buffer_loop_split (ls : List (List Char)) :
    ∀ l line rest, get_buffer_loop l ls = some (line, rest) →
      ∃ mid, l :: ls = mid ++ line :: rest := by
  induction ls with
  | nil =>
    intro l line rest h
    cases l with
    | nil => simp [get_buffer_loop] at h
    | cons c cs =>
      simp only [get_buffer_loop, Option.some.injEq, Prod.mk.injEq] at h
      exact ⟨[], by rw [← h.1, ← h.2]; rfl⟩
  | cons l2 ls ih =>
    intro l line rest h
    cases l with
    | nil =>
      simp only [get_buffer_loop] at h
      obtain ⟨mid, hm⟩ := ih l2 line rest h
      exact ⟨[] :: mid, by rw [List.cons_append, ← hm]⟩
    | cons c cs =>
      simp only [get_buffer_loop, Option.some.injEq, Prod.mk.injEq] at h
      exact ⟨[], by rw [← h.1, ← h.2]; rfl⟩

theorem get_buffer_split (s s1 : State) (u : Unit) (h : get_buffer s = .ok u s1) :
    ∃ mid, s.stdin = mid ++ s1.buffer :: s1.stdin := by
  unfold get_buffer at h
  cases hs : s.stdin with
  | nil => simp [hs] at h
  | cons l ls =>
    simp only [hs] at h
    cases hg : get_buffer_loop l ls with
    | none => simp [hg] at h
    | some p =>
      obtain ⟨line, rest⟩ := p
      simp only [hg, Res.ok.injEq, true_and] at h
      subst h
      exact get_buffer_loop_split _ _ _ _ hg

theorem at_line_keep (input : List (List Char)) : LexKeep (at_line input) where
  step := by
    intro s s1 hp hg
    obtain ⟨pre, hp⟩ := hp
    rcases get_token_cases _ _ _ hg with ⟨-, rfl⟩ | ⟨-, s2, hb, rfl⟩
    · exact ⟨pre, hp⟩
    · obtain ⟨mid, hm⟩ := get_buffer_split _ _ _ hb
      simp only [remove_whitespace_stdin] at hm
      refine ⟨pre ++ s.buffer :: mid, ?_⟩
      simp only [get_token_copy_buffer, get_token_copy_stdin]
      rw [hp, hm, List.append_assoc, List.cons_append]
  lex := by
    intro s s1 hp hl
    obtain ⟨e1, e2, -, -⟩ := hl
    unfold at_line at hp ⊢
    rw [← e1, ← e2]
    exact hp

theorem program_token (n : Nat) (s s1 : State) (u : Unit) (hp : program n s = .ok u s1) :
    s1.token = ['.'] ∨ s1.token = ['e', 'n', 'd', '.'] := by
  unfold program at hp
  cases hg : get_token s with
  | halt x => simp [hg] at hp
  | ok u1 t1 =>
    simp only [hg] at hp
    split at hp
    · simp at hp
    · cases hg2 : get_token t1 with
      | halt x => simp [hg2] at hp
      | ok u2 t2 =>
        simp only [hg2] at hp
        cases hb : block n t2 with
        | halt x => simp [hb] at hp
        | ok b t3 =>
          simp only [hb] at hp
          split at hp
          · simp at hp
          · rename_i hc
            simp only [Res.ok.injEq, true_and] at hp
            subst hp
            by_contra hne
            exact hc ⟨fun e1 => hne (Or.inl e1), fun e2 => hne (Or.inr e2)⟩

theorem program_inv {P : State → Prop} (I : LexKeep P) (n : Nat) (s s1 : State) (u : Unit)
    (hp : program n s = .ok u s1) (h : P s) : P s1 := by
  unfold program at hp
  cases hg : get_token s with
  | halt x => simp [hg] at hp
  | ok u1 t1 =>
    simp only [hg] at hp
    split at hp
    · simp at hp
    · cases hg2 : get_token t1 with
      | halt x => simp [hg2] at hp
      | ok u2 t2 =>
        simp only [hg2] at hp
        cases hb : block n t2 with
        | halt x => simp [hb] at hp
        | ok b t3 =>
          simp only [hb] at hp
          split at hp
          · simp at hp
          · simp only [Res.ok.injEq, true_and] at hp
            subst hp
            exact (grammar_inv I n).1 _ _ _ hb (I.step _ _ (I.step _ _ h hg) hg2)

theorem program_alive {post post2 : List (List Char)} {e : List Char} {s t sf : State}
    {u : Unit} (he : e = [] ∨ ∃ x, e = ' ' :: x) (n : Nat) (hr : Rel post post2 e s t)
    (h : program n s = .ok u sf) (hnd : ¬ Dead post sf) :
    ∃ tf, program n t = .ok u tf ∧ Rel post post2 e sf tf := by
  have K := dead_keep post
  unfold program at h
  cases hg : get_token s with
  | halt x => simp [hg] at h
  | ok u1 s1 =>
    simp only [hg] at h
    by_cases h0 : s1.token ≠ ['p', 'r', 'o', 'g', 'r', 'a', 'm']
    · rw [if_pos h0] at h
      simp at h
    · rw [if_neg h0] at h
      cases hg2 : get_token s1 with
      | halt x => simp [hg2] at h
      | ok u2 s2 =>
        simp only [hg2] at h
        cases hb : block n s2 with
        | halt x => simp [hb] at h
        | ok b s3 =>
          simp only [hb] at h
          by_cases h1 : s3.token ≠ ['.'] ∧ s3.token ≠ ['e', 'n', 'd', '.']
          · rw [if_pos h1] at h
            simp at h
          · rw [if_neg h1] at h
            simp only [Res.ok.injEq, true_and] at h
            subst h
            have d2 : ¬ Dead post s2 := fun d => hnd ((grammar_inv K n).1 _ _ _ hb d)
            have d1 : ¬ Dead post s1 := fun d => d2 (K.step _ _ d hg2)
            obtain ⟨t1, hgt, hr1⟩ := get_token_alive he hr hg d1
            obtain ⟨t2, hgt2, hr2⟩ := get_token_alive he hr1 hg2 d2
            obtain ⟨t3, hb2, hr3⟩ := (alive_step he n).1 _ _ _ _ hr2 hb hnd
            unfold program
            simp only [hgt]
            rw [hr1.token, if_neg h0]
            simp only [hgt2, hb2]
            rw [hr3.token, if_neg h1]
            exact ⟨t3, rfl, hr3⟩

theorem main_alive (pre post post2 : List (List Char)) (l e : List Char) (sf : State)
    (he : e = [] ∨ ∃ x, e = ' ' :: x) (h : main (pre ++ l :: post) = .ok () sf)
    (hs : sf.stdin = post) :
    ∃ tf, main (pre ++ (l ++ e) :: post2) = .ok () tf ∧ tf.var_ref = sf.var_ref ∧
      tf.assign_count = sf.assign_count := by
  have K := dead_keep post
  unfold main main_fuel at h
  cases hb : get_buffer (init (pre ++ l :: post)) with
  | halt x => simp [hb] at h
  | ok u s0 =>
    simp only [hb] at h
    have hnd : ¬ Dead post sf := by
      rintro (hd | ⟨-, hd, -⟩)
      · rw [hs] at hd
        exact Nat.lt_irrefl _ hd
      · rcases program_token _ _ _ _ h with e1 | e1
        · simp [e1] at hd
        · simp [e1] at hd
    have d0 : ¬ Dead post s0 := fun d => hnd (program_inv K _ _ _ _ h d)
    have hr : Rel post post2 e (init (pre ++ l :: post)) (init (pre ++ (l ++ e) :: post2)) :=
      ⟨rfl, rfl, rfl, rfl, Nat.le_refl _, Or.inl ⟨pre, l, rfl, rfl, rfl⟩⟩
    rcases get_buffer_sim post post2 e _ _ _ hr hb with hd | ⟨t0, hb2, hr0⟩
    · exact absurd (Or.inl hd) d0
    · obtain ⟨tf, hp, hrf⟩ := program_alive he _ hr0 h hnd
      refine ⟨tf, ?_, hrf.var_ref, hrf.assign_count⟩
      apply main_eq_of_fuel (3 * remaining (init (pre ++ l :: post)))
      · unfold main_fuel
        simp only [hb2]
        exact hp
      · simp

theorem main_at_line (input : List (List Char)) (sf : State) (h : main input = .ok () sf) :
    at_line input sf := by
  unfold main main_fuel at h
  cases hb : get_buffer (init input) with
  | halt x => simp [hb] at h
  | ok u s0 =>
    simp only [hb] at h
    obtain ⟨mid, hm⟩ := get_buffer_split _ _ _ hb
    exact program_inv (at_line_keep input) _ _ _ _ h ⟨mid, hm⟩

/-- Input after the terminator is never examined, for lines of any length: when the run on `input`
succeeds, the input is some lines `pre`, the line in the buffer at the end (the last line
read) and the lines never fetched; the run succeeds with the same two counters on `input`
followed by any further lines, and on every input made of `pre`, the last line read, with
or without further characters after a blank, and any lines whatever after it. -/
theorem main_ignores_rest (input : List (List Char)) (sf : State)
    (h : main input = .ok () sf) :
    (∀ more, ∃ tf, main (input ++ more) = .ok () tf ∧ tf.var_ref = sf.var_ref ∧
      tf.assign_count = sf.assign_count) ∧
    ∃ pre, input = pre ++ sf.buffer :: sf.stdin ∧
      ∀ (extra : List Char) (post2 : List (List Char)),
        (∃ tf, main (pre ++ (sf.buffer ++ ' ' :: extra) :: post2) = .ok () tf ∧
          tf.var_ref = sf.var_ref ∧ tf.assign_count = sf.assign_count) ∧
        (∃ tf, main (pre ++ sf.buffer :: post2) = .ok () tf ∧
          tf.var_ref = sf.var_ref ∧ tf.assign_count = sf.assign_count) := by
  obtain ⟨pre, hp⟩ := main_at_line input sf h
  have h2 : main (pre ++ sf.buffer :: sf.stdin) = .ok () sf := by rw [← hp]; exact h
  have plain : ∀ post2, ∃ tf, main (pre ++ sf.buffer :: post2) = .ok () tf ∧
      tf.var_ref = sf.var_ref ∧ tf.assign_count = sf.assign_count := by
    intro post2
    have := main_alive pre sf.stdin post2 sf.buffer [] sf (Or.inl rfl) h2 rfl
    rw [List.append_nil] at this
    exact this
  refine ⟨?_, pre, hp, fun extra post2 => ⟨?_, plain post2⟩⟩
  · intro more
    have := plain (sf.stdin ++ more)
    rw [hp, List.append_assoc, List.cons_append]
    exact this
  · exact main_alive pre sf.stdin post2 sf.buffer (' ' :: extra) sf (Or.inr ⟨extra, rfl⟩) h2 rfl

theorem main_ignores_rest_witness :
    main ["program begin".toList, "a = 0 end.".toList, "never read".toList] = .ok ()
      { stdin := ["never read".toList], buffer := "a = 0 end.".toList, lookahead := 10,
        token := "end.".toList, var_ref := 1, assign_count := 1 } ∧
    (∃ tf, main (["program begin".toList, "a = 0 end.".toList, "never read".toList] ++
        ["more".toList]) = .ok () tf ∧ tf.var_ref = 1 ∧ tf.assign_count = 1) :=
  ⟨by decide,
   (main_ignores_rest ["program begin".toList, "a = 0 end.".toList, "never read".toList]
      { stdin := ["never read".toList], buffer := "a = 0 end.".toList, lookahead := 10,
        token := "end.".toList, var_ref := 1, assign_count := 1 } (by decide)).1
      ["more".toList]⟩

/-! ## The machine model against the unbounded one -/

@[simp] theorem to32_stdin (s : State) : (to32 s).stdin = s.stdin := rfl

@[simp] theorem to32_buffer (s : State) : (to32 s).buffer = s.buffer := rfl

@[simp] theorem to32_lookahead (s : State) : (to32 s).lookahead = s.lookahead := rfl

@[simp] theorem to32_token (s : State) : (to32 s).token = s.token := rfl

@[simp] theorem to32_var_ref (s : State) : (to32 s).var_ref = s.var_ref % 4294967296 := rfl

@[simp] theorem to32_assign_count (s : State) :
    (to32 s).assign_count = s.assign_count % 4294967296 := rfl

theorem to32_of_lt (s : State) (hv : s.var_ref < 4294967296)
    (ha : s.assign_count < 4294967296) : to32 s = s := by
  cases s
  simp only [to32, State.mk.injEq, true_and] at hv ha ⊢
  exact ⟨Nat.mod_eq_of_lt hv, Nat.mod_eq_of_lt ha⟩

theorem to32_idem (s : State) : to32 (to32 s) = to32 s := by
  simp [to32]

theorem to32_incr_var_ref (s : State) :
    { to32 s with var_ref := incr (to32 s).var_ref }
      = to32 { s with var_ref := s.var_ref + 1 } := by
  simp only [to32, incr, State.mk.injEq, true_and, and_true]
  omega

theorem to32_incr_assign_count (s : State) :
    { to32 s with assign_count := incr (to32 s).assign_count }
      = to32 { s with assign_count := s.assign_count + 1 } := by
  simp only [to32, incr, State.mk.injEq, true_and, and_true]
  omega

theorem remove_whitespace_to32 (s : State) :
    remove_whitespace (to32 s) = to32 (remove_whitespace s) := rfl

theorem get_token_copy_to32 (s : State) :
    get_token_copy (to32 s) = to32 (get_token_copy s) := rfl

theorem upto_refl (s : State) : Upto s.stdin s := ⟨[], rfl, by simp⟩

theorem upto_trans {s s1 : State} {post : List (List Char)} (h1 : Upto s1.stdin s)
    (h2 : Upto post s1) : Upto post s := by
  obtain ⟨m1, e1, f1⟩ := h1
  obtain ⟨m2, e2, f2⟩ := h2
  refine ⟨m1 ++ m2, by rw [e1, e2, List.append_assoc], ?_⟩
  intro l hl
  rcases List.mem_append.1 hl with h | h
  · exact f1 l h
  · exact f2 l h

theorem upto_of_stdin {s s1 : State} {post : List (List Char)} (h : s1.stdin = s.stdin)
    (hu : Upto post s) : Upto post s1 := by
  unfold Upto at hu ⊢
  rw [h]
  exact hu

theorem get_buffer_loop_blank (ls : List (List Char)) :
    ∀ l line rest, get_buffer_loop l ls = some (line, rest) →
      ∃ mid, l :: ls = mid ++ line :: rest ∧ ∀ x ∈ mid, x = [] := by
  induction ls with
  | nil =>
    intro l line rest h
    cases l with
    | nil => simp [get_buffer_loop] at h
    | cons c cs =>
      simp only [get_buffer_loop, Option.some.injEq, Prod.mk.injEq] at h
      exact ⟨[], by rw [← h.1, ← h.2]; rfl, by simp⟩
  | cons l2 ls ih =>
    intro l line rest h
    cases l with
    | nil =>
      simp only [get_buffer_loop] at h
      obtain ⟨mid, hm, hb⟩ := ih l2 line rest h
      refine ⟨[] :: mid, by rw [List.cons_append, ← hm], ?_⟩
      intro x hx
      rcases List.mem_cons.1 hx with rfl | hx
      · rfl
      · exact hb x hx
    | cons c cs =>
      simp only [get_buffer_loop, Option.some.injEq, Prod.mk.injEq] at h
      exact ⟨[], by rw [← h.1, ← h.2]; rfl, by simp⟩

theorem get_buffer_blank (s s1 : State) (u : Unit) (h : get_buffer s = .ok u s1) :
    ∃ mid, s.stdin = mid ++ s1.buffer :: s1.stdin ∧ ∀ x ∈ mid, x = [] := by
  unfold get_buffer at h
  cases hs : s.stdin with
  | nil => simp [hs] at h
  | cons l ls =>
    simp only [hs] at h
    cases hg : get_buffer_loop l ls with
    | none => simp [hg] at h
    | some p =>
      obtain ⟨line, rest⟩ := p
      simp only [hg, Res.ok.injEq, true_and] at h
      subst h
      exact get_buffer_loop_blank _ _ _ _ hg

theorem fits_nil : fits [] := by
  unfold fits SIZE
  simp

/-- The bounded `get_buffer` is the unbounded one followed by the test that the line fetched
fits the buffer. -/
theorem bounded_get_buffer_eq (s : State) :
    Bounded.get_buffer s =
      match get_buffer s with
      | .halt h => .halt h
      | .ok u s1 => if SIZE ≤ s1.buffer.length + 1 then .halt .exhausted else .ok u s1 := by
  unfold Bounded.get_buffer get_buffer
  cases s.stdin with
  | nil => rfl
  | cons l ls =>
    simp only
    cases get_buffer_loop l ls with
    | none => rfl
    | some p => rfl

theorem get_buffer_to32 (s : State) : get_buffer (to32 s) = (get_buffer s).to32 := by
  unfold get_buffer
  simp only [to32_stdin]
  cases s.stdin with
  | nil => rfl
  | cons l ls =>
    simp only
    cases get_buffer_loop l ls with
    | none => rfl
    | some p => rfl

theorem get_buffer_took (s s1 : State) (u : Unit) (h : get_buffer s = .ok u s1)
    (hf : fits s1.buffer) : Upto s1.stdin s := by
  obtain ⟨mid, hm, hb⟩ := get_buffer_blank _ _ _ h
  refine ⟨mid ++ [s1.buffer], by rw [hm]; simp, ?_⟩
  intro l hl
  rcases List.mem_append.1 hl with h1 | h1
  · rw [hb l h1]
    exact fits_nil
  · rw [List.mem_singleton.1 h1]
    exact hf

theorem get_buffer_comm (s : State) : Comm (Bounded.get_buffer (to32 s)) (get_buffer s) s := by
  rw [bounded_get_buffer_eq, get_buffer_to32]
  cases hg : get_buffer s with
  | halt h => exact Or.inl ⟨rfl, by simp⟩
  | ok u s1 =>
    simp only [Res.to32, to32_buffer]
    by_cases hl : SIZE ≤ s1.buffer.length + 1
    · rw [if_pos hl]
      exact Or.inr rfl
    · rw [if_neg hl]
      refine Or.inl ⟨rfl, ?_⟩
      intro a s2 h2
      simp only [Res.ok.injEq] at h2
      obtain ⟨-, rfl⟩ := h2
      exact get_buffer_took _ _ _ hg (by unfold fits; omega)

theorem bounded_get_token_eq (s : State) :
    Bounded.get_token s =
      if (remove_whitespace s).buffer.getD (remove_whitespace s).lookahead nul = nul then
        match Bounded.get_buffer (remove_whitespace s) with
        | .halt h => .halt h
        | .ok _ s2 => .ok () (get_token_copy s2)
      else .ok () (get_token_copy (remove_whitespace s)) := rfl

theorem get_token_eq (s : State) :
    get_token s =
      if (remove_whitespace s).buffer.getD (remove_whitespace s).lookahead nul = nul then
        match get_buffer (remove_whitespace s) with
        | .halt h => .halt h
        | .ok _ s2 => .ok () (get_token_copy s2)
      else .ok () (get_token_copy (remove_whitespace s)) := rfl

theorem get_token_comm (s : State) : Comm (Bounded.get_token (to32 s)) (get_token s) s := by
  rw [bounded_get_token_eq, get_token_eq, remove_whitespace_to32]
  simp only [to32_buffer, to32_lookahead]
  split
  · rcases get_buffer_comm (remove_whitespace s) with ⟨e, tk⟩ | e
    · rw [e]
      cases hg : get_buffer (remove_whitespace s) with
      | halt h => exact Or.inl ⟨rfl, by simp⟩
      | ok u s2 =>
        refine Or.inl ⟨rfl, ?_⟩
        intro a s3 h3
        simp only [Res.ok.injEq] at h3
        obtain ⟨-, rfl⟩ := h3
        have h4 : Upto s2.stdin (remove_whitespace s) := tk _ _ hg
        exact h4
    · rw [e]
      exact Or.inr rfl
  · refine Or.inl ⟨rfl, ?_⟩
    intro a s3 h3
    simp only [Res.ok.injEq] at h3
    obtain ⟨-, rfl⟩ := h3
    exact upto_refl s

theorem comm_ok {α : Type} {s y : State} (x : α) (h : Upto y.stdin s) :
    Comm (Res.ok x (to32 y)) (Res.ok x y) s := by
  refine Or.inl ⟨rfl, ?_⟩
  intro a s2 h2
  simp only [Res.ok.injEq] at h2
  obtain ⟨-, rfl⟩ := h2
  exact h

theorem comm_halt {α : Type} (s : State) (h : Halt) :
    Comm (Res.halt h : Res α) (Res.halt h) s :=
  Or.inl ⟨rfl, by simp⟩

theorem comm_exhausted {α : Type} (s : State) (r : Res α) :
    Comm (Res.halt .exhausted) r s :=
  Or.inr rfl

theorem variable_comm (s : State) : Comm (Bounded.variable_ (to32 s)) (variable_ s) s := by
  unfold Bounded.variable_ variable_
  simp only [to32_token]
  by_cases hv : s.token = ['a'] ∨ s.token = ['b'] ∨ s.token = ['c']
  · rw [if_pos hv, if_pos hv]
    rcases get_token_comm s with ⟨e, tk⟩ | e
    · rw [e]
      cases hg : get_token s with
      | halt h => exact comm_halt s h
      | ok u s1 =>
        simp only [Res.to32]
        rw [to32_incr_var_ref]
        exact comm_ok true (tk _ s1 hg)
    · rw [e]
      exact comm_exhausted s _
  · rw [if_neg hv, if_neg hv]
    exact comm_ok false (upto_refl s)

theorem digit_comm (s : State) : Comm (Bounded.digit (to32 s)) (digit s) s := by
  unfold Bounded.digit digit
  simp only [to32_token]
  by_cases hv : s.token = ['0'] ∨ s.token = ['1'] ∨ s.token = ['2']
  · rw [if_pos hv, if_pos hv]
    rcases get_token_comm s with ⟨e, tk⟩ | e
    · rw [e]
      cases hg : get_token s with
      | halt h => exact comm_halt s h
      | ok u s1 =>
        simp only [Res.to32]
        exact comm_ok true (tk _ _ hg)
    · rw [e]
      exact comm_exhausted s _
  · rw [if_neg hv, if_neg hv]
    exact comm_ok false (upto_refl s)

theorem no_operand_comm (s : State) : Comm (Bounded.no_operand (to32 s)) (no_operand s) s := by
  unfold Bounded.no_operand no_operand
  rcases variable_comm s with ⟨e, tk⟩ | e
  · rw [e]
    cases hv : variable_ s with
    | halt h => exact comm_halt s h
    | ok b s1 =>
      cases b with
      | true =>
        simp only [Res.to32]
        exact comm_ok false (tk _ _ hv)
      | false =>
        simp only [Res.to32]
        rcases digit_comm s1 with ⟨e2, tk2⟩ | e2
        · rw [e2]
          cases hd : digit s1 with
          | halt h => exact comm_halt s h
          | ok b2 s2 =>
            cases b2 with
            | true =>
              simp only [Res.to32]
              exact comm_ok false (upto_trans (tk _ _ hv) (tk2 _ _ hd))
            | false =>
              simp only [Res.to32]
              exact comm_ok true (upto_trans (tk _ _ hv) (tk2 _ _ hd))
        · rw [e2]
          exact comm_exhausted s _
  · rw [e]
    exact comm_exhausted s _

theorem expr_loop_comm (k : Nat) :
    ∀ s, Comm (Bounded.expr_loop k (to32 s)) (expr_loop k s) s := by
  induction k with
  | zero =>
    intro s
    exact comm_ok () (upto_refl s)
  | succ k ih =>
    intro s
    simp only [Bounded.expr_loop, expr_loop]
    rcases no_operand_comm s with ⟨e, tk⟩ | e
    · rw [e]
      cases hn : no_operand s with
      | halt h => exact comm_halt s h
      | ok b s1 =>
        cases b with
        | true => exact comm_halt s _
        | false =>
          simp only [Res.to32]
          rcases ih s1 with ⟨e2, tk2⟩ | e2
          · refine Or.inl ⟨e2, ?_⟩
            intro a s2 h2
            exact upto_trans (tk _ _ hn) (tk2 _ _ h2)
          · exact Or.inr e2
    · rw [e]
      exact comm_exhausted s _

theorem expr_comm (s : State) : Comm (Bounded.expr (to32 s)) (expr s) s := by
  unfold Bounded.expr expr
  simp only [to32_token]
  by_cases hv : s.token = ['+'] ∨ s.token = ['*']
  · rw [if_pos hv, if_pos hv]
    rcases get_token_comm s with ⟨e, tk⟩ | e
    · rw [e]
      cases hg : get_token s with
      | halt h => exact comm_halt s h
      | ok u s1 =>
        simp only [Res.to32]
        rcases expr_loop_comm 2 s1 with ⟨e2, tk2⟩ | e2
        · refine Or.inl ⟨e2, ?_⟩
          intro a s2 h2
          exact upto_trans (tk _ _ hg) (tk2 _ _ h2)
        · exact Or.inr e2
    · rw [e]
      exact comm_exhausted s _
  · rw [if_neg hv, if_neg hv]
    rcases no_operand_comm s with ⟨e, tk⟩ | e
    · rw [e]
      cases hn : no_operand s with
      | halt h => exact comm_halt s h
      | ok b s1 =>
        cases b with
        | true => exact comm_halt s _
        | false =>
          simp only [Res.to32]
          exact comm_ok () (tk _ _ hn)
    · rw [e]
      exact comm_exhausted s _

theorem testexpr_comm (s : State) : Comm (Bounded.testexpr (to32 s)) (testexpr s) s := by
  unfold Bounded.testexpr testexpr
  rcases variable_comm s with ⟨e, tk⟩ | e
  · rw [e]
    cases hv : variable_ s with
    | halt h => exact comm_halt s h
    | ok b s1 =>
      cases b with
      | false =>
        simp only [Res.to32]
        exact comm_ok false (tk _ _ hv)
      | true =>
        simp only [Res.to32, to32_token]
        by_cases ht : s1.token = ['<', '=']
        · rw [if_pos ht, if_pos ht]
          rcases get_token_comm s1 with ⟨e2, tk2⟩ | e2
          · rw [e2]
            cases hg : get_token s1 with
            | halt h => exact comm_halt s h
            | ok u s2 =>
              simp only [Res.to32]
              rcases expr_comm s2 with ⟨e3, tk3⟩ | e3
              · rw [e3]
                cases hx : expr s2 with
                | halt h => exact comm_halt s h
                | ok u2 s3 =>
                  simp only [Res.to32]
                  exact comm_ok true
                    (upto_trans (tk _ _ hv) (upto_trans (tk2 _ _ hg) (tk3 _ _ hx)))
              · rw [e3]
                exact comm_exhausted s _
          · rw [e2]
            exact comm_exhausted s _
        · rw [if_neg ht, if_neg ht]
          exact comm_ok false (tk _ _ hv)
  · rw [e]
    exact comm_exhausted s _

theorem assign_comm (s : State) : Comm (Bounded.assign (to32 s)) (assign s) s := by
  unfold Bounded.assign assign
  rcases variable_comm s with ⟨e, tk⟩ | e
  · rw [e]
    cases hv : variable_ s with
    | halt h => exact comm_halt s h
    | ok b s1 =>
      cases b with
      | false =>
        simp only [Res.to32]
        exact comm_ok false (tk _ _ hv)
      | true =>
        simp only [Res.to32, to32_token]
        by_cases ht : s1.token = ['=']
        · rw [if_pos ht, if_pos ht]
          rcases get_token_comm s1 with ⟨e2, tk2⟩ | e2
          · rw [e2]
            cases hg : get_token s1 with
            | halt h => exact comm_halt s h
            | ok u s2 =>
              simp only [Res.to32]
              rcases expr_comm s2 with ⟨e3, tk3⟩ | e3
              · rw [e3]
                cases hx : expr s2 with
                | halt h => exact comm_halt s h
                | ok u2 s3 =>
                  simp only [Res.to32]
                  rw [to32_incr_assign_count]
                  exact comm_ok true
                    (upto_trans (tk _ _ hv) (upto_trans (tk2 _ _ hg) (tk3 _ s3 hx)))
              · rw [e3]
                exact comm_exhausted s _
          · rw [e2]
            exact comm_exhausted s _
        · rw [if_neg ht, if_neg ht]
          exact comm_ok false (tk _ _ hv)
  · rw [e]
    exact comm_exhausted s _

theorem comm_step (n : Nat) :
    (∀ s, Comm (Bounded.block n (to32 s)) (block n s) s) ∧
    (∀ s, Comm (Bounded.stmtlist n (to32 s)) (stmtlist n s) s) ∧
    (∀ s, Comm (Bounded.morestmts n (to32 s)) (morestmts n s) s) ∧
    (∀ s, Comm (Bounded.stmt n (to32 s)) (stmt n s) s) ∧
    (∀ s, Comm (Bounded.ifstmt n (to32 s)) (ifstmt n s) s) ∧
    (∀ s, Comm (Bounded.whilestmt n (to32 s)) (whilestmt n s) s) := by
  induction n with
  | zero =>
    exact ⟨fun s => comm_halt s _, fun s => comm_halt s _, fun s => comm_halt s _,
      fun s => comm_halt s _, fun s => comm_halt s _, fun s => comm_halt s _⟩
  | succ n ih =>
    obtain ⟨hb, hsl, hm, hs, hi, hw⟩ := ih
    refine ⟨?_, ?_, ?_, ?_, ?_, ?_⟩
    · intro s
      rw [Bounded.block.eq_2 (to32 s) n, block.eq_2 s n]
      simp only [to32_token]
      by_cases h0 : s.token ≠ ['b', 'e', 'g', 'i', 'n']
      · rw [if_pos h0, if_pos h0]
        exact comm_halt s _
      · rw [if_neg h0, if_neg h0]
        rcases get_token_comm s with ⟨e, tk⟩ | e
        · rw [e]
          cases hg : get_token s with
          | halt h => exact comm_halt s h
          | ok u s1 =>
            simp only [Res.to32]
            rcases hsl s1 with ⟨e2, tk2⟩ | e2
            · rw [e2]
              cases hl : stmtlist n s1 with
              | halt h => exact comm_halt s h
              | ok u2 s2 =>
                simp only [Res.to32, to32_token]
                by_cases h1 : s2.token ≠ ['e', 'n', 'd'] ∧ s2.token ≠ ['e', 'n', 'd', '.']
                · rw [if_pos h1, if_pos h1]
                  exact comm_halt s _
                · rw [if_neg h1, if_neg h1]
                  by_cases h2 : s2.token = ['e', 'n', 'd']
                  · rw [if_pos h2, if_pos h2]
                    rcases get_token_comm s2 with ⟨e3, tk3⟩ | e3
                    · rw [e3]
                      cases hg2 : get_token s2 with
                      | halt h => exact comm_halt s h
                      | ok u3 s3 =>
                        simp only [Res.to32]
                        exact comm_ok true
                          (upto_trans (tk _ _ hg) (upto_trans (tk2 _ _ hl) (tk3 _ _ hg2)))
                    · rw [e3]
                      exact comm_exhausted s _
                  · rw [if_neg h2, if_neg h2]
                    exact comm_ok true (upto_trans (tk _ _ hg) (tk2 _ _ hl))
            · rw [e2]
              exact comm_exhausted s _
        · rw [e]
          exact comm_exhausted s _
    · intro s
      rw [Bounded.stmtlist.eq_2 (to32 s) n, stmtlist.eq_2 s n]
      rcases hs s with ⟨e, tk⟩ | e
      · rw [e]
        cases hst : stmt n s with
        | halt h => exact comm_halt s h
        | ok b s1 =>
          cases b with
          | false => exact comm_halt s _
          | true =>
            simp only [Res.to32]
            rcases hm s1 with ⟨e2, tk2⟩ | e2
            · rw [e2]
              cases hmo : morestmts n s1 with
              | halt h => exact comm_halt s h
              | ok b2 s2 =>
                cases b2 with
                | false => exact comm_halt s _
                | true =>
                  simp only [Res.to32]
                  exact comm_ok () (upto_trans (tk _ _ hst) (tk2 _ _ hmo))
            · rw [e2]
              exact comm_exhausted s _
      · rw [e]
        exact comm_exhausted s _
    · intro s
      rw [Bounded.morestmts.eq_2 (to32 s) n, morestmts.eq_2 s n]
      simp only [to32_token]
      by_cases h0 : s.token = ['e', 'n', 'd'] ∨ s.token = ['e', 'n', 'd', '.']
      · rw [if_pos h0, if_pos h0]
        exact comm_ok true (upto_refl s)
      · rw [if_neg h0, if_neg h0]
        by_cases h1 : s.token = [';']
        · rw [if_pos h1, if_pos h1]
          rcases get_token_comm s with ⟨e, tk⟩ | e
          · rw [e]
            cases hg : get_token s with
            | halt h => exact comm_halt s h
            | ok u s1 =>
              simp only [Res.to32]
              rcases hsl s1 with ⟨e2, tk2⟩ | e2
              · rw [e2]
                cases hl : stmtlist n s1 with
                | halt h => exact comm_halt s h
                | ok u2 s2 =>
                  simp only [Res.to32]
                  exact comm_ok true (upto_trans (tk _ _ hg) (tk2 _ _ hl))
              · rw [e2]
                exact comm_exhausted s _
          · rw [e]
            exact comm_exhausted s _
        · rw [if_neg h1, if_neg h1]
          exact comm_halt s _
    · intro s
      rw [Bounded.stmt.eq_2 (to32 s) n, stmt.eq_2 s n]
      rcases assign_comm s with ⟨e, tk⟩ | e
      · rw [e]
        cases ha : assign s with
        | halt h => exact comm_halt s h
        | ok b s1 =>
          cases b with
          | true =>
            simp only [Res.to32]
            exact comm_ok true (tk _ _ ha)
          | false =>
            simp only [Res.to32]
            rcases hi s1 with ⟨e2, tk2⟩ | e2
            · rw [e2]
              cases hif : ifstmt n s1 with
              | halt h => exact comm_halt s h
              | ok b2 s2 =>
                cases b2 with
                | true =>
                  simp only [Res.to32]
                  exact comm_ok true (upto_trans (tk _ _ ha) (tk2 _ _ hif))
                | false =>
                  simp only [Res.to32]
                  rcases hw s2 with ⟨e3, tk3⟩ | e3
                  · rw [e3]
                    cases hwh : whilestmt n s2 with
                    | halt h => exact comm_halt s h
                    | ok b3 s3 =>
                      cases b3 with
                      | true =>
                        simp only [Res.to32]
                        exact comm_ok true
                          (upto_trans (tk _ _ ha) (upto_trans (tk2 _ _ hif) (tk3 _ _ hwh)))
                      | false =>
                        simp only [Res.to32]
                        rcases hb s3 with ⟨e4, tk4⟩ | e4
                        · rw [e4]
                          cases hbl : block n s3 with
                          | halt h => exact comm_halt s h
                          | ok b4 s4 =>
                            cases b4 with
                            | true =>
                              simp only [Res.to32]
                              exact comm_ok true
                                (upto_trans (tk _ _ ha) (upto_trans (tk2 _ _ hif)
                                  (upto_trans (tk3 _ _ hwh) (tk4 _ _ hbl))))
                            | false => exact comm_halt s _
                        · rw [e4]
                          exact comm_exhausted s _
                  · rw [e3]
                    exact comm_exhausted s _
            · rw [e2]
              exact comm_exhausted s _
      · rw [e]
        exact comm_exhausted s _
    · intro s
      rw [Bounded.ifstmt.eq_2 (to32 s) n, ifstmt.eq_2 s n]
      simp only [to32_token]
      by_cases h0 : s.token = ['i', 'f']
      · rw [if_pos h0, if_pos h0]
        rcases get_token_comm s with ⟨e, tk⟩ | e
        · rw [e]
          cases hg : get_token s with
          | halt h => exact comm_halt s h
          | ok u s1 =>
            simp only [Res.to32]
            rcases testexpr_comm s1 with ⟨e2, tk2⟩ | e2
            · rw [e2]
              cases hte : testexpr s1 with
              | halt h => exact comm_halt s h
              | ok bt s2 =>
                cases bt with
                | false => exact comm_halt s _
                | true =>
                  simp only [Res.to32, to32_token]
                  by_cases h1 : s2.token ≠ ['t', 'h', 'e', 'n']
                  · rw [if_pos h1, if_pos h1]
                    exact comm_halt s _
                  · rw [if_neg h1, if_neg h1]
                    rcases get_token_comm s2 with ⟨e3, tk3⟩ | e3
                    · rw [e3]
                      cases hg2 : get_token s2 with
                      | halt h => exact comm_halt s h
                      | ok u2 s3 =>
                        simp only [Res.to32]
                        rcases hs s3 with ⟨e4, tk4⟩ | e4
                        · rw [e4]
                          cases hst : stmt n s3 with
                          | halt h => exact comm_halt s h
                          | ok b4 s4 =>
                            simp only [Res.to32, to32_token]
                            by_cases h2 : s4.token ≠ ['e', 'l', 's', 'e']
                            · rw [if_pos h2, if_pos h2]
                              exact comm_halt s _
                            · rw [if_neg h2, if_neg h2]
                              rcases get_token_comm s4 with ⟨e5, tk5⟩ | e5
                              · rw [e5]
                                cases hg3 : get_token s4 with
                                | halt h => exact comm_halt s h
                                | ok u3 s5 =>
                                  simp only [Res.to32]
                                  rcases hs s5 with ⟨e6, tk6⟩ | e6
                                  · rw [e6]
                                    cases hst2 : stmt n s5 with
                                    | halt h => exact comm_halt s h
                                    | ok b6 s6 =>
                                      simp only [Res.to32]
                                      exact comm_ok true
                                        (upto_trans (tk _ _ hg) (upto_trans (tk2 _ _ hte)
                                          (upto_trans (tk3 _ _ hg2) (upto_trans (tk4 _ _ hst)
                                            (upto_trans (tk5 _ _ hg3) (tk6 _ _ hst2))))))
                                  · rw [e6]
                                    exact comm_exhausted s _
                              · rw [e5]
                                exact comm_exhausted s _
                        · rw [e4]
                          exact comm_exhausted s _
                    · rw [e3]
                      exact comm_exhausted s _
            · rw [e2]
              exact comm_exhausted s _
        · rw [e]
          exact comm_exhausted s _
      · rw [if_neg h0, if_neg h0]
        exact comm_ok false (upto_refl s)
    · intro s
      rw [Bounded.whilestmt.eq_2 (to32 s) n, whilestmt.eq_2 s n]
      simp only [to32_token]
      by_cases h0 : s.token = ['w', 'h', 'i', 'l', 'e']
      · rw [if_pos h0, if_pos h0]
        rcases get_token_comm s with ⟨e, tk⟩ | e
        · rw [e]
          cases hg : get_token s with
          | halt h => exact comm_halt s h
          | ok u s1 =>
            simp only [Res.to32]
            rcases testexpr_comm s1 with ⟨e2, tk2⟩ | e2
            · rw [e2]
              cases hte : testexpr s1 with
              | halt h => exact comm_halt s h
              | ok bt s2 =>
                cases bt with
                | false => exact comm_halt s _
                | true =>
                  simp only [Res.to32, to32_token]
                  by_cases h1 : s2.token ≠ ['d', 'o']
                  · rw [if_pos h1, if_pos h1]
                    exact comm_halt s _
                  · rw [if_neg h1, if_neg h1]
                    rcases get_token_comm s2 with ⟨e3, tk3⟩ | e3
                    · rw [e3]
                      cases hg2 : get_token s2 with
                      | halt h => exact comm_halt s h
                      | ok u2 s3 =>
                        simp only [Res.to32]
                        rcases hs s3 with ⟨e4, tk4⟩ | e4
                        · rw [e4]
                          cases hst : stmt n s3 with
                          | halt h => exact comm_halt s h
                          | ok b4 s4 =>
                            simp only [Res.to32]
                            exact comm_ok true
                              (upto_trans (tk _ _ hg) (upto_trans (tk2 _ _ hte)
                                (upto_trans (tk3 _ _ hg2) (tk4 _ _ hst))))
                        · rw [e4]
                          exact comm_exhausted s _
                    · rw [e3]
                      exact comm_exhausted s _
            · rw [e2]
              exact comm_exhausted s _
        · rw [e]
          exact comm_exhausted s _
      · rw [if_neg h0, if_neg h0]
        exact comm_ok false (upto_refl s)

theorem program_comm (n : Nat) (s : State) :
    Comm (Bounded.program n (to32 s)) (program n s) s := by
  unfold Bounded.program program
  rcases get_token_comm s with ⟨e, tk⟩ | e
  · rw [e]
    cases hg : get_token s with
    | halt h => exact comm_halt s h
    | ok u s1 =>
      simp only [Res.to32, to32_token]
      by_cases h0 : s1.token ≠ ['p', 'r', 'o', 'g', 'r', 'a', 'm']
      · rw [if_pos h0, if_pos h0]
        exact comm_halt s _
      · rw [if_neg h0, if_neg h0]
        rcases get_token_comm s1 with ⟨e2, tk2⟩ | e2
        · rw [e2]
          cases hg2 : get_token s1 with
          | halt h => exact comm_halt s h
          | ok u2 s2 =>
            simp only [Res.to32]
            rcases (comm_step n).1 s2 with ⟨e3, tk3⟩ | e3
            · rw [e3]
              cases hb : block n s2 with
              | halt h => exact comm_halt s h
              | ok b s3 =>
                simp only [Res.to32, to32_token]
                by_cases h1 : s3.token ≠ ['.'] ∧ s3.token ≠ ['e', 'n', 'd', '.']
                · rw [if_pos h1, if_pos h1]
                  exact comm_halt s _
                · rw [if_neg h1, if_neg h1]
                  exact comm_ok ()
                    (upto_trans (tk _ _ hg) (upto_trans (tk2 _ _ hg2) (tk3 _ _ hb)))
            · rw [e3]
              exact comm_exhausted s _
        · rw [e2]
          exact comm_exhausted s _
  · rw [e]
    exact comm_exhausted s _

theorem to32_init (input : List (List Char)) : to32 (init input) = init input := rfl

theorem main_fuel_comm (n : Nat) (input : List (List Char)) :
    Comm (Bounded.main_fuel n input) (main_fuel n input) (init input) := by
  unfold Bounded.main_fuel main_fuel
  rcases get_buffer_comm (init input) with ⟨e, tk⟩ | e
  · rw [to32_init] at e
    rw [e]
    cases hg : get_buffer (init input) with
    | halt h => exact comm_halt _ h
    | ok u s0 =>
      simp only [Res.to32]
      rcases program_comm n s0 with ⟨e2, tk2⟩ | e2
      · refine Or.inl ⟨e2, ?_⟩
        intro a s2 h2
        exact upto_trans (tk _ _ hg) (tk2 _ _ h2)
      · exact Or.inr e2
  · rw [to32_init] at e
    rw [e]
    exact comm_exhausted _ _

/-- The bounded run is the unbounded run with the counters cut to 32 bits, and then every
line fetched fits the buffer; or it leaves the buffer. -/
theorem main_comm (input : List (List Char)) :
    Comm (Bounded.main input) (main input) (init input) :=
  main_fuel_comm _ input

/-- The bounded `main` never stops for lack of recursion budget. -/
theorem main_budget (input : List (List Char)) : Bounded.main input ≠ .halt .fuel := by
  rcases main_comm input with ⟨e, -⟩ | e
  · rw [e]
    have := main_no_fuel input
    cases hm : main input with
    | halt h =>
      rw [hm] at this
      simp only [Res.to32, ne_eq, Res.halt.injEq]
      intro hh
      exact this (by rw [hh])
    | ok u s => simp [Res.to32]
  · rw [e]
    simp

theorem main_of_bounded (input : List (List Char)) (m : State)
    (h : Bounded.main input = .ok () m) :
    ∃ sf, main input = .ok () sf ∧ m = to32 sf ∧ Upto sf.stdin (init input) := by
  rcases main_comm input with ⟨e, tk⟩ | e
  · rw [h] at e
    cases hm : main input with
    | halt x => simp [hm, Res.to32] at e
    | ok u sf =>
      simp only [hm, Res.to32, Res.ok.injEq, true_and] at e
      exact ⟨sf, rfl, e, tk _ _ hm⟩
  · rw [h] at e
    simp at e

/-! ## Success of the bounded run when the lines fetched fit the buffer -/

theorem append_split {α : Type} (m post m1 t : List α) (h : m ++ post = m1 ++ t)
    (hl : post.length ≤ t.length) : ∃ c, m = m1 ++ c ∧ t = c ++ post := by
  rcases List.append_eq_append_iff.1 h with ⟨a, h1, h2⟩ | ⟨c, h1, h2⟩
  · have ha : a = [] := by
      have := congrArg List.length h2
      simp only [List.length_append] at this
      exact List.length_eq_zero.1 (by omega)
    subst ha
    simp only [List.append_nil, List.nil_append] at h1 h2
    exact ⟨[], by rw [h1, List.append_nil], by rw [h2, List.nil_append]⟩
  · exact ⟨c, h1, h2⟩

theorem past_keep (post : List (List Char)) : LexKeep (Past post) where
  step := by
    intro s s1 hp hg
    unfold Past at hp ⊢
    rcases get_token_cases _ _ _ hg with ⟨-, rfl⟩ | ⟨-, s2, hb, rfl⟩
    · simpa using hp
    · have := get_buffer_stdin _ _ _ hb
      simp only [get_token_copy_stdin, remove_whitespace_stdin] at this ⊢
      omega
  lex := by
    intro s s1 hp hl
    unfold Past at hp ⊢
    rw [← hl.1]
    exact hp

theorem get_buffer_fit {post : List (List Char)} {s s1 : State} {u : Unit}
    (h : get_buffer s = .ok u s1) (hu : Upto post s) (hnd : ¬ Past post s1) :
    fits s1.buffer ∧ Upto post s1 := by
  obtain ⟨blanks, hb, -⟩ := get_buffer_blank _ _ _ h
  obtain ⟨m, hm, hf⟩ := hu
  have hl : post.length ≤ s1.stdin.length := by
    unfold Past at hnd
    omega
  have e : m ++ post = (blanks ++ [s1.buffer]) ++ s1.stdin := by
    rw [← hm, hb]
    simp
  obtain ⟨c, h1, h2⟩ := append_split _ _ _ _ e hl
  refine ⟨hf _ (by rw [h1]; simp), c, h2, ?_⟩
  intro l hlc
  exact hf l (by rw [h1]; exact List.mem_append_right _ hlc)

theorem bounded_get_buffer_fit {post : List (List Char)} {s s1 : State} {u : Unit}
    (h : get_buffer s = .ok u s1) (hu : Upto post s) (hnd : ¬ Past post s1) :
    Bounded.get_buffer (to32 s) = .ok u (to32 s1) ∧ Upto post s1 := by
  obtain ⟨hf, hu1⟩ := get_buffer_fit h hu hnd
  refine ⟨?_, hu1⟩
  rw [bounded_get_buffer_eq, get_buffer_to32, h]
  simp only [Res.to32, to32_buffer]
  rw [if_neg]
  unfold fits at hf
  omega

theorem get_token_fit {post : List (List Char)} {s s1 : State}
    (h : get_token s = .ok () s1) (hu : Upto post s) (hnd : ¬ Past post s1) :
    Bounded.get_token (to32 s) = .ok () (to32 s1) ∧ Upto post s1 := by
  rw [get_token_eq] at h
  rw [bounded_get_token_eq, remove_whitespace_to32]
  simp only [to32_buffer, to32_lookahead]
  split at h
  · rename_i hn
    rw [if_pos hn]
    cases hb : get_buffer (remove_whitespace s) with
    | halt x => simp [hb] at h
    | ok u2 s2 =>
      simp only [hb, Res.ok.injEq, true_and] at h
      subst h
      obtain ⟨e, hu2⟩ := bounded_get_buffer_fit hb
        (upto_of_stdin (remove_whitespace_stdin s) hu) (fun d => hnd d)
      simp only [e]
      exact ⟨rfl, hu2⟩
  · rename_i hn
    rw [if_neg hn]
    simp only [Res.ok.injEq, true_and] at h
    subst h
    exact ⟨rfl, hu⟩

theorem digit_inv {P : State → Prop} (I : LexKeep P) (s s1 : State) (b : Bool)
    (hv : digit s = .ok b s1) (h : P s) : P s1 := by
  rcases digit_sound _ _ _ hv with ⟨-, -, hr⟩ | ⟨-, -, rfl⟩
  · exact reads_inv I _ _ _ hr h
  · exact h

theorem variable_fit {post : List (List Char)} {s s1 : State} {b : Bool}
    (h : variable_ s = .ok b s1) (hu : Upto post s) (hnd : ¬ Past post s1) :
    Bounded.variable_ (to32 s) = .ok b (to32 s1) ∧ Upto post s1 := by
  unfold variable_ at h
  unfold Bounded.variable_
  simp only [to32_token]
  by_cases hv : s.token = ['a'] ∨ s.token = ['b'] ∨ s.token = ['c']
  · rw [if_pos hv] at h
    rw [if_pos hv]
    cases hg : get_token s with
    | halt x => simp [hg] at h
    | ok u s2 =>
      simp only [hg, Res.ok.injEq] at h
      obtain ⟨rfl, rfl⟩ := h
      obtain ⟨e, hu2⟩ := get_token_fit hg hu (fun d => hnd d)
      simp only [e]
      rw [to32_incr_var_ref]
      exact ⟨rfl, hu2⟩
  · rw [if_neg hv] at h
    rw [if_neg hv]
    simp only [Res.ok.injEq] at h
    obtain ⟨rfl, rfl⟩ := h
    exact ⟨rfl, hu⟩

theorem digit_fit {post : List (List Char)} {s s1 : State} {b : Bool}
    (h : digit s = .ok b s1) (hu : Upto post s) (hnd : ¬ Past post s1) :
    Bounded.digit (to32 s) = .ok b (to32 s1) ∧ Upto post s1 := by
  unfold digit at h
  unfold Bounded.digit
  simp only [to32_token]
  by_cases hv : s.token = ['0'] ∨ s.token = ['1'] ∨ s.token = ['2']
  · rw [if_pos hv] at h
    rw [if_pos hv]
    cases hg : get_token s with
    | halt x => simp [hg] at h
    | ok u s2 =>
      simp only [hg, Res.ok.injEq] at h
      obtain ⟨rfl, rfl⟩ := h
      obtain ⟨e, hu2⟩ := get_token_fit hg hu hnd
      simp only [e]
      exact ⟨trivial, hu2⟩
  · rw [if_neg hv] at h
    rw [if_neg hv]
    simp only [Res.ok.injEq] at h
    obtain ⟨rfl, rfl⟩ := h
    exact ⟨rfl, hu⟩

theorem no_operand_fit {post : List (List Char)} {s s1 : State} {b : Bool}
    (h : no_operand s = .ok b s1) (hu : Upto post s) (hnd : ¬ Past post s1) :
    Bounded.no_operand (to32 s) = .ok b (to32 s1) ∧ Upto post s1 := by
  have K := past_keep post
  unfold no_operand at h
  unfold Bounded.no_operand
  cases hv : variable_ s with
  | halt x => simp [hv] at h
  | ok bv s2 =>
    cases bv with
    | true =>
      simp only [hv, Res.ok.injEq] at h
      obtain ⟨rfl, rfl⟩ := h
      obtain ⟨e, hu2⟩ := variable_fit hv hu hnd
      simp only [e]
      exact ⟨trivial, hu2⟩
    | false =>
      simp only [hv] at h
      cases hd : digit s2 with
      | halt x => simp [hd] at h
      | ok bd s3 =>
        have hs3 : s1 = s3 := by
          cases bd <;> simp [hd] at h <;> exact h.2.symm
        subst hs3
        have d2 : ¬ Past post s2 := fun d => hnd (digit_inv K _ _ _ hd d)
        obtain ⟨e, hu2⟩ := variable_fit hv hu d2
        obtain ⟨e2, hu3⟩ := digit_fit hd hu2 hnd
        simp only [e, e2]
        cases bd with
        | true =>
          simp only [hd, Res.ok.injEq] at h
          exact ⟨by rw [← h.1], hu3⟩
        | false =>
          simp only [hd, Res.ok.injEq] at h
          exact ⟨by rw [← h.1], hu3⟩

theorem expr_loop_inv {P : State → Prop} (I : LexKeep P) (k : Nat) :
    ∀ s s1 u, expr_loop k s = .ok u s1 → P s → P s1 := by
  induction k with
  | zero =>
    intro s s1 u h hp
    simp only [expr_loop, Res.ok.injEq, true_and] at h
    rw [← h]
    exact hp
  | succ k ih =>
    intro s s1 u h hp
    simp only [expr_loop] at h
    cases hn : no_operand s with
    | halt x => simp [hn] at h
    | ok b s2 =>
      cases b with
      | true => simp [hn] at h
      | false =>
        simp only [hn] at h
        exact ih _ _ _ h (no_operand_inv I _ _ _ hn hp)

theorem expr_loop_fit {post : List (List Char)} (k : Nat) :
    ∀ s s1, expr_loop k s = .ok () s1 → Upto post s → ¬ Past post s1 →
      Bounded.expr_loop k (to32 s) = .ok () (to32 s1) ∧ Upto post s1 := by
  have K := past_keep post
  induction k with
  | zero =>
    intro s s1 h hu hnd
    simp only [expr_loop, Res.ok.injEq, true_and] at h
    subst h
    exact ⟨rfl, hu⟩
  | succ k ih =>
    intro s s1 h hu hnd
    simp only [expr_loop] at h
    simp only [Bounded.expr_loop]
    cases hn : no_operand s with
    | halt x => simp [hn] at h
    | ok b s2 =>
      cases b with
      | true => simp [hn] at h
      | false =>
        simp only [hn] at h
        have d2 : ¬ Past post s2 := fun d => hnd (expr_loop_inv K _ _ _ _ h d)
        obtain ⟨e, hu2⟩ := no_operand_fit hn hu d2
        simp only [e]
        exact ih _ _ h hu2 hnd

theorem expr_fit {post : List (List Char)} {s s1 : State}
    (h : expr s = .ok () s1) (hu : Upto post s) (hnd : ¬ Past post s1) :
    Bounded.expr (to32 s) = .ok () (to32 s1) ∧ Upto post s1 := by
  have K := past_keep post
  unfold expr at h
  unfold Bounded.expr
  simp only [to32_token]
  by_cases hv : s.token = ['+'] ∨ s.token = ['*']
  · rw [if_pos hv] at h
    rw [if_pos hv]
    cases hg : get_token s with
    | halt x => simp [hg] at h
    | ok u s2 =>
      simp only [hg] at h
      have d2 : ¬ Past post s2 := fun d => hnd (expr_loop_inv K _ _ _ _ h d)
      obtain ⟨e, hu2⟩ := get_token_fit hg hu d2
      simp only [e]
      exact expr_loop_fit 2 _ _ h hu2 hnd
  · rw [if_neg hv] at h
    rw [if_neg hv]
    cases hn : no_operand s with
    | halt x => simp [hn] at h
    | ok b s2 =>
      cases b with
      | true => simp [hn] at h
      | false =>
        simp only [hn, Res.ok.injEq, true_and] at h
        subst h
        obtain ⟨e, hu2⟩ := no_operand_fit hn hu hnd
        simp only [e]
        exact ⟨trivial, hu2⟩

theorem testexpr_fit {post : List (List Char)} {s s1 : State} {b : Bool}
    (h : testexpr s = .ok b s1) (hu : Upto post s) (hnd : ¬ Past post s1) :
    Bounded.testexpr (to32 s) = .ok b (to32 s1) ∧ Upto post s1 := by
  have K := past_keep post
  unfold testexpr at h
  unfold Bounded.testexpr
  cases hv : variable_ s with
  | halt x => simp [hv] at h
  | ok bv s2 =>
    cases bv with
    | false =>
      simp only [hv, Res.ok.injEq] at h
      obtain ⟨rfl, rfl⟩ := h
      obtain ⟨e, hu2⟩ := variable_fit hv hu hnd
      simp only [e]
      exact ⟨trivial, hu2⟩
    | true =>
      simp only [hv] at h
      by_cases ht : s2.token = ['<', '=']
      · rw [if_pos ht] at h
        cases hg : get_token s2 with
        | halt x => simp [hg] at h
        | ok u s3 =>
          simp only [hg] at h
          cases hx : expr s3 with
          | halt x => simp [hx] at h
          | ok u2 s4 =>
            simp only [hx, Res.ok.injEq] at h
            obtain ⟨rfl, rfl⟩ := h
            have d3 : ¬ Past post s3 := fun d => hnd (expr_inv K _ _ _ hx d)
            have d2 : ¬ Past post s2 := fun d => d3 (K.step _ _ d hg)
            obtain ⟨e, hu2⟩ := variable_fit hv hu d2
            obtain ⟨e2, hu3⟩ := get_token_fit hg hu2 d3
            obtain ⟨e3, hu4⟩ := expr_fit hx hu3 hnd
            simp only [e, to32_token]
            rw [if_pos ht]
            simp only [e2, e3]
            exact ⟨trivial, hu4⟩
      · rw [if_neg ht] at h
        simp only [Res.ok.injEq] at h
        obtain ⟨rfl, rfl⟩ := h
        obtain ⟨e, hu2⟩ := variable_fit hv hu hnd
        simp only [e, to32_token]
        rw [if_neg ht]
        exact ⟨rfl, hu2⟩

theorem assign_fit {post : List (List Char)} {s s1 : State} {b : Bool}
    (h : assign s = .ok b s1) (hu : Upto post s) (hnd : ¬ Past post s1) :
    Bounded.assign (to32 s) = .ok b (to32 s1) ∧ Upto post s1 := by
  have K := past_keep post
  unfold assign at h
  unfold Bounded.assign
  cases hv : variable_ s with
  | halt x => simp [hv] at h
  | ok bv s2 =>
    cases bv with
    | false =>
      simp only [hv, Res.ok.injEq] at h
      obtain ⟨rfl, rfl⟩ := h
      obtain ⟨e, hu2⟩ := variable_fit hv hu hnd
      simp only [e]
      exact ⟨trivial, hu2⟩
    | true =>
      simp only [hv] at h
      by_cases ht : s2.token = ['=']
      · rw [if_pos ht] at h
        cases hg : get_token s2 with
        | halt x => simp [hg] at h
        | ok u s3 =>
          simp only [hg] at h
          cases hx : expr s3 with
          | halt x => simp [hx] at h
          | ok u2 s4 =>
            simp only [hx, Res.ok.injEq] at h
            obtain ⟨rfl, rfl⟩ := h
            have d4 : ¬ Past post s4 := fun d => hnd d
            have d3 : ¬ Past post s3 := fun d => d4 (expr_inv K _ _ _ hx d)
            have d2 : ¬ Past post s2 := fun d => d3 (K.step _ _ d hg)
            obtain ⟨e, hu2⟩ := variable_fit hv hu d2
            obtain ⟨e2, hu3⟩ := get_token_fit hg hu2 d3
            obtain ⟨e3, hu4⟩ := expr_fit hx hu3 d4
            simp only [e, to32_token]
            rw [if_pos ht]
            simp only [e2, e3]
            rw [to32_incr_assign_count]
            exact ⟨rfl, hu4⟩
      · rw [if_neg ht] at h
        simp only [Res.ok.injEq] at h
        obtain ⟨rfl, rfl⟩ := h
        obtain ⟨e, hu2⟩ := variable_fit hv hu hnd
        simp only [e, to32_token]
        rw [if_neg ht]
        exact ⟨rfl, hu2⟩

theorem fit_step {post : List (List Char)} (n : Nat) :
    (∀ s b s1, block n s = .ok b s1 → Upto post s → ¬ Past post s1 →
      Bounded.block n (to32 s) = .ok b (to32 s1) ∧ Upto post s1) ∧
    (∀ s u s1, stmtlist n s = .ok u s1 → Upto post s → ¬ Past post s1 →
      Bounded.stmtlist n (to32 s) = .ok u (to32 s1) ∧ Upto post s1) ∧
    (∀ s b s1, morestmts n s = .ok b s1 → Upto post s → ¬ Past post s1 →
      Bounded.morestmts n (to32 s) = .ok b (to32 s1) ∧ Upto post s1) ∧
    (∀ s b s1, stmt n s = .ok b s1 → Upto post s → ¬ Past post s1 →
      Bounded.stmt n (to32 s) = .ok b (to32 s1) ∧ Upto post s1) ∧
    (∀ s b s1, ifstmt n s = .ok b s1 → Upto post s → ¬ Past post s1 →
      Bounded.ifstmt n (to32 s) = .ok b (to32 s1) ∧ Upto post s1) ∧
    (∀ s b s1, whilestmt n s = .ok b s1 → Upto post s → ¬ Past post s1 →
      Bounded.whilestmt n (to32 s) = .ok b (to32 s1) ∧ Upto post s1) := by
  have K := past_keep post
  induction n with
  | zero => simp [block, stmtlist, morestmts, stmt, ifstmt, whilestmt]
  | succ n ih =>
    obtain ⟨hb, hsl, hm, hs, hi, hw⟩ := ih
    obtain ⟨kb, ksl, ks, ki, kw⟩ := grammar_inv K n
    refine ⟨?_, ?_, ?_, ?_, ?_, ?_⟩
    · intro s b sf h hu hnd
      rw [block.eq_2 s n] at h
      rw [Bounded.block.eq_2 (to32 s) n]
      simp only [to32_token]
      by_cases h0 : s.token ≠ ['b', 'e', 'g', 'i', 'n']
      · rw [if_pos h0] at h
        simp at h
      · rw [if_neg h0] at h
        rw [if_neg h0]
        cases hg : get_token s with
        | halt x => simp [hg] at h
        | ok u s1 =>
          simp only [hg] at h
          cases hl : stmtlist n s1 with
          | halt x => simp [hl] at h
          | ok u2 s2 =>
            simp only [hl] at h
            by_cases h1 : s2.token ≠ ['e', 'n', 'd'] ∧ s2.token ≠ ['e', 'n', 'd', '.']
            · rw [if_pos h1] at h
              simp at h
            · rw [if_neg h1] at h
              by_cases h2 : s2.token = ['e', 'n', 'd']
              · rw [if_pos h2] at h
                cases hg2 : get_token s2 with
                | halt x => simp [hg2] at h
                | ok u3 s3 =>
                  simp only [hg2, Res.ok.injEq] at h
                  obtain ⟨rfl, rfl⟩ := h
                  have d2 : ¬ Past post s2 := fun d => hnd (K.step _ _ d hg2)
                  have d1 : ¬ Past post s1 := fun d => d2 (ksl _ _ _ hl d)
                  obtain ⟨e1, hu1⟩ := get_token_fit hg hu d1
                  obtain ⟨e2, hu2⟩ := hsl _ _ _ hl hu1 d2
                  obtain ⟨e3, hu3⟩ := get_token_fit hg2 hu2 hnd
                  simp only [e1, e2, to32_token]
                  rw [if_neg h1, if_pos h2]
                  simp only [e3]
                  exact ⟨trivial, hu3⟩
              · rw [if_neg h2] at h
                simp only [Res.ok.injEq] at h
                obtain ⟨rfl, rfl⟩ := h
                have d1 : ¬ Past post s1 := fun d => hnd (ksl _ _ _ hl d)
                obtain ⟨e1, hu1⟩ := get_token_fit hg hu d1
                obtain ⟨e2, hu2⟩ := hsl _ _ _ hl hu1 hnd
                simp only [e1, e2, to32_token]
                rw [if_neg h1, if_neg h2]
                exact ⟨rfl, hu2⟩
    · intro s u sf h hu hnd
      rw [stmtlist.eq_2 s n] at h
      rw [Bounded.stmtlist.eq_2 (to32 s) n]
      cases hst : stmt n s with
      | halt x => simp [hst] at h
      | ok b1 s1 =>
        cases b1 with
        | false => simp [hst] at h
        | true =>
          simp only [hst] at h
          cases hmo : morestmts n s1 with
          | halt x => simp [hmo] at h
          | ok b2 s2 =>
            cases b2 with
            | false => simp [hmo] at h
            | true =>
              simp only [hmo, Res.ok.injEq, true_and] at h
              subst h
              have d1 : ¬ Past post s1 := fun d => hnd (morestmts_inv K _ _ _ _ hmo d)
              obtain ⟨e1, hu1⟩ := hs _ _ _ hst hu d1
              obtain ⟨e2, hu2⟩ := hm _ _ _ hmo hu1 hnd
              simp only [e1, e2]
              exact ⟨trivial, hu2⟩
    · intro s b sf h hu hnd
      rw [morestmts.eq_2 s n] at h
      rw [Bounded.morestmts.eq_2 (to32 s) n]
      simp only [to32_token]
      by_cases h0 : s.token = ['e', 'n', 'd'] ∨ s.token = ['e', 'n', 'd', '.']
      · rw [if_pos h0] at h
        rw [if_pos h0]
        simp only [Res.ok.injEq] at h
        obtain ⟨rfl, rfl⟩ := h
        exact ⟨rfl, hu⟩
      · rw [if_neg h0] at h
        rw [if_neg h0]
        by_cases h1 : s.token = [';']
        · rw [if_pos h1] at h
          rw [if_pos h1]
          cases hg : get_token s with
          | halt x => simp [hg] at h
          | ok u s1 =>
            simp only [hg] at h
            cases hl : stmtlist n s1 with
            | halt x => simp [hl] at h
            | ok u2 s2 =>
              simp only [hl, Res.ok.injEq] at h
              obtain ⟨rfl, rfl⟩ := h
              have d1 : ¬ Past post s1 := fun d => hnd (ksl _ _ _ hl d)
              obtain ⟨e1, hu1⟩ := get_token_fit hg hu d1
              obtain ⟨e2, hu2⟩ := hsl _ _ _ hl hu1 hnd
              simp only [e1, e2]
              exact ⟨trivial, hu2⟩
        · rw [if_neg h1] at h
          simp at h
    · intro s b sf h hu hnd
      rw [stmt.eq_2 s n] at h
      rw [Bounded.stmt.eq_2 (to32 s) n]
      cases ha : assign s with
      | halt x => simp [ha] at h
      | ok b1 s1 =>
        cases b1 with
        | true =>
          simp only [ha, Res.ok.injEq] at h
          obtain ⟨rfl, rfl⟩ := h
          obtain ⟨e1, hu1⟩ := assign_fit ha hu hnd
          simp only [e1]
          exact ⟨trivial, hu1⟩
        | false =>
          simp only [ha] at h
          cases hif : ifstmt n s1 with
          | halt x => simp [hif] at h
          | ok b2 s2 =>
            cases b2 with
            | true =>
              simp only [hif, Res.ok.injEq] at h
              obtain ⟨rfl, rfl⟩ := h
              have d1 : ¬ Past post s1 := fun d => hnd (ki _ _ _ hif d)
              obtain ⟨e1, hu1⟩ := assign_fit ha hu d1
              obtain ⟨e2, hu2⟩ := hi _ _ _ hif hu1 hnd
              simp only [e1, e2]
              exact ⟨trivial, hu2⟩
            | false =>
              simp only [hif] at h
              cases hwh : whilestmt n s2 with
              | halt x => simp [hwh] at h
              | ok b3 s3 =>
                cases b3 with
                | true =>
                  simp only [hwh, Res.ok.injEq] at h
                  obtain ⟨rfl, rfl⟩ := h
                  have d2 : ¬ Past post s2 := fun d => hnd (kw _ _ _ hwh d)
                  have d1 : ¬ Past post s1 := fun d => d2 (ki _ _ _ hif d)
                  obtain ⟨e1, hu1⟩ := assign_fit ha hu d1
                  obtain ⟨e2, hu2⟩ := hi _ _ _ hif hu1 d2
                  obtain ⟨e3, hu3⟩ := hw _ _ _ hwh hu2 hnd
                  simp only [e1, e2, e3]
                  exact ⟨trivial, hu3⟩
                | false =>
                  simp only [hwh] at h
                  cases hbl : block n s3 with
                  | halt x => simp [hbl] at h
                  | ok b4 s4 =>
                    cases b4 with
                    | false => simp [hbl] at h
                    | true =>
                      simp only [hbl, Res.ok.injEq] at h
                      obtain ⟨rfl, rfl⟩ := h
                      have d3 : ¬ Past post s3 := fun d => hnd (kb _ _ _ hbl d)
                      have d2 : ¬ Past post s2 := fun d => d3 (kw _ _ _ hwh d)
                      have d1 : ¬ Past post s1 := fun d => d2 (ki _ _ _ hif d)
                      obtain ⟨e1, hu1⟩ := assign_fit ha hu d1
                      obtain ⟨e2, hu2⟩ := hi _ _ _ hif hu1 d2
                      obtain ⟨e3, hu3⟩ := hw _ _ _ hwh hu2 d3
                      obtain ⟨e4, hu4⟩ := hb _ _ _ hbl hu3 hnd
                      simp only [e1, e2, e3, e4]
                      exact ⟨trivial, hu4⟩
    · intro s b sf h hu hnd
      rw [ifstmt.eq_2 s n] at h
      rw [Bounded.ifstmt.eq_2 (to32 s) n]
      simp only [to32_token]
      by_cases h0 : s.token = ['i', 'f']
      · rw [if_pos h0] at h
        rw [if_pos h0]
        cases hg : get_token s with
        | halt x => simp [hg] at h
        | ok u s1 =>
          simp only [hg] at h
          cases hte : testexpr s1 with
          | halt x => simp [hte] at h
          | ok bt s2 =>
            cases bt with
            | false => simp [hte] at h
            | true =>
              simp only [hte] at h
              by_cases h1 : s2.token ≠ ['t', 'h', 'e', 'n']
              · rw [if_pos h1] at h
                simp at h
              · rw [if_neg h1] at h
                cases hg2 : get_token s2 with
                | halt x => simp [hg2] at h
                | ok u2 s3 =>
                  simp only [hg2] at h
                  cases hst : stmt n s3 with
                  | halt x => simp [hst] at h
                  | ok b4 s4 =>
                    simp only [hst] at h
                    by_cases h2 : s4.token ≠ ['e', 'l', 's', 'e']
                    · rw [if_pos h2] at h
                      simp at h
                    · rw [if_neg h2] at h
                      cases hg3 : get_token s4 with
                      | halt x => simp [hg3] at h
                      | ok u3 s5 =>
                        simp only [hg3] at h
                        cases hst2 : stmt n s5 with
                        | halt x => simp [hst2] at h
                        | ok b6 s6 =>
                          simp only [hst2, Res.ok.injEq] at h
                          obtain ⟨rfl, rfl⟩ := h
                          have d5 : ¬ Past post s5 := fun d => hnd (ks _ _ _ hst2 d)
                          have d4 : ¬ Past post s4 := fun d => d5 (K.step _ _ d hg3)
                          have d3 : ¬ Past post s3 := fun d => d4 (ks _ _ _ hst d)
                          have d2 : ¬ Past post s2 := fun d => d3 (K.step _ _ d hg2)
                          have d1 : ¬ Past post s1 := fun d => d2 (testexpr_inv K _ _ hte d)
                          obtain ⟨e1, hu1⟩ := get_token_fit hg hu d1
                          obtain ⟨e2, hu2⟩ := testexpr_fit hte hu1 d2
                          obtain ⟨e3, hu3⟩ := get_token_fit hg2 hu2 d3
                          obtain ⟨e4, hu4⟩ := hs _ _ _ hst hu3 d4
                          obtain ⟨e5, hu5⟩ := get_token_fit hg3 hu4 d5
                          obtain ⟨e6, hu6⟩ := hs _ _ _ hst2 hu5 hnd
                          simp only [e1, e2, to32_token]
                          rw [if_neg h1]
                          simp only [e3, e4, to32_token]
                          rw [if_neg h2]
                          simp only [e5, e6]
                          exact ⟨trivial, hu6⟩
      · rw [if_neg h0] at h
        rw [if_neg h0]
        simp only [Res.ok.injEq] at h
        obtain ⟨rfl, rfl⟩ := h
        exact ⟨rfl, hu⟩
    · intro s b sf h hu hnd
      rw [whilestmt.eq_2 s n] at h
      rw [Bounded.whilestmt.eq_2 (to32 s) n]
      simp only [to32_token]
      by_cases h0 : s.token = ['w', 'h', 'i', 'l', 'e']
      · rw [if_pos h0] at h
        rw [if_pos h0]
        cases hg : get_token s with
        | halt x => simp [hg] at h
        | ok u s1 =>
          simp only [hg] at h
          cases hte : testexpr s1 with
          | halt x => simp [hte] at h
          | ok bt s2 =>
            cases bt with
            | false => simp [hte] at h
            | true =>
              simp only [hte] at h
              by_cases h1 : s2.token ≠ ['d', 'o']
              · rw [if_pos h1] at h
                simp at h
              · rw [if_neg h1] at h
                cases hg2 : get_token s2 with
                | halt x => simp [hg2] at h
                | ok u2 s3 =>
                  simp only [hg2] at h
                  cases hst : stmt n s3 with
                  | halt x => simp [hst] at h
                  | ok b4 s4 =>
                    simp only [hst, Res.ok.injEq] at h
                    obtain ⟨rfl, rfl⟩ := h
                    have d3 : ¬ Past post s3 := fun d => hnd (ks _ _ _ hst d)
                    have d2 : ¬ Past post s2 := fun d => d3 (K.step _ _ d hg2)
                    have d1 : ¬ Past post s1 := fun d => d2 (testexpr_inv K _ _ hte d)
                    obtain ⟨e1, hu1⟩ := get_token_fit hg hu d1
                    obtain ⟨e2, hu2⟩ := testexpr_fit hte hu1 d2
                    obtain ⟨e3, hu3⟩ := get_token_fit hg2 hu2 d3
                    obtain ⟨e4, hu4⟩ := hs _ _ _ hst hu3 hnd
                    simp only [e1, e2, to32_token]
                    rw [if_neg h1]
                    simp only [e3, e4]
                    exact ⟨trivial, hu4⟩
      · rw [if_neg h0] at h
        rw [if_neg h0]
        simp only [Res.ok.injEq] at h
        obtain ⟨rfl, rfl⟩ := h
        exact ⟨rfl, hu⟩

theorem program_fit {post : List (List Char)} {s sf : State} (n : Nat)
    (h : program n s = .ok () sf) (hu : Upto post s) (hnd : ¬ Past post sf) :
    Bounded.program n (to32 s) = .ok () (to32 sf) ∧ Upto post sf := by
  have K := past_keep post
  unfold program at h
  unfold Bounded.program
  cases hg : get_token s with
  | halt x => simp [hg] at h
  | ok u1 s1 =>
    simp only [hg] at h
    by_cases h0 : s1.token ≠ ['p', 'r', 'o', 'g', 'r', 'a', 'm']
    · rw [if_pos h0] at h
      simp at h
    · rw [if_neg h0] at h
      cases hg2 : get_token s1 with
      | halt x => simp [hg2] at h
      | ok u2 s2 =>
        simp only [hg2] at h
        cases hb : block n s2 with
        | halt x => simp [hb] at h
        | ok b s3 =>
          simp only [hb] at h
          by_cases h1 : s3.token ≠ ['.'] ∧ s3.token ≠ ['e', 'n', 'd', '.']
          · rw [if_pos h1] at h
            simp at h
          · rw [if_neg h1] at h
            simp only [Res.ok.injEq, true_and] at h
            subst h
            have d2 : ¬ Past post s2 := fun d => hnd ((grammar_inv K n).1 _ _ _ hb d)
            have d1 : ¬ Past post s1 := fun d => d2 (K.step _ _ d hg2)
            obtain ⟨e1, hu1⟩ := get_token_fit hg hu d1
            obtain ⟨e2, hu2⟩ := get_token_fit hg2 hu1 d2
            obtain ⟨e3, hu3⟩ := (fit_step n).1 _ _ _ hb hu2 hnd
            simp only [e1, to32_token]
            rw [if_neg h0]
            simp only [e2, e3, to32_token]
            rw [if_neg h1]
            exact ⟨rfl, hu3⟩

/-- When the unbounded run returns and every line before the unread lines fits the buffer,
the bounded run returns the same state with the counters cut to 32 bits. -/
theorem main_fit (input : List (List Char)) (sf : State) (h : main input = .ok () sf)
    (hu : Upto sf.stdin (init input)) : Bounded.main input = .ok () (to32 sf) := by
  unfold main main_fuel at h
  unfold Bounded.main Bounded.main_fuel
  have K := past_keep sf.stdin
  have hnd : ¬ Past sf.stdin sf := Nat.lt_irrefl _
  cases hb : get_buffer (init input) with
  | halt x => simp [hb] at h
  | ok u s0 =>
    simp only [hb] at h
    have d0 : ¬ Past sf.stdin s0 := fun d => hnd (program_inv K _ _ _ _ h d)
    obtain ⟨e0, hu0⟩ := bounded_get_buffer_fit hb hu d0
    rw [to32_init] at e0
    simp only [e0]
    exact (program_fit _ h hu0 hnd).1

/-! ## The lexer of the machine -/

theorem bounded_get_buffer_cases (s : State) :
    Bounded.get_buffer s = get_buffer s ∨ Bounded.get_buffer s = .halt .exhausted := by
  rw [bounded_get_buffer_eq]
  cases get_buffer s with
  | halt h => exact Or.inl rfl
  | ok u s1 =>
    simp only
    split
    · exact Or.inr rfl
    · exact Or.inl rfl

theorem bounded_get_token_cases (s : State) :
    Bounded.get_token s = get_token s ∨ Bounded.get_token s = .halt .exhausted := by
  rw [bounded_get_token_eq, get_token_eq]
  split
  · rcases bounded_get_buffer_cases (remove_whitespace s) with e | e
    · rw [e]
      exact Or.inl rfl
    · rw [e]
      exact Or.inr rfl
  · exact Or.inl rfl

theorem bounded_get_token_ok (s s1 : State) (u : Unit) (h : Bounded.get_token s = .ok u s1) :
    get_token s = .ok u s1 := by
  rcases bounded_get_token_cases s with e | e
  · rw [← e]
    exact h
  · rw [e] at h
    simp at h

theorem bounded_get_token_frame (s s1 : State) (u : Unit)
    (h : Bounded.get_token s = .ok u s1) :
    s1.var_ref = s.var_ref ∧ s1.assign_count = s.assign_count :=
  get_token_frame _ _ _ (bounded_get_token_ok _ _ _ h)

theorem bounded_get_token_no_exit (s : State) (c : Nat) :
    Bounded.get_token s ≠ .halt (.exit c) := by
  rcases bounded_get_token_cases s with e | e
  · rw [e]
    exact get_token_no_exit s c
  · rw [e]
    simp

theorem bounded_get_buffer_with_var (s : State) (v : Nat) :
    Bounded.get_buffer { s with var_ref := v } =
      match Bounded.get_buffer s with
      | .ok u s1 => .ok u { s1 with var_ref := v }
      | .halt h => .halt h := by
  unfold Bounded.get_buffer
  simp only
  cases s.stdin with
  | nil => rfl
  | cons l ls =>
    simp only
    cases get_buffer_loop l ls with
    | none => rfl
    | some p =>
      simp only
      split <;> rfl

theorem bounded_get_token_with_var (s : State) (v : Nat) :
    Bounded.get_token { s with var_ref := v } =
      match Bounded.get_token s with
      | .ok u s1 => .ok u { s1 with var_ref := v }
      | .halt h => .halt h := by
  rw [bounded_get_token_eq, bounded_get_token_eq]
  have e1 : remove_whitespace { s with var_ref := v }
      = { remove_whitespace s with var_ref := v } := rfl
  rw [e1]
  simp only
  split
  · rw [bounded_get_buffer_with_var]
    cases Bounded.get_buffer (remove_whitespace s) with
    | halt h => rfl
    | ok u s2 => rfl
  · rfl

theorem bounded_get_buffer_of_fits (s : State) (hf : Fits s) :
    Bounded.get_buffer s = get_buffer s := by
  rw [bounded_get_buffer_eq]
  cases hg : get_buffer s with
  | halt h => rfl
  | ok u s1 =>
    simp only
    rw [if_neg]
    obtain ⟨mid, hm, -⟩ := get_buffer_blank _ _ _ hg
    have := hf s1.buffer (by rw [hm]; simp)
    unfold fits at this
    omega

theorem bounded_get_token_of_fits (s : State) (hf : Fits s) :
    Bounded.get_token s = get_token s := by
  rw [bounded_get_token_eq, get_token_eq,
    bounded_get_buffer_of_fits (remove_whitespace s) hf]

theorem get_token_fits (s s1 : State) (u : Unit) (h : get_token s = .ok u s1)
    (hf : Fits s) : Fits s1 := by
  rcases get_token_cases _ _ _ h with ⟨-, rfl⟩ | ⟨-, s2, hb, rfl⟩
  · exact hf
  · obtain ⟨mid, hm⟩ := get_buffer_split _ _ _ hb
    intro l hl
    apply hf l
    simp only [remove_whitespace_stdin] at hm
    rw [hm]
    simp only [get_token_copy_stdin] at hl
    simp [hl]

theorem bounded_read_tokens_of_fits (n : Nat) :
    ∀ s, Fits s → Bounded.read_tokens n s = read_tokens n s := by
  induction n with
  | zero => intro s _; rfl
  | succ n ih =>
    intro s hf
    simp only [Bounded.read_tokens, read_tokens, bounded_get_token_of_fits s hf]
    cases hg : get_token s with
    | halt h => rfl
    | ok u s1 =>
      simp only
      rw [ih s1 (get_token_fits _ _ _ hg hf)]

theorem bounded_get_buffer_long (s : State) (l : List Char) (rest : List (List Char))
    (hs : s.stdin = l :: rest) (hne : l ≠ []) (hl : SIZE ≤ l.length + 1) :
    Bounded.get_buffer s = .halt .exhausted := by
  unfold Bounded.get_buffer
  rw [hs]
  cases l with
  | nil => exact absurd rfl hne
  | cons c cs =>
    simp only [get_buffer_loop]
    rw [if_pos hl]

theorem bounded_main_long (l : List Char) (rest : List (List Char)) (hne : l ≠ [])
    (hl : SIZE ≤ l.length + 1) : Bounded.main (l :: rest) = .halt .exhausted := by
  unfold Bounded.main Bounded.main_fuel
  rw [bounded_get_buffer_long (init (l :: rest)) l rest rfl hne hl]

theorem after_of_length (ts : List (List Char)) :
    (after_of ts).length = (ts.map (fun t => t.length + 1)).sum := by
  induction ts with
  | nil => rfl
  | cons t ts ih =>
    simp only [after_of, List.length_cons, List.length_append, List.map_cons, List.sum_cons, ih]
    omega

theorem incr_by_eq (k : Nat) : ∀ x, x < 4294967296 →
    incr_by k x = (x + k) % 4294967296 := by
  induction k with
  | zero =>
    intro x hx
    simp only [incr_by, Nat.add_zero]
    exact (Nat.mod_eq_of_lt hx).symm
  | succ k ih =>
    intro x hx
    simp only [incr_by]
    rw [ih (incr x) (by unfold incr; exact Nat.mod_lt _ (by decide))]
    unfold incr
    omega

theorem as_int_incr (x : Nat) (hx : x < 4294967296) :
    as_int (incr x) = if as_int x = 2147483647 then -2147483648 else as_int x + 1 := by
  unfold as_int incr
  split_ifs <;> omega

theorem as_int_mod (k : Nat) (h : k < 2147483648) : as_int (k % 4294967296) = k := by
  unfold as_int
  rw [Nat.mod_eq_of_lt (by omega), if_pos h]

theorem as_int_incr_by (k x : Nat) (hx : x < 4294967296)
    (h : as_int x + k ≤ 2147483647) : as_int (incr_by k x) = as_int x + k := by
  rw [incr_by_eq k x hx]
  unfold as_int at h ⊢
  split_ifs at h ⊢ <;> omega

/-! ## The operand procedures of the machine -/

theorem incr_by_add (a b : Nat) : ∀ x, incr_by (a + b) x = incr_by b (incr_by a x) := by
  induction a with
  | zero => intro x; simp [incr_by]
  | succ a ih =>
    intro x
    rw [Nat.add_right_comm]
    simp only [incr_by]
    exact ih (incr x)

theorem incr_by_one (x : Nat) : incr_by 1 x = incr x := rfl

theorem bounded_variable_eq (s : State) :
    Bounded.variable_ s = if is_variable s.token then
        (match Bounded.get_token s with
          | .halt h => .halt h
          | .ok _ s1 => .ok true { s1 with var_ref := incr s.var_ref })
      else .ok false s := by
  unfold Bounded.variable_ is_variable
  split
  · cases hg : Bounded.get_token s with
    | halt h0 => rfl
    | ok u s1 =>
      have := (bounded_get_token_frame _ _ _ hg).1
      simp only [this]
  · rfl

theorem bounded_digit_eq (s : State) :
    Bounded.digit s = if is_digit s.token then
        (match Bounded.get_token s with
          | .halt h => .halt h
          | .ok _ s1 => .ok true s1)
      else .ok false s := by
  unfold Bounded.digit is_digit
  rfl

theorem bounded_no_operand_eq (s : State) :
    Bounded.no_operand s = if is_operand s.token then
        (match Bounded.get_token s with
          | .halt h => .halt h
          | .ok _ s1 =>
            .ok false { s1 with var_ref := incr_by (count_vars [s.token]) s.var_ref })
      else .ok true s := by
  unfold Bounded.no_operand
  rw [bounded_variable_eq]
  by_cases hv : is_variable s.token
  · rw [if_pos hv, if_pos (show is_operand s.token from Or.inl hv), count_vars_var _ hv]
    cases hg : Bounded.get_token s with
    | halt h0 => rfl
    | ok u s1 => rfl
  · rw [if_neg hv]
    simp only
    rw [bounded_digit_eq, count_vars_not _ hv]
    by_cases hd : is_digit s.token
    · rw [if_pos hd, if_pos (show is_operand s.token from Or.inr hd)]
      cases hg : Bounded.get_token s with
      | halt h0 => rfl
      | ok u s1 =>
        have := (bounded_get_token_frame _ _ _ hg).1
        simp only [incr_by]
        rw [state_var_ref_self s1 _ this]
    · rw [if_neg hd, if_neg (show ¬ is_operand s.token from fun h => h.elim hv hd)]

theorem bounded_expr_operator_eq (s s1 : State) (hop : is_operator s.token)
    (hg : Bounded.get_token s = .ok () s1) :
    Bounded.expr s = if is_operand s1.token then
        (match Bounded.get_token s1 with
          | .halt h => .halt h
          | .ok _ s2 =>
            if is_operand s2.token then
              (match Bounded.get_token s2 with
                | .halt h => .halt h
                | .ok _ s3 => .ok ()
                  { s3 with var_ref := incr_by (count_vars [s1.token, s2.token]) s.var_ref })
            else .halt (.exit 109))
      else .halt (.exit 109) := by
  have hv1 := (bounded_get_token_frame _ _ _ hg).1
  unfold Bounded.expr
  rw [if_pos (show s.token = ['+'] ∨ s.token = ['*'] from hop), hg]
  simp only [Bounded.expr_loop]
  rw [bounded_no_operand_eq]
  by_cases h1 : is_operand s1.token
  · rw [if_pos h1, if_pos h1]
    cases hg1 : Bounded.get_token s1 with
    | halt h0 => rfl
    | ok u2 s2 =>
      simp only
      rw [bounded_no_operand_eq]
      by_cases h2 : is_operand s2.token
      · rw [if_pos h2, if_pos h2, bounded_get_token_with_var]
        cases hg2 : Bounded.get_token s2 with
        | halt h0 => rfl
        | ok u3 s3 =>
          simp only [hv1, count_vars_cons s1.token [s2.token], incr_by_add]
      · rw [if_neg h2, if_neg h2]
        rfl
  · rw [if_neg h1, if_neg h1]
    rfl

theorem bounded_no_operand_no_exit (s : State) (c : Nat) :
    Bounded.no_operand s ≠ .halt (.exit c) := by
  rw [bounded_no_operand_eq]
  split
  · have := bounded_get_token_no_exit s c
    cases hg : Bounded.get_token s with
    | halt h0 =>
      intro h
      simp only [Res.halt.injEq] at h
      exact this (by rw [hg, h])
    | ok u s2 => simp
  · simp

theorem bounded_expr_loop_exit (k : Nat) (s : State) (c : Nat)
    (h : Bounded.expr_loop k s = .halt (.exit c)) : c = 109 := by
  induction k generalizing s with
  | zero => simp [Bounded.expr_loop] at h
  | succ k ih =>
    simp only [Bounded.expr_loop] at h
    have hn := bounded_no_operand_no_exit s c
    cases hns : Bounded.no_operand s with
    | halt h0 =>
      simp only [hns, Res.halt.injEq] at h
      exact absurd (by rw [hns, h]) hn
    | ok b s1 =>
      cases b with
      | true =>
        simp only [hns, Res.halt.injEq, Halt.exit.injEq, EXPR_ERROR] at h
        exact h.symm
      | false =>
        simp only [hns] at h
        exact ih s1 h

theorem bounded_expr_exit (s : State) (c : Nat) (h : Bounded.expr s = .halt (.exit c)) :
    c = 109 := by
  unfold Bounded.expr at h
  split at h
  · have hg := bounded_get_token_no_exit s c
    cases hgs : Bounded.get_token s with
    | halt h0 =>
      simp only [hgs, Res.halt.injEq] at h
      exact absurd (by rw [hgs, h]) hg
    | ok u s1 =>
      simp only [hgs] at h
      exact bounded_expr_loop_exit 2 s1 c h
  · have hn := bounded_no_operand_no_exit s c
    cases hns : Bounded.no_operand s with
    | halt h0 =>
      simp only [hns, Res.halt.injEq] at h
      exact absurd (by rw [hns, h]) hn
    | ok b s1 =>
      cases b with
      | true =>
        simp only [hns, Res.halt.injEq, Halt.exit.injEq, EXPR_ERROR] at h
        exact h.symm
      | false => simp [hns] at h

theorem bounded_expr_iff (s sf : State) :
    Bounded.expr s = .ok () sf ↔ Bounded.expr_one s sf ∨ Bounded.expr_three s sf := by
  constructor
  · intro h
    by_cases hop : is_operator s.token
    · right
      cases hg : Bounded.get_token s with
      | halt h0 =>
        unfold Bounded.expr at h
        rw [if_pos (show s.token = ['+'] ∨ s.token = ['*'] from hop), hg] at h
        simp at h
      | ok u s1 =>
        rw [bounded_expr_operator_eq s s1 hop hg] at h
        by_cases h1 : is_operand s1.token
        · rw [if_pos h1] at h
          cases hg1 : Bounded.get_token s1 with
          | halt h0 => simp [hg1] at h
          | ok u2 s2 =>
            simp only [hg1] at h
            by_cases h2 : is_operand s2.token
            · rw [if_pos h2] at h
              cases hg2 : Bounded.get_token s2 with
              | halt h0 => simp [hg2] at h
              | ok u3 s3 =>
                simp only [hg2, Res.ok.injEq, true_and] at h
                exact ⟨hop, s1, s2, s3, hg, h1, hg1, h2, hg2, h.symm⟩
            · rw [if_neg h2] at h
              simp at h
        · rw [if_neg h1] at h
          simp at h
    · left
      unfold Bounded.expr at h
      rw [if_neg (show ¬ (s.token = ['+'] ∨ s.token = ['*']) from hop),
        bounded_no_operand_eq] at h
      by_cases h1 : is_operand s.token
      · rw [if_pos h1] at h
        cases hg : Bounded.get_token s with
        | halt h0 => simp [hg] at h
        | ok u s1 =>
          simp only [hg, Res.ok.injEq, true_and] at h
          exact ⟨h1, s1, hg, h.symm⟩
      · rw [if_neg h1] at h
        simp at h
  · rintro (⟨h1, sN, hg, rfl⟩ | ⟨hop, s1, s2, s3, hg, h1, hg1, h2, hg2, rfl⟩)
    · unfold Bounded.expr
      rw [if_neg (show ¬ (s.token = ['+'] ∨ s.token = ['*']) from
        not_operator_of_operand _ h1), bounded_no_operand_eq, if_pos h1, hg]
    · rw [bounded_expr_operator_eq s s1 hop hg, if_pos h1, hg1]
      simp only [if_pos h2, hg2]

theorem bounded_expr_assign_count (s sf : State) (h : Bounded.expr s = .ok () sf) :
    sf.assign_count = s.assign_count := by
  rcases (bounded_expr_iff s sf).1 h with ⟨-, sN, hg, rfl⟩ |
    ⟨-, s1, s2, s3, hg, -, hg1, -, hg2, rfl⟩
  · exact (bounded_get_token_frame _ _ _ hg).2
  · have a1 := (bounded_get_token_frame _ _ _ hg).2
    have a2 := (bounded_get_token_frame _ _ _ hg1).2
    have a3 := (bounded_get_token_frame _ _ _ hg2).2
    show s3.assign_count = s.assign_count
    omega

/-! ## The counters of the machine -/

/-- Counterexample to claim C6: with `var_ref` at `INT_MAX` and the operand `a` at the
cursor, `expr` returns with the counter at `INT_MIN`: it has not grown by the one variable
operand. -/
theorem expr_at_int_max :
    Bounded.expr (on_line "a end." 1 "a" 2147483647 0)
      = .ok () (on_line "a end." 6 "end." 2147483648 0) ∧
    as_int 2147483647 = 2147483647 ∧ as_int 2147483648 = -2147483648 := by
  decide

/-- Claim C6 as amended (`expr` is flat and two-operand, the counter is an `int`): `expr`
returns exactly when the current token is an operand (one token consumed) or an operator
followed by two operands (three tokens consumed); then `var_ref++` has been done once per
variable operand, which is a growth by that number as long as `INT_MAX` is not passed, and
`assign_count` is unchanged.  With any other tokens at the cursor the run stops with status
109, the only status `expr` ever stops with; a nested expression such as `+ + a b c` is
among them. -/
theorem bounded_expr_flat (s : State) :
    (∀ sf, Bounded.expr s = .ok () sf ↔ Bounded.expr_one s sf ∨ Bounded.expr_three s sf) ∧
    (∀ k : Nat, s.var_ref < 4294967296 → as_int s.var_ref + k ≤ 2147483647 →
      as_int (incr_by k s.var_ref) = as_int s.var_ref + k) ∧
    (∀ sf, Bounded.expr s = .ok () sf → sf.assign_count = s.assign_count) ∧
    (¬ is_operand s.token → ¬ is_operator s.token → Bounded.expr s = .halt (.exit 109)) ∧
    (is_operator s.token → ∀ s1, Bounded.get_token s = .ok () s1 →
      (¬ is_operand s1.token → Bounded.expr s = .halt (.exit 109)) ∧
      (is_operand s1.token → ∀ s2, Bounded.get_token s1 = .ok () s2 →
        ¬ is_operand s2.token → Bounded.expr s = .halt (.exit 109))) ∧
    (∀ c, Bounded.expr s = .halt (.exit c) → c = 109) ∧
    Bounded.main ["program begin a = + + a b c end.".toList] = .halt (.exit 109) := by
  refine ⟨bounded_expr_iff s, fun k hx hk => as_int_incr_by k _ hx hk,
    bounded_expr_assign_count s, ?_, ?_, bounded_expr_exit s, by decide⟩
  · intro h1 h2
    unfold Bounded.expr
    rw [if_neg (show ¬ (s.token = ['+'] ∨ s.token = ['*']) from h2), bounded_no_operand_eq,
      if_neg h1]
    rfl
  · intro hop s1 hg
    rw [bounded_expr_operator_eq s s1 hop hg]
    refine ⟨fun h1 => by rw [if_neg h1], ?_⟩
    intro h1 s2 hg1 h2
    rw [if_pos h1, hg1]
    simp only [if_neg h2]

theorem bounded_expr_flat_witness :
    Bounded.expr (on_line "a end." 1 "a" 0 0) = .ok () (on_line "a end." 6 "end." 1 0) ∧
    Bounded.expr (on_line "+ b 1 ;" 1 "+" 0 0) = .ok () (on_line "+ b 1 ;" 7 ";" 1 0) ∧
    as_int (incr_by 2 (on_line "+ b c ;" 1 "+" 5 0).var_ref)
      = as_int (on_line "+ b c ;" 1 "+" 5 0).var_ref + (2 : Nat) ∧
    (on_line "+ b 1 ;" 7 ";" 1 0).assign_count = (on_line "+ b 1 ;" 1 "+" 0 0).assign_count ∧
    Bounded.expr (on_line "; a" 1 ";" 0 0) = .halt (.exit 109) ∧
    Bounded.expr (on_line "+ + a b c end." 1 "+" 0 0) = .halt (.exit 109) ∧
    Bounded.expr (on_line "+ a + b c end." 1 "+" 0 0) = .halt (.exit 109) ∧
    Bounded.main ["program begin a = + + a b c end.".toList] = .halt (.exit 109) :=
  ⟨((bounded_expr_flat (on_line "a end." 1 "a" 0 0)).1 (on_line "a end." 6 "end." 1 0)).2
      (Or.inl ⟨by decide, on_line "a end." 6 "end." 0 0, by decide, by decide⟩),
   ((bounded_expr_flat (on_line "+ b 1 ;" 1 "+" 0 0)).1 (on_line "+ b 1 ;" 7 ";" 1 0)).2
      (Or.inr ⟨by decide, on_line "+ b 1 ;" 3 "b" 0 0, on_line "+ b 1 ;" 5 "1" 0 0,
        on_line "+ b 1 ;" 7 ";" 0 0, by decide, by decide, by decide, by decide, by decide,
        by decide⟩),
   (bounded_expr_flat (on_line "+ b c ;" 1 "+" 5 0)).2.1 2 (by decide) (by decide),
   (bounded_expr_flat (on_line "+ b 1 ;" 1 "+" 0 0)).2.2.1 (on_line "+ b 1 ;" 7 ";" 1 0)
      (by decide),
   (bounded_expr_flat (on_line "; a" 1 ";" 0 0)).2.2.2.1 (by decide) (by decide),
   ((bounded_expr_flat (on_line "+ + a b c end." 1 "+" 0 0)).2.2.2.2.1 (by decide)
      (on_line "+ + a b c end." 3 "+" 0 0) (by decide)).1 (by decide),
   ((bounded_expr_flat (on_line "+ a + b c end." 1 "+" 0 0)).2.2.2.2.1 (by decide)
      (on_line "+ a + b c end." 3 "a" 0 0) (by decide)).2 (by decide)
      (on_line "+ a + b c end." 5 "+" 0 0) (by decide) (by decide),
   (bounded_expr_flat (on_line "a end." 1 "a" 0 0)).2.2.2.2.2.2⟩

/-- Counterexample to claim C10: with `var_ref` at `INT_MAX`, `variable` returns success on
the token `c` and leaves the counter at `INT_MIN`, not one higher. -/
theorem variable_at_int_max :
    Bounded.variable_ (on_line "c = a end." 1 "c" 2147483647 1)
      = .ok true (on_line "c = a end." 3 "=" 2147483648 1) ∧
    as_int 2147483647 = 2147483647 ∧ as_int 2147483648 = -2147483648 := by
  decide

/-- Claim C10 as amended (`variable` and `digit` are exact single-token matchers, the
counter is an `int`): `variable` returns success exactly on the tokens `a`, `b`, `c`; then
the state is the one `get_token` leaves, after `var_ref++`, which makes the counter one
higher unless it holds `INT_MAX`, from where it goes to `INT_MIN`.  `digit` returns success
exactly on `0`, `1`, `2`; then the state is the one `get_token` leaves.  A failure leaves
the state as it was. -/
theorem bounded_variable_digit_exact (s : State) :
    (∀ b s1, Bounded.variable_ s = .ok b s1 → (b = true ↔ is_variable s.token)) ∧
    (is_variable s.token → ∀ sN, Bounded.get_token s = .ok () sN →
      Bounded.variable_ s = .ok true { sN with var_ref := incr s.var_ref } ∧
      sN.assign_count = s.assign_count) ∧
    (s.var_ref < 4294967296 → as_int (incr s.var_ref) =
      if as_int s.var_ref = 2147483647 then -2147483648 else as_int s.var_ref + 1) ∧
    (∀ s1, Bounded.variable_ s = .ok false s1 → s1 = s) ∧
    (∀ b s1, Bounded.digit s = .ok b s1 → (b = true ↔ is_digit s.token)) ∧
    (is_digit s.token → ∀ sN, Bounded.get_token s = .ok () sN →
      Bounded.digit s = .ok true sN ∧ sN.var_ref = s.var_ref ∧
      sN.assign_count = s.assign_count) ∧
    (∀ s1, Bounded.digit s = .ok false s1 → s1 = s) := by
  refine ⟨?_, ?_, as_int_incr _, ?_, ?_, ?_, ?_⟩
  · intro b s1 h
    rw [bounded_variable_eq] at h
    by_cases hv : is_variable s.token
    · rw [if_pos hv] at h
      cases hg : Bounded.get_token s with
      | halt x => simp [hg] at h
      | ok u s2 =>
        simp only [hg, Res.ok.injEq] at h
        simp [← h.1, hv]
    · rw [if_neg hv] at h
      simp only [Res.ok.injEq] at h
      simp [← h.1, hv]
  · intro hv sN hg
    rw [bounded_variable_eq, if_pos hv, hg]
    exact ⟨rfl, (bounded_get_token_frame _ _ _ hg).2⟩
  · intro s1 h
    rw [bounded_variable_eq] at h
    by_cases hv : is_variable s.token
    · rw [if_pos hv] at h
      cases hg : Bounded.get_token s with
      | halt x => simp [hg] at h
      | ok u s2 => simp [hg] at h
    · rw [if_neg hv] at h
      simp only [Res.ok.injEq, true_and] at h
      exact h.symm
  · intro b s1 h
    rw [bounded_digit_eq] at h
    by_cases hv : is_digit s.token
    · rw [if_pos hv] at h
      cases hg : Bounded.get_token s with
      | halt x => simp [hg] at h
      | ok u s2 =>
        simp only [hg, Res.ok.injEq] at h
        simp [← h.1, hv]
    · rw [if_neg hv] at h
      simp only [Res.ok.injEq] at h
      simp [← h.1, hv]
  · intro hv sN hg
    rw [bounded_digit_eq, if_pos hv, hg]
    exact ⟨rfl, bounded_get_token_frame _ _ _ hg⟩
  · intro s1 h
    rw [bounded_digit_eq] at h
    by_cases hv : is_digit s.token
    · rw [if_pos hv] at h
      cases hg : Bounded.get_token s with
      | halt x => simp [hg] at h
      | ok u s2 => simp [hg] at h
    · rw [if_neg hv] at h
      simp only [Res.ok.injEq, true_and] at h
      exact h.symm

theorem bounded_variable_digit_exact_witness :
    (true = true ↔ is_variable (on_line "c = a end." 1 "c" 3 1).token) ∧
    (Bounded.variable_ (on_line "c = a end." 1 "c" 3 1)
        = .ok true (on_line "c = a end." 3 "=" 4 1) ∧
      (on_line "c = a end." 3 "=" 3 1).assign_count
        = (on_line "c = a end." 1 "c" 3 1).assign_count) ∧
    as_int (incr (on_line "c = a end." 1 "c" 3 1).var_ref) =
      (if as_int (on_line "c = a end." 1 "c" 3 1).var_ref = 2147483647 then -2147483648
        else as_int (on_line "c = a end." 1 "c" 3 1).var_ref + 1) ∧
    on_line "0 end." 1 "0" 3 1 = on_line "0 end." 1 "0" 3 1 ∧
    (true = true ↔ is_digit (on_line "0 end." 1 "0" 3 1).token) ∧
    (Bounded.digit (on_line "0 end." 1 "0" 3 1) = .ok true (on_line "0 end." 6 "end." 3 1) ∧
      (on_line "0 end." 6 "end." 3 1).var_ref = (on_line "0 end." 1 "0" 3 1).var_ref ∧
      (on_line "0 end." 6 "end." 3 1).assign_count
        = (on_line "0 end." 1 "0" 3 1).assign_count) ∧
    on_line "c = a end." 1 "c" 3 1 = on_line "c = a end." 1 "c" 3 1 :=
  ⟨(bounded_variable_digit_exact (on_line "c = a end." 1 "c" 3 1)).1 true
      (on_line "c = a end." 3 "=" 4 1) (by decide),
   (bounded_variable_digit_exact (on_line "c = a end." 1 "c" 3 1)).2.1 (by decide)
      (on_line "c = a end." 3 "=" 3 1) (by decide),
   (bounded_variable_digit_exact (on_line "c = a end." 1 "c" 3 1)).2.2.1 (by decide),
   (bounded_variable_digit_exact (on_line "0 end." 1 "0" 3 1)).2.2.2.1
      (on_line "0 end." 1 "0" 3 1) (by decide),
   (bounded_variable_digit_exact (on_line "0 end." 1 "0" 3 1)).2.2.2.2.1 true
      (on_line "0 end." 6 "end." 3 1) (by decide),
   (bounded_variable_digit_exact (on_line "0 end." 1 "0" 3 1)).2.2.2.2.2.1 (by decide)
      (on_line "0 end." 6 "end." 3 1) (by decide),
   (bounded_variable_digit_exact (on_line "c = a end." 1 "c" 3 1)).2.2.2.2.2.2
      (on_line "c = a end." 1 "c" 3 1) (by decide)⟩

/-- Counterexample to claim C11: with `assign_count` at `INT_MAX`, `assign` returns success
on `a = 0` and leaves the counter at `INT_MIN`, not one higher. -/
theorem assign_at_int_max :
    Bounded.assign (on_line "a = 0 end." 1 "a" 3 2147483647)
      = .ok true (on_line "a = 0 end." 10 "end." 4 2147483648) ∧
    as_int 2147483647 = 2147483647 ∧ as_int 2147483648 = -2147483648 := by
  decide

/-- Claim C11 as amended (`assign` is a speculative, non-backtracking commit, the counters
are `int`): on a token that is no variable `assign` returns failure with the state
unchanged; on a variable followed by a token other than `=` it returns failure with the
token after the variable current, `var_ref++` done and `assign_count` unchanged;
`assign_count++` is done exactly when `assign` returns success.  Each `++` makes the
counter one higher unless it holds `INT_MAX`, from where it goes to `INT_MIN`. -/
theorem bounded_assign_speculative (s : State) :
    (¬ is_variable s.token → Bounded.assign s = .ok false s) ∧
    (is_variable s.token → ∀ sN, Bounded.get_token s = .ok () sN → sN.token ≠ ['='] →
      Bounded.assign s = .ok false { sN with var_ref := incr s.var_ref } ∧
      sN.assign_count = s.assign_count) ∧
    (∀ b s1, Bounded.assign s = .ok b s1 →
      s1.assign_count = if b = true then incr s.assign_count else s.assign_count) ∧
    (∀ x, x < 4294967296 → as_int (incr x) =
      if as_int x = 2147483647 then -2147483648 else as_int x + 1) := by
  refine ⟨?_, ?_, ?_, as_int_incr⟩
  · intro hv
    unfold Bounded.assign
    rw [bounded_variable_eq, if_neg hv]
  · intro hv sN hg hne
    unfold Bounded.assign
    rw [bounded_variable_eq, if_pos hv, hg]
    simp only
    rw [if_neg hne]
    exact ⟨rfl, (bounded_get_token_frame _ _ _ hg).2⟩
  · intro b s1 h
    unfold Bounded.assign at h
    rw [bounded_variable_eq] at h
    by_cases hv : is_variable s.token
    · rw [if_pos hv] at h
      cases hg : Bounded.get_token s with
      | halt h0 => simp [hg] at h
      | ok u0 sN =>
        have a0 := (bounded_get_token_frame _ _ _ hg).2
        simp only [hg] at h
        split at h
        · cases hg1 : Bounded.get_token { sN with var_ref := incr s.var_ref } with
          | halt h0 => simp [hg1] at h
          | ok u1 sA =>
            have a1 := (bounded_get_token_frame _ _ _ hg1).2
            simp only [hg1] at h
            cases he : Bounded.expr sA with
            | halt h0 => simp [he] at h
            | ok u2 sB =>
              have a2 := bounded_expr_assign_count _ _ he
              simp only [he, Res.ok.injEq] at h
              obtain ⟨rfl, rfl⟩ := h
              simp only [if_true]
              show incr sB.assign_count = incr s.assign_count
              simp only at a1
              rw [a2, a1, a0]
        · simp only [Res.ok.injEq] at h
          obtain ⟨rfl, rfl⟩ := h
          simpa using a0
    · rw [if_neg hv] at h
      simp only [Res.ok.injEq] at h
      obtain ⟨rfl, rfl⟩ := h
      simp

theorem bounded_assign_speculative_witness :
    Bounded.assign (on_line "if a <= 1 then" 2 "if" 3 1)
      = .ok false (on_line "if a <= 1 then" 2 "if" 3 1) ∧
    (Bounded.assign (on_line "a 0 end." 1 "a" 3 1) = .ok false (on_line "a 0 end." 3 "0" 4 1) ∧
      (on_line "a 0 end." 3 "0" 3 1).assign_count = (on_line "a 0 end." 1 "a" 3 1).assign_count) ∧
    (on_line "a = 0 end." 10 "end." 4 2).assign_count
      = (if true = true then incr (on_line "a = 0 end." 1 "a" 3 1).assign_count
          else (on_line "a = 0 end." 1 "a" 3 1).assign_count) ∧
    as_int (incr 7) = (if as_int 7 = 2147483647 then -2147483648 else as_int 7 + 1) :=
  ⟨(bounded_assign_speculative (on_line "if a <= 1 then" 2 "if" 3 1)).1 (by decide),
   (bounded_assign_speculative (on_line "a 0 end." 1 "a" 3 1)).2.1 (by decide)
     (on_line "a 0 end." 3 "0" 3 1) (by decide) (by decide),
   (bounded_assign_speculative (on_line "a = 0 end." 1 "a" 3 1)).2.2.1 true
     (on_line "a = 0 end." 10 "end." 4 2) (by decide),
   (bounded_assign_speculative (on_line "a = 0 end." 1 "a" 3 1)).2.2.2 7 (by decide)⟩

/-! ## Whole runs on the machine -/

theorem upto_of_main (input : List (List Char)) (sf : State) (h : main input = .ok () sf)
    (hf : ∀ l ∈ input, fits l) : Upto sf.stdin (init input) := by
  obtain ⟨pre, hp⟩ := main_at_line input sf h
  refine ⟨pre ++ [sf.buffer], by simp [init, hp], ?_⟩
  intro l hl
  apply hf l
  rw [hp]
  rcases List.mem_append.1 hl with h1 | h1
  · exact List.mem_append_left _ h1
  · rw [List.mem_singleton.1 h1]
    simp

theorem line_of_ne_nil (t : List Char) (ts : List (List Char)) (h : t ≠ []) :
    line_of (t :: ts) ≠ [] := by
  cases t with
  | nil => exact absurd rfl h
  | cons c cs => simp [line_of]

theorem nested_program_length (n : Nat) :
    (line_of (nested_program n)).length = 10 * n + 15 := by
  simp only [nested_program, nested, line_of, List.length_append, after_of_length,
    List.map_append, List.map_cons, List.map_replicate, List.sum_append, List.sum_cons,
    List.sum_replicate, List.length_cons, List.length_nil, List.map_nil, List.sum_nil,
    smul_eq_mul]
  omega

theorem fused_program_length (n : Nat) :
    (line_of (fused_program n)).length = 6 * n + 18 := by
  simp only [fused_program, line_of, List.length_append, after_of_length,
    List.map_append, List.map_cons, List.map_replicate, List.sum_append, List.sum_cons,
    List.sum_replicate, List.length_cons, List.length_nil, List.map_nil, List.sum_nil,
    smul_eq_mul]
  omega

/-- Counterexample to claim C1: the sentence `program`, 400 times `begin`, `a = 0`, 400
times `end`, `.`, written on one line with single blanks, is a line of 4015 characters;
`fgets` reads its first 2047 characters, the scan for the newline leaves the buffer and the
run does not return. -/
theorem main_long_sentence :
    Sentence (nested_program 400) 1 ∧
    (line_of (nested_program 400)).length = 4015 ∧
    Bounded.main ([nested_program 400].map line_of) = .halt .exhausted := by
  refine ⟨sentence_nested 399, nested_program_length 400, ?_⟩
  apply bounded_main_long
  · exact line_of_ne_nil _ _ (by simp)
  · rw [nested_program_length]
    decide

/-- Claim C1 as amended (completeness with exact counts, on lines that fit the buffer): when
the lines of the input hold, separated by single blanks or line ends, the tokens of a
sentence of `<program>` with `k` assignment statements, and every line has at most
`SIZE - 2` characters, the run returns to `main` with the 32-bit patterns of `k` in
`assign_count` and of the number of tokens `a`, `b`, `c` in `var_ref`; the values shown are
these two numbers when they are below `2^31`. -/
theorem bounded_main_accepts_sentence (ts : List (List Char)) (k : Nat)
    (lines : List (List (List Char))) (hs : Sentence ts k) (hl : lines.flatten = ts)
    (hf : ∀ l ∈ lines, fits (line_of l)) :
    ∃ s1, Bounded.main (lines.map line_of) = .ok () s1 ∧
      s1.assign_count = k % 4294967296 ∧ s1.var_ref = count_vars ts % 4294967296 ∧
      (k < 2147483648 → as_int s1.assign_count = k) ∧
      (count_vars ts < 2147483648 → as_int s1.var_ref = count_vars ts) := by
  obtain ⟨s1, h1, ha, hv⟩ := main_accepts_sentence ts k lines hs hl
  have hu := upto_of_main _ _ h1 (by
    intro l hlm
    obtain ⟨x, hx, rfl⟩ := List.mem_map.1 hlm
    exact hf x hx)
  refine ⟨to32 s1, main_fit _ _ h1 hu, by rw [to32_assign_count, ha],
    by rw [to32_var_ref, hv], ?_, ?_⟩
  · intro hk
    rw [to32_assign_count, ha]
    exact as_int_mod k hk
  · intro hk
    rw [to32_var_ref, hv]
    exact as_int_mod _ hk

theorem bounded_main_accepts_sentence_witness :
    Sentence [['p', 'r', 'o', 'g', 'r', 'a', 'm'], ['b', 'e', 'g', 'i', 'n'], ['a'], ['='], ['+'],
        ['b'], ['1'], [';'], ['c'], ['='], ['a'], ['e', 'n', 'd', '.']] 2 ∧
    ∃ s1, Bounded.main ["program begin a = + b 1 ; c = a end.".toList] = .ok () s1 ∧
      s1.assign_count = 2 ∧ s1.var_ref = 4 ∧ as_int s1.assign_count = 2 ∧
      as_int s1.var_ref = 4 := by
  have hs : Sentence [['p', 'r', 'o', 'g', 'r', 'a', 'm'], ['b', 'e', 'g', 'i', 'n'], ['a'],
      ['='], ['+'], ['b'], ['1'], [';'], ['c'], ['='], ['a'], ['e', 'n', 'd', '.']] 2 := by
    refine ⟨[['a'], ['='], ['+'], ['b'], ['1'], [';'], ['c'], ['='], ['a']], ?_, Or.inr rfl⟩
    exact @Derives.more [['a'], ['='], ['+'], ['b'], ['1']] [['c'], ['='], ['a']] 1 1
      (Derives.assign (Or.inl rfl)
        (Derives.binary (Or.inl rfl) (Or.inl (Or.inr (Or.inl rfl))) (Or.inr (Or.inr (Or.inl rfl)))))
      (Derives.one (Derives.assign (Or.inr (Or.inr rfl)) (Derives.operand (Or.inl (Or.inl rfl)))))
  obtain ⟨s1, h1, h2, h3, h4, h5⟩ := bounded_main_accepts_sentence _ 2
    [[['p', 'r', 'o', 'g', 'r', 'a', 'm'], ['b', 'e', 'g', 'i', 'n'], ['a'], ['='], ['+'],
        ['b'], ['1'], [';'], ['c'], ['='], ['a'], ['e', 'n', 'd', '.']]] hs rfl (by decide)
  exact ⟨hs, s1, h1, h2, h3, h4 (by decide), h5 (by decide)⟩

/-- Counterexample to claim C18: `program`, 400 times `begin`, `a = 0` and `end.` on one
line with single blanks is a line of 2418 characters, which the buffer does not hold: the
run does not return. -/
theorem main_long_fused :
    (line_of (fused_program 400)).length = 2418 ∧
    Bounded.main ([fused_program 400].map line_of) = .halt .exhausted := by
  refine ⟨fused_program_length 400, ?_⟩
  apply bounded_main_long
  · exact line_of_ne_nil _ _ (by simp)
  · rw [fused_program_length]
    decide

/-- Claim C18 as amended (a single fused `end.` closes every open block, on lines that fit
the buffer): for every `n ≥ 1` the input that holds, separated by single blanks or line
ends, on lines of at most `SIZE - 2` characters, the tokens `program`, `n` times `begin`,
`a = 0` and one `end.` is accepted with 1 assignment and 1 variable reference, although for
`n ≥ 2` the tokens are no sentence of the grammar: `n - 1` closing `end` are missing. -/
theorem bounded_main_accepts_fused (n : Nat) (lines : List (List (List Char))) (hn : 1 ≤ n)
    (hl : lines.flatten = fused_program n) (hf : ∀ l ∈ lines, fits (line_of l)) :
    (∃ s1, Bounded.main (lines.map line_of) = .ok () s1 ∧ s1.assign_count = 1 ∧
      s1.var_ref = 1 ∧ as_int s1.assign_count = 1 ∧ as_int s1.var_ref = 1) ∧
    (2 ≤ n → ¬ ∃ k, Sentence (fused_program n) k) := by
  obtain ⟨⟨s1, h1, ha, hv⟩, h2⟩ := main_accepts_fused n lines hn hl
  have hu := upto_of_main _ _ h1 (by
    intro l hlm
    obtain ⟨x, hx, rfl⟩ := List.mem_map.1 hlm
    exact hf x hx)
  refine ⟨⟨to32 s1, main_fit _ _ h1 hu, by rw [to32_assign_count, ha],
    by rw [to32_var_ref, hv], ?_, ?_⟩, h2⟩
  · rw [to32_assign_count, ha]
    decide
  · rw [to32_var_ref, hv]
    decide

theorem bounded_main_accepts_fused_witness :
    (∃ s1, Bounded.main ["program begin begin".toList, "begin a = 0 end.".toList]
      = .ok () s1 ∧ s1.assign_count = 1 ∧ s1.var_ref = 1 ∧ as_int s1.assign_count = 1 ∧
        as_int s1.var_ref = 1) ∧
    (2 ≤ 3 → ¬ ∃ k, Sentence (fused_program 3) k) :=
  bounded_main_accepts_fused 3
    [["program".toList, "begin".toList, "begin".toList],
     ["begin".toList, "a".toList, "=".toList, "0".toList, "end.".toList]]
    (by decide) (by decide) (by decide)

theorem main_alive_rest (pre post post2 : List (List Char)) (l e : List Char) (sf : State)
    (he : e = [] ∨ ∃ x, e = ' ' :: x) (h : main (pre ++ l :: post) = .ok () sf)
    (hs : sf.stdin = post) :
    ∃ tf, main (pre ++ (l ++ e) :: post2) = .ok () tf ∧ tf.var_ref = sf.var_ref ∧
      tf.assign_count = sf.assign_count ∧ tf.stdin = post2 := by
  have K := dead_keep post
  have h0 := h
  unfold main main_fuel at h
  cases hb : get_buffer (init (pre ++ l :: post)) with
  | halt x => simp [hb] at h
  | ok u s0 =>
    simp only [hb] at h
    have hnd : ¬ Dead post sf := by
      rintro (hd | ⟨-, hd, -⟩)
      · rw [hs] at hd
        exact Nat.lt_irrefl _ hd
      · rcases program_token _ _ _ _ h with e1 | e1
        · simp [e1] at hd
        · simp [e1] at hd
    have d0 : ¬ Dead post s0 := fun d => hnd (program_inv K _ _ _ _ h d)
    have hr : Rel post post2 e (init (pre ++ l :: post)) (init (pre ++ (l ++ e) :: post2)) :=
      ⟨rfl, rfl, rfl, rfl, Nat.le_refl _, Or.inl ⟨pre, l, rfl, rfl, rfl⟩⟩
    rcases get_buffer_sim post post2 e _ _ _ hr hb with hd | ⟨t0, hb2, hr0⟩
    · exact absurd (Or.inl hd) d0
    · obtain ⟨tf, hp, hrf⟩ := program_alive he _ hr0 h hnd
      refine ⟨tf, ?_, hrf.var_ref, hrf.assign_count, ?_⟩
      · apply main_eq_of_fuel (3 * remaining (init (pre ++ l :: post)))
        · unfold main_fuel
          simp only [hb2]
          exact hp
        · simp
      · rcases hrf.lines with ⟨ls, l2, h1, -, -⟩ | ⟨-, h2, -⟩
        · exfalso
          rw [hs] at h1
          have := congrArg List.length h1
          simp only [List.length_append, List.length_cons] at this
          omega
        · exact h2

theorem bounded_main_alive (pre post post2 : List (List Char)) (l e : List Char) (sf : State)
    (he : e = [] ∨ ∃ x, e = ' ' :: x) (h : main (pre ++ l :: post) = .ok () sf)
    (hs : sf.stdin = post) (hpre : ∀ x ∈ pre, fits x) (hl : fits (l ++ e)) :
    ∃ tf, Bounded.main (pre ++ (l ++ e) :: post2) = .ok () tf ∧
      tf.var_ref = (to32 sf).var_ref ∧ tf.assign_count = (to32 sf).assign_count := by
  obtain ⟨tf, ht, hv, ha, hst⟩ := main_alive_rest pre post post2 l e sf he h hs
  have hu : Upto tf.stdin (init (pre ++ (l ++ e) :: post2)) := by
    refine ⟨pre ++ [l ++ e], by simp [init, hst], ?_⟩
    intro x hx
    rcases List.mem_append.1 hx with h1 | h1
    · exact hpre x h1
    · rw [List.mem_singleton.1 h1]
      exact hl
  refine ⟨to32 tf, main_fit _ _ ht hu, ?_, ?_⟩
  · simp only [to32_var_ref, hv]
  · simp only [to32_assign_count, ha]

/-- Counterexample to claim C20: the run on the line `program begin a = 0 end.` succeeds;
with 2030 more characters after a blank on that line the line has 2055 characters, which
the buffer does not hold, and the run does not return. -/
theorem main_long_extension :
    Bounded.main ["program begin a = 0 end.".toList]
      = .ok () (on_line "program begin a = 0 end." 24 "end." 1 1) ∧
    Bounded.main ["program begin a = 0 end.".toList ++ ' ' :: List.replicate 2030 'x']
      = .halt .exhausted := by
  refine ⟨by decide, ?_⟩
  apply bounded_main_long
  · intro h
    exact absurd (List.append_eq_nil.1 h).1 (by decide)
  · rw [List.length_append, List.length_cons, List.length_replicate]
    decide

/-- Claim C20 as amended (input after the terminator is never examined, the line read last
must still fit the buffer): when the run on `input` succeeds, the input is some lines
`pre`, the line in the buffer at the end (the last line read) and the lines never fetched.
The run then succeeds with the same two counters on every input made of `pre`, the last
line read, with or without further characters after a blank as long as the line has at
most `SIZE - 2` characters, and any lines whatever after it; in particular on `input`
followed by any further lines. -/
theorem bounded_main_ignores_rest (input : List (List Char)) (mf : State)
    (h : Bounded.main input = .ok () mf) :
    (∃ pre, input = pre ++ mf.buffer :: mf.stdin) ∧
    (∀ pre, input = pre ++ mf.buffer :: mf.stdin →
      ∀ (extra : List Char) (post2 : List (List Char)),
        (fits (mf.buffer ++ ' ' :: extra) →
          ∃ tf, Bounded.main (pre ++ (mf.buffer ++ ' ' :: extra) :: post2) = .ok () tf ∧
            tf.var_ref = mf.var_ref ∧ tf.assign_count = mf.assign_count) ∧
        (∃ tf, Bounded.main (pre ++ mf.buffer :: post2) = .ok () tf ∧
          tf.var_ref = mf.var_ref ∧ tf.assign_count = mf.assign_count)) ∧
    (∀ more, ∃ tf, Bounded.main (input ++ more) = .ok () tf ∧ tf.var_ref = mf.var_ref ∧
      tf.assign_count = mf.assign_count) := by
  obtain ⟨sf, hm, rfl, hu⟩ := main_of_bounded input mf h
  obtain ⟨pre0, hp0⟩ := main_at_line input sf hm
  have key : ∀ pre, input = pre ++ sf.buffer :: sf.stdin →
      ∀ (e : List Char) (post2 : List (List Char)), (e = [] ∨ ∃ x, e = ' ' :: x) →
        fits (sf.buffer ++ e) →
        ∃ tf, Bounded.main (pre ++ (sf.buffer ++ e) :: post2) = .ok () tf ∧
          tf.var_ref = (to32 sf).var_ref ∧ tf.assign_count = (to32 sf).assign_count := by
    intro pre hp e post2 he hl
    obtain ⟨mid, hmid, hfit⟩ := hu
    have e1 : mid = pre ++ [sf.buffer] := by
      have : mid ++ sf.stdin = (pre ++ [sf.buffer]) ++ sf.stdin := by
        rw [← hmid]
        simp [init, hp]
      exact List.append_cancel_right this
    have h2 : main (pre ++ sf.buffer :: sf.stdin) = .ok () sf := by rw [← hp]; exact hm
    exact bounded_main_alive pre sf.stdin post2 sf.buffer e sf he h2 rfl
      (fun x hx => hfit x (by rw [e1]; exact List.mem_append_left _ hx)) hl
  have hbuf : ∀ pre, input = pre ++ sf.buffer :: sf.stdin → fits sf.buffer := by
    intro pre hp
    obtain ⟨mid, hmid, hfit⟩ := hu
    have e1 : mid = pre ++ [sf.buffer] := by
      have : mid ++ sf.stdin = (pre ++ [sf.buffer]) ++ sf.stdin := by
        rw [← hmid]
        simp [init, hp]
      exact List.append_cancel_right this
    exact hfit _ (by rw [e1]; simp)
  have plain : ∀ pre, input = pre ++ sf.buffer :: sf.stdin → ∀ post2,
      ∃ tf, Bounded.main (pre ++ sf.buffer :: post2) = .ok () tf ∧
        tf.var_ref = (to32 sf).var_ref ∧ tf.assign_count = (to32 sf).assign_count := by
    intro pre hp post2
    have := key pre hp [] post2 (Or.inl rfl) (by rw [List.append_nil]; exact hbuf pre hp)
    rw [List.append_nil] at this
    exact this
  refine ⟨⟨pre0, hp0⟩, ?_, ?_⟩
  · intro pre hp extra post2
    exact ⟨fun hl => key pre hp (' ' :: extra) post2 (Or.inr ⟨extra, rfl⟩) hl,
      plain pre hp post2⟩
  · intro more
    have := plain pre0 hp0 (sf.stdin ++ more)
    rw [hp0, List.append_assoc, List.cons_append]
    exact this

theorem bounded_main_ignores_rest_witness :
    Bounded.main ["program begin".toList, "a = 0 end.".toList, "never read".toList] = .ok ()
      { stdin := ["never read".toList], buffer := "a = 0 end.".toList, lookahead := 10,
        token := "end.".toList, var_ref := 1, assign_count := 1 } ∧
    fits ("a = 0 end.".toList ++ ' ' :: "and more".toList) ∧
    (∃ tf, Bounded.main (["program begin".toList] ++
        ("a = 0 end.".toList ++ ' ' :: "and more".toList) :: [List.replicate 5000 'x'])
        = .ok () tf ∧ tf.var_ref = 1 ∧ tf.assign_count = 1) ∧
    (∃ tf, Bounded.main (["program begin".toList, "a = 0 end.".toList, "never read".toList] ++
        ["more".toList]) = .ok () tf ∧ tf.var_ref = 1 ∧ tf.assign_count = 1) :=
  ⟨by decide, by decide,
   ((bounded_main_ignores_rest
      ["program begin".toList, "a = 0 end.".toList, "never read".toList]
      { stdin := ["never read".toList], buffer := "a = 0 end.".toList, lookahead := 10,
        token := "end.".toList, var_ref := 1, assign_count := 1 } (by decide)).2.1
      ["program begin".toList] (by decide) "and more".toList [List.replicate 5000 'x']).1
      (by decide),
   (bounded_main_ignores_rest
      ["program begin".toList, "a = 0 end.".toList, "never read".toList]
      { stdin := ["never read".toList], buffer := "a = 0 end.".toList, lookahead := 10,
        token := "end.".toList, var_ref := 1, assign_count := 1 } (by decide)).2.2
      ["more".toList]⟩

/-- Counterexample to claim C13: after a line that holds only a blank, `get_token` delivers
the empty token although the word `b` is left on the next line; on the line `a<tab>b` it
delivers one token that holds the tab; and on a line of 2047 characters it does not
return, the line does not fit the buffer. -/
theorem bounded_get_token_blank_tab_long :
    Bounded.get_token (init [[' '], ['b']]) = .ok ()
      { stdin := [['b']], buffer := [' '], lookahead := 1, token := [], var_ref := 0,
        assign_count := 0 } ∧
    Bounded.get_token (init [['a', '\t', 'b']]) = .ok ()
      { stdin := [], buffer := ['a', '\t', 'b'], lookahead := 3, token := ['a', '\t', 'b'],
        var_ref := 0, assign_count := 0 } ∧
    Bounded.get_token (init [List.replicate 2047 'x']) = .halt .exhausted := by
  refine ⟨by decide, by decide, ?_⟩
  rw [bounded_get_token_eq]
  have e : remove_whitespace (init [List.replicate 2047 'x']) = init [List.replicate 2047 'x'] :=
    rfl
  rw [e, if_pos (by rfl)]
  have hne : List.replicate 2047 'x' ≠ [] := by
    intro h
    have := congrArg List.length h
    rw [List.length_replicate] at this
    exact absurd this (by decide)
  rw [bounded_get_buffer_long (init [List.replicate 2047 'x']) (List.replicate 2047 'x') []
    rfl hne (by rw [List.length_replicate]; decide)]

/-- Claim C13 as amended (the lexer yields the words of the input, on lines that fit the
buffer): when the unread input holds no nul character, no line that consists of blanks and
tabs only and no line of more than `SIZE - 2` characters, `get_token` delivers the next
word, skipping blanks, tabs and empty lines before it; a word runs up to the next blank or
line end, so it is not empty, holds no blank and does not start with a tab; the cursor is
left just past the word.  Repeated calls deliver the words of the input in order. -/
theorem bounded_get_token_delivers_words (s : State) (ht : Tidy s) (hf : Fits s) :
    (∀ w ws, rest_words s = w :: ws →
      ∃ s1, Bounded.get_token s = .ok () s1 ∧ s1.token = w ∧ rest_words s1 = ws ∧
        w ≠ [] ∧ (∀ c ∈ w, c ≠ ' ') ∧ w.head? ≠ some '\t' ∧
        ∃ k, s1.lookahead = k + w.length ∧
          s1.buffer.drop k = w ++ s1.buffer.drop s1.lookahead) ∧
    (∀ n, Bounded.read_tokens n s = (rest_words s).take n) := by
  refine ⟨?_, fun n => by rw [bounded_read_tokens_of_fits n s hf]; exact read_tokens_eq n s ht⟩
  intro w ws hw
  obtain ⟨s1, h1, h2, h3, -, h4⟩ := (get_token_next_word s ht).1 w ws hw
  exact ⟨s1, by rw [bounded_get_token_of_fits s hf]; exact h1, h2, h3, h4⟩

theorem bounded_get_token_delivers_words_witness :
    (∃ s1, Bounded.get_token (init ["  program".toList, [], "\tbegin a".toList]) = .ok () s1 ∧
        s1.token = "program".toList ∧
        rest_words s1 = ["begin".toList, "a".toList] ∧
        "program".toList ≠ [] ∧ (∀ c ∈ "program".toList, c ≠ ' ') ∧
        "program".toList.head? ≠ some '\t' ∧
        ∃ k, s1.lookahead = k + "program".toList.length ∧
          s1.buffer.drop k = "program".toList ++ s1.buffer.drop s1.lookahead) ∧
    Bounded.read_tokens 5 (init ["  program".toList, [], "\tbegin a".toList])
      = (rest_words (init ["  program".toList, [], "\tbegin a".toList])).take 5 :=
  ⟨(bounded_get_token_delivers_words (init ["  program".toList, [], "\tbegin a".toList])
      (by simp [Tidy, init, nul]; decide) (by unfold Fits; decide)).1
      "program".toList ["begin".toList, "a".toList] (by decide),
   (bounded_get_token_delivers_words (init ["  program".toList, [], "\tbegin a".toList])
      (by simp [Tidy, init, nul]; decide) (by unfold Fits; decide)).2 5⟩

end Recdec
